import Mathlib

/-!
Integer partitions: the generators of partition.c and the q-series of qseries.c.

Each generator of partition.c is embedded as a small-step machine: one program point per
`while` test, the C locals as fields of the state, one `step` per loop test together with the
straight-line code that follows it.  A generator run with `fuel` steps returns the count and
the log of the partitions handed to the visitor once the `return` is reached.

The C `int`s are integers (for n at most MAXNUMP no value leaves the range of an int), the
`uint64_t` count is reduced modulo 2^64, the buffers are maps from indices to integers.
-/

/-- The maximum number to be partitioned (partition.h). -/
def MAXNUMP : Nat := 200

/-- A partition as the visitor sees it: the fields n and len of the struct and the parts
a[0..len). -/
structure partition_t where
  n : Int
  len : Nat
  a : List Int
deriving DecidableEq

/-- Memory cells addressed relative to the start of an `int [MAXNUMP+1]` array: the array
is the cells 0..MAXNUMP, the other indices are whatever memory holds around it. -/
abbrev Buf := Int → Int

/-- The store a[i] = v into an array of MAXNUMP+1 cells. -/
def wr (a : Buf) (i v : Int) : Buf :=
  fun j => if j = i ∧ 0 ≤ i ∧ i ≤ (MAXNUMP : Int) then v else a j

/-- The parts a[0..len). -/
def rd (a : Buf) (len : Nat) : List Int := (List.range len).map (fun (i : Nat) => a (i : Int))

/-- Set all the MAXNUMP+1 cells to the initial value. -/
def init_partition (a : Buf) (initial_val : Int) : Buf :=
  (List.range (MAXNUMP + 1)).foldl (fun (p : Buf) (i : Nat) => wr p i initial_val) a

/-- Copy len cells of a, from index start on, to the front of the part buffer. -/
def mk_partition (pa : Buf) (a : Buf) (start len : Nat) : Buf :=
  (List.range len).foldl (fun (p : Buf) (i : Nat) => wr p i (a ((start : Int) + i))) pa

/-- The partition the visitor is handed when p.n = n, p.len = len and the buffer is a. -/
def snap (n len : Int) (a : Buf) : partition_t := ⟨n, len.toNat, rd a len.toNat⟩

/-- The call `if (visit) visit(&p, argres)`: the visited partitions are logged in order;
nothing is logged for a NULL visitor. -/
def call_visit (visit : Bool) (out : List partition_t) (p : partition_t) : List partition_t :=
  if visit then out ++ [p] else out

/-- The statement count++ on a uint64_t. -/
def incr (count : Nat) : Nat := (count + 1) % 2 ^ 64

/-! ## rule_asc -/

inductive RuleAscPc
  | outer | inner | ret
deriving DecidableEq

structure RuleAscSt where
  pc : RuleAscPc
  a : Buf
  k : Int
  x : Int
  y : Int
  count : Nat
  out : List partition_t

/-- The code of rule_asc before its loop. -/
def rule_asc_init (mem : Buf) (n : Int) (visit : Bool) : RuleAscSt :=
  if n < 0 then ⟨.ret, mem, 0, 0, 0, 0, []⟩
  else if n = 0 then ⟨.ret, mem, 0, 0, 0, incr 0, call_visit visit [] (snap n 0 mem)⟩
  else ⟨.outer, wr (init_partition mem 0) 1 n, 1, 0, 0, 0, []⟩

def rule_asc_step (n : Int) (visit : Bool) (s : RuleAscSt) : RuleAscSt :=
  match s.pc with
  | .outer =>  -- while (k != 0)
    if s.k ≠ 0 then
      { s with pc := .inner, y := s.a s.k - 1, k := s.k - 1, x := s.a (s.k - 1) + 1 }
    else { s with pc := .ret }
  | .inner =>  -- while (x <= y)
    if s.x ≤ s.y then
      { s with a := wr s.a s.k s.x, y := s.y - s.x, k := s.k + 1 }
    else
      let a1 := wr s.a s.k (s.x + s.y)
      { s with pc := .outer, a := a1, out := call_visit visit s.out (snap n (s.k + 1) a1),
               count := incr s.count }
  | .ret => s

def rule_asc (fuel : Nat) (mem : Buf) (n : Int) (visit : Bool) :
    Option (Nat × List partition_t) :=
  let s := (rule_asc_step n visit)^[fuel] (rule_asc_init mem n visit)
  if s.pc = .ret then some (s.count, s.out) else none

/-! ## rule_desc -/

inductive RuleDescPc
  | outer | scan | fill | ret
deriving DecidableEq

structure RuleDescSt where
  pc : RuleDescPc
  a : Buf
  k : Int
  l : Int
  m : Int
  n1 : Int
  count : Nat
  out : List partition_t

def rule_desc_init (mem : Buf) (n : Int) (visit : Bool) : RuleDescSt :=
  if n < 0 then ⟨.ret, mem, 0, 0, 0, 0, 0, []⟩
  else if n = 0 then ⟨.ret, mem, 0, 0, 0, 0, incr 0, call_visit visit [] (snap n 0 mem)⟩
  else
    let a := wr (init_partition mem 0) 0 n
    ⟨.outer, a, 0, 0, 0, 0, incr 0, call_visit visit [] (snap n 1 a)⟩

def rule_desc_step (n : Int) (visit : Bool) (s : RuleDescSt) : RuleDescSt :=
  match s.pc with
  | .outer =>  -- while (k != n-1)
    if s.k ≠ n - 1 then { s with pc := .scan, l := s.k, m := s.a s.k }
    else { s with pc := .ret }
  | .scan =>  -- while (m == 1)
    if s.m = 1 then { s with k := s.k - 1, m := s.a (s.k - 1) }
    else { s with pc := .fill, n1 := s.m + s.l - s.k, m := s.m - 1 }
  | .fill =>  -- while (m < n1)
    if s.m < s.n1 then
      { s with a := wr s.a s.k s.m, n1 := s.n1 - s.m, k := s.k + 1 }
    else
      let a1 := wr s.a s.k s.n1
      { s with pc := .outer, a := a1, out := call_visit visit s.out (snap n (s.k + 1) a1),
               count := incr s.count }
  | .ret => s

def rule_desc (fuel : Nat) (mem : Buf) (n : Int) (visit : Bool) :
    Option (Nat × List partition_t) :=
  let s := (rule_desc_step n visit)^[fuel] (rule_desc_init mem n visit)
  if s.pc = .ret then some (s.count, s.out) else none

/-! ## accel_asc -/

inductive AccelAscPc
  | outer | w2 | pair | ret
deriving DecidableEq

structure AccelAscSt where
  pc : AccelAscPc
  a : Buf
  k : Int
  l : Int
  x : Int
  y : Int
  count : Nat
  out : List partition_t

def accel_asc_init (mem : Buf) (n : Int) (visit : Bool) : AccelAscSt :=
  if n < 0 then ⟨.ret, mem, 0, 0, 0, 0, 0, []⟩
  else if n = 0 then ⟨.ret, mem, 0, 0, 0, 0, incr 0, call_visit visit [] (snap n 0 mem)⟩
  else ⟨.outer, init_partition mem 0, 1, 0, 0, n - 1, 0, []⟩

def accel_asc_step (n : Int) (visit : Bool) (s : AccelAscSt) : AccelAscSt :=
  match s.pc with
  | .outer =>  -- while (k != 0)
    if s.k ≠ 0 then { s with pc := .w2, k := s.k - 1, x := s.a (s.k - 1) + 1 }
    else { s with pc := .ret }
  | .w2 =>  -- while (2*x <= y)
    if 2 * s.x ≤ s.y then
      { s with a := wr s.a s.k s.x, y := s.y - s.x, k := s.k + 1 }
    else { s with pc := .pair, l := s.k + 1 }
  | .pair =>  -- while (x <= y)
    if s.x ≤ s.y then
      let a1 := wr (wr s.a s.k s.x) s.l s.y
      { s with a := a1, out := call_visit visit s.out (snap n (s.l + 1) a1),
               count := incr s.count, x := s.x + 1, y := s.y - 1 }
    else
      let y1 := s.y + (s.x - 1)
      let a1 := wr s.a s.k (y1 + 1)
      { s with pc := .outer, y := y1, a := a1,
               out := call_visit visit s.out (snap n (s.k + 1) a1), count := incr s.count }
  | .ret => s

def accel_asc (fuel : Nat) (mem : Buf) (n : Int) (visit : Bool) :
    Option (Nat × List partition_t) :=
  let s := (accel_asc_step n visit)^[fuel] (accel_asc_init mem n visit)
  if s.pc = .ret then some (s.count, s.out) else none

/-! ## accel_desc -/

inductive AccelDescPc
  | outer | fill | ret
deriving DecidableEq

structure AccelDescSt where
  pc : AccelDescPc
  a : Buf
  k : Int
  m : Int
  n1 : Int
  q : Int
  count : Nat
  out : List partition_t

def accel_desc_init (mem : Buf) (n : Int) (visit : Bool) : AccelDescSt :=
  if n < 0 then ⟨.ret, mem, 0, 0, 0, 0, 0, []⟩
  else if n = 0 then ⟨.ret, mem, 0, 0, 0, 0, incr 0, call_visit visit [] (snap n 0 mem)⟩
  else if n = 1 then
    let a := wr mem 0 1
    ⟨.ret, a, 0, 0, 0, 0, incr 0, call_visit visit [] (snap n 1 a)⟩
  else
    let a := wr (init_partition mem 1) 0 n
    ⟨.outer, a, 0, 0, 0, 0, incr 0, call_visit visit [] (snap n 1 a)⟩

/-- The end of the body of the loop of accel_desc: p.len = k + 1, the visit, count++. -/
def accel_desc_visit (n : Int) (visit : Bool) (s : AccelDescSt) : AccelDescSt :=
  { s with pc := .outer, out := call_visit visit s.out (snap n (s.k + 1) s.a),
           count := incr s.count }

def accel_desc_step (n : Int) (visit : Bool) (s : AccelDescSt) : AccelDescSt :=
  match s.pc with
  | .outer =>  -- while (q != -1)
    if s.q ≠ -1 then
      if s.a s.q = 2 then
        accel_desc_visit n visit { s with k := s.k + 1, a := wr s.a s.q 1, q := s.q - 1 }
      else
        { s with pc := .fill, m := s.a s.q - 1, n1 := s.k - s.q + 1,
                 a := wr s.a s.q (s.a s.q - 1) }
    else { s with pc := .ret }
  | .fill =>  -- while (n1 >= m)
    if s.n1 ≥ s.m then
      { s with q := s.q + 1, a := wr s.a (s.q + 1) s.m, n1 := s.n1 - s.m }
    else if s.n1 = 0 then
      accel_desc_visit n visit { s with k := s.q }
    else if s.n1 > 1 then
      accel_desc_visit n visit { s with k := s.q + 1, q := s.q + 1, a := wr s.a (s.q + 1) s.n1 }
    else
      accel_desc_visit n visit { s with k := s.q + 1 }
  | .ret => s

def accel_desc (fuel : Nat) (mem : Buf) (n : Int) (visit : Bool) :
    Option (Nat × List partition_t) :=
  let s := (accel_desc_step n visit)^[fuel] (accel_desc_init mem n visit)
  if s.pc = .ret then some (s.count, s.out) else none

/-! ## merca1 -/

inductive Merca1Pc
  | outer | w2 | pair | ret
deriving DecidableEq

structure Merca1St where
  pc : Merca1Pc
  a : Buf
  k : Int
  x : Int
  y : Int
  c : Bool
  count : Nat
  out : List partition_t

def merca1_init (mem : Buf) (n : Int) (visit : Bool) : Merca1St :=
  if n < 0 then ⟨.ret, mem, 0, 0, 0, false, 0, []⟩
  else if n = 0 then ⟨.ret, mem, 0, 0, 0, false, incr 0, call_visit visit [] (snap n 0 mem)⟩
  else ⟨.outer, init_partition mem 0, -1, 1, n - 1, true, 0, []⟩

def merca1_step (n : Int) (visit : Bool) (s : Merca1St) : Merca1St :=
  match s.pc with
  | .outer =>  -- while (c)
    if s.c then { s with pc := .w2 } else { s with pc := .ret }
  | .w2 =>  -- while (2*x <= y)
    if 2 * s.x ≤ s.y then
      { s with k := s.k + 1, a := wr s.a (s.k + 1) s.x, y := s.y - s.x }
    else { s with pc := .pair }
  | .pair =>  -- while (x <= y)
    if s.x ≤ s.y then
      let k1 := s.k + 1
      let a1 := wr s.a k1 s.x
      let k2 := k1 + 1
      let a2 := wr a1 k2 s.y
      { s with a := a2, out := call_visit visit s.out (snap n (k2 + 1) a2),
               count := incr s.count, k := k2 - 2, x := s.x + 1, y := s.y - 1 }
    else
      let k1 := s.k + 1
      let a1 := wr s.a k1 (s.x + s.y)
      let out1 := call_visit visit s.out (snap n (k1 + 1) a1)
      let k2 := k1 - 1
      if k2 ≥ 0 then
        { s with pc := .outer, a := a1, out := out1, count := incr s.count,
                 y := s.y + s.x - 1, x := a1 k2 + 1, k := k2 - 1 }
      else
        { s with pc := .outer, a := a1, out := out1, count := incr s.count, k := k2,
                 c := false }
  | .ret => s

def merca1 (fuel : Nat) (mem : Buf) (n : Int) (visit : Bool) :
    Option (Nat × List partition_t) :=
  let s := (merca1_step n visit)^[fuel] (merca1_init mem n visit)
  if s.pc = .ret then some (s.count, s.out) else none

/-! ## merca2 -/

inductive Merca2Pc
  | outer | w2 | pair | ret
deriving DecidableEq

structure Merca2St where
  pc : Merca2Pc
  a : Buf
  k : Int
  t : Int
  x : Int
  y : Int
  count : Nat
  out : List partition_t

def merca2_init (mem : Buf) (n : Int) (visit : Bool) : Merca2St :=
  if n < 0 then ⟨.ret, mem, 0, 0, 0, 0, 0, []⟩
  else if n = 0 then ⟨.ret, mem, 0, 0, 0, 0, incr 0, call_visit visit [] (snap n 0 mem)⟩
  else ⟨.outer, init_partition mem 0, 0, 0, 1, n - 1, 0, []⟩

def merca2_step (n : Int) (visit : Bool) (s : Merca2St) : Merca2St :=
  match s.pc with
  | .outer =>  -- while (k >= 0)
    if s.k ≥ 0 then { s with pc := .w2 } else { s with pc := .ret }
  | .w2 =>  -- while (2*x <= y)
    if 2 * s.x ≤ s.y then
      { s with a := wr s.a s.k s.x, y := s.y - s.x, k := s.k + 1 }
    else { s with pc := .pair, t := s.k + 1 }
  | .pair =>  -- while (x <= y)
    if s.x ≤ s.y then
      let a1 := wr (wr s.a s.k s.x) s.t s.y
      { s with a := a1, out := call_visit visit s.out (snap n (s.t + 1) a1),
               count := incr s.count, x := s.x + 1, y := s.y - 1 }
    else
      let y1 := s.y + (s.x - 1)
      let a1 := wr s.a s.k (y1 + 1)
      { s with pc := .outer, y := y1, a := a1,
               out := call_visit visit s.out (snap n (s.k + 1) a1), count := incr s.count,
               k := s.k - 1, x := a1 (s.k - 1) + 1 }
  | .ret => s

def merca2 (fuel : Nat) (mem : Buf) (n : Int) (visit : Bool) :
    Option (Nat × List partition_t) :=
  let s := (merca2_step n visit)^[fuel] (merca2_init mem n visit)
  if s.pc = .ret then some (s.count, s.out) else none

/-! ## merca3 -/

inductive Merca3Pc
  | outer | w3 | w2 | rs | pair | ret
deriving DecidableEq

structure Merca3St where
  pc : Merca3Pc
  a : Buf
  k : Int
  r : Int
  s : Int
  t : Int
  u : Int
  x : Int
  y : Int
  count : Nat
  out : List partition_t

def merca3_init (mem : Buf) (n : Int) (visit : Bool) : Merca3St :=
  if n < 0 then ⟨.ret, mem, 0, 0, 0, 0, 0, 0, 0, 0, []⟩
  else if n = 0 then
    ⟨.ret, mem, 0, 0, 0, 0, 0, 0, 0, incr 0, call_visit visit [] (snap n 0 mem)⟩
  else ⟨.outer, init_partition mem 0, 0, 0, 0, 0, 0, 1, n - 1, 0, []⟩

def merca3_step (n : Int) (visit : Bool) (s : Merca3St) : Merca3St :=
  match s.pc with
  | .outer =>  -- while (k >= 0)
    if s.k ≥ 0 then { s with pc := .w3 } else { s with pc := .ret }
  | .w3 =>  -- while (3*x <= y)
    if 3 * s.x ≤ s.y then
      { s with a := wr s.a s.k s.x, y := s.y - s.x, k := s.k + 1 }
    else { s with pc := .w2, t := s.k + 1, u := s.k + 2 }
  | .w2 =>  -- while (2*x <= y)
    if 2 * s.x ≤ s.y then
      let a1 := wr (wr (wr s.a s.k s.x) s.t s.x) s.u (s.y - s.x)
      { s with pc := .rs, a := a1, out := call_visit visit s.out (snap n (s.u + 1) a1),
               count := incr s.count, r := s.x + 1, s := s.y - (s.x + 1) }
    else { s with pc := .pair }
  | .rs =>  -- while (r <= s)
    if s.r ≤ s.s then
      let a1 := wr (wr s.a s.t s.r) s.u s.s
      { s with a := a1, out := call_visit visit s.out (snap n (s.u + 1) a1),
               count := incr s.count, r := s.r + 1, s := s.s - 1 }
    else
      let a1 := wr s.a s.t s.y
      { s with pc := .w2, a := a1, out := call_visit visit s.out (snap n (s.t + 1) a1),
               count := incr s.count, x := s.x + 1, y := s.y - 1 }
  | .pair =>  -- while (x <= y)
    if s.x ≤ s.y then
      let a1 := wr (wr s.a s.k s.x) s.t s.y
      { s with a := a1, out := call_visit visit s.out (snap n (s.t + 1) a1),
               count := incr s.count, x := s.x + 1, y := s.y - 1 }
    else
      let y1 := s.y + (s.x - 1)
      let a1 := wr s.a s.k (y1 + 1)
      { s with pc := .outer, y := y1, a := a1,
               out := call_visit visit s.out (snap n (s.k + 1) a1), count := incr s.count,
               k := s.k - 1, x := a1 (s.k - 1) + 1 }
  | .ret => s

def merca3 (fuel : Nat) (mem : Buf) (n : Int) (visit : Bool) :
    Option (Nat × List partition_t) :=
  let s := (merca3_step n visit)^[fuel] (merca3_init mem n visit)
  if s.pc = .ret then some (s.count, s.out) else none

/-! ## zs1 -/

inductive Zs1Pc
  | outer | fill | ret
deriving DecidableEq

structure Zs1St where
  pc : Zs1Pc
  a : Buf
  h : Int
  m : Int
  r : Int
  t : Int
  count : Nat
  out : List partition_t

def zs1_init (mem : Buf) (n : Int) (visit : Bool) : Zs1St :=
  if n < 0 then ⟨.ret, mem, 0, 0, 0, 0, 0, []⟩
  else if n = 0 then ⟨.ret, mem, 0, 0, 0, 0, incr 0, call_visit visit [] (snap n 0 mem)⟩
  else
    let a := wr (init_partition mem 1) 0 n
    ⟨.outer, a, 0, 1, 0, 0, incr 0, call_visit visit [] (snap n 1 a)⟩

/-- The end of the body of the loop of zs1: p.len = m, the visit, count++. -/
def zs1_visit (n : Int) (visit : Bool) (s : Zs1St) : Zs1St :=
  { s with pc := .outer, out := call_visit visit s.out (snap n s.m s.a),
           count := incr s.count }

def zs1_step (n : Int) (visit : Bool) (s : Zs1St) : Zs1St :=
  match s.pc with
  | .outer =>  -- while (p.a[0] != 1)
    if s.a 0 ≠ 1 then
      if s.a s.h = 2 then
        zs1_visit n visit { s with m := s.m + 1, a := wr s.a s.h 1, h := s.h - 1 }
      else
        { s with pc := .fill, r := s.a s.h - 1, t := s.m - s.h,
                 a := wr s.a s.h (s.a s.h - 1) }
    else { s with pc := .ret }
  | .fill =>  -- while (t >= r)
    if s.t ≥ s.r then
      { s with h := s.h + 1, a := wr s.a (s.h + 1) s.r, t := s.t - s.r }
    else if s.t = 0 then
      zs1_visit n visit { s with m := s.h + 1 }
    else if s.t > 1 then
      zs1_visit n visit { s with m := s.h + 2, h := s.h + 1, a := wr s.a (s.h + 1) s.t }
    else
      zs1_visit n visit { s with m := s.h + 2 }
  | .ret => s

def zs1 (fuel : Nat) (mem : Buf) (n : Int) (visit : Bool) :
    Option (Nat × List partition_t) :=
  let s := (zs1_step n visit)^[fuel] (zs1_init mem n visit)
  if s.pc = .ret then some (s.count, s.out) else none

/-! ## zs2 -/

inductive Zs2Pc
  | outer | scan | ret
deriving DecidableEq

structure Zs2St where
  pc : Zs2Pc
  a : Buf
  x : Buf
  h : Int
  j : Int
  m : Int
  r : Int
  count : Nat
  out : List partition_t

/-- The loop `for (int i = 1; i < n+1; i++) x[i] = 1`. -/
def zs2_ones (x : Buf) (n : Int) : Buf :=
  (List.range n.toNat).foldl (fun (x : Buf) (i : Nat) => wr x ((i : Int) + 1) 1) x

/-- The code of zs2 before its loop; memx is what the local array x holds at entry. -/
def zs2_init (mem memx : Buf) (n : Int) (visit : Bool) : Zs2St :=
  if n < 0 then ⟨.ret, mem, memx, 0, 0, 0, 0, 0, []⟩
  else if n = 0 then
    ⟨.ret, mem, memx, 0, 0, 0, 0, incr 0, call_visit visit [] (snap n 0 mem)⟩
  else if n = 1 then
    let a := wr mem 0 1
    ⟨.ret, a, memx, 0, 0, 0, 0, incr 0, call_visit visit [] (snap n 1 a)⟩
  else
    let x1 := zs2_ones memx n
    let a1 := mk_partition mem x1 1 n.toNat
    let out1 := call_visit visit [] (snap n n a1)
    let count1 := incr 0
    let x2 := wr (wr x1 0 (-1)) 1 2
    let m := n - 1
    let a2 := mk_partition a1 x2 1 m.toNat
    ⟨.outer, a2, x2, 1, 0, m, 0, incr count1, call_visit visit out1 (snap n m a2)⟩

/-- The end of the body of the loop of zs2: mk_partition(&p, x, 1, m), the visit, count++. -/
def zs2_visit (n : Int) (visit : Bool) (s : Zs2St) : Zs2St :=
  let a1 := mk_partition s.a s.x 1 s.m.toNat
  { s with pc := .outer, a := a1, out := call_visit visit s.out (snap n s.m a1),
           count := incr s.count }

def zs2_step (n : Int) (visit : Bool) (s : Zs2St) : Zs2St :=
  match s.pc with
  | .outer =>  -- while (x[1] != n)
    if s.x 1 ≠ n then
      if s.m - s.h > 1 then
        zs2_visit n visit { s with h := s.h + 1, x := wr s.x (s.h + 1) 2, m := s.m - 1 }
      else { s with pc := .scan, j := s.m - 2 }
    else { s with pc := .ret }
  | .scan =>  -- while (x[j] == x[m-1])
    if s.x s.j = s.x (s.m - 1) then
      { s with x := wr s.x s.j 1, j := s.j - 1 }
    else
      let h1 := s.j + 1
      let x1 := wr s.x h1 (s.x (s.m - 1) + 1)
      let r1 := x1 s.m + x1 (s.m - 1) * (s.m - h1 - 1)
      let x2 := wr x1 s.m 1
      let x3 := if s.m - h1 > 1 then wr x2 (s.m - 1) 1 else x2
      zs2_visit n visit { s with h := h1, x := x3, r := r1, m := h1 + r1 - 1 }
  | .ret => s

def zs2 (fuel : Nat) (mem memx : Buf) (n : Int) (visit : Bool) :
    Option (Nat × List partition_t) :=
  let s := (zs2_step n visit)^[fuel] (zs2_init mem memx n visit)
  if s.pc = .ret then some (s.count, s.out) else none

/-! ## The table of generators (genpartn.c) -/

inductive algo_t
  | ALGO_RULE_ASC | ALGO_RULE_DESC | ALGO_ACCEL_ASC | ALGO_ACCEL_DESC
  | ALGO_MERCA1 | ALGO_MERCA2 | ALGO_MERCA3 | ALGO_ZS1 | ALGO_ZS2
deriving DecidableEq

/-- The call generators[algo](n, visit, NULL) with `fuel` steps; mem and memx are what the
generator's uninitialised locals (the struct p, the array x of zs2) hold at entry. -/
def generators (algo : algo_t) (fuel : Nat) (mem memx : Buf) (n : Int) (visit : Bool) :
    Option (Nat × List partition_t) :=
  match algo with
  | .ALGO_RULE_ASC => rule_asc fuel mem n visit
  | .ALGO_RULE_DESC => rule_desc fuel mem n visit
  | .ALGO_ACCEL_ASC => accel_asc fuel mem n visit
  | .ALGO_ACCEL_DESC => accel_desc fuel mem n visit
  | .ALGO_MERCA1 => merca1 fuel mem n visit
  | .ALGO_MERCA2 => merca2 fuel mem n visit
  | .ALGO_MERCA3 => merca3 fuel mem n visit
  | .ALGO_ZS1 => zs1 fuel mem n visit
  | .ALGO_ZS2 => zs2 fuel mem memx n visit

/-- A run returns r: with enough fuel the result is r. -/
def Returns {α : Type} (g : Nat → Option α) (r : α) : Prop :=
  ∃ t0 : Nat, ∀ fuel : Nat, t0 ≤ fuel → g fuel = some r

/-! ## q-series (qseries.c) -/

/-- The maximum order = highest degree + 1 (qseries.h). -/
def MAXORD : Nat := 256

/-- The coefficient array int64_t [MAXORD], indexed by the degree. -/
abbrev qseries_t := Nat → Int

/-- The value an int64_t holds after an operation with the exact result z (two's
complement wrap-around; in C the overflow of a signed operation is undefined). -/
def wrap64 (z : Int) : Int := (z + 2 ^ 63) % 2 ^ 64 - 2 ^ 63

/-- The inner loop of multiply_qseries:
`for (i = 0, sum = 0; i <= deg; i++) sum += s[i] * t[deg - i];`. -/
def multiply_sum (s t : qseries_t) (deg : Nat) : Int :=
  (List.range (deg + 1)).foldl (fun sum i => wrap64 (sum + wrap64 (s i * t (deg - i)))) 0

/-- The function multiply_qseries(s, t, ans) for a buffer ans distinct from s and t: the
outer loop stores the sum of each degree below MAXORD; the result is the final ans. -/
def multiply_qseries (s t ans : qseries_t) : qseries_t :=
  (List.range MAXORD).foldl (fun ans deg => Function.update ans deg (multiply_sum s t deg)) ans

/-! ## Reference enumerations and auxiliary notions -/

/-- Ascending compositions of n with every part at least m, in increasing lexicographic
order: those that start with m, then those whose parts are all greater than m. -/
def asc (m n : Nat) : List (List Int) :=
  if 0 < m ∧ 2 * m ≤ n then
    (asc m (n - m)).map (fun l => (m : Int) :: l) ++ asc (m + 1) n
  else [[(n : Int)]]
termination_by 2 * n - m
decreasing_by all_goals omega

/-- Descending compositions of n with every part at most m, in decreasing lexicographic
order: those that start with m, then those whose parts are all smaller than m. -/
def desc (m n : Nat) : List (List Int) :=
  if n = 0 then [[]]
  else if m = 0 then []
  else
    (if m ≤ n then (desc m (n - m)).map (fun l => (m : Int) :: l) else []) ++ desc (m - 1) n
termination_by m + n
decreasing_by all_goals omega

/-- The machine with step function f gets from s to s' in finitely many steps. -/
def Reach {σ : Type} (f : σ → σ) (s s' : σ) : Prop := ∃ t : Nat, f^[t] s = s'

/-- The uint64_t count after k more increments. -/
def cadd (c k : Nat) : Nat := (c + k) % 2 ^ 64

/-- What a visitor logs of a list of partitions: all of it, or nothing if it is NULL. -/
def vlog (visit : Bool) (l : List partition_t) : List partition_t := if visit then l else []

/-- What the visitor is handed when the number is n and the parts are c followed by l. -/
def psnap (n : Int) (c l : List Int) : partition_t := ⟨n, (c ++ l).length, c ++ l⟩

/-- The parts of the visited partitions, in the order of the visits. -/
def visited_parts (out : List partition_t) : List (List Int) := out.map (fun p => p.a)

/-- The visited partitions as multisets of parts. -/
def visited_multisets (out : List partition_t) : List (Multiset Int) :=
  out.map (fun p => (p.a : Multiset Int))

/-- The invariant of a partition of n (spec, data model). -/
def PartitionInv (n : Int) (p : partition_t) : Prop :=
  p.n = n ∧ p.a.length = p.len ∧ (∀ x ∈ p.a, 1 ≤ x) ∧ p.a.sum = n ∧ (p.len = 0 ↔ n = 0)

/-- Strictly smaller in lexicographic order. -/
def LexLt (l1 l2 : List Int) : Prop := List.Lex (fun (x y : Int) => x < y) l1 l2

/-- The cells of index K..MAXNUMP all hold 1. -/
def Ones (a : Buf) (K : Nat) : Prop := ∀ i : Nat, K ≤ i → i ≤ 200 → a i = 1

/-- The cells x[1..len] of the array x of zs2. -/
def rdx (x : Buf) (len : Nat) : List Int :=
  (List.range len).map (fun (i : Nat) => x ((i : Int) + 1))

/-- The number of parts that are at least 2. -/
def hcount (l : List Int) : Nat := (l.filter (fun y => decide (2 ≤ y))).length

/-- The largest descending composition of T with parts at most M: M as often as it fits
strictly below T, then the rest. -/
def gr (M T : Nat) : List Int :=
  if 0 < M ∧ M < T then (M : Int) :: gr M (T - M) else [(T : Int)]
termination_by T
decreasing_by omega

/-- The state of zs2 at the test of its outer loop when the current composition is comp:
x[0] is the sentinel, x[1..m] holds comp, h counts the parts that are at least 2 and the
cells behind, up to index N, hold 1. -/
def Zs2Head (N : Int) (x : Buf) (h m : Int) (comp : List Int) : Prop :=
  x 0 = -1 ∧ h = (hcount comp : Int) ∧ m = (comp.length : Int) ∧ rdx x comp.length = comp ∧
  ∀ i : Nat, comp.length < i → (i : Int) ≤ N → x i = 1

/-- One pass of the table of partition counts: to each entry of prev the entry of L that
lies M places earlier is added. -/
def rowStep (M : Nat) (prev L : List Nat) : List Nat :=
  List.zipWith (fun a b => a + b) prev (List.replicate M 0 ++ L)

/-- The counts for parts at most M from the counts prev for parts at most M - 1. -/
def nextRow (M : Nat) (prev : List Nat) : List Nat :=
  (rowStep M prev)^[prev.length / M + 1] prev

/-- The numbers of partitions of 0..N into parts at most M. -/
def ptable (N : Nat) : Nat → List Nat
  | 0 => 1 :: List.replicate N 0
  | M + 1 => nextRow (M + 1) (ptable N M)

/-- The compositions a generator visits, in the order of the visits: the ascending
generators run through asc, the descending ones through desc, zs2 through desc backwards. -/
def visits (algo : algo_t) (n : Nat) : List (List Int) :=
  match algo with
  | .ALGO_RULE_DESC | .ALGO_ACCEL_DESC | .ALGO_ZS1 => desc n n
  | .ALGO_ZS2 => (desc n n).reverse
  | _ => if n = 0 then [[]] else asc 1 n

/-- The value fits an int64_t. -/
def Int64 (z : Int) : Prop := -2 ^ 63 ≤ z ∧ z < 2 ^ 63

/-- The coefficient of degree d of the product of the series s and t, over the integers:
the sum of s[i] t[d - i] for i = 0..d. -/
def conv (s t : qseries_t) (d : Nat) : Int :=
  ((List.range (d + 1)).map (fun i => s i * t (d - i))).sum

/-- The series with constant term 2^32 and no other term. -/
def qs_two32 : qseries_t := fun i => if i = 0 then 2 ^ 32 else 0

/-- The geometric sum 1 + x + ... + x^(k-1) for x = B^m. -/
def pgeom (B m k : Nat) : Nat := (B ^ (m * k) - 1) / (B ^ m - 1)

/-- The numbers of partitions of 0..W-1 into parts at most M, packed as the digits of one
number in base B: the row of M + 1 is the row of M times 1 + B^(M+1) + B^(2(M+1)) + ...,
cut off at W digits. -/
def prow (B W : Nat) : Nat → Nat
  | 0 => 1
  | M + 1 => (prow B W M * pgeom B (M + 1) (W / (M + 1) + 1)) % B ^ W

/-- The number with the digits g 0, ..., g (W-1) in base B. -/
def pack (B W : Nat) (g : Nat → Nat) : Nat := Finset.sum (Finset.range W) (fun d => g d * B ^ d)

/-! ## The other operations on q-series (qseries.c)

A `qseries_t` argument stands for the memory at the address of the array: the cells of
index 0..MAXORD-1 are the array, the cells behind it are what lies behind the array.  The
result of a function is the array it wrote to; buffers written to are distinct from the
ones read.  Signed additions, multiplications and negations that overflow are reduced
modulo 2^64 like in multiply_qseries (in C the overflow is undefined); a division by zero
and the division of INT64_MIN by -1 have no result. -/

/-- The function init_qseries(s, initial_val). -/
def init_qseries (s : qseries_t) (initial_val : Int) : qseries_t :=
  (List.range MAXORD).foldl (fun s deg => Function.update s deg initial_val) s

/-- The function cp_qseries(s, t): copy s into t. -/
def cp_qseries (s t : qseries_t) : qseries_t :=
  (List.range MAXORD).foldl (fun t deg => Function.update t deg (s deg)) t

/-- The loop of mk_qseries, `for (deg = offset; deg + offset < max; deg++)
s[deg] = a[start + deg];`, on size_t values (arithmetic modulo 2^64). -/
def mk_qseries_loop (a : Nat → Int) (start offset max : Nat) :
    Nat → Nat → qseries_t → Option qseries_t
  | 0, _, _ => none
  | fuel + 1, deg, s =>
    if (deg + offset) % 2 ^ 64 < max then
      mk_qseries_loop a start offset max fuel ((deg + 1) % 2 ^ 64)
        (Function.update s deg (a ((start + deg) % 2 ^ 64)))
    else some s

/-- The function mk_qseries(a, start, num, offset, s) run with `fuel` loop tests. -/
def mk_qseries (fuel : Nat) (a : Nat → Int) (start num offset : Nat) (s : qseries_t) :
    Option qseries_t :=
  mk_qseries_loop a start offset (min MAXORD ((num + offset) % 2 ^ 64)) fuel offset s

/-- The index `deg - shift` of shift_qseries: a size_t, the int shift converted to it. -/
def shift_index (deg : Nat) (shift : Int) : Nat := (((deg : Int) - shift) % 2 ^ 64).toNat

/-- The function shift_qseries(s, shift, ans):
`ans[deg] = ((int) deg < shift) ? 0 : s[deg - shift]` for every deg below MAXORD. -/
def shift_qseries (s : qseries_t) (shift : Int) (ans : qseries_t) : qseries_t :=
  (List.range MAXORD).foldl (fun ans deg =>
    Function.update ans deg (if (deg : Int) < shift then 0 else s (shift_index deg shift))) ans

/-- The quotient a / b of two int64_t: C rounds towards zero.  There is no result when b
is 0, and none when a is INT64_MIN and b is -1: the quotient 2^63 is no int64_t, the
division is undefined and stops the program like the division by zero. -/
def div64 (a b : Int) : Option Int :=
  if b = 0 ∨ (a = -2 ^ 63 ∧ b = -1) then none else some (Int.tdiv a b)

/-- The inner loop of invert_qseries:
`for (i = 1, sum = 0; i <= deg; i++) sum += s[i] * ans[deg - i];`. -/
def invert_sum (s ans : qseries_t) (deg : Nat) : Int :=
  (List.range' 1 deg).foldl (fun sum i => wrap64 (sum + wrap64 (s i * ans (deg - i)))) 0

/-- The function invert_qseries(s, ans): `ans[0] = 1/s[0]`, then for deg = 1..MAXORD-1
`ans[deg] = -sum / s[0]`.  There is no result when one of the divisions has none: when
s[0] is 0, and when s[0] is -1 and some -sum is INT64_MIN. -/
def invert_qseries (s ans : qseries_t) : Option qseries_t :=
  (div64 1 (s 0)).bind (fun a0 =>
    (List.range' 1 (MAXORD - 1)).foldlM
      (fun ans deg =>
        (div64 (wrap64 (-invert_sum s ans deg)) (s 0)).map (Function.update ans deg))
      (Function.update ans 0 a0))

/-- The function divide_qseries(s, t, ans); tmp is what its local array holds at entry. -/
def divide_qseries (s t ans tmp : qseries_t) : Option qseries_t :=
  (invert_qseries t tmp).map (fun tmp1 => multiply_qseries s tmp1 ans)

/-- The value an int holds after an operation with the exact result z. -/
def wrap32 (z : Int) : Int := (z + 2 ^ 31) % 2 ^ 32 - 2 ^ 31

/-- The loop of pow_qseries, run abs_n times from the arrays ans and tmp:
`cp_qseries(ans, tmp); multiply_qseries(tmp, s0, ans);`.  The result is (ans, tmp). -/
def pow_loop (s0 : qseries_t) (abs_n : Nat) (ans tmp : qseries_t) : qseries_t × qseries_t :=
  (List.range abs_n).foldl (fun st _ =>
    (multiply_qseries (cp_qseries st.1 st.2) s0 st.1, cp_qseries st.1 st.2)) (ans, tmp)

/-- The function pow_qseries(s, n, ans); s0 and tmp are what its local arrays hold at
entry.  For n = 0 the array s0 stays as it is and the loop runs zero times. -/
def pow_qseries (s : qseries_t) (n : Int) (ans s0 tmp : qseries_t) : Option qseries_t :=
  (if n > 0 then some (cp_qseries s s0, n)
   else if n < 0 then (invert_qseries s s0).map (fun s1 => (s1, wrap32 (-n)))
   else some (s0, 0)).map
    (fun (p : qseries_t × Int) =>
      (pow_loop p.1 p.2.toNat (Function.update (init_qseries ans 0) 0 1) tmp).1)

/-- The series 1 - q^n that product_side builds in tmp:
`init_qseries(tmp, 0); tmp[0] = 1; tmp[n] = -1;`. -/
def product_factor (tmp : qseries_t) (n : Nat) : qseries_t :=
  Function.update (Function.update (init_qseries tmp 0) 0 1) n (-1)

/-- One pass of the loop of product_side, for the value n of its counter, on the arrays
(ans, tmp, nxt); s0 and tmp0 are what the local arrays of pow_qseries hold. -/
def product_step (mod : Int) (cong : Nat → Int) (s0 tmp0 : qseries_t)
    (st : qseries_t × qseries_t × qseries_t) (n : Nat) :
    Option (qseries_t × qseries_t × qseries_t) :=
  (pow_qseries (product_factor st.2.1 n) (cong (Int.tmod (n : Int) mod).toNat) st.2.2 s0
      tmp0).map
    (fun nxt1 => (multiply_qseries (cp_qseries st.1 (product_factor st.2.1 n)) nxt1 st.1,
      cp_qseries st.1 (product_factor st.2.1 n), nxt1))

/-- The function product_side(mod, cong, ans); tmp and nxt are what its local arrays hold
at entry.  There is no result when mod is 0 (`n % mod` divides by zero). -/
def product_side (mod : Int) (cong : Nat → Int) (ans tmp nxt s0 tmp0 : qseries_t) :
    Option qseries_t :=
  if mod = 0 then none
  else ((List.range' 1 (MAXORD - 1)).foldlM (product_step mod cong s0 tmp0)
    (Function.update (init_qseries ans 0) 0 1, tmp, nxt)).map (fun st => st.1)

/-- The exponent array of pside_new_06 (partnid.c): `int cong[5] = {-1, -1, -1, 0, -1}`. -/
def cong_new_06 : Nat → Int := fun i => [-1, -1, -1, 0, -1].getD i 0

/-! ## Exact series and auxiliary notions for the q-series claims -/

/-- The multiplicative-identity series: 1 at degree 0 and 0 elsewhere. -/
def qs_one : qseries_t := fun d => if d = 0 then 1 else 0

/-- The n-th power of a series over the integers: n multiplications starting from the
identity series. -/
def qs_pow (f : qseries_t) : Nat → qseries_t
  | 0 => qs_one
  | n + 1 => conv (qs_pow f n) f

/-- The series 1 - q^k. -/
def qs_one_minus (k : Nat) : qseries_t := fun d => if d = 0 then 1 else if d = k then -1 else 0

/-- The formal inverse of 1 - q^k: the series 1 + q^k + q^(2k) + ... -/
def qs_geom (k : Nat) : qseries_t := fun d => if k ∣ d then 1 else 0

/-- The factor (1 - q^k)^e over the integers: for a negative exponent e the |e|-th power of
the formal inverse of 1 - q^k, for the exponent 0 the identity series. -/
def qs_factor (k : Nat) (e : Int) : qseries_t :=
  if 0 ≤ e then qs_pow (qs_one_minus k) e.toNat else qs_pow (qs_geom k) (-e).toNat

/-- The product over k = 1..MAXORD-1 of (1 - q^k)^(c[k mod m]) over the integers. -/
def qs_product (m : Nat) (c : Nat → Int) : qseries_t :=
  (List.range' 1 (MAXORD - 1)).foldl (fun acc k => conv acc (qs_factor k (c (k % m)))) qs_one

/-- The series q^k, the zero series when k is not a degree below MAXORD. -/
def qs_monomial (k : Int) : qseries_t := fun d => if (d : Int) = k ∧ d < MAXORD then 1 else 0

/-- The two series agree modulo 2^64 on every degree below MAXORD. -/
def QEq (f g : qseries_t) : Prop := ∀ d, d < MAXORD → f d ≡ g d [ZMOD 2 ^ 64]

/-- Every coefficient of degree below MAXORD fits an int64_t. -/
def IsQseries (s : qseries_t) : Prop := ∀ d, d < MAXORD → Int64 (s d)

/-- An int whose negation is an int as well. -/
def IntExp (n : Int) : Prop := -2 ^ 31 < n ∧ n < 2 ^ 31

/-- The parts k that the exponent array c with modulus m allows: c[k mod m] = -1. -/
def allowed (m : Nat) (c : Nat → Int) (k : Nat) : Bool := decide (c (k % m) = -1)

/-- The descending compositions of n with parts at most m, all of them allowed by A. -/
def rdesc (A : Nat → Bool) (m n : Nat) : List (List Int) :=
  (desc m n).filter (fun l => l.all (fun x => A x.toNat))

/-- The numbers of partitions of 0..N into allowed parts at most M. -/
def rtable (A : Nat → Bool) (N : Nat) : Nat → List Nat
  | 0 => 1 :: List.replicate N 0
  | M + 1 => if A (M + 1) then nextRow (M + 1) (rtable A N M) else rtable A N M

/-- The n-th power of the series s over the integers, for a negative n the |n|-th power of
the series i that stands for the inverse of s. -/
def qs_zpow (s i : qseries_t) (n : Int) : qseries_t :=
  if 0 ≤ n then qs_pow s n.toNat else qs_pow i (-n).toNat

/-- The product over the k = 1..MAXORD-1 with c[k mod m] = -1 of the formal inverses
1 + q^k + q^(2k) + ... of 1 - q^k; the other k contribute no factor. -/
def qs_allowed_product (m : Nat) (c : Nat → Int) : qseries_t :=
  (List.range' 1 (MAXORD - 1)).foldl
    (fun acc k => if c (k % m) = -1 then conv acc (qs_geom k) else acc) qs_one

/-- The series -1 + 2^31 q + 2^62 q^2, with coefficients that are int64_t: its inversion
comes to the division of INT64_MIN by -1 at the degree 2. -/
def qs_trap : qseries_t := fun d => [-1, 2 ^ 31, 2 ^ 62].getD d 0

/-! ## The identity checker (partnid.c)

partnid.c has its own copy of merca3: the visitor is replaced by the block that calls the
configured filter FILTER_PARTN and counts the accepted partitions in sum_side[n].  The
macros FILTER_PARTN and PSIDEF are parameters of the embedded functions; the values the
source configures are filter_new_06 and pside_new_06.  The ints of the filters are reduced
to 32 bits after every operation, the int64_t cells to 64 bits. -/

/-- The largest number whose partitions are generated (partnid.c). -/
def partnid.MAXN : Nat := 199

/-- The largest number of parts (partnid.c): `#define MAXNUMP MAXN`. -/
def partnid.MAXNUMP : Nat := partnid.MAXN

/-- The store p.a[i] = v into the array of MAXNUMP+1 cells of partnid.c. -/
def partnid.wr (a : Buf) (i v : Int) : Buf :=
  fun j => if j = i ∧ 0 ≤ i ∧ i ≤ (partnid.MAXNUMP : Int) then v else a j

/-- The call `memset(p.a, 0, (MAXNUMP + 1) * sizeof(int))`. -/
def partnid.memset_a (a : Buf) : Buf :=
  fun j => if 0 ≤ j ∧ j ≤ (partnid.MAXNUMP : Int) then 0 else a j

inductive partnid.action_t
  | ACTION_NONE | ACTION_PRINT
deriving DecidableEq

/-! ### The filters -/

/-- The function filter_none. -/
def partnid.filter_none (_p : partition_t) : Bool := true

/-- The locals cur, prv, s2 and d1 of filter_new_01 and filter_new_02. -/
structure partnid.Gap2 where
  cur : Int
  prv : Int
  s2 : Int
  d1 : Int

/-- One turn of the loop of filter_new_01, for the index i; there is no next state when the
turn ends in `return false`. -/
def partnid.filter_new_01_turn (p : partition_t) (st : partnid.Gap2) (i : Nat) :
    Option partnid.Gap2 :=
  let s2 := wrap32 (st.s2 - st.prv)
  let prv := st.cur
  let cur := p.a.getD i 0
  let s2 := wrap32 (s2 + cur)
  let d1 := wrap32 (cur - prv)
  if 1 ≤ i ∧ d1 = 1 ∧ Int.tmod s2 4 = 3 then none else some ⟨cur, prv, s2, d1⟩

/-- The function filter_new_01: true when the partition is accepted. -/
def partnid.filter_new_01 (p : partition_t) : Bool :=
  if p.len < 2 then true
  else ((List.range p.len).foldlM (partnid.filter_new_01_turn p) ⟨0, 0, 0, -1⟩).isSome

/-- One turn of the loop of filter_new_02, for the index i. -/
def partnid.filter_new_02_turn (p : partition_t) (st : partnid.Gap2) (i : Nat) :
    Option partnid.Gap2 :=
  let s2 := wrap32 (st.s2 - st.prv)
  let prv := st.cur
  let cur := p.a.getD i 0
  let s2 := wrap32 (s2 + cur)
  let d1 := wrap32 (cur - prv)
  if 1 ≤ i ∧ ((d1 = 1 ∧ Int.tmod s2 4 = 3) ∨ (d1 = 3 ∧ Int.tmod s2 4 = 1)) then none
  else some ⟨cur, prv, s2, d1⟩

/-- The function filter_new_02. -/
def partnid.filter_new_02 (p : partition_t) : Bool :=
  if p.len < 2 then true
  else ((List.range p.len).foldlM (partnid.filter_new_02_turn p) ⟨0, 0, 0, -1⟩).isSome

/-- The locals cur, pv[0], pv[1], s2, s3, d1 and d2 of filter_new_03. -/
structure partnid.Gap23 where
  cur : Int
  pv0 : Int
  pv1 : Int
  s2 : Int
  s3 : Int
  d1 : Int
  d2 : Int

/-- One turn of the loop of filter_new_03, for the index i. -/
def partnid.filter_new_03_turn (p : partition_t) (st : partnid.Gap23) (i : Nat) :
    Option partnid.Gap23 :=
  let s2 := wrap32 (st.s2 - st.pv0)
  let s3 := wrap32 (st.s3 - st.pv1)
  let pv1 := st.pv0
  let pv0 := st.cur
  let cur := p.a.getD i 0
  let s2 := wrap32 (s2 + cur)
  let s3 := wrap32 (s3 + cur)
  let d1 := wrap32 (cur - pv0)
  let d2 := wrap32 (cur - pv1)
  if (1 ≤ i ∧ d1 < 2 ∧ Int.tmod s2 5 = 0) ∨ (2 ≤ i ∧ d2 < 2 ∧ Int.tmod s3 5 = 3) then none
  else some ⟨cur, pv0, pv1, s2, s3, d1, d2⟩

/-- The function filter_new_03. -/
def partnid.filter_new_03 (p : partition_t) : Bool :=
  if p.len < 2 then true
  else ((List.range p.len).foldlM (partnid.filter_new_03_turn p) ⟨0, 0, 0, 0, 0, -1, -1⟩).isSome

/-- The locals cur, pv[0], pv[1], s3 and d2 of filter_new_04, filter_new_05, filter_new_06,
filter_new_6x and filter_new_6y. -/
structure partnid.Gap3 where
  cur : Int
  pv0 : Int
  pv1 : Int
  s3 : Int
  d2 : Int

/-- One turn of the loop of filter_new_04, filter_new_05, filter_new_06, filter_new_6x and
filter_new_6y, for the index i; the five loops differ only in the residue res that s3 % 5
is compared with. -/
def partnid.gap3_turn (res : Int) (p : partition_t) (st : partnid.Gap3) (i : Nat) :
    Option partnid.Gap3 :=
  let s3 := wrap32 (st.s3 - st.pv1)
  let pv1 := st.pv0
  let pv0 := st.cur
  let cur := p.a.getD i 0
  let s3 := wrap32 (s3 + cur)
  let d2 := wrap32 (cur - pv1)
  if 2 ≤ i ∧ d2 < 2 ∧ Int.tmod s3 5 = res then none else some ⟨cur, pv0, pv1, s3, d2⟩

/-- The function filter_new_04. -/
def partnid.filter_new_04 (p : partition_t) : Bool :=
  if p.len > 0 ∧ p.a.getD 0 0 = 1 then false
  else if p.len < 3 then true
  else ((List.range p.len).foldlM (partnid.gap3_turn 1 p) ⟨0, 0, 0, 0, -1⟩).isSome

/-- The function filter_new_05. -/
def partnid.filter_new_05 (p : partition_t) : Bool :=
  if p.len > 1 ∧ p.a.getD 0 0 = 1 ∧ p.a.getD 1 0 = 1 then false
  else if p.len < 3 then true
  else ((List.range p.len).foldlM (partnid.gap3_turn 2 p) ⟨0, 0, 0, 0, -1⟩).isSome

/-- The function filter_new_06. -/
def partnid.filter_new_06 (p : partition_t) : Bool :=
  if p.len < 3 then true
  else ((List.range p.len).foldlM (partnid.gap3_turn 3 p) ⟨0, 0, 0, 0, -1⟩).isSome

/-- The function filter_new_6x. -/
def partnid.filter_new_6x (p : partition_t) : Bool :=
  if p.len < 3 then true
  else ((List.range p.len).foldlM (partnid.gap3_turn 4 p) ⟨0, 0, 0, 0, -1⟩).isSome

/-- The function filter_new_6y. -/
def partnid.filter_new_6y (p : partition_t) : Bool :=
  if p.len < 3 then true
  else ((List.range p.len).foldlM (partnid.gap3_turn 0 p) ⟨0, 0, 0, 0, -1⟩).isSome

/-! ### The product sides -/

/-- The array of pside_none: `int cong[1] = {-1}`. -/
def partnid.cong_none : Nat → Int := fun i => [-1].getD i 0

/-- The function pside_none(s); tmp, nxt, s0 and tmp0 are what the local arrays of
product_side and pow_qseries hold at entry. -/
def partnid.pside_none (s tmp nxt s0 tmp0 : qseries_t) : Option qseries_t :=
  product_side 1 partnid.cong_none s tmp nxt s0 tmp0

/-- The array of pside_new_03: `int cong[10] = {0, -1, -1, 0, -1, 0, -1, -1, -1, -1}`. -/
def partnid.cong_new_03 : Nat → Int := fun i => [0, -1, -1, 0, -1, 0, -1, -1, -1, -1].getD i 0

/-- The function pside_new_03(s). -/
def partnid.pside_new_03 (s tmp nxt s0 tmp0 : qseries_t) : Option qseries_t :=
  product_side 10 partnid.cong_new_03 s tmp nxt s0 tmp0

/-- The function pside_new_06(s). -/
def partnid.pside_new_06 (s tmp nxt s0 tmp0 : qseries_t) : Option qseries_t :=
  product_side 5 cong_new_06 s tmp nxt s0 tmp0

/-! ### The globals and the generator -/

/-- A row of the table that report prints: whether the row starts with "**", then the
number n and the values of sum_side[n], prod_side[n] and diff[n]. -/
structure partnid.row_t where
  mark : Bool
  n : Nat
  s : Int
  p : Int
  d : Int
deriving DecidableEq

/-- The global variables sum_side, prod_side, diff, current and action of partnid.c, and
what the program writes and does: the partitions printed by println_partition, the rows
printed by report, and the partitions FILTER_PARTN was called with, all in order. -/
structure partnid.Glob where
  sum_side : Nat → Int
  prod_side : qseries_t
  diff : Nat → Int
  current : Int
  action : partnid.action_t
  printed : List partition_t
  rows : List partnid.row_t
  calls : List partition_t

/-- The statement sum_side[n]++ on the array of MAXN+1 cells of type int64_t. -/
def partnid.incr_sum_side (sum_side : Nat → Int) (n : Int) : Nat → Int :=
  fun j => if (j : Int) = n ∧ j ≤ partnid.MAXN then wrap64 (sum_side j + 1) else sum_side j

/-- The block that stands where partition.c calls the visitor:
`if (FILTER_PARTN(&p)) { if (action == ACTION_PRINT) println_partition(&p); sum_side[n]++; }`. -/
def partnid.visit (FILTER_PARTN : partition_t → Bool) (n : Int) (g : partnid.Glob)
    (p : partition_t) : partnid.Glob :=
  if FILTER_PARTN p then
    { g with calls := g.calls ++ [p],
             printed := if g.action = .ACTION_PRINT then g.printed ++ [p] else g.printed,
             sum_side := partnid.incr_sum_side g.sum_side n }
  else { g with calls := g.calls ++ [p] }

/-- The locals of merca3 (partnid.c) at a test of one of its loops, and the globals. -/
structure partnid.Merca3St where
  pc : Merca3Pc
  a : Buf
  k : Int
  r : Int
  s : Int
  t : Int
  u : Int
  x : Int
  y : Int
  count : Nat
  g : partnid.Glob

def partnid.merca3_init (FILTER_PARTN : partition_t → Bool) (mem : Buf) (n : Int)
    (g : partnid.Glob) : partnid.Merca3St :=
  if n < 0 then ⟨.ret, mem, 0, 0, 0, 0, 0, 0, 0, 0, g⟩
  else if n = 0 then
    ⟨.ret, mem, 0, 0, 0, 0, 0, 0, 0, 0, partnid.visit FILTER_PARTN n g (snap n 0 mem)⟩
  else ⟨.outer, partnid.memset_a mem, 0, 0, 0, 0, 0, 1, n - 1, 0, g⟩

def partnid.merca3_step (FILTER_PARTN : partition_t → Bool) (n : Int)
    (s : partnid.Merca3St) : partnid.Merca3St :=
  match s.pc with
  | .outer =>  -- while (k >= 0)
    if s.k ≥ 0 then { s with pc := .w3 } else { s with pc := .ret }
  | .w3 =>  -- while (3*x <= y)
    if 3 * s.x ≤ s.y then
      { s with a := partnid.wr s.a s.k s.x, y := s.y - s.x, k := s.k + 1 }
    else { s with pc := .w2, t := s.k + 1, u := s.k + 2 }
  | .w2 =>  -- while (2*x <= y)
    if 2 * s.x ≤ s.y then
      let a1 := partnid.wr (partnid.wr (partnid.wr s.a s.k s.x) s.t s.x) s.u (s.y - s.x)
      { s with pc := .rs, a := a1, g := partnid.visit FILTER_PARTN n s.g (snap n (s.u + 1) a1),
               r := s.x + 1, s := s.y - (s.x + 1) }
    else { s with pc := .pair }
  | .rs =>  -- while (r <= s)
    if s.r ≤ s.s then
      let a1 := partnid.wr (partnid.wr s.a s.t s.r) s.u s.s
      { s with a := a1, g := partnid.visit FILTER_PARTN n s.g (snap n (s.u + 1) a1),
               r := s.r + 1, s := s.s - 1 }
    else
      let a1 := partnid.wr s.a s.t s.y
      { s with pc := .w2, a := a1, g := partnid.visit FILTER_PARTN n s.g (snap n (s.t + 1) a1),
               x := s.x + 1, y := s.y - 1 }
  | .pair =>  -- while (x <= y)
    if s.x ≤ s.y then
      let a1 := partnid.wr (partnid.wr s.a s.k s.x) s.t s.y
      { s with a := a1, g := partnid.visit FILTER_PARTN n s.g (snap n (s.t + 1) a1),
               x := s.x + 1, y := s.y - 1 }
    else
      let y1 := s.y + (s.x - 1)
      let a1 := partnid.wr s.a s.k (y1 + 1)
      { s with pc := .outer, y := y1, a := a1,
               g := partnid.visit FILTER_PARTN n s.g (snap n (s.k + 1) a1),
               k := s.k - 1, x := a1 (s.k - 1) + 1 }
  | .ret => s

/-- The function merca3(n) of partnid.c run with `fuel` steps from the globals g: the value
it returns and the globals it leaves; mem is what its struct p holds at entry. -/
def partnid.merca3 (FILTER_PARTN : partition_t → Bool) (fuel : Nat) (mem : Buf) (n : Int)
    (g : partnid.Glob) : Option (Nat × partnid.Glob) :=
  let s := (partnid.merca3_step FILTER_PARTN n)^[fuel] (partnid.merca3_init FILTER_PARTN mem n g)
  if s.pc = .ret then some (s.count, s.g) else none

/-! ### The verification -/

/-- The loop of run_thread, `while ((n = __sync_fetch_and_sub(&current, 1)) >= 0)
GEN_PARTN(n);`, run by one worker alone: at most `turns` turns, `fuel` steps for every call of
the generator; mem n is what the struct p of the call for n holds at entry. -/
def partnid.run_thread (FILTER_PARTN : partition_t → Bool) (fuel : Nat) (mem : Int → Buf) :
    Nat → partnid.Glob → Option partnid.Glob
  | 0, _ => none
  | turns + 1, g =>
    if g.current ≥ 0 then
      match partnid.merca3 FILTER_PARTN fuel (mem g.current) g.current
          { g with current := wrap32 (g.current - 1) } with
      | some (_, g2) => partnid.run_thread FILTER_PARTN fuel mem turns g2
      | none => none
    else some { g with current := wrap32 (g.current - 1) }

/-- One turn of the loop of report: diff[n] = sum_side[n] - prod_side[n], and the row is
printed with "**" in front when diff[n] is not zero. -/
def partnid.report_row (g : partnid.Glob) (n : Nat) : partnid.Glob :=
  { g with diff := Function.update g.diff n (wrap64 (g.sum_side n - g.prod_side n)),
           rows := g.rows ++ [⟨decide (wrap64 (g.sum_side n - g.prod_side n) ≠ 0), n,
             g.sum_side n, g.prod_side n, wrap64 (g.sum_side n - g.prod_side n)⟩] }

/-- The function report(N): the rows for n = 0..N (the two lines of the heading are left
out). -/
def partnid.report (N : Int) (g : partnid.Glob) : partnid.Glob :=
  (List.range (N + 1).toNat).foldl partnid.report_row g

/-- The function verify(N) with one worker in place of the NUMTHREADS threads: the product
side is computed into prod_side, action and current are set, the worker runs the loop of
run_thread to its end, then report prints the table.  There is no result when PSIDEF fails
or the fuel runs out. -/
def partnid.verify (FILTER_PARTN : partition_t → Bool) (PSIDEF : qseries_t → Option qseries_t)
    (fuel : Nat) (mem : Int → Buf) (N : Int) (g : partnid.Glob) : Option partnid.Glob :=
  match PSIDEF g.prod_side with
  | none => none
  | some ps =>
    match partnid.run_thread FILTER_PARTN fuel mem fuel
        { g with prod_side := ps, action := .ACTION_NONE, current := N } with
    | none => none
    | some g2 => some (partnid.report N g2)

/-! ## Auxiliary notions for the filters -/

/-- The part a[j] of a list of parts; 0 when j is not an index of the list. -/
def part_at (a : List Int) (j : Int) : Int := if j < 0 then 0 else a.getD j.toNat 0

/-- The gap condition of filter_new_06 and its relatives in the words of the specification:
some index i with 2 <= i < len has a[i] - a[i-2] in {0, 1} and
(a[i-2] + a[i-1] + a[i]) mod 5 = res. -/
def gap3_rejects (res : Int) (p : partition_t) : Prop :=
  ∃ i : Nat, 2 ≤ i ∧ i < p.len ∧
    (p.a.getD i 0 - p.a.getD (i - 2) 0 = 0 ∨ p.a.getD i 0 - p.a.getD (i - 2) 0 = 1) ∧
    (p.a.getD (i - 2) 0 + p.a.getD (i - 1) 0 + p.a.getD i 0) % 5 = res

/-- The gap condition of filter_new_01 and filter_new_02 in the words of the specification:
some index i with 1 <= i < len has a[i] - a[i-1] = d and (a[i-1] + a[i]) mod 4 = res. -/
def gap2_rejects (d res : Int) (p : partition_t) : Prop :=
  ∃ i : Nat, 1 ≤ i ∧ i < p.len ∧ p.a.getD i 0 - p.a.getD (i - 1) 0 = d ∧
    (p.a.getD (i - 1) 0 + p.a.getD i 0) % 4 = res

/-- Condition (a) of the specification of filter_new_03: some index i with 1 <= i < len has
a[i] - a[i-1] in {0, 1} and (a[i-1] + a[i]) mod 5 = 0. -/
def new_03_rejects_a (p : partition_t) : Prop :=
  ∃ i : Nat, 1 ≤ i ∧ i < p.len ∧
    (p.a.getD i 0 - p.a.getD (i - 1) 0 = 0 ∨ p.a.getD i 0 - p.a.getD (i - 1) 0 = 1) ∧
    (p.a.getD (i - 1) 0 + p.a.getD i 0) % 5 = 0

/-- Condition (b) of the specification of filter_new_03, with the difference taken at
distance dist from the index lo on: some index i with lo <= i < len has a[i] - a[i-dist] in
{0, 1} and (a[i-2] + a[i-1] + a[i]) mod 5 = 3. -/
def new_03_rejects_b (lo dist : Nat) (p : partition_t) : Prop :=
  ∃ i : Nat, lo ≤ i ∧ i < p.len ∧
    (p.a.getD i 0 - p.a.getD (i - dist) 0 = 0 ∨ p.a.getD i 0 - p.a.getD (i - dist) 0 = 1) ∧
    (p.a.getD (i - 2) 0 + p.a.getD (i - 1) 0 + p.a.getD i 0) % 5 = 3

/-- The number of the partitions of n, in the order and form in which merca3 enumerates
them, that the filter accepts. -/
def accepted (FILTER_PARTN : partition_t → Bool) (n : Nat) : Nat :=
  ((visits .ALGO_MERCA3 n).filter (fun l => FILTER_PARTN (psnap n [] l))).length

/-! ## Counting the partitions that a gap condition accepts -/

/-- The excess d of a part over a later part, cut at 2. -/
def gclamp (d : Int) : Nat := min d.toNat 2

/-- A gap condition on parts in non-increasing order is given by okd: okd ex ey z tells
whether the part z may follow two parts x ≥ y that exceed z by ex and by ey, where an excess
above 2 is given as 2.  gap_acc okd x y l tells whether the parts of l, in this order, may
follow the parts x and y. -/
def gap_acc (okd : Nat → Nat → Nat → Bool) : Int → Int → List Int → Bool
  | _, _, [] => true
  | x, y, z :: l => okd (gclamp (x - z)) (gclamp (y - z)) z.toNat && gap_acc okd y z l

/-- The descending compositions of n with parts at most m that may follow x and y. -/
def gdesc (okd : Nat → Nat → Nat → Bool) (x y : Int) (m n : Nat) : List (List Int) :=
  (desc m n).filter (gap_acc okd x y)

/-- Six rows of a table of counts, one for each pair of excesses ex ≥ ey in 0..2 of the two
parts before. -/
structure GRow where
  r00 : List Nat
  r10 : List Nat
  r20 : List Nat
  r11 : List Nat
  r21 : List Nat
  r22 : List Nat

/-- The row of the excesses (0, 0) for parts at most m from the rows for parts at most
m - 1: when m may follow m and m, any number of parts m comes in front. -/
def gnext00 (okd : Nat → Nat → Nat → Bool) (m : Nat) (p : GRow) : List Nat :=
  if okd 0 0 m then nextRow m p.r11 else p.r11

/-- The row of the excesses (ex, 0) with ex above 0: to the count without a part m comes,
when m may follow, the count that lies m places earlier in the row of the excesses (0, 0). -/
def gnext0 (okd : Nat → Nat → Nat → Bool) (ex m : Nat) (p : GRow) : List Nat :=
  if okd ex 0 m then rowStep m p.r21 (gnext00 okd m p) else p.r21

/-- The rows for parts at most m from the rows for parts at most m - 1: to the count without
a part m comes, when m may follow, the count that lies m places earlier in the row of the
excesses (ey, 0). -/
def gnext (okd : Nat → Nat → Nat → Bool) (m : Nat) (p : GRow) : GRow where
  r00 := gnext00 okd m p
  r10 := gnext0 okd 1 m p
  r20 := gnext0 okd 2 m p
  r11 := if okd 1 1 m then rowStep m p.r22 (gnext0 okd 1 m p) else p.r22
  r21 := if okd 2 1 m then rowStep m p.r22 (gnext0 okd 1 m p) else p.r22
  r22 := if okd 2 2 m then rowStep m p.r22 (gnext0 okd 2 m p) else p.r22

/-- The numbers of the partitions of 0..N into parts at most M that may follow two parts
with the excesses (ex, ey) over M. -/
def gtable (okd : Nat → Nat → Nat → Bool) (N : Nat) : Nat → GRow
  | 0 => ⟨1 :: List.replicate N 0, 1 :: List.replicate N 0, 1 :: List.replicate N 0,
      1 :: List.replicate N 0, 1 :: List.replicate N 0, 1 :: List.replicate N 0⟩
  | M + 1 => gnext okd (M + 1) (gtable okd N M)

/-- The gap condition of filter_new_06 on parts in non-increasing order: z may not follow x
and y when x - z is below 2 and x + y + z = 3 z + ex + ey is 3 modulo 5. -/
def okd_new_06 (ex ey z : Nat) : Bool :=
  !(decide (ex < 2) && decide ((3 * z + ex + ey) % 5 = 3))

/-- The gap condition of filter_new_03 on parts in non-increasing order: z may not follow y
when y - z is below 2 and y + z = 2 z + ey is 0 modulo 5, and z may not follow x and y when
x - z is below 2 and x + y + z is 3 modulo 5. -/
def okd_new_03 (ex ey z : Nat) : Bool :=
  !(decide (ey < 2) && decide ((2 * z + ey) % 5 = 0)) &&
    !(decide (ex < 2) && decide ((3 * z + ex + ey) % 5 = 3))

/-- The number of the descending compositions of n with parts at most m that may follow two
parts with the excesses ex and ey over m. -/
def gcount (okd : Nat → Nat → Nat → Bool) (ex ey m n : Nat) : Nat :=
  (gdesc okd ((m + ex : Nat) : Int) ((m + ey : Nat) : Int) m n).length

/-- The row r holds, for i = 0..N, the numbers of the compositions of i with parts at most M
that may follow two parts with the excesses ex and ey. -/
def GRowOK (okd : Nat → Nat → Nat → Bool) (N ex ey M : Nat) (r : List Nat) : Prop :=
  r.length = N + 1 ∧ ∀ i, i ≤ N → r.getD i 0 = gcount okd ex ey M i

/-! ## The command lines (genpartn.c, partnid.c)

Both tools read N with the library call `sscanf(arg, "%d", np)`.  The embedded functions
take the outcome of that call as two parameters: `ret`, the value the call returns (1 after
a conversion, 0 when the text does not begin with a number, EOF = -1 when the text ends
before anything is converted, as for the empty string), and `val`, the int that np points
to after the call (the converted number when ret is 1). -/

/-- The error codes of genpartn.c. -/
inductive err_t
  | E_SUCCESS | E_WRONG_NUM_ARGS | E_INVALID_N | E_INVALID_METHOD | E_INVALID_ACTION
deriving DecidableEq

/-- The value of an enumerator of err_t. -/
def err_t.code : err_t → Int
  | .E_SUCCESS => 0
  | .E_WRONG_NUM_ARGS => 1
  | .E_INVALID_N => 2
  | .E_INVALID_METHOD => 3
  | .E_INVALID_ACTION => 4

/-- The actions of genpartn.c. -/
inductive action_t
  | ACTION_NONE | ACTION_PRINT
deriving DecidableEq

/-- The chain of `strcmp(argv[1], ...)` of parse_args (genpartn.c): the algorithm stored in
*algp, none in the branch that returns E_INVALID_METHOD. -/
def parse_args_algo (arg : String) : Option algo_t :=
  if arg = "rule_asc" then some .ALGO_RULE_ASC
  else if arg = "rule_desc" then some .ALGO_RULE_DESC
  else if arg = "accel_asc" then some .ALGO_ACCEL_ASC
  else if arg = "accel_desc" then some .ALGO_ACCEL_DESC
  else if arg = "merca1" then some .ALGO_MERCA1
  else if arg = "merca2" then some .ALGO_MERCA2
  else if arg = "merca3" then some .ALGO_MERCA3
  else if arg = "zs1" then some .ALGO_ZS1
  else if arg = "zs2" then some .ALGO_ZS2
  else none

/-- The chain of `strcmp(argv[2], ...)` of parse_args (genpartn.c): the action stored in
*axnp, none in the branch that returns E_INVALID_ACTION. -/
def parse_args_action (arg : String) : Option action_t :=
  if arg = "none" then some .ACTION_NONE
  else if arg = "print" then some .ACTION_PRINT
  else none

/-- The function parse_args(argv, algp, axnp, np) of genpartn.c, called by main when argc
is 4: alg, axn and n are what main's locals hold at entry; the result is the error code
with what the three locals hold at return. -/
def parse_args (argv : List String) (ret val : Int) (alg : algo_t) (axn : action_t)
    (n : Int) : err_t × algo_t × action_t × Int :=
  match parse_args_algo (argv.getD 1 "") with
  | none => (.E_INVALID_METHOD, alg, axn, n)
  | some alg1 =>
    match parse_args_action (argv.getD 2 "") with
    | none => (.E_INVALID_ACTION, alg1, axn, n)
    | some axn1 =>
      if ret = 0 then (.E_INVALID_N, alg1, axn1, val)  -- if (! sscanf(argv[3], "%d", np))
      else if val < 0 then (.E_INVALID_N, alg1, axn1, val)  -- if (*np < 0)
      else (.E_SUCCESS, alg1, axn1, val)

/-- The error codes of partnid.c. -/
inductive partnid.error_t
  | E_SUCCESS | E_WRONG_NUM_ARGS | E_UNKNOWN_COMMAND | E_SCAN_FAILURE | E_OUT_OF_RANGE
  | E_THREAD_FAILURE
deriving DecidableEq

/-- The value of an enumerator of error_t (partnid.c): `E_WRONG_NUM_ARGS = 32` and the
following ones count on from it. -/
def partnid.error_t.code : partnid.error_t → Int
  | .E_SUCCESS => 0
  | .E_WRONG_NUM_ARGS => 32
  | .E_UNKNOWN_COMMAND => 33
  | .E_SCAN_FAILURE => 34
  | .E_OUT_OF_RANGE => 35
  | .E_THREAD_FAILURE => 36

/-- The commands of partnid.c. -/
inductive partnid.command_t
  | COMMAND_HELP | COMMAND_SHOW | COMMAND_VERIFY
deriving DecidableEq

/-- The lines that follow `*com_p = COMMAND_SHOW;` and `*com_p = COMMAND_VERIFY;` in
parse_args (partnid.c): the test of argc, the call of sscanf on argv[2] and the test of the
range; n is what main's local holds at entry. -/
def partnid.parse_args_n (argc ret val n : Int) : partnid.error_t × Int :=
  if argc < 3 then (.E_WRONG_NUM_ARGS, n)
  else if ret = 0 then (.E_SCAN_FAILURE, val)  -- if (! sscanf(argv[2], "%d", n_p))
  else if val < 0 ∨ val > (partnid.MAXN : Int) then (.E_OUT_OF_RANGE, val)
  else (.E_SUCCESS, val)

/-- The function parse_args(argc, argv, com_p, n_p) of partnid.c: com and n are what main's
locals hold at entry; the result is the error code with what the two locals hold at
return. -/
def partnid.parse_args (argc : Int) (argv : List String) (ret val : Int)
    (com : partnid.command_t) (n : Int) : partnid.error_t × partnid.command_t × Int :=
  if argc < 2 then (.E_WRONG_NUM_ARGS, com, n)
  else if argv.getD 1 "" = "help" then (.E_SUCCESS, .COMMAND_HELP, n)
  else if argv.getD 1 "" = "show" then
    ((partnid.parse_args_n argc ret val n).1, .COMMAND_SHOW,
      (partnid.parse_args_n argc ret val n).2)
  else if argv.getD 1 "" = "verify" then
    ((partnid.parse_args_n argc ret val n).1, .COMMAND_VERIFY,
      (partnid.parse_args_n argc ret val n).2)
  else (.E_UNKNOWN_COMMAND, com, n)

/-! ## The frontier of zs1 and accel_desc -/

/-- The frontier invariant (spec) of a buffer a with the cursors h and m for the number n:
the parts a[0..h] are all at least 2 and non-increasing, every cell of the buffer at an
index greater than h holds 1, a[0..m) sums to n, and h is -1 exactly when a[0..m) is n
ones. -/
def Frontier (n : Int) (a : Buf) (h m : Int) : Prop :=
  (∀ i : Int, 0 ≤ i → i ≤ h → 2 ≤ a i) ∧
  (∀ i j : Int, 0 ≤ i → i ≤ j → j ≤ h → a j ≤ a i) ∧
  (∀ i : Int, h < i → i ≤ (MAXNUMP : Int) → a i = 1) ∧
  (rd a m.toNat).sum = n ∧
  (h = -1 ↔ rd a m.toNat = List.replicate n.toNat 1)

/-- The frontier with H = h + 1 parts in front of the ones, as the proofs keep it: H ≤ m,
the H parts are at least 2, each one at most the one before it, ones from the index H on,
and the H parts with the m - H ones that follow sum to n. -/
def FrontAt (n : Int) (a : Buf) (H : Nat) (m : Int) : Prop :=
  (H : Int) ≤ m ∧ (∀ i : Nat, i < H → 2 ≤ a i) ∧
  (∀ i : Nat, i + 1 < H → a ((i : Int) + 1) ≤ a i) ∧
  Ones a H ∧ (rd a H).sum + (m - H) = n

/-- The buffer at a test of the fill loop (`while (t >= r)` in zs1, `while (n1 >= m)` in
accel_desc): H parts written, the last of them r, and t still to distribute. -/
def FillAt (n : Int) (a : Buf) (H : Nat) (r t : Int) : Prop :=
  1 ≤ H ∧ 2 ≤ r ∧ 0 ≤ t ∧ a ((H : Int) - 1) = r ∧ (∀ i : Nat, i < H → 2 ≤ a i) ∧
  (∀ i : Nat, i + 1 < H → a ((i : Int) + 1) ≤ a i) ∧
  Ones a H ∧ (rd a H).sum + t = n

/-- The invariant of the states of zs1 run with a visitor: at the test of the outer loop
the frontier with h + 1 parts and the cursor m, the partition handed to the visitor last
being a[0..m); at the test of the fill loop the parts written so far. -/
def Zs1Inv (n : Int) (s : Zs1St) : Prop :=
  match s.pc with
  | .outer => ∃ H : Nat, s.h = (H : Int) - 1 ∧ FrontAt n s.a H s.m ∧
      s.out.getLast? = some (snap n s.m s.a)
  | .fill => ∃ H : Nat, s.h = (H : Int) - 1 ∧ FillAt n s.a H s.r s.t
  | .ret => True

/-- The invariant of the states of accel_desc run with a visitor: the one of zs1 with q in
the place of h, k + 1 in the place of m, m in the place of r and n1 in the place of t. -/
def AccelDescInv (n : Int) (s : AccelDescSt) : Prop :=
  match s.pc with
  | .outer => ∃ H : Nat, s.q = (H : Int) - 1 ∧ FrontAt n s.a H (s.k + 1) ∧
      s.out.getLast? = some (snap n (s.k + 1) s.a)
  | .fill => ∃ H : Nat, s.q = (H : Int) - 1 ∧ FillAt n s.a H s.m s.n1
  | .ret => True

/-- The state of accel_desc for n ≥ 2 right after its first visit: the visit and the
count++ that follows it are made before `k = q = 0`, so k and q are what the uninitialised
locals hold at entry. -/
def accel_desc_first_visit (mem : Buf) (n k q : Int) (visit : Bool) : AccelDescSt :=
  ⟨.outer, wr (init_partition mem 1) 0 n, k, 0, 0, q, incr 0,
    call_visit visit [] (snap n 1 (wr (init_partition mem 1) 0 n))⟩

/-! ## The q-series operations with every arithmetic result checked

The functions of qseries.c that product_side runs, computed over the integers, with a
check of the result of every arithmetic operation (every product s[i] * t[deg - i], every
partial sum, the quotient 1/s[0], every -sum and -sum / s[0]) against a bound B: a run has
a result only if no such result exceeds B in absolute value.  The other values that are
stored are copies of these and the constants 0, 1 and -1. -/

/-- The result z of an arithmetic operation, checked against the bound B: there is no
result when |z| exceeds B. -/
def chk (B z : Int) : Option Int := if |z| ≤ B then some z else none

/-- The statement `sum += x * y` with the product and the new sum checked. -/
def chk_mul_add (B sum x y : Int) : Option Int :=
  (chk B (x * y)).bind (fun p => chk B (sum + p))

/-- The inner loop of multiply_qseries, checked:
`for (i = 0, sum = 0; i <= deg; i++) sum += s[i] * t[deg - i];`. -/
def multiply_sum_chk (B : Int) (s t : qseries_t) (deg : Nat) : Option Int :=
  (List.range (deg + 1)).foldlM (fun sum i => chk_mul_add B sum (s i) (t (deg - i))) 0

/-- The function multiply_qseries(s, t, ans), checked. -/
def multiply_qseries_chk (B : Int) (s t ans : qseries_t) : Option qseries_t :=
  (List.range MAXORD).foldlM
    (fun ans deg => (multiply_sum_chk B s t deg).map (Function.update ans deg)) ans

/-- The inner loop of invert_qseries, checked:
`for (i = 1, sum = 0; i <= deg; i++) sum += s[i] * ans[deg - i];`. -/
def invert_sum_chk (B : Int) (s ans : qseries_t) (deg : Nat) : Option Int :=
  (List.range' 1 deg).foldlM (fun sum i => chk_mul_add B sum (s i) (ans (deg - i))) 0

/-- The function invert_qseries(s, ans), checked: `ans[0] = 1/s[0]`, then for
deg = 1..MAXORD-1 `ans[deg] = -sum / s[0]`. -/
def invert_qseries_chk (B : Int) (s ans : qseries_t) : Option qseries_t :=
  if s 0 = 0 then none
  else (chk B (Int.tdiv 1 (s 0))).bind (fun a0 =>
    (List.range' 1 (MAXORD - 1)).foldlM
      (fun ans deg => (invert_sum_chk B s ans deg).bind (fun sum =>
        (chk B (-sum)).bind (fun neg =>
          (chk B (Int.tdiv neg (s 0))).map (Function.update ans deg))))
      (Function.update ans 0 a0))

/-- The loop of pow_qseries, checked, run abs_n times from the arrays ans and tmp:
`cp_qseries(ans, tmp); multiply_qseries(tmp, s0, ans);`. -/
def pow_loop_chk (B : Int) (s0 : qseries_t) (abs_n : Nat) (ans tmp : qseries_t) :
    Option (qseries_t × qseries_t) :=
  (List.range abs_n).foldlM (fun st _ =>
    (multiply_qseries_chk B (cp_qseries st.1 st.2) s0 st.1).map
      (fun ans1 => (ans1, cp_qseries st.1 st.2))) (ans, tmp)

/-- The function pow_qseries(s, n, ans), checked; the int -n is checked against the
largest int. -/
def pow_qseries_chk (B : Int) (s : qseries_t) (n : Int) (ans s0 tmp : qseries_t) :
    Option qseries_t :=
  (if n > 0 then some (cp_qseries s s0, n)
   else if n < 0 then
    (invert_qseries_chk B s s0).bind (fun s1 => (chk (2 ^ 31 - 1) (-n)).map (fun a => (s1, a)))
   else some (s0, 0)).bind
    (fun (p : qseries_t × Int) =>
      (pow_loop_chk B p.1 p.2.toNat (Function.update (init_qseries ans 0) 0 1) tmp).map
        (fun st => st.1))

/-- One pass of the loop of product_side, checked, for the value n of its counter, on the
arrays (ans, tmp, nxt). -/
def product_step_chk (B mod : Int) (cong : Nat → Int) (s0 tmp0 : qseries_t)
    (st : qseries_t × qseries_t × qseries_t) (n : Nat) :
    Option (qseries_t × qseries_t × qseries_t) :=
  (pow_qseries_chk B (product_factor st.2.1 n) (cong (Int.tmod (n : Int) mod).toNat) st.2.2 s0
      tmp0).bind
    (fun nxt1 =>
      (multiply_qseries_chk B (cp_qseries st.1 (product_factor st.2.1 n)) nxt1 st.1).map
        (fun ans1 => (ans1, cp_qseries st.1 (product_factor st.2.1 n), nxt1)))

/-- The function product_side(mod, cong, ans), checked. -/
def product_side_chk (B mod : Int) (cong : Nat → Int) (ans tmp nxt s0 tmp0 : qseries_t) :
    Option qseries_t :=
  if mod = 0 then none
  else ((List.range' 1 (MAXORD - 1)).foldlM (product_step_chk B mod cong s0 tmp0)
    (Function.update (init_qseries ans 0) 0 1, tmp, nxt)).map (fun st => st.1)

/-! ## Runs of a machine -/

theorem Reach.refl {σ : Type} (f : σ → σ) (s : σ) : Reach f s s := ⟨0, rfl⟩

theorem Reach.trans {σ : Type} {f : σ → σ} {s1 s2 s3 : σ}
    (h1 : Reach f s1 s2) (h2 : Reach f s2 s3) : Reach f s1 s3 := by
  obtain ⟨t1, rfl⟩ := h1
  obtain ⟨t2, rfl⟩ := h2
  exact ⟨t2 + t1, Function.iterate_add_apply f t2 t1 s1⟩

theorem Reach.head {σ : Type} {f : σ → σ} {s s' : σ}
    (h : Reach f (f s) s') : Reach f s s' := by
  obtain ⟨t, rfl⟩ := h
  exact ⟨t + 1, rfl⟩

theorem Reach.step {σ : Type} {f : σ → σ} {s s' : σ} (s1 : σ)
    (e : f s = s1) (h : Reach f s1 s') : Reach f s s' := by
  subst e; exact Reach.head h

theorem Reach.one {σ : Type} {f : σ → σ} {s s' : σ} (e : f s = s') : Reach f s s' :=
  Reach.step s' e (Reach.refl f s')

theorem Reach.of_eq {σ : Type} {f : σ → σ} {s s1 s' : σ}
    (h : Reach f s s1) (e : s1 = s') : Reach f s s' := e ▸ h

theorem Reach.of_eq' {σ : Type} {f : σ → σ} {s s1 s' : σ}
    (e : s = s1) (h : Reach f s1 s') : Reach f s s' := e ▸ h

theorem iterate_fixed {σ : Type} (f : σ → σ) (s : σ) (h : f s = s) (t : Nat) :
    f^[t] s = s := by
  induction t with
  | zero => rfl
  | succ t ih => rw [Function.iterate_succ_apply, h, ih]

theorem Reach.run {σ : Type} {f : σ → σ} {s0 sf : σ} (h : Reach f s0 sf) (hf : f sf = sf) :
    ∃ t0 : Nat, ∀ fuel : Nat, t0 ≤ fuel → f^[fuel] s0 = sf := by
  obtain ⟨t, rfl⟩ := h
  refine ⟨t, fun fuel hle => ?_⟩
  obtain ⟨d, rfl⟩ := Nat.exists_eq_add_of_le hle
  rw [Nat.add_comm, Function.iterate_add_apply]
  exact iterate_fixed f _ hf d

theorem Returns.unique {α : Type} {g : Nat → Option α} {r1 r2 : α}
    (h1 : Returns g r1) (h2 : Returns g r2) : r1 = r2 := by
  obtain ⟨t1, h1⟩ := h1
  obtain ⟨t2, h2⟩ := h2
  have e1 := h1 (max t1 t2) (le_max_left _ _)
  have e2 := h2 (max t1 t2) (le_max_right _ _)
  rw [e1] at e2
  exact Option.some.inj e2

/-! ## The count and the log -/

theorem incr_eq_cadd (c : Nat) : incr c = cadd c 1 := rfl

theorem cadd_cadd (c j k : Nat) : cadd (cadd c j) k = cadd c (j + k) := by
  unfold cadd; omega

theorem cadd_zero (c : Nat) (h : c < 2 ^ 64) : cadd c 0 = c := by
  unfold cadd; omega

theorem cadd_of_lt (k : Nat) (h : k < 2 ^ 64) : cadd 0 k = k := by
  unfold cadd; omega

theorem call_visit_eq (v : Bool) (out : List partition_t) (p : partition_t) :
    call_visit v out p = out ++ vlog v [p] := by
  cases v <;> simp [call_visit, vlog]

theorem vlog_append (v : Bool) (l1 l2 : List partition_t) :
    vlog v (l1 ++ l2) = vlog v l1 ++ vlog v l2 := by
  cases v <;> simp [vlog]

theorem vlog_nil (v : Bool) : vlog v [] = [] := by
  cases v <;> rfl

theorem vlog_true (l : List partition_t) : vlog true l = l := rfl

theorem vlog_false (l : List partition_t) : vlog false l = [] := rfl

/-! ## Reads and writes of a buffer -/

theorem rd_succ (a : Buf) (k : Nat) : rd a (k + 1) = rd a k ++ [a k] := by
  unfold rd
  rw [List.range_succ, List.map_append]
  rfl

theorem rd_zero (a : Buf) : rd a 0 = [] := rfl

theorem rd_length (a : Buf) (k : Nat) : (rd a k).length = k := by simp [rd]

theorem rd_congr (a b : Buf) (k : Nat) (h : ∀ i : Nat, i < k → a i = b i) :
    rd a k = rd b k := by
  unfold rd
  apply List.map_congr_left
  intro i hi
  exact h i (List.mem_range.mp hi)

theorem wr_same (a : Buf) (j v : Int) (h0 : 0 ≤ j) (h1 : j ≤ 200) : wr a j v j = v := by
  simp [wr, MAXNUMP, h0, h1]

theorem wr_other (a : Buf) (i j v : Int) (h : i ≠ j) : wr a j v i = a i := by
  simp [wr, h]

theorem rd_wr_of_le (a : Buf) (k : Nat) (j v : Int) (h : (k : Int) ≤ j) :
    rd (wr a j v) k = rd a k := by
  apply rd_congr
  intro i hi
  apply wr_other
  omega

/-- Appending one part: the store at index k extends the parts a[0..k). -/
theorem rd_wr_snoc (a : Buf) (k : Nat) (v : Int) (c : List Int) (hc : rd a k = c)
    (hk : k ≤ 200) : rd (wr a k v) (k + 1) = c ++ [v] := by
  rw [rd_succ, rd_wr_of_le _ _ _ _ (le_refl _), hc, wr_same _ _ _ (by omega) (by omega)]

/-- Reading back the last part. -/
theorem rd_snoc_inv (a : Buf) (k : Nat) (v : Int) (c : List Int)
    (h : rd a (k + 1) = c ++ [v]) : rd a k = c ∧ a k = v := by
  rw [rd_succ] at h
  have hl : (rd a k).length = c.length := by
    have := congrArg List.length h
    simp at this
    simpa using this
  obtain ⟨e1, e2⟩ := List.append_inj h hl
  exact ⟨e1, by simpa using e2⟩

theorem rd_append_inv (a : Buf) (c l : List Int) (h : rd a (c.length + l.length) = c ++ l) :
    rd a c.length = c := by
  induction l using List.reverseRecOn with
  | nil => simpa using h
  | append_singleton l v ih =>
    apply ih
    have h2 : rd a (c.length + l.length + 1) = (c ++ l) ++ [v] := by
      simpa [Nat.add_assoc] using h
    exact (rd_snoc_inv a _ v _ h2).1

theorem init_partition_apply (a : Buf) (v j : Int) :
    init_partition a v j = if 0 ≤ j ∧ j ≤ 200 then v else a j := by
  have key : ∀ k : Nat, k ≤ 201 →
      (List.range k).foldl (fun (p : Buf) (i : Nat) => wr p i v) a j
        = if 0 ≤ j ∧ j < k then v else a j := by
    intro k
    induction k with
    | zero =>
      intro _
      have h0 : ¬ (0 ≤ j ∧ j < ((0 : Nat) : Int)) := by omega
      rw [if_neg h0]; rfl
    | succ k ih =>
      intro hk
      rw [List.range_succ, List.foldl_append, List.foldl_cons, List.foldl_nil]
      by_cases hj : j = (k : Int)
      · subst hj
        rw [wr_same _ _ _ (by omega) (by omega)]
        have : (0 : Int) ≤ (k : Int) ∧ (k : Int) < ((k + 1 : Nat) : Int) := by omega
        rw [if_pos this]
      · rw [wr_other _ _ _ _ hj, ih (by omega)]
        by_cases h1 : 0 ≤ j ∧ j < (k : Int)
        · have : 0 ≤ j ∧ j < ((k + 1 : Nat) : Int) := by omega
          rw [if_pos h1, if_pos this]
        · have : ¬ (0 ≤ j ∧ j < ((k + 1 : Nat) : Int)) := by omega
          rw [if_neg h1, if_neg this]
  have := key 201 (le_refl _)
  unfold init_partition MAXNUMP
  rw [this]
  by_cases h1 : 0 ≤ j ∧ j ≤ 200
  · have : 0 ≤ j ∧ j < ((201 : Nat) : Int) := by omega
    rw [if_pos h1, if_pos this]
  · have : ¬ (0 ≤ j ∧ j < ((201 : Nat) : Int)) := by omega
    rw [if_neg h1, if_neg this]

theorem mk_partition_apply (pa a : Buf) (start len : Nat) (hlen : len ≤ 201) (j : Int) :
    mk_partition pa a start len j
      = if 0 ≤ j ∧ j < len then a ((start : Int) + j) else pa j := by
  unfold mk_partition
  induction len with
  | zero =>
    have h0 : ¬ (0 ≤ j ∧ j < ((0 : Nat) : Int)) := by omega
    rw [if_neg h0]; rfl
  | succ k ih =>
    rw [List.range_succ, List.foldl_append, List.foldl_cons, List.foldl_nil]
    by_cases hj : j = (k : Int)
    · subst hj
      rw [wr_same _ _ _ (by omega) (by omega)]
      have : (0 : Int) ≤ (k : Int) ∧ (k : Int) < ((k + 1 : Nat) : Int) := by omega
      rw [if_pos this]
    · rw [wr_other _ _ _ _ hj, ih (by omega)]
      by_cases h1 : 0 ≤ j ∧ j < (k : Int)
      · have : 0 ≤ j ∧ j < ((k + 1 : Nat) : Int) := by omega
        rw [if_pos h1, if_pos this]
      · have : ¬ (0 ≤ j ∧ j < ((k + 1 : Nat) : Int)) := by omega
        rw [if_neg h1, if_neg this]

theorem zs2_ones_apply (x : Buf) (n : Nat) (hn : n ≤ 200) (j : Int) :
    zs2_ones x n j = if 1 ≤ j ∧ j ≤ n then 1 else x j := by
  unfold zs2_ones
  rw [Int.toNat_ofNat]
  induction n with
  | zero =>
    have h0 : ¬ (1 ≤ j ∧ j ≤ ((0 : Nat) : Int)) := by omega
    rw [if_neg h0]; rfl
  | succ k ih =>
    rw [List.range_succ, List.foldl_append, List.foldl_cons, List.foldl_nil]
    by_cases hj : j = (k : Int) + 1
    · subst hj
      rw [wr_same _ _ _ (by omega) (by omega)]
      have : (1 : Int) ≤ (k : Int) + 1 ∧ (k : Int) + 1 ≤ ((k + 1 : Nat) : Int) := by omega
      rw [if_pos this]
    · rw [wr_other _ _ _ _ hj, ih (by omega)]
      by_cases h1 : 1 ≤ j ∧ j ≤ (k : Int)
      · have : 1 ≤ j ∧ j ≤ ((k + 1 : Nat) : Int) := by omega
        rw [if_pos h1, if_pos this]
      · have : ¬ (1 ≤ j ∧ j ≤ ((k + 1 : Nat) : Int)) := by omega
        rw [if_neg h1, if_neg this]

theorem rd_wr_snoc_int (a : Buf) (k : Nat) (j v : Int) (c : List Int) (hj : j = (k : Int))
    (hc : rd a k = c) (hk : k ≤ 200) : rd (wr a j v) (k + 1) = c ++ [v] := by
  subst hj
  exact rd_wr_snoc a k v c hc hk

/-- The partition handed to the visitor when the buffer starts with the parts c ++ l. -/
theorem snap_psnap (N len : Int) (a : Buf) (c l : List Int)
    (hlen : len = ((c.length + l.length : Nat) : Int))
    (hrd : rd a (c.length + l.length) = c ++ l) : snap N len a = psnap N c l := by
  subst hlen
  unfold snap psnap
  rw [Int.toNat_ofNat, hrd, List.length_append]

theorem asc_rec (m n : Nat) (h : 0 < m ∧ 2 * m ≤ n) :
    asc m n = (asc m (n - m)).map (fun l => (m : Int) :: l) ++ asc (m + 1) n := by
  rw [asc, if_pos h]

theorem asc_base (m n : Nat) (h : ¬ (0 < m ∧ 2 * m ≤ n)) : asc m n = [[(n : Int)]] := by
  rw [asc, if_neg h]

theorem psnap_cons (N : Int) (c : List Int) (m : Int) :
    (psnap N c ∘ fun l => m :: l) = psnap N (c ++ [m]) := by
  funext l; simp [psnap]

/-- The count and the log after the visits of c ++ l for l in asc m (n - m) and then
in asc (m + 1) n are those after the visits for l in asc m n. -/
theorem asc_log_split (N : Int) (v : Bool) (c : List Int) (m n : Nat)
    (h : 0 < m ∧ 2 * m ≤ n) (cnt : Nat) (out : List partition_t) :
    cadd (cadd cnt (asc m (n - m)).length) (asc (m + 1) n).length = cadd cnt (asc m n).length ∧
    out ++ vlog v ((asc m (n - m)).map (psnap N (c ++ [(m : Int)])))
        ++ vlog v ((asc (m + 1) n).map (psnap N c))
      = out ++ vlog v ((asc m n).map (psnap N c)) := by
  rw [asc_rec m n h]
  simp only [List.length_append, List.length_map, List.map_append, List.map_map, vlog_append,
    cadd_cadd, psnap_cons, List.append_assoc, and_self]

/-- The same when asc m (n - m) is the single composition [n - m]. -/
theorem asc_log_pair (N : Int) (v : Bool) (c : List Int) (m n : Nat)
    (h : 0 < m ∧ 2 * m ≤ n) (h3 : n < 3 * m) (cnt : Nat) (out : List partition_t) :
    cadd (cadd cnt 1) (asc (m + 1) n).length = cadd cnt (asc m n).length ∧
    out ++ vlog v [psnap N c [(m : Int), ((n : Int) - m)]]
        ++ vlog v ((asc (m + 1) n).map (psnap N c))
      = out ++ vlog v ((asc m n).map (psnap N c)) := by
  obtain ⟨e1, e2⟩ := asc_log_split N v c m n h cnt out
  have e : asc m (n - m) = [[((n - m : Nat) : Int)]] := asc_base m (n - m) (by omega)
  rw [e] at e1 e2
  have hc : ((n - m : Nat) : Int) = (n : Int) - m := by omega
  simp only [List.length_singleton, List.map_cons, List.map_nil, hc] at e1 e2
  refine ⟨e1, ?_⟩
  rw [← e2]
  simp [psnap]

/-- The same when asc m (n - m) is [m, n - 2 m] followed by asc (m + 1) (n - m). -/
theorem asc_log_triple (N : Int) (v : Bool) (c : List Int) (m n : Nat)
    (h : 0 < m ∧ 3 * m ≤ n) (h4 : n < 4 * m) (cnt : Nat) (out : List partition_t) :
    cadd (cadd (cadd cnt 1) (asc (m + 1) (n - m)).length) (asc (m + 1) n).length
      = cadd cnt (asc m n).length ∧
    out ++ vlog v [psnap N c [(m : Int), (m : Int), ((n : Int) - m - m)]]
        ++ vlog v ((asc (m + 1) (n - m)).map (psnap N (c ++ [(m : Int)])))
        ++ vlog v ((asc (m + 1) n).map (psnap N c))
      = out ++ vlog v ((asc m n).map (psnap N c)) := by
  obtain ⟨e1, e2⟩ := asc_log_split N v c m n ⟨h.1, by omega⟩ cnt out
  obtain ⟨e3, e4⟩ := asc_log_pair N v (c ++ [(m : Int)]) m (n - m) ⟨h.1, by omega⟩ (by omega)
    cnt out
  have hc : ((n - m : Nat) : Int) - m = (n : Int) - m - m := by omega
  rw [hc] at e4
  rw [← e1, ← e2, ← e3, ← e4]
  refine ⟨rfl, ?_⟩
  simp [psnap]

/-! ## Buffers that end in a run of ones -/

theorem rd_add (a : Buf) (K j : Nat) :
    rd a (K + j) = rd a K ++ (List.range j).map (fun (i : Nat) => a ((K : Int) + i)) := by
  induction j with
  | zero => simp [rd]
  | succ j ih =>
    rw [← Nat.add_assoc, rd_succ, ih, List.range_succ, List.map_append, List.append_assoc]
    simp

/-- The parts a[0..K+j) are L followed by j ones when a[0..K) is L and the j cells that
follow hold 1. -/
theorem rd_ones (a : Buf) (K j : Nat) (L : List Int) (h : rd a K = L)
    (h1 : ∀ i : Nat, K ≤ i → i < K + j → a i = 1) :
    rd a (K + j) = L ++ List.replicate j 1 := by
  rw [rd_add, h]
  congr 1
  apply List.eq_replicate_iff.mpr
  refine ⟨by simp, ?_⟩
  intro b hb
  obtain ⟨i, hi, rfl⟩ := List.mem_map.mp hb
  have hi2 : i < j := List.mem_range.mp hi
  have := h1 (K + i) (by omega) (by omega)
  simpa using this

theorem rd_ones_inv (a : Buf) (K j : Nat) (L : List Int) (hL : L.length = K)
    (h : rd a (K + j) = L ++ List.replicate j 1) :
    rd a K = L ∧ ∀ i : Nat, K ≤ i → i < K + j → a i = 1 := by
  rw [rd_add] at h
  obtain ⟨e1, e2⟩ := List.append_inj h (by rw [rd_length, hL])
  refine ⟨e1, ?_⟩
  intro i hi1 hi2
  have hmem : a ((K : Int) + ((i - K : Nat) : Int)) ∈
      (List.range j).map (fun (i : Nat) => a ((K : Int) + i)) :=
    List.mem_map.mpr ⟨i - K, List.mem_range.mpr (by omega), rfl⟩
  rw [e2] at hmem
  have := List.eq_of_mem_replicate hmem
  have hc : (K : Int) + ((i - K : Nat) : Int) = i := by omega
  rwa [hc] at this

theorem sum_ge_length (c : List Int) (h : ∀ x ∈ c, 1 ≤ x) : (c.length : Int) ≤ c.sum := by
  induction c with
  | nil => simp
  | cons x c ih =>
    have h1 := h x (List.mem_cons_self _ _)
    have h2 := ih (fun y hy => h y (List.mem_cons_of_mem _ hy))
    simp only [List.length_cons, List.sum_cons]
    push_cast
    omega

/-! ## The recursion of desc -/

theorem desc_zero (m : Nat) : desc m 0 = [[]] := by
  rw [desc, if_pos rfl]

theorem desc_zero_left (n : Nat) (h : 0 < n) : desc 0 n = [] := by
  rw [desc, if_neg (by omega), if_pos rfl]

theorem desc_rec (m n : Nat) (hm : 0 < m) (h : m ≤ n) :
    desc m n = (desc m (n - m)).map (fun l => (m : Int) :: l) ++ desc (m - 1) n := by
  rw [desc, if_neg (by omega), if_neg (by omega), if_pos h]

theorem desc_skip (m n : Nat) (hn : 0 < n) (h : n < m) : desc m n = desc (m - 1) n := by
  rw [desc, if_neg (by omega), if_neg (by omega), if_neg (by omega), List.nil_append]

theorem desc_ge (m n : Nat) (h : n ≤ m) : desc m n = desc n n := by
  induction m with
  | zero =>
    have : n = 0 := by omega
    subst this; rfl
  | succ m ih =>
    by_cases hn : n = m + 1
    · subst hn; rfl
    · by_cases h0 : n = 0
      · subst h0; rw [desc_zero, desc_zero]
      · rw [desc_skip (m + 1) n (by omega) (by omega)]
        exact ih (by omega)

theorem desc_self (n : Nat) (hn : 0 < n) : desc n n = [(n : Int)] :: desc (n - 1) n := by
  rw [desc_rec n n hn (le_refl _), Nat.sub_self, desc_zero]
  rfl

theorem desc_one (n : Nat) (hn : 0 < n) : desc 1 n = [List.replicate n 1] := by
  induction n with
  | zero => omega
  | succ n ih =>
    rw [desc_rec 1 (n + 1) (by omega) (by omega)]
    simp only [Nat.add_sub_cancel, Nat.sub_self]
    rw [desc_zero_left (n + 1) (by omega)]
    by_cases h0 : n = 0
    · subst h0
      rw [desc_zero]
      rfl
    · rw [ih (by omega)]
      simp [List.replicate_succ]

/-- The count and the log after the visits of c ++ l for l in desc m (n - m) after m and
then in desc (m - 1) n are those after the visits for l in desc m n. -/
theorem desc_log_split (N : Int) (v : Bool) (c : List Int) (m n : Nat)
    (hm : 0 < m) (h : m ≤ n) (cnt : Nat) (out : List partition_t) :
    cadd (cadd cnt (desc m (n - m)).length) (desc (m - 1) n).length
      = cadd cnt (desc m n).length ∧
    out ++ vlog v ((desc m (n - m)).map (psnap N (c ++ [(m : Int)])))
        ++ vlog v ((desc (m - 1) n).map (psnap N c))
      = out ++ vlog v ((desc m n).map (psnap N c)) := by
  rw [desc_rec m n hm h]
  simp only [List.length_append, List.length_map, List.map_append, List.map_map, vlog_append,
    cadd_cadd, psnap_cons, List.append_assoc, and_self]

/-- The same when the first visit is that of c ++ [n]. -/
theorem desc_log_self (N : Int) (v : Bool) (c : List Int) (m n : Nat)
    (hn : 0 < n) (h : n ≤ m) (cnt : Nat) (out : List partition_t) :
    cadd (cadd cnt 1) (desc (n - 1) n).length = cadd cnt (desc m n).length ∧
    out ++ vlog v [psnap N c [(n : Int)]] ++ vlog v ((desc (n - 1) n).map (psnap N c))
      = out ++ vlog v ((desc m n).map (psnap N c)) := by
  rw [desc_ge m n h, desc_self n hn]
  simp only [List.length_cons, List.map_cons, cadd_cadd, List.append_assoc, ← vlog_append,
    List.singleton_append, Nat.add_comm 1, and_self]

theorem Ones.wr_succ {a : Buf} {K : Nat} (h : Ones a K) (j v : Int) (hj : j = (K : Int)) :
    Ones (wr a j v) (K + 1) := by
  intro i hi1 hi2
  rw [wr_other _ _ _ _ (by omega)]
  exact h i (by omega) hi2

theorem Ones.wr_one {a : Buf} {K : Nat} (h : Ones a (K + 1)) (hK : K ≤ 200) :
    Ones (wr a K 1) K := by
  intro i hi1 hi2
  by_cases e : i = K
  · subst e
    exact wr_same _ _ _ (by omega) (by omega)
  · rw [wr_other _ _ _ _ (by omega)]
    exact h i (by omega) hi2

theorem Ones.mono {a : Buf} {K K' : Nat} (h : Ones a K) (hK : K ≤ K') : Ones a K' :=
  fun i hi1 hi2 => h i (by omega) hi2

theorem Ones.rd {a : Buf} {K : Nat} (h : Ones a K) (j : Nat) (L : List Int)
    (hL : rd a K = L) (hj : K + j ≤ 201) : rd a (K + j) = L ++ List.replicate j 1 :=
  rd_ones a K j L hL (fun i hi1 hi2 => h i hi1 (by omega))

theorem rd_zero_mem (a : Buf) (K : Nat) (hK : 0 < K) : a 0 ∈ rd a K :=
  List.mem_map.mpr ⟨0, List.mem_range.mpr hK, rfl⟩

theorem Ones.wr_lt {a : Buf} {K : Nat} (h : Ones a K) (j v : Int) (hj : j < (K : Int)) :
    Ones (wr a j v) K := by
  intro i hi1 hi2
  rw [wr_other _ _ _ _ (by omega)]
  exact h i hi1 hi2

theorem ones_init (mem : Buf) (n : Int) : Ones (wr (init_partition mem 1) 0 n) 1 := by
  intro i hi1 hi2
  rw [wr_other _ _ _ _ (by omega), init_partition_apply]
  have : (0 : Int) ≤ (i : Int) ∧ (i : Int) ≤ 200 := by omega
  rw [if_pos this]


theorem Reach.tail_of_ne {σ : Type} {f : σ → σ} {s s' : σ} (h : Reach f s s') (hne : s ≠ s') :
    Reach f (f s) s' := by
  obtain ⟨t, rfl⟩ := h
  cases t with
  | zero => exact absurd rfl hne
  | succ t => exact ⟨t, rfl⟩

theorem vlog_cons (v : Bool) (p : partition_t) (l : List partition_t) :
    vlog v (p :: l) = vlog v [p] ++ vlog v l := by
  cases v <;> simp [vlog]

/-! ## rule_asc visits the ascending compositions -/

/-- From the test of the inner loop with x = m, y = n - m and the parts c in front,
rule_asc visits c ++ l for every l of asc m n, in order, and is back at the test of the
outer loop with the parts c ++ [n]. -/
theorem rule_asc_inner (N : Int) (v : Bool) (d : Nat) :
    ∀ (m n : Nat) (c : List Int) (a : Buf) (cnt : Nat) (out : List partition_t),
      2 * n - m < d → 1 ≤ m → m ≤ n → c.length + n ≤ 201 → rd a c.length = c →
      ∃ a' x' y', Reach (rule_asc_step N v)
        ⟨.inner, a, c.length, m, (n : Int) - m, cnt, out⟩
        ⟨.outer, a', c.length, x', y', cadd cnt (asc m n).length,
          out ++ vlog v ((asc m n).map (psnap N c))⟩ ∧
        rd a' (c.length + 1) = c ++ [(n : Int)] := by
  induction d with
  | zero => intro m n c a cnt out h; omega
  | succ d ih =>
    intro m n c a cnt out hd hm hmn hlen hrd
    by_cases h2 : 2 * m ≤ n
    · -- a[k] = x; y -= x; k++
      have hrd1 : rd (wr a c.length m) (c ++ [(m : Int)]).length = c ++ [(m : Int)] := by
        simp only [List.length_append, List.length_singleton]
        exact rd_wr_snoc a _ _ c hrd (by omega)
      obtain ⟨a1, x1, y1, hr1, hrd2⟩ := ih m (n - m) (c ++ [(m : Int)]) (wr a c.length m) cnt out
        (by omega) hm (by omega) (by simp; omega) hrd1
      have hlen1 : (c ++ [(m : Int)]).length = c.length + 1 := by simp
      rw [hlen1] at hr1 hrd2
      -- back at the test of the outer loop with the parts c ++ [m, n - m]
      obtain ⟨hrd3, hq⟩ := rd_snoc_inv a1 _ _ _ hrd2
      obtain ⟨hrd4, hp⟩ := rd_snoc_inv a1 _ _ _ hrd3
      obtain ⟨a2, x2, y2, hr2, hrd5⟩ := ih (m + 1) n c a1 (cadd cnt (asc m (n - m)).length)
        (out ++ vlog v ((asc m (n - m)).map (psnap N (c ++ [(m : Int)])))) (by omega) (by omega)
        (by omega) hlen hrd4
      obtain ⟨e1, e2⟩ := asc_log_split N v c m n ⟨hm, h2⟩ cnt out
      rw [e1, e2] at hr2
      refine ⟨a2, x2, y2, ?_, hrd5⟩
      refine Reach.step ⟨.inner, wr a c.length m, c.length + 1, m,
        ((n - m : Nat) : Int) - m, cnt, out⟩ ?_ ?_
      · have hxy : (m : Int) ≤ (n : Int) - m := by omega
        simp only [rule_asc_step, hxy, if_true]
        congr 1
        omega
      refine Reach.trans (by simpa using hr1) ?_
      refine Reach.step ⟨.inner, a1, c.length, (m + 1 : Nat), (n : Int) - (m + 1 : Nat),
        cadd cnt (asc m (n - m)).length,
        (out ++ vlog v ((asc m (n - m)).map (psnap N (c ++ [(m : Int)]))))⟩ ?_ hr2
      have hk : ¬ ((c.length : Int) + 1 = 0) := by omega
      have hq2 : a1 ((c.length : Int) + 1) = ((n - m : Nat) : Int) := by
        simpa using hq
      simp only [rule_asc_step, ne_eq, hk, not_false_eq_true, if_true, hq2,
        add_sub_cancel_right, hp]
      congr 1
      all_goals omega
    · -- p.a[k] = x + y; the visit
      have e : asc m n = [[(n : Int)]] := asc_base m n (by omega)
      have hw : rd (wr a c.length ((m : Int) + ((n : Int) - m))) (c.length + 1)
          = c ++ [(n : Int)] := by
        have : (m : Int) + ((n : Int) - m) = n := by ring
        rw [this]
        exact rd_wr_snoc a _ _ c hrd (by omega)
      refine ⟨wr a c.length ((m : Int) + ((n : Int) - m)), m, (n : Int) - m, ?_, hw⟩
      apply Reach.one
      have hxy : ¬ ((m : Int) ≤ (n : Int) - m) := by omega
      simp only [rule_asc_step, hxy, if_false, e, call_visit_eq, incr_eq_cadd, psnap, snap,
        List.length_singleton, List.map_cons, List.map_nil, List.length_append]
      have ht : ((c.length : Int) + 1).toNat = c.length + 1 := by omega
      rw [ht, hw]

/-- For 1 <= n <= MAXNUMP rule_asc returns after visiting exactly the list asc 1 n. -/
theorem rule_asc_run (mem : Buf) (n : Nat) (v : Bool) (h1 : 1 ≤ n) (h2 : n ≤ 200) :
    Returns (fun fuel => rule_asc fuel mem n v)
      (cadd 0 (asc 1 n).length, vlog v ((asc 1 n).map (psnap n []))) := by
  have hn0 : ¬ ((n : Int) < 0) := by omega
  have hn1 : ¬ ((n : Int) = 0) := by omega
  have e1 : wr (init_partition mem 0) 1 (n : Int) 1 = n := wr_same _ _ _ (by omega) (by omega)
  have e0 : wr (init_partition mem 0) 1 (n : Int) 0 = 0 := by
    rw [wr_other _ _ _ _ (by omega), init_partition_apply]
    simp
  have hinit : rule_asc_init mem n v = ⟨.outer, wr (init_partition mem 0) 1 n, 1, 0, 0, 0, []⟩ := by
    unfold rule_asc_init
    rw [if_neg hn0, if_neg hn1]
  rw [show (fun fuel => rule_asc fuel mem n v) = fun fuel =>
      (let s := (rule_asc_step n v)^[fuel] (rule_asc_init mem n v)
       if s.pc = .ret then some (s.count, s.out) else none) from rfl, hinit]
  generalize wr (init_partition mem 0) 1 (n : Int) = a0 at e0 e1
  obtain ⟨a', x', y', hr, _⟩ := rule_asc_inner n v (2 * n) 1 n [] a0 0 [] (by omega)
    (le_refl _) h1 (by simp; omega) rfl
  have hreach : Reach (rule_asc_step n v) ⟨.outer, a0, 1, 0, 0, 0, []⟩
      ⟨.ret, a', 0, x', y', cadd 0 (asc 1 n).length,
        vlog v ((asc 1 n).map (psnap n []))⟩ := by
    refine Reach.step ⟨.inner, a0, 0, 1, (n : Int) - 1, 0, []⟩ ?_ ?_
    · simp only [rule_asc_step, ne_eq, one_ne_zero, not_false_eq_true, if_true, e1,
        sub_self, e0, zero_add]
    refine Reach.trans (by simpa using hr) ?_
    apply Reach.one
    simp [rule_asc_step]
  obtain ⟨t0, ht⟩ := hreach.run (by simp [rule_asc_step])
  refine ⟨t0, fun fuel hf => ?_⟩
  simp only [ht fuel hf, if_true]

/-! ## accel_asc visits the ascending compositions -/

/-- From the test of the loop over the pairs (x, y) with x = m, y = n - m, when 3 m > n,
accel_asc visits c ++ l for every l of asc m n and is back at the outer test with the
parts c ++ [n] and y = n - 1. -/
theorem accel_asc_pair (N : Int) (v : Bool) (d : Nat) :
    ∀ (m n : Nat) (c : List Int) (a : Buf) (cnt : Nat) (out : List partition_t),
      n - m < d → 1 ≤ m → m ≤ n → n < 3 * m → c.length + n ≤ 201 → rd a c.length = c →
      ∃ a' x', Reach (accel_asc_step N v)
        ⟨.pair, a, c.length, (c.length : Int) + 1, m, (n : Int) - m, cnt, out⟩
        ⟨.outer, a', c.length, (c.length : Int) + 1, x', (n : Int) - 1,
          cadd cnt (asc m n).length, out ++ vlog v ((asc m n).map (psnap N c))⟩ ∧
        rd a' (c.length + 1) = c ++ [(n : Int)] := by
  induction d with
  | zero => intro m n c a cnt out h; omega
  | succ d ih =>
    intro m n c a cnt out hd hm hmn h3 hlen hrd
    by_cases h2 : 2 * m ≤ n
    · -- the visit of c ++ [x, y]; x++; y--
      have hw1 : rd (wr a c.length m) (c.length + 1) = c ++ [(m : Int)] :=
        rd_wr_snoc a _ _ c hrd (by omega)
      have hw2 : rd (wr (wr a c.length m) ((c.length : Int) + 1) ((n : Int) - m))
          (c.length + [(m : Int), (n : Int) - m].length) = c ++ [(m : Int), (n : Int) - m] := by
        have := rd_wr_snoc_int (wr a c.length m) (c.length + 1) ((c.length : Int) + 1)
          ((n : Int) - m) _ (by push_cast; rfl) hw1 (by omega)
        simpa using this
      have hrd1 : rd (wr (wr a c.length m) ((c.length : Int) + 1) ((n : Int) - m)) c.length
          = c := rd_append_inv _ _ _ hw2
      obtain ⟨a2, x2, hr2, hrd2⟩ := ih (m + 1) n c _ (cadd cnt 1)
        (out ++ vlog v [psnap N c [(m : Int), ((n : Int) - m)]])
        (by omega) (by omega) (by omega) (by omega) hlen hrd1
      obtain ⟨e1, e2⟩ := asc_log_pair N v c m n ⟨hm, h2⟩ h3 cnt out
      rw [e1, e2] at hr2
      refine ⟨a2, x2, ?_, hrd2⟩
      refine Reach.step _ ?_ hr2
      have hxy : (m : Int) ≤ (n : Int) - m := by omega
      have hs : snap N ((c.length : Int) + 1 + 1)
          (wr (wr a c.length m) ((c.length : Int) + 1) ((n : Int) - m))
          = psnap N c [(m : Int), (n : Int) - m] :=
        snap_psnap _ _ _ _ _ (by simp; omega) hw2
      simp only [accel_asc_step, hxy, if_true, call_visit_eq, incr_eq_cadd, hs]
      congr 1
      all_goals first | rfl | (push_cast; omega)
    · -- y += x - 1; p.a[k] = y + 1; the visit of c ++ [n]
      have e : asc m n = [[(n : Int)]] := asc_base m n (by omega)
      have hy : (n : Int) - m + ((m : Int) - 1) + 1 = n := by ring
      have hw : rd (wr a c.length ((n : Int) - m + ((m : Int) - 1) + 1)) (c.length + 1)
          = c ++ [(n : Int)] := by
        rw [hy]
        exact rd_wr_snoc a _ _ c hrd (by omega)
      refine ⟨_, m, ?_, hw⟩
      apply Reach.one
      have hxy : ¬ ((m : Int) ≤ (n : Int) - m) := by omega
      have hs : snap N ((c.length : Int) + 1)
          (wr a c.length ((n : Int) - m + ((m : Int) - 1) + 1)) = psnap N c [(n : Int)] :=
        snap_psnap _ _ _ _ _ (by simp) (by simpa using hw)
      simp only [accel_asc_step, hxy, if_false, e, call_visit_eq, incr_eq_cadd, hs,
        List.length_singleton, List.map_cons, List.map_nil]
      congr 1
      omega

/-- From the test of `while (2*x <= y)` with x = m, y = n - m and the parts c in front,
accel_asc visits c ++ l for every l of asc m n, in order, and is back at the outer test
with the parts c ++ [n] and y = n - 1. -/
theorem accel_asc_w2 (N : Int) (v : Bool) (d : Nat) :
    ∀ (m n : Nat) (c : List Int) (a : Buf) (l : Int) (cnt : Nat) (out : List partition_t),
      2 * n - m < d → 1 ≤ m → m ≤ n → c.length + n ≤ 201 → rd a c.length = c →
      ∃ a' l' x', Reach (accel_asc_step N v)
        ⟨.w2, a, c.length, l, m, (n : Int) - m, cnt, out⟩
        ⟨.outer, a', c.length, l', x', (n : Int) - 1,
          cadd cnt (asc m n).length, out ++ vlog v ((asc m n).map (psnap N c))⟩ ∧
        rd a' (c.length + 1) = c ++ [(n : Int)] := by
  induction d with
  | zero => intro m n c a l cnt out h; omega
  | succ d ih =>
    intro m n c a l cnt out hd hm hmn hlen hrd
    by_cases h3 : 3 * m ≤ n
    · -- a[k] = x; y -= x; k++
      have hrd1 : rd (wr a c.length m) (c ++ [(m : Int)]).length = c ++ [(m : Int)] := by
        simp only [List.length_append, List.length_singleton]
        exact rd_wr_snoc a _ _ c hrd (by omega)
      obtain ⟨a1, l1, x1, hr1, hrd2⟩ := ih m (n - m) (c ++ [(m : Int)]) (wr a c.length m) l
        cnt out (by omega) hm (by omega) (by simp; omega) hrd1
      have hlen1 : (c ++ [(m : Int)]).length = c.length + 1 := by simp
      rw [hlen1] at hr1 hrd2
      obtain ⟨hrd3, _⟩ := rd_snoc_inv a1 _ _ _ hrd2
      obtain ⟨hrd4, hp⟩ := rd_snoc_inv a1 _ _ _ hrd3
      obtain ⟨a2, l2, x2, hr2, hrd5⟩ := ih (m + 1) n c a1 l1 (cadd cnt (asc m (n - m)).length)
        (out ++ vlog v ((asc m (n - m)).map (psnap N (c ++ [(m : Int)])))) (by omega) (by omega)
        (by omega) hlen hrd4
      obtain ⟨e1, e2⟩ := asc_log_split N v c m n ⟨hm, by omega⟩ cnt out
      rw [e1, e2] at hr2
      refine ⟨a2, l2, x2, ?_, hrd5⟩
      refine Reach.step ⟨.w2, wr a c.length m, ((c.length + 1 : Nat) : Int), l, m,
        ((n - m : Nat) : Int) - m, cnt, out⟩ ?_ ?_
      · have hxy : 2 * (m : Int) ≤ (n : Int) - m := by omega
        simp only [accel_asc_step, hxy, if_true]
        congr 1
        all_goals omega
      refine Reach.trans hr1 ?_
      refine Reach.step _ ?_ hr2
      have hk : ¬ (((c.length + 1 : Nat) : Int) = 0) := by omega
      have hk1 : ((c.length + 1 : Nat) : Int) - 1 = c.length := by omega
      simp only [accel_asc_step, ne_eq, hk, not_false_eq_true, if_true, hk1, hp]
      congr 1
      all_goals omega
    · -- l = k + 1 and the loop over the pairs
      obtain ⟨a1, x1, hr1, hrd1⟩ := accel_asc_pair N v (n - m + 1) m n c a cnt out
        (by omega) hm hmn (by omega) hlen hrd
      refine ⟨a1, (c.length : Int) + 1, x1, ?_, hrd1⟩
      refine Reach.step _ ?_ hr1
      have hxy : ¬ (2 * (m : Int) ≤ (n : Int) - m) := by omega
      simp only [accel_asc_step, hxy, if_false]

/-- For 1 <= n <= MAXNUMP accel_asc returns after visiting exactly the list asc 1 n. -/
theorem accel_asc_run (mem : Buf) (n : Nat) (v : Bool) (h1 : 1 ≤ n) (h2 : n ≤ 200) :
    Returns (fun fuel => accel_asc fuel mem n v)
      (cadd 0 (asc 1 n).length, vlog v ((asc 1 n).map (psnap n []))) := by
  have hn0 : ¬ ((n : Int) < 0) := by omega
  have hn1 : ¬ ((n : Int) = 0) := by omega
  have e0 : init_partition mem 0 0 = 0 := by
    rw [init_partition_apply]
    simp
  have hinit : accel_asc_init mem n v
      = ⟨.outer, init_partition mem 0, 1, 0, 0, (n : Int) - 1, 0, []⟩ := by
    unfold accel_asc_init
    rw [if_neg hn0, if_neg hn1]
  rw [show (fun fuel => accel_asc fuel mem n v) = fun fuel =>
      (let s := (accel_asc_step n v)^[fuel] (accel_asc_init mem n v)
       if s.pc = .ret then some (s.count, s.out) else none) from rfl, hinit]
  generalize init_partition mem 0 = a0 at e0
  obtain ⟨a', l', x', hr, _⟩ := accel_asc_w2 n v (2 * n) 1 n [] a0 0 0 [] (by omega)
    (le_refl _) h1 (by simp; omega) rfl
  have hreach : Reach (accel_asc_step n v) ⟨.outer, a0, 1, 0, 0, (n : Int) - 1, 0, []⟩
      ⟨.ret, a', 0, l', x', (n : Int) - 1, cadd 0 (asc 1 n).length,
        vlog v ((asc 1 n).map (psnap n []))⟩ := by
    refine Reach.step ⟨.w2, a0, 0, 0, 1, (n : Int) - 1, 0, []⟩ ?_ ?_
    · simp only [accel_asc_step, ne_eq, one_ne_zero, not_false_eq_true, if_true,
        sub_self, e0, zero_add]
    refine Reach.trans (by simpa using hr) ?_
    apply Reach.one
    simp [accel_asc_step]
  obtain ⟨t0, ht⟩ := hreach.run (by simp [accel_asc_step])
  refine ⟨t0, fun fuel hf => ?_⟩
  simp only [ht fuel hf, if_true]

/-! ## merca1 visits the ascending compositions -/

/-- From the test of the loop over the pairs (x, y) with x = m, y = n - m, when 3 m > n,
merca1 visits c ++ l for every l of asc m n and is back at the outer test with the
parts c ++ [n]; the flag is cleared if c is empty, otherwise k, x, y are set for the
part before. -/
theorem merca1_pair (N : Int) (v : Bool) (d : Nat) :
    ∀ (m n : Nat) (c : List Int) (a : Buf) (cnt : Nat) (out : List partition_t),
      n - m < d → 1 ≤ m → m ≤ n → n < 3 * m → c.length + n ≤ 201 → rd a c.length = c →
      ∃ a' k' x' y' f', Reach (merca1_step N v)
        ⟨.pair, a, (c.length : Int) - 1, m, (n : Int) - m, true, cnt, out⟩
        ⟨.outer, a', k', x', y', f',
          cadd cnt (asc m n).length, out ++ vlog v ((asc m n).map (psnap N c))⟩ ∧
        rd a' (c.length + 1) = c ++ [(n : Int)] ∧ (c.length = 0 → f' = false) ∧
        (0 < c.length → f' = true ∧ k' = (c.length : Int) - 2 ∧
          x' = a' ((c.length : Int) - 1) + 1 ∧ y' = (n : Int) - 1) := by
  induction d with
  | zero => intro m n c a cnt out h; omega
  | succ d ih =>
    intro m n c a cnt out hd hm hmn h3 hlen hrd
    have hk0 : (c.length : Int) - 1 + 1 = c.length := by ring
    by_cases h2 : 2 * m ≤ n
    · -- the visit of c ++ [x, y]; x++; y--
      have hw1 : rd (wr a c.length m) (c.length + 1) = c ++ [(m : Int)] :=
        rd_wr_snoc a _ _ c hrd (by omega)
      have hw2 : rd (wr (wr a c.length m) ((c.length : Int) + 1) ((n : Int) - m))
          (c.length + [(m : Int), (n : Int) - m].length) = c ++ [(m : Int), (n : Int) - m] := by
        have := rd_wr_snoc_int (wr a c.length m) (c.length + 1) ((c.length : Int) + 1)
          ((n : Int) - m) _ (by push_cast; rfl) hw1 (by omega)
        simpa using this
      have hrd1 : rd (wr (wr a c.length m) ((c.length : Int) + 1) ((n : Int) - m)) c.length
          = c := rd_append_inv _ _ _ hw2
      obtain ⟨a2, k2, x2, y2, f2, hr2, hrd2, hf2⟩ := ih (m + 1) n c _ (cadd cnt 1)
        (out ++ vlog v [psnap N c [(m : Int), ((n : Int) - m)]])
        (by omega) (by omega) (by omega) (by omega) hlen hrd1
      obtain ⟨e1, e2⟩ := asc_log_pair N v c m n ⟨hm, h2⟩ h3 cnt out
      rw [e1, e2] at hr2
      refine ⟨a2, k2, x2, y2, f2, ?_, hrd2, hf2⟩
      refine Reach.step _ ?_ hr2
      have hxy : (m : Int) ≤ (n : Int) - m := by omega
      have hs : snap N ((c.length : Int) + 1 + 1)
          (wr (wr a c.length m) ((c.length : Int) + 1) ((n : Int) - m))
          = psnap N c [(m : Int), (n : Int) - m] :=
        snap_psnap _ _ _ _ _ (by simp; omega) hw2
      simp only [merca1_step, hxy, if_true, call_visit_eq, incr_eq_cadd, hk0, hs]
      congr 1
      all_goals first | rfl | (push_cast; omega)
    · -- k++; p.a[k] = x + y; the visit of c ++ [n]; k--; the step back
      have e : asc m n = [[(n : Int)]] := asc_base m n (by omega)
      have hy : (m : Int) + ((n : Int) - m) = n := by ring
      have hw : rd (wr a c.length ((m : Int) + ((n : Int) - m))) (c.length + 1)
          = c ++ [(n : Int)] := by
        rw [hy]
        exact rd_wr_snoc a _ _ c hrd (by omega)
      have hxy : ¬ ((m : Int) ≤ (n : Int) - m) := by omega
      have hs : snap N ((c.length : Int) + 1)
          (wr a c.length ((m : Int) + ((n : Int) - m))) = psnap N c [(n : Int)] :=
        snap_psnap _ _ _ _ _ (by simp) (by simpa using hw)
      by_cases hc : 0 < c.length
      · have hk : (c.length : Int) - 1 ≥ 0 := by omega
        refine ⟨_, (c.length : Int) - 1 - 1, _, (n : Int) - m + m - 1, true, ?_, hw, by omega,
          fun _ => ⟨rfl, by ring, rfl, by ring⟩⟩
        apply Reach.one
        simp only [merca1_step, hxy, if_false, e, call_visit_eq, incr_eq_cadd, hk0, hs,
          List.length_singleton, List.map_cons, List.map_nil, add_sub_cancel_right, hk, if_true]
      · have hk : ¬ ((c.length : Int) - 1 ≥ 0) := by omega
        refine ⟨_, (c.length : Int) - 1, m, (n : Int) - m, false, ?_, hw, fun _ => rfl,
          fun h => absurd h hc⟩
        apply Reach.one
        simp only [merca1_step, hxy, if_false, e, call_visit_eq, incr_eq_cadd, hk0, hs,
          List.length_singleton, List.map_cons, List.map_nil, add_sub_cancel_right, hk]

/-- From the test of `while (2*x <= y)` with x = m, y = n - m and the parts c in front,
merca1 visits c ++ l for every l of asc m n, in order, and is back at the outer test. -/
theorem merca1_w2 (N : Int) (v : Bool) (d : Nat) :
    ∀ (m n : Nat) (c : List Int) (a : Buf) (cnt : Nat) (out : List partition_t),
      2 * n - m < d → 1 ≤ m → m ≤ n → c.length + n ≤ 201 → rd a c.length = c →
      ∃ a' k' x' y' f', Reach (merca1_step N v)
        ⟨.w2, a, (c.length : Int) - 1, m, (n : Int) - m, true, cnt, out⟩
        ⟨.outer, a', k', x', y', f',
          cadd cnt (asc m n).length, out ++ vlog v ((asc m n).map (psnap N c))⟩ ∧
        rd a' (c.length + 1) = c ++ [(n : Int)] ∧ (c.length = 0 → f' = false) ∧
        (0 < c.length → f' = true ∧ k' = (c.length : Int) - 2 ∧
          x' = a' ((c.length : Int) - 1) + 1 ∧ y' = (n : Int) - 1) := by
  induction d with
  | zero => intro m n c a cnt out h; omega
  | succ d ih =>
    intro m n c a cnt out hd hm hmn hlen hrd
    have hk0 : (c.length : Int) - 1 + 1 = c.length := by ring
    by_cases h3 : 3 * m ≤ n
    · -- k++; a[k] = x; y -= x
      have hrd1 : rd (wr a c.length m) (c ++ [(m : Int)]).length = c ++ [(m : Int)] := by
        simp only [List.length_append, List.length_singleton]
        exact rd_wr_snoc a _ _ c hrd (by omega)
      obtain ⟨a1, k1, x1, y1, f1, hr1, hrd2, _, hf1⟩ := ih m (n - m) (c ++ [(m : Int)])
        (wr a c.length m) cnt out (by omega) hm (by omega) (by simp; omega) hrd1
      have hlen1 : (c ++ [(m : Int)]).length = c.length + 1 := by simp
      rw [hlen1] at hr1 hrd2 hf1
      obtain ⟨hf, hk1, hx1, hy1⟩ := hf1 (by omega)
      obtain ⟨hrd3, _⟩ := rd_snoc_inv a1 _ _ _ hrd2
      obtain ⟨hrd4, hp⟩ := rd_snoc_inv a1 _ _ _ hrd3
      have hk2 : ((c.length + 1 : Nat) : Int) - 1 = c.length := by omega
      rw [hk2, hp] at hx1
      subst hf hk1 hx1 hy1
      obtain ⟨a2, k2, x2, y2, f2, hr2, hrd5, hf2⟩ := ih (m + 1) n c a1
        (cadd cnt (asc m (n - m)).length)
        (out ++ vlog v ((asc m (n - m)).map (psnap N (c ++ [(m : Int)])))) (by omega) (by omega)
        (by omega) hlen hrd4
      obtain ⟨e1, e2⟩ := asc_log_split N v c m n ⟨hm, by omega⟩ cnt out
      rw [e1, e2] at hr2
      refine ⟨a2, k2, x2, y2, f2, ?_, hrd5, hf2⟩
      refine Reach.step ⟨.w2, wr a c.length m, ((c.length + 1 : Nat) : Int) - 1, m,
        ((n - m : Nat) : Int) - m, true, cnt, out⟩ ?_ ?_
      · have hxy : 2 * (m : Int) ≤ (n : Int) - m := by omega
        simp only [merca1_step, hxy, if_true, hk0]
        congr 1
        all_goals omega
      refine Reach.trans hr1 ?_
      refine Reach.step _ ?_ hr2
      simp only [merca1_step, if_true]
      congr 1
      all_goals omega
    · -- the loop over the pairs
      obtain ⟨a1, k1, x1, y1, f1, hr1, hrd1, hf1⟩ := merca1_pair N v (n - m + 1) m n c a cnt out
        (by omega) hm hmn (by omega) hlen hrd
      refine ⟨a1, k1, x1, y1, f1, ?_, hrd1, hf1⟩
      refine Reach.step _ ?_ hr1
      have hxy : ¬ (2 * (m : Int) ≤ (n : Int) - m) := by omega
      simp only [merca1_step, hxy, if_false]

/-- For 1 <= n <= MAXNUMP merca1 returns after visiting exactly the list asc 1 n. -/
theorem merca1_run (mem : Buf) (n : Nat) (v : Bool) (h1 : 1 ≤ n) (h2 : n ≤ 200) :
    Returns (fun fuel => merca1 fuel mem n v)
      (cadd 0 (asc 1 n).length, vlog v ((asc 1 n).map (psnap n []))) := by
  have hn0 : ¬ ((n : Int) < 0) := by omega
  have hn1 : ¬ ((n : Int) = 0) := by omega
  have hinit : merca1_init mem n v
      = ⟨.outer, init_partition mem 0, -1, 1, (n : Int) - 1, true, 0, []⟩ := by
    unfold merca1_init
    rw [if_neg hn0, if_neg hn1]
  rw [show (fun fuel => merca1 fuel mem n v) = fun fuel =>
      (let s := (merca1_step n v)^[fuel] (merca1_init mem n v)
       if s.pc = .ret then some (s.count, s.out) else none) from rfl, hinit]
  generalize init_partition mem 0 = a0
  obtain ⟨a', k', x', y', f', hr, _, hf, _⟩ := merca1_w2 n v (2 * n) 1 n [] a0 0 [] (by omega)
    (le_refl _) h1 (by simp; omega) rfl
  have hf' : f' = false := hf rfl
  subst hf'
  have hreach : Reach (merca1_step n v) ⟨.outer, a0, -1, 1, (n : Int) - 1, true, 0, []⟩
      ⟨.ret, a', k', x', y', false, cadd 0 (asc 1 n).length,
        vlog v ((asc 1 n).map (psnap n []))⟩ := by
    refine Reach.step ⟨.w2, a0, -1, 1, (n : Int) - 1, true, 0, []⟩ ?_ ?_
    · simp only [merca1_step, if_true]
    refine Reach.trans (by simpa using hr) ?_
    apply Reach.one
    simp [merca1_step]
  obtain ⟨t0, ht⟩ := hreach.run (by simp [merca1_step])
  refine ⟨t0, fun fuel hf => ?_⟩
  simp only [ht fuel hf, if_true]

/-! ## merca2 visits the ascending compositions -/

/-- From the test of the loop over the pairs (x, y) with x = m, y = n - m, when 3 m > n,
merca2 visits c ++ l for every l of asc m n and is back at the outer test with the
parts c ++ [n], k one less, x one more than the part before and y = n - 1. -/
theorem merca2_pair (N : Int) (v : Bool) (d : Nat) :
    ∀ (m n : Nat) (c : List Int) (a : Buf) (cnt : Nat) (out : List partition_t),
      n - m < d → 1 ≤ m → m ≤ n → n < 3 * m → c.length + n ≤ 201 → rd a c.length = c →
      ∃ a', Reach (merca2_step N v)
        ⟨.pair, a, c.length, (c.length : Int) + 1, m, (n : Int) - m, cnt, out⟩
        ⟨.outer, a', (c.length : Int) - 1, (c.length : Int) + 1,
          a' ((c.length : Int) - 1) + 1, (n : Int) - 1,
          cadd cnt (asc m n).length, out ++ vlog v ((asc m n).map (psnap N c))⟩ ∧
        rd a' (c.length + 1) = c ++ [(n : Int)] := by
  induction d with
  | zero => intro m n c a cnt out h; omega
  | succ d ih =>
    intro m n c a cnt out hd hm hmn h3 hlen hrd
    by_cases h2 : 2 * m ≤ n
    · -- the visit of c ++ [x, y]; x++; y--
      have hw1 : rd (wr a c.length m) (c.length + 1) = c ++ [(m : Int)] :=
        rd_wr_snoc a _ _ c hrd (by omega)
      have hw2 : rd (wr (wr a c.length m) ((c.length : Int) + 1) ((n : Int) - m))
          (c.length + [(m : Int), (n : Int) - m].length) = c ++ [(m : Int), (n : Int) - m] := by
        have := rd_wr_snoc_int (wr a c.length m) (c.length + 1) ((c.length : Int) + 1)
          ((n : Int) - m) _ (by push_cast; rfl) hw1 (by omega)
        simpa using this
      have hrd1 : rd (wr (wr a c.length m) ((c.length : Int) + 1) ((n : Int) - m)) c.length
          = c := rd_append_inv _ _ _ hw2
      obtain ⟨a2, hr2, hrd2⟩ := ih (m + 1) n c _ (cadd cnt 1)
        (out ++ vlog v [psnap N c [(m : Int), ((n : Int) - m)]])
        (by omega) (by omega) (by omega) (by omega) hlen hrd1
      obtain ⟨e1, e2⟩ := asc_log_pair N v c m n ⟨hm, h2⟩ h3 cnt out
      rw [e1, e2] at hr2
      refine ⟨a2, ?_, hrd2⟩
      refine Reach.step _ ?_ hr2
      have hxy : (m : Int) ≤ (n : Int) - m := by omega
      have hs : snap N ((c.length : Int) + 1 + 1)
          (wr (wr a c.length m) ((c.length : Int) + 1) ((n : Int) - m))
          = psnap N c [(m : Int), (n : Int) - m] :=
        snap_psnap _ _ _ _ _ (by simp; omega) hw2
      simp only [merca2_step, hxy, if_true, call_visit_eq, incr_eq_cadd, hs]
      congr 1
      all_goals first | rfl | (push_cast; omega)
    · -- y += x - 1; p.a[k] = y + 1; the visit of c ++ [n]; k--; x = p.a[k] + 1
      have e : asc m n = [[(n : Int)]] := asc_base m n (by omega)
      have hy : (n : Int) - m + ((m : Int) - 1) + 1 = n := by ring
      have hw : rd (wr a c.length ((n : Int) - m + ((m : Int) - 1) + 1)) (c.length + 1)
          = c ++ [(n : Int)] := by
        rw [hy]
        exact rd_wr_snoc a _ _ c hrd (by omega)
      refine ⟨_, ?_, hw⟩
      apply Reach.one
      have hxy : ¬ ((m : Int) ≤ (n : Int) - m) := by omega
      have hs : snap N ((c.length : Int) + 1)
          (wr a c.length ((n : Int) - m + ((m : Int) - 1) + 1)) = psnap N c [(n : Int)] :=
        snap_psnap _ _ _ _ _ (by simp) (by simpa using hw)
      simp only [merca2_step, hxy, if_false, e, call_visit_eq, incr_eq_cadd, hs,
        List.length_singleton, List.map_cons, List.map_nil]
      congr 1
      omega

/-- From the test of `while (2*x <= y)` with x = m, y = n - m and the parts c in front,
merca2 visits c ++ l for every l of asc m n, in order, and is back at the outer test. -/
theorem merca2_w2 (N : Int) (v : Bool) (d : Nat) :
    ∀ (m n : Nat) (c : List Int) (a : Buf) (t : Int) (cnt : Nat) (out : List partition_t),
      2 * n - m < d → 1 ≤ m → m ≤ n → c.length + n ≤ 201 → rd a c.length = c →
      ∃ a' t', Reach (merca2_step N v)
        ⟨.w2, a, c.length, t, m, (n : Int) - m, cnt, out⟩
        ⟨.outer, a', (c.length : Int) - 1, t', a' ((c.length : Int) - 1) + 1, (n : Int) - 1,
          cadd cnt (asc m n).length, out ++ vlog v ((asc m n).map (psnap N c))⟩ ∧
        rd a' (c.length + 1) = c ++ [(n : Int)] := by
  induction d with
  | zero => intro m n c a t cnt out h; omega
  | succ d ih =>
    intro m n c a t cnt out hd hm hmn hlen hrd
    by_cases h3 : 3 * m ≤ n
    · -- a[k] = x; y -= x; k++
      have hrd1 : rd (wr a c.length m) (c ++ [(m : Int)]).length = c ++ [(m : Int)] := by
        simp only [List.length_append, List.length_singleton]
        exact rd_wr_snoc a _ _ c hrd (by omega)
      obtain ⟨a1, t1, hr1, hrd2⟩ := ih m (n - m) (c ++ [(m : Int)]) (wr a c.length m) t
        cnt out (by omega) hm (by omega) (by simp; omega) hrd1
      have hlen1 : (c ++ [(m : Int)]).length = c.length + 1 := by simp
      rw [hlen1] at hr1 hrd2
      obtain ⟨hrd3, _⟩ := rd_snoc_inv a1 _ _ _ hrd2
      obtain ⟨hrd4, hp⟩ := rd_snoc_inv a1 _ _ _ hrd3
      obtain ⟨a2, t2, hr2, hrd5⟩ := ih (m + 1) n c a1 t1 (cadd cnt (asc m (n - m)).length)
        (out ++ vlog v ((asc m (n - m)).map (psnap N (c ++ [(m : Int)])))) (by omega) (by omega)
        (by omega) hlen hrd4
      obtain ⟨e1, e2⟩ := asc_log_split N v c m n ⟨hm, by omega⟩ cnt out
      rw [e1, e2] at hr2
      refine ⟨a2, t2, ?_, hrd5⟩
      refine Reach.step ⟨.w2, wr a c.length m, ((c.length + 1 : Nat) : Int), t, m,
        ((n - m : Nat) : Int) - m, cnt, out⟩ ?_ ?_
      · have hxy : 2 * (m : Int) ≤ (n : Int) - m := by omega
        simp only [merca2_step, hxy, if_true]
        congr 1
        all_goals omega
      have hk1 : ((c.length + 1 : Nat) : Int) - 1 = c.length := by omega
      rw [hk1, hp] at hr1
      refine Reach.trans hr1 ?_
      refine Reach.step _ ?_ hr2
      have hk : (c.length : Int) ≥ 0 := by omega
      simp only [merca2_step, hk, if_true]
      congr 1
      all_goals omega
    · -- t = k + 1 and the loop over the pairs
      obtain ⟨a1, hr1, hrd1⟩ := merca2_pair N v (n - m + 1) m n c a cnt out
        (by omega) hm hmn (by omega) hlen hrd
      refine ⟨a1, (c.length : Int) + 1, ?_, hrd1⟩
      refine Reach.step _ ?_ hr1
      have hxy : ¬ (2 * (m : Int) ≤ (n : Int) - m) := by omega
      simp only [merca2_step, hxy, if_false]

/-- For 1 <= n <= MAXNUMP merca2 returns after visiting exactly the list asc 1 n. -/
theorem merca2_run (mem : Buf) (n : Nat) (v : Bool) (h1 : 1 ≤ n) (h2 : n ≤ 200) :
    Returns (fun fuel => merca2 fuel mem n v)
      (cadd 0 (asc 1 n).length, vlog v ((asc 1 n).map (psnap n []))) := by
  have hn0 : ¬ ((n : Int) < 0) := by omega
  have hn1 : ¬ ((n : Int) = 0) := by omega
  have hinit : merca2_init mem n v
      = ⟨.outer, init_partition mem 0, 0, 0, 1, (n : Int) - 1, 0, []⟩ := by
    unfold merca2_init
    rw [if_neg hn0, if_neg hn1]
  rw [show (fun fuel => merca2 fuel mem n v) = fun fuel =>
      (let s := (merca2_step n v)^[fuel] (merca2_init mem n v)
       if s.pc = .ret then some (s.count, s.out) else none) from rfl, hinit]
  generalize init_partition mem 0 = a0
  obtain ⟨a', t', hr, _⟩ := merca2_w2 n v (2 * n) 1 n [] a0 0 0 [] (by omega)
    (le_refl _) h1 (by simp; omega) rfl
  have hreach : Reach (merca2_step n v) ⟨.outer, a0, 0, 0, 1, (n : Int) - 1, 0, []⟩
      ⟨.ret, a', -1, t', a' (-1) + 1, (n : Int) - 1, cadd 0 (asc 1 n).length,
        vlog v ((asc 1 n).map (psnap n []))⟩ := by
    refine Reach.step ⟨.w2, a0, 0, 0, 1, (n : Int) - 1, 0, []⟩ ?_ ?_
    · simp only [merca2_step, ge_iff_le, le_refl, if_true]
    refine Reach.trans (by simpa using hr) ?_
    apply Reach.one
    simp [merca2_step]
  obtain ⟨t0, ht⟩ := hreach.run (by simp [merca2_step])
  refine ⟨t0, fun fuel hf => ?_⟩
  simp only [ht fuel hf, if_true]

/-! ## merca3 visits the ascending compositions -/

/-- From the test of the loop over the pairs (r, s) with r = r0, s = T - r0, y = T, when
3 r0 > T, merca3 visits c1 ++ l for every l of asc r0 T and is back at the test of
`while (2*x <= y)` with x one more and y one less. -/
theorem merca3_rs (N : Int) (v : Bool) (d : Nat) :
    ∀ (r0 T : Nat) (c1 : List Int) (a : Buf) (k x : Int) (cnt : Nat) (out : List partition_t),
      T - r0 < d → 1 ≤ r0 → r0 ≤ T → T < 3 * r0 → c1.length + T ≤ 201 → rd a c1.length = c1 →
      ∃ a' r' s', Reach (merca3_step N v)
        ⟨.rs, a, k, r0, (T : Int) - r0, c1.length, (c1.length : Int) + 1, x, T, cnt, out⟩
        ⟨.w2, a', k, r', s', c1.length, (c1.length : Int) + 1, x + 1, (T : Int) - 1,
          cadd cnt (asc r0 T).length, out ++ vlog v ((asc r0 T).map (psnap N c1))⟩ ∧
        rd a' (c1.length + 1) = c1 ++ [(T : Int)] := by
  induction d with
  | zero => intro r0 T c1 a k x cnt out h; omega
  | succ d ih =>
    intro r0 T c1 a k x cnt out hd hr hrT h3 hlen hrd
    by_cases h2 : 2 * r0 ≤ T
    · -- the visit of c1 ++ [r, s]; r++; s--
      have hw1 : rd (wr a c1.length r0) (c1.length + 1) = c1 ++ [(r0 : Int)] :=
        rd_wr_snoc a _ _ c1 hrd (by omega)
      have hw2 : rd (wr (wr a c1.length r0) ((c1.length : Int) + 1) ((T : Int) - r0))
          (c1.length + [(r0 : Int), (T : Int) - r0].length)
          = c1 ++ [(r0 : Int), (T : Int) - r0] := by
        have := rd_wr_snoc_int (wr a c1.length r0) (c1.length + 1) ((c1.length : Int) + 1)
          ((T : Int) - r0) _ (by push_cast; rfl) hw1 (by omega)
        simpa using this
      have hrd1 : rd (wr (wr a c1.length r0) ((c1.length : Int) + 1) ((T : Int) - r0))
          c1.length = c1 := rd_append_inv _ _ _ hw2
      obtain ⟨a2, r2, s2, hr2, hrd2⟩ := ih (r0 + 1) T c1 _ k x (cadd cnt 1)
        (out ++ vlog v [psnap N c1 [(r0 : Int), ((T : Int) - r0)]])
        (by omega) (by omega) (by omega) (by omega) hlen hrd1
      obtain ⟨e1, e2⟩ := asc_log_pair N v c1 r0 T ⟨hr, h2⟩ h3 cnt out
      rw [e1, e2] at hr2
      refine ⟨a2, r2, s2, ?_, hrd2⟩
      refine Reach.step _ ?_ hr2
      have hxy : (r0 : Int) ≤ (T : Int) - r0 := by omega
      have hs : snap N ((c1.length : Int) + 1 + 1)
          (wr (wr a c1.length r0) ((c1.length : Int) + 1) ((T : Int) - r0))
          = psnap N c1 [(r0 : Int), (T : Int) - r0] :=
        snap_psnap _ _ _ _ _ (by simp; omega) hw2
      simp only [merca3_step, hxy, if_true, call_visit_eq, incr_eq_cadd, hs]
      congr 1
      all_goals first | rfl | (push_cast; omega)
    · -- p.a[t] = y; the visit of c1 ++ [y]; x++; y--
      have e : asc r0 T = [[(T : Int)]] := asc_base r0 T (by omega)
      have hw : rd (wr a c1.length (T : Int)) (c1.length + 1) = c1 ++ [(T : Int)] :=
        rd_wr_snoc a _ _ c1 hrd (by omega)
      refine ⟨_, r0, (T : Int) - r0, ?_, hw⟩
      apply Reach.one
      have hxy : ¬ ((r0 : Int) ≤ (T : Int) - r0) := by omega
      have hs : snap N ((c1.length : Int) + 1) (wr a c1.length (T : Int))
          = psnap N c1 [(T : Int)] :=
        snap_psnap _ _ _ _ _ (by simp) (by simpa using hw)
      simp only [merca3_step, hxy, if_false, e, call_visit_eq, incr_eq_cadd, hs,
        List.length_singleton, List.map_cons, List.map_nil]

/-- From the test of the loop over the pairs (x, y) with x = m, y = n - m, when 3 m > n,
merca3 visits c ++ l for every l of asc m n and is back at the outer test. -/
theorem merca3_pair (N : Int) (v : Bool) (d : Nat) :
    ∀ (m n : Nat) (c : List Int) (a : Buf) (r s u : Int) (cnt : Nat)
      (out : List partition_t),
      n - m < d → 1 ≤ m → m ≤ n → n < 3 * m → c.length + n ≤ 201 → rd a c.length = c →
      ∃ a', Reach (merca3_step N v)
        ⟨.pair, a, c.length, r, s, (c.length : Int) + 1, u, m, (n : Int) - m, cnt, out⟩
        ⟨.outer, a', (c.length : Int) - 1, r, s, (c.length : Int) + 1, u,
          a' ((c.length : Int) - 1) + 1, (n : Int) - 1,
          cadd cnt (asc m n).length, out ++ vlog v ((asc m n).map (psnap N c))⟩ ∧
        rd a' (c.length + 1) = c ++ [(n : Int)] := by
  induction d with
  | zero => intro m n c a r s u cnt out h; omega
  | succ d ih =>
    intro m n c a r s u cnt out hd hm hmn h3 hlen hrd
    by_cases h2 : 2 * m ≤ n
    · -- the visit of c ++ [x, y]; x++; y--
      have hw1 : rd (wr a c.length m) (c.length + 1) = c ++ [(m : Int)] :=
        rd_wr_snoc a _ _ c hrd (by omega)
      have hw2 : rd (wr (wr a c.length m) ((c.length : Int) + 1) ((n : Int) - m))
          (c.length + [(m : Int), (n : Int) - m].length) = c ++ [(m : Int), (n : Int) - m] := by
        have := rd_wr_snoc_int (wr a c.length m) (c.length + 1) ((c.length : Int) + 1)
          ((n : Int) - m) _ (by push_cast; rfl) hw1 (by omega)
        simpa using this
      have hrd1 : rd (wr (wr a c.length m) ((c.length : Int) + 1) ((n : Int) - m)) c.length
          = c := rd_append_inv _ _ _ hw2
      obtain ⟨a2, hr2, hrd2⟩ := ih (m + 1) n c _ r s u (cadd cnt 1)
        (out ++ vlog v [psnap N c [(m : Int), ((n : Int) - m)]])
        (by omega) (by omega) (by omega) (by omega) hlen hrd1
      obtain ⟨e1, e2⟩ := asc_log_pair N v c m n ⟨hm, h2⟩ h3 cnt out
      rw [e1, e2] at hr2
      refine ⟨a2, ?_, hrd2⟩
      refine Reach.step _ ?_ hr2
      have hxy : (m : Int) ≤ (n : Int) - m := by omega
      have hs : snap N ((c.length : Int) + 1 + 1)
          (wr (wr a c.length m) ((c.length : Int) + 1) ((n : Int) - m))
          = psnap N c [(m : Int), (n : Int) - m] :=
        snap_psnap _ _ _ _ _ (by simp; omega) hw2
      simp only [merca3_step, hxy, if_true, call_visit_eq, incr_eq_cadd, hs]
      congr 1
      all_goals first | rfl | (push_cast; omega)
    · -- y += x - 1; p.a[k] = y + 1; the visit of c ++ [n]; k--; x = p.a[k] + 1
      have e : asc m n = [[(n : Int)]] := asc_base m n (by omega)
      have hy : (n : Int) - m + ((m : Int) - 1) + 1 = n := by ring
      have hw : rd (wr a c.length ((n : Int) - m + ((m : Int) - 1) + 1)) (c.length + 1)
          = c ++ [(n : Int)] := by
        rw [hy]
        exact rd_wr_snoc a _ _ c hrd (by omega)
      refine ⟨_, ?_, hw⟩
      apply Reach.one
      have hxy : ¬ ((m : Int) ≤ (n : Int) - m) := by omega
      have hs : snap N ((c.length : Int) + 1)
          (wr a c.length ((n : Int) - m + ((m : Int) - 1) + 1)) = psnap N c [(n : Int)] :=
        snap_psnap _ _ _ _ _ (by simp) (by simpa using hw)
      simp only [merca3_step, hxy, if_false, e, call_visit_eq, incr_eq_cadd, hs,
        List.length_singleton, List.map_cons, List.map_nil]
      congr 1
      omega

/-- From the test of `while (2*x <= y)` with x = m, y = n - m, when 4 m > n, merca3 visits
c ++ l for every l of asc m n and is back at the outer test. -/
theorem merca3_w2 (N : Int) (v : Bool) (d : Nat) :
    ∀ (m n : Nat) (c : List Int) (a : Buf) (r s : Int) (cnt : Nat) (out : List partition_t),
      n - m < d → 1 ≤ m → m ≤ n → n < 4 * m → c.length + n ≤ 201 → rd a c.length = c →
      ∃ a' r' s', Reach (merca3_step N v)
        ⟨.w2, a, c.length, r, s, (c.length : Int) + 1, (c.length : Int) + 2, m,
          (n : Int) - m, cnt, out⟩
        ⟨.outer, a', (c.length : Int) - 1, r', s', (c.length : Int) + 1,
          (c.length : Int) + 2, a' ((c.length : Int) - 1) + 1, (n : Int) - 1,
          cadd cnt (asc m n).length, out ++ vlog v ((asc m n).map (psnap N c))⟩ ∧
        rd a' (c.length + 1) = c ++ [(n : Int)] := by
  induction d with
  | zero => intro m n c a r s cnt out h; omega
  | succ d ih =>
    intro m n c a r s cnt out hd hm hmn h4 hlen hrd
    by_cases h3 : 3 * m ≤ n
    · -- the visit of c ++ [x, x, y - x], then the pairs (r, s), then c ++ [x, y]
      have hw1 : rd (wr a c.length m) (c.length + 1) = c ++ [(m : Int)] :=
        rd_wr_snoc a _ _ c hrd (by omega)
      have hw2 : rd (wr (wr a c.length m) ((c.length : Int) + 1) m) (c.length + 1 + 1)
          = c ++ [(m : Int)] ++ [(m : Int)] :=
        rd_wr_snoc_int (wr a c.length m) (c.length + 1) ((c.length : Int) + 1)
          m _ (by push_cast; rfl) hw1 (by omega)
      have hw3 : rd (wr (wr (wr a c.length m) ((c.length : Int) + 1) m)
          ((c.length : Int) + 2) ((n : Int) - m - m))
          (c.length + [(m : Int), (m : Int), (n : Int) - m - m].length)
          = c ++ [(m : Int), (m : Int), (n : Int) - m - m] := by
        have := rd_wr_snoc_int (wr (wr a c.length m) ((c.length : Int) + 1) m)
          (c.length + 1 + 1) ((c.length : Int) + 2)
          ((n : Int) - m - m) _ (by push_cast; ring) hw2 (by omega)
        simpa using this
      have hrd1 : rd (wr (wr (wr a c.length m) ((c.length : Int) + 1) m)
          ((c.length : Int) + 2) ((n : Int) - m - m)) (c ++ [(m : Int)]).length
          = c ++ [(m : Int)] := by
        have h5 : rd (wr (wr (wr a c.length m) ((c.length : Int) + 1) m)
            ((c.length : Int) + 2) ((n : Int) - m - m))
            ((c ++ [(m : Int)]).length + [(m : Int), (n : Int) - m - m].length)
            = (c ++ [(m : Int)]) ++ [(m : Int), (n : Int) - m - m] := by
          simpa [Nat.add_assoc] using hw3
        exact rd_append_inv _ _ _ h5
      have hlen1 : (c ++ [(m : Int)]).length = c.length + 1 := by simp
      obtain ⟨a1, r1, s1, hr1, hrd2⟩ := merca3_rs N v (n - m) (m + 1) (n - m)
        (c ++ [(m : Int)]) _ c.length m (cadd cnt 1)
        (out ++ vlog v [psnap N c [(m : Int), (m : Int), ((n : Int) - m - m)]])
        (by omega) (by omega) (by omega) (by omega) (by rw [hlen1]; omega) hrd1
      rw [hlen1] at hr1 hrd2
      obtain ⟨hrd3, _⟩ := rd_snoc_inv a1 _ _ _ hrd2
      obtain ⟨hrd4, _⟩ := rd_snoc_inv a1 _ _ _ hrd3
      obtain ⟨a2, r2, s2, hr2, hrd5⟩ := ih (m + 1) n c a1 r1 s1 _ _
        (by omega) (by omega) (by omega) (by omega) hlen hrd4
      obtain ⟨e1, e2⟩ := asc_log_triple N v c m n ⟨hm, h3⟩ h4 cnt out
      rw [e1, e2] at hr2
      refine ⟨a2, r2, s2, ?_, hrd5⟩
      refine Reach.step _ ?_ (Reach.trans (Reach.of_eq hr1 ?_) hr2)
      · have hxy : 2 * (m : Int) ≤ (n : Int) - m := by omega
        have hs : snap N ((c.length : Int) + 2 + 1)
            (wr (wr (wr a c.length m) ((c.length : Int) + 1) m)
              ((c.length : Int) + 2) ((n : Int) - m - m))
            = psnap N c [(m : Int), (m : Int), (n : Int) - m - m] :=
          snap_psnap _ _ _ _ _ (by simp; omega) hw3
        simp only [merca3_step, hxy, if_true, call_visit_eq, incr_eq_cadd, hs]
        congr 1
        all_goals first | rfl | (push_cast; omega)
      · congr 1
        all_goals first | rfl | (push_cast; omega)
    · -- the loop over the pairs (x, y)
      obtain ⟨a1, hr1, hrd1⟩ := merca3_pair N v (n - m + 1) m n c a r s
        ((c.length : Int) + 2) cnt out (by omega) hm hmn (by omega) hlen hrd
      refine ⟨a1, r, s, ?_, hrd1⟩
      refine Reach.step _ ?_ hr1
      have hxy : ¬ (2 * (m : Int) ≤ (n : Int) - m) := by omega
      simp only [merca3_step, hxy, if_false]

/-- From the test of `while (3*x <= y)` with x = m, y = n - m and the parts c in front,
merca3 visits c ++ l for every l of asc m n, in order, and is back at the outer test. -/
theorem merca3_w3 (N : Int) (v : Bool) (d : Nat) :
    ∀ (m n : Nat) (c : List Int) (a : Buf) (r s t u : Int) (cnt : Nat)
      (out : List partition_t),
      2 * n - m < d → 1 ≤ m → m ≤ n → c.length + n ≤ 201 → rd a c.length = c →
      ∃ a' r' s' t' u', Reach (merca3_step N v)
        ⟨.w3, a, c.length, r, s, t, u, m, (n : Int) - m, cnt, out⟩
        ⟨.outer, a', (c.length : Int) - 1, r', s', t', u',
          a' ((c.length : Int) - 1) + 1, (n : Int) - 1,
          cadd cnt (asc m n).length, out ++ vlog v ((asc m n).map (psnap N c))⟩ ∧
        rd a' (c.length + 1) = c ++ [(n : Int)] := by
  induction d with
  | zero => intro m n c a r s t u cnt out h; omega
  | succ d ih =>
    intro m n c a r s t u cnt out hd hm hmn hlen hrd
    by_cases h4 : 4 * m ≤ n
    · -- a[k] = x; y -= x; k++
      have hrd1 : rd (wr a c.length m) (c ++ [(m : Int)]).length = c ++ [(m : Int)] := by
        simp only [List.length_append, List.length_singleton]
        exact rd_wr_snoc a _ _ c hrd (by omega)
      obtain ⟨a1, r1, s1, t1, u1, hr1, hrd2⟩ := ih m (n - m) (c ++ [(m : Int)])
        (wr a c.length m) r s t u cnt out (by omega) hm (by omega) (by simp; omega) hrd1
      have hlen1 : (c ++ [(m : Int)]).length = c.length + 1 := by simp
      rw [hlen1] at hr1 hrd2
      obtain ⟨hrd3, _⟩ := rd_snoc_inv a1 _ _ _ hrd2
      obtain ⟨hrd4, hp⟩ := rd_snoc_inv a1 _ _ _ hrd3
      obtain ⟨a2, r2, s2, t2, u2, hr2, hrd5⟩ := ih (m + 1) n c a1 r1 s1 t1 u1
        (cadd cnt (asc m (n - m)).length)
        (out ++ vlog v ((asc m (n - m)).map (psnap N (c ++ [(m : Int)])))) (by omega) (by omega)
        (by omega) hlen hrd4
      obtain ⟨e1, e2⟩ := asc_log_split N v c m n ⟨hm, by omega⟩ cnt out
      rw [e1, e2] at hr2
      refine ⟨a2, r2, s2, t2, u2, ?_, hrd5⟩
      refine Reach.step ⟨.w3, wr a c.length m, ((c.length + 1 : Nat) : Int), r, s, t, u, m,
        ((n - m : Nat) : Int) - m, cnt, out⟩ ?_ ?_
      · have hxy : 3 * (m : Int) ≤ (n : Int) - m := by omega
        simp only [merca3_step, hxy, if_true]
        congr 1
        all_goals omega
      have hk1 : ((c.length + 1 : Nat) : Int) - 1 = c.length := by omega
      rw [hk1, hp] at hr1
      refine Reach.trans hr1 ?_
      refine Reach.step _ ?_ hr2
      have hk : (c.length : Int) ≥ 0 := by omega
      simp only [merca3_step, hk, if_true]
      congr 1
      all_goals omega
    · -- t = k + 1; u = k + 2 and the loop `while (2*x <= y)`
      obtain ⟨a1, r1, s1, hr1, hrd1⟩ := merca3_w2 N v (n - m + 1) m n c a r s cnt out
        (by omega) hm hmn (by omega) hlen hrd
      refine ⟨a1, r1, s1, (c.length : Int) + 1, (c.length : Int) + 2, ?_, hrd1⟩
      refine Reach.step _ ?_ hr1
      have hxy : ¬ (3 * (m : Int) ≤ (n : Int) - m) := by omega
      simp only [merca3_step, hxy, if_false]

/-- For 1 <= n <= MAXNUMP merca3 returns after visiting exactly the list asc 1 n. -/
theorem merca3_run (mem : Buf) (n : Nat) (v : Bool) (h1 : 1 ≤ n) (h2 : n ≤ 200) :
    Returns (fun fuel => merca3 fuel mem n v)
      (cadd 0 (asc 1 n).length, vlog v ((asc 1 n).map (psnap n []))) := by
  have hn0 : ¬ ((n : Int) < 0) := by omega
  have hn1 : ¬ ((n : Int) = 0) := by omega
  have hinit : merca3_init mem n v
      = ⟨.outer, init_partition mem 0, 0, 0, 0, 0, 0, 1, (n : Int) - 1, 0, []⟩ := by
    unfold merca3_init
    rw [if_neg hn0, if_neg hn1]
  rw [show (fun fuel => merca3 fuel mem n v) = fun fuel =>
      (let s := (merca3_step n v)^[fuel] (merca3_init mem n v)
       if s.pc = .ret then some (s.count, s.out) else none) from rfl, hinit]
  generalize init_partition mem 0 = a0
  obtain ⟨a', r', s', t', u', hr, _⟩ := merca3_w3 n v (2 * n) 1 n [] a0 0 0 0 0 0 []
    (by omega) (le_refl _) h1 (by simp; omega) rfl
  have hreach : Reach (merca3_step n v)
      ⟨.outer, a0, 0, 0, 0, 0, 0, 1, (n : Int) - 1, 0, []⟩
      ⟨.ret, a', -1, r', s', t', u', a' (-1) + 1, (n : Int) - 1, cadd 0 (asc 1 n).length,
        vlog v ((asc 1 n).map (psnap n []))⟩ := by
    refine Reach.step ⟨.w3, a0, 0, 0, 0, 0, 0, 1, (n : Int) - 1, 0, []⟩ ?_ ?_
    · simp only [merca3_step, ge_iff_le, le_refl, if_true]
    refine Reach.trans (by simpa using hr) ?_
    apply Reach.one
    simp [merca3_step]
  obtain ⟨t0, ht⟩ := hreach.run (by simp [merca3_step])
  refine ⟨t0, fun fuel hf => ?_⟩
  simp only [ht fuel hf, if_true]

/-! ## rule_desc visits the descending compositions -/

/-- The loop `while (m == 1)` steps back over the ones that end the parts. -/
theorem rule_desc_scan (N : Int) (v : Bool) (K : Nat) (P : Int) (a : Buf) (l n1 : Int)
    (cnt : Nat) (out : List partition_t) (hP : P ≠ 1) (ha : a K = P) :
    ∀ i : Nat, (∀ t : Nat, 1 ≤ t → t ≤ i → a ((K : Int) + t) = 1) →
      Reach (rule_desc_step N v)
        ⟨.scan, a, (K : Int) + i, l, a ((K : Int) + i), n1, cnt, out⟩
        ⟨.fill, a, K, l, P - 1, P + l - K, cnt, out⟩ := by
  intro i
  induction i with
  | zero =>
    intro _
    apply Reach.one
    have h0 : (K : Int) + ((0 : Nat) : Int) = K := by simp
    rw [h0, ha]
    simp only [rule_desc_step, hP, if_false]
  | succ i ih =>
    intro h1
    have hm : a ((K : Int) + ((i + 1 : Nat) : Int)) = 1 := h1 (i + 1) (by omega) (le_refl _)
    refine Reach.step _ ?_ (ih (fun t ht1 ht2 => h1 t ht1 (by omega)))
    rw [hm]
    simp only [rule_desc_step, if_true]
    have hk : (K : Int) + ((i + 1 : Nat) : Int) - 1 = (K : Int) + (i : Int) := by
      push_cast; ring
    rw [hk]

/-- From the outer test with the parts c ++ [P] ++ ones, P at least 2, rule_desc gets to
the test of the fill loop with m = P - 1 and n1 = P + the number of ones. -/
theorem rule_desc_back (N : Int) (v : Bool) (K j : Nat) (P : Int) (a : Buf) (l m n1 : Int)
    (cnt : Nat) (out : List partition_t) (hP : 2 ≤ P) (ha : a K = P)
    (h1 : ∀ t : Nat, 1 ≤ t → t ≤ j → a ((K : Int) + t) = 1)
    (hk : (K : Int) + j ≠ N - 1) :
    Reach (rule_desc_step N v)
      ⟨.outer, a, (K : Int) + j, l, m, n1, cnt, out⟩
      ⟨.fill, a, K, (K : Int) + j, P - 1, P + j, cnt, out⟩ := by
  have hs := rule_desc_scan N v K P a ((K : Int) + j) n1 cnt out (by omega) ha j h1
  have e : P + ((K : Int) + j) - K = P + j := by ring
  rw [e] at hs
  refine Reach.step _ ?_ hs
  simp only [rule_desc_step, ne_eq, hk, not_false_eq_true, if_true]

/-- From the test of the fill loop with m = M, n1 = T and the parts c in front, rule_desc
visits c ++ l for every l of desc M T, in order, and is back at the outer test with the
parts c followed by T ones. -/
theorem rule_desc_fill (N : Int) (v : Bool) (d : Nat) :
    ∀ (M T : Nat) (c : List Int) (a : Buf) (l : Int) (cnt : Nat) (out : List partition_t),
      M + T < d → 1 ≤ M → 1 ≤ T → c.length + T ≤ 201 → rd a c.length = c →
      (∀ x ∈ c, 1 ≤ x) → c.sum + T = N →
      ∃ a' l' m' n1', Reach (rule_desc_step N v)
        ⟨.fill, a, c.length, l, M, T, cnt, out⟩
        ⟨.outer, a', (c.length : Int) + T - 1, l', m', n1', cadd cnt (desc M T).length,
          out ++ vlog v ((desc M T).map (psnap N c))⟩ ∧
        rd a' (c.length + T) = c ++ List.replicate T 1 := by
  induction d with
  | zero => intro M T c a l cnt out h; omega
  | succ d ih =>
    intro M T c a l cnt out hd hM hT hlen hrd hpos hsum
    have hcl := sum_ge_length c hpos
    by_cases hMT : M < T
    · -- a[k] = m; n1 -= m; k++
      have hrd1 : rd (wr a c.length M) (c ++ [(M : Int)]).length = c ++ [(M : Int)] := by
        simp only [List.length_append, List.length_singleton]
        exact rd_wr_snoc a _ _ c hrd (by omega)
      have hpos1 : ∀ x ∈ c ++ [(M : Int)], 1 ≤ x := by
        intro x hx
        rcases List.mem_append.mp hx with hx | hx
        · exact hpos x hx
        · simp at hx; omega
      have hsum1 : (c ++ [(M : Int)]).sum + ((T - M : Nat) : Int) = N := by
        simp; omega
      obtain ⟨a1, l1, m1, n11, hr1, hrd2⟩ := ih M (T - M) (c ++ [(M : Int)])
        (wr a c.length M) l cnt out (by omega) hM (by omega) (by simp; omega) hrd1 hpos1 hsum1
      have hlen1 : (c ++ [(M : Int)]).length = c.length + 1 := by simp
      rw [hlen1] at hr1 hrd2
      obtain ⟨e1, e2⟩ := desc_log_split N v c M T (by omega) (by omega) cnt out
      have hstep : rule_desc_step N v ⟨.fill, a, c.length, l, M, T, cnt, out⟩
          = ⟨.fill, wr a c.length M, ((c.length + 1 : Nat) : Int), l, M,
              ((T - M : Nat) : Int), cnt, out⟩ := by
        have hxy : (M : Int) < (T : Int) := by omega
        simp only [rule_desc_step, hxy, if_true]
        congr 1
        all_goals omega
      by_cases hM1 : M = 1
      · -- the parts are c followed by ones: the last composition
        subst hM1
        rw [Nat.sub_self, desc_zero_left T (by omega)] at e1 e2
        simp only [List.length_nil, List.map_nil, vlog_nil, List.append_nil] at e1 e2
        have e3 : cadd cnt (desc 1 (T - 1)).length = cadd cnt (desc 1 T).length := by
          rw [← e1, cadd_cadd]; rfl
        rw [e3, e2] at hr1
        refine ⟨a1, l1, m1, n11, Reach.step _ hstep (Reach.of_eq hr1 ?_), ?_⟩
        · congr 1
          omega
        · have hT1 : c.length + 1 + (T - 1) = c.length + T := by omega
          rw [hT1] at hrd2
          rw [hrd2]
          have : T = (T - 1) + 1 := by omega
          rw [this, List.replicate_succ]
          simp
      · -- back over the ones to the part M, then on with M - 1
        obtain ⟨hrd3, hones⟩ := rd_ones_inv a1 (c.length + 1) (T - M) (c ++ [(M : Int)])
          (by simp) hrd2
        obtain ⟨hrd4, hp⟩ := rd_snoc_inv a1 _ _ _ hrd3
        have hback := rule_desc_back N v c.length (T - M) M a1 l1 m1 n11
          (cadd cnt (desc M (T - M)).length)
          (out ++ vlog v ((desc M (T - M)).map (psnap N (c ++ [(M : Int)]))))
          (by omega) hp
          (fun t ht1 ht2 => by
            have := hones (c.length + t) (by omega) (by omega)
            simpa using this)
          (by omega)
        obtain ⟨a2, l2, m2, n12, hr2, hrd5⟩ := ih (M - 1) T c a1 ((c.length : Int) + (T - M : Nat))
          (cadd cnt (desc M (T - M)).length)
          (out ++ vlog v ((desc M (T - M)).map (psnap N (c ++ [(M : Int)]))))
          (by omega) (by omega) hT hlen hrd4 hpos hsum
        rw [e1, e2] at hr2
        refine ⟨a2, l2, m2, n12, ?_, hrd5⟩
        refine Reach.step _ hstep (Reach.trans (Reach.of_eq hr1 ?_)
          (Reach.trans hback (Reach.of_eq' ?_ hr2)))
        · congr 1
          omega
        · congr 1
          all_goals omega
    · -- p.a[k] = n1; the visit of c ++ [T]
      have hw : rd (wr a c.length (T : Int)) (c.length + 1) = c ++ [(T : Int)] :=
        rd_wr_snoc a _ _ c hrd (by omega)
      have hs : snap N ((c.length : Int) + 1) (wr a c.length (T : Int))
          = psnap N c [(T : Int)] :=
        snap_psnap _ _ _ _ _ (by simp) (by simpa using hw)
      obtain ⟨e1, e2⟩ := desc_log_self N v c M T (by omega) (by omega) cnt out
      have hstep : rule_desc_step N v ⟨.fill, a, c.length, l, M, T, cnt, out⟩
          = ⟨.outer, wr a c.length (T : Int), c.length, l, M, T, cadd cnt 1,
              out ++ vlog v [psnap N c [(T : Int)]]⟩ := by
        have hxy : ¬ ((M : Int) < (T : Int)) := by omega
        simp only [rule_desc_step, hxy, if_false, call_visit_eq, incr_eq_cadd, hs]
      by_cases hT1 : T = 1
      · have hz : desc (T - 1) T = [] := by
          subst hT1
          exact desc_zero_left 1 (by omega)
        rw [hz] at e1 e2
        simp only [List.length_nil, List.map_nil, vlog_nil, List.append_nil] at e1 e2
        have e3 : cadd cnt 1 = cadd cnt (desc M T).length := by
          rw [← e1, cadd_cadd]
        rw [e3, e2] at hstep
        refine ⟨wr a c.length (T : Int), l, M, T, Reach.of_eq (Reach.one hstep) ?_, ?_⟩
        · congr 1
          omega
        · have hr : List.replicate T (1 : Int) = [(T : Int)] := by subst hT1; rfl
          have hl : c.length + T = c.length + 1 := by omega
          rw [hl, hw, hr]
      · obtain ⟨hrd4, hp⟩ := rd_snoc_inv _ _ _ _ hw
        have hback := rule_desc_back N v c.length 0 T (wr a c.length (T : Int)) l M T
          (cadd cnt 1) (out ++ vlog v [psnap N c [(T : Int)]])
          (by omega) hp (fun t ht1 ht2 => by omega) (by simp; omega)
        obtain ⟨a2, l2, m2, n12, hr2, hrd5⟩ := ih (T - 1) T c (wr a c.length (T : Int))
          ((c.length : Int) + (0 : Nat)) (cadd cnt 1) (out ++ vlog v [psnap N c [(T : Int)]])
          (by omega) (by omega) hT hlen hrd4 hpos hsum
        rw [e1, e2] at hr2
        refine ⟨a2, l2, m2, n12, ?_, hrd5⟩
        refine Reach.step _ hstep (Reach.trans (Reach.of_eq' ?_ hback) (Reach.of_eq' ?_ hr2))
        · congr 1
        · congr 1
          all_goals first | rfl | omega

/-- For 1 <= n <= MAXNUMP rule_desc returns after visiting exactly the list desc n n. -/
theorem rule_desc_run (mem : Buf) (n : Nat) (v : Bool) (h1 : 1 ≤ n) (h2 : n ≤ 200) :
    Returns (fun fuel => rule_desc fuel mem n v)
      (cadd 0 (desc n n).length, vlog v ((desc n n).map (psnap n []))) := by
  have hn0 : ¬ ((n : Int) < 0) := by omega
  have hn1 : ¬ ((n : Int) = 0) := by omega
  have hw : rd (wr (init_partition mem 0) ((0 : Nat) : Int) (n : Int)) (0 + 1) = [] ++ [(n : Int)] :=
    rd_wr_snoc _ 0 _ [] rfl (by omega)
  have hs : snap n 1 (wr (init_partition mem 0) 0 (n : Int)) = psnap n [] [(n : Int)] :=
    snap_psnap _ _ _ _ _ (by simp) (by simpa using hw)
  have hinit : rule_desc_init mem n v = ⟨.outer, wr (init_partition mem 0) 0 n, 0, 0, 0, 0,
      cadd 0 1, [] ++ vlog v [psnap n [] [(n : Int)]]⟩ := by
    unfold rule_desc_init
    rw [if_neg hn0, if_neg hn1]
    simp only [call_visit_eq, incr_eq_cadd, hs]
  rw [show (fun fuel => rule_desc fuel mem n v) = fun fuel =>
      (let s := (rule_desc_step n v)^[fuel] (rule_desc_init mem n v)
       if s.pc = .ret then some (s.count, s.out) else none) from rfl, hinit]
  have ha0 : wr (init_partition mem 0) 0 (n : Int) ((0 : Nat) : Int) = n :=
    wr_same _ _ _ (by simp) (by simp)
  have hrd0 : rd (wr (init_partition mem 0) 0 (n : Int)) ([] : List Int).length = [] := rfl
  generalize wr (init_partition mem 0) 0 (n : Int) = a0 at ha0 hrd0
  obtain ⟨e1, e2⟩ := desc_log_self n v [] n n (by omega) (le_refl _) 0 []
  have hfin : ∃ sf : RuleDescSt, Reach (rule_desc_step n v)
      ⟨.outer, a0, 0, 0, 0, 0, cadd 0 1, [] ++ vlog v [psnap n [] [(n : Int)]]⟩ sf ∧
      sf.pc = .ret ∧ sf.count = cadd 0 (desc n n).length ∧
      sf.out = vlog v ((desc n n).map (psnap n [])) := by
    by_cases hn : n = 1
    · have hz : desc (n - 1) n = [] := by
        subst hn
        exact desc_zero_left 1 (by omega)
      rw [hz] at e1 e2
      simp only [List.length_nil, List.map_nil, vlog_nil, List.append_nil] at e1 e2
      refine ⟨_, Reach.one rfl, ?_, ?_, ?_⟩
      · have hk : ¬ ((0 : Int) ≠ (n : Int) - 1) := by omega
        simp only [rule_desc_step, hk, if_false]
      · have hk : ¬ ((0 : Int) ≠ (n : Int) - 1) := by omega
        simp only [rule_desc_step, hk, if_false]
        rw [← e1, cadd_cadd]
      · have hk : ¬ ((0 : Int) ≠ (n : Int) - 1) := by omega
        simp only [rule_desc_step, hk, if_false]
        simpa using e2
    · have hback := rule_desc_back n v 0 0 n a0 0 0 0 (cadd 0 1)
        ([] ++ vlog v [psnap n [] [(n : Int)]]) (by omega) ha0 (fun t ht1 ht2 => by omega)
        (by simp; omega)
      obtain ⟨a2, l2, m2, n12, hr2, _⟩ := rule_desc_fill n v (n - 1 + n + 1) (n - 1) n [] a0
        (((0 : Nat) : Int) + (0 : Nat)) (cadd 0 1) ([] ++ vlog v [psnap n [] [(n : Int)]])
        (by omega) (by omega) h1 (by simp; omega) hrd0 (by simp) (by simp)
      rw [e1, e2] at hr2
      refine ⟨_, Reach.trans (Reach.of_eq' ?_ hback) (Reach.trans (Reach.of_eq' ?_ hr2)
        (Reach.one rfl)), ?_, ?_, ?_⟩
      · congr 1
      · congr 1
        all_goals first | rfl | omega
      · simp [rule_desc_step]
      · simp [rule_desc_step]
      · simp [rule_desc_step]
  obtain ⟨sf, hreach, hpc, hcount, hout⟩ := hfin
  obtain ⟨t0, ht⟩ := hreach.run (by simp [rule_desc_step, hpc])
  refine ⟨t0, fun fuel hf => ?_⟩
  simp only [ht fuel hf, hpc, if_true, hcount, hout]

/-! ## zs1 visits the descending compositions -/

/-- Two facts about zs1, by induction on the size of what is left to enumerate.
From the test of the fill loop with r = R, t = T, the parts c1 written and ones behind,
zs1 visits c1 ++ l for every l of desc R T and is back at the outer test with the parts
c1 followed by T ones.  From the outer test with the parts c ++ [P] followed by j ones
it visits c ++ l for every l of desc (P - 1) (P + j) and is back at the outer test with
the parts c followed by P + j ones. -/
theorem zs1_main (N : Int) (v : Bool) (d : Nat) :
    (∀ (R T : Nat) (c1 : List Int) (a : Buf) (m : Int) (cnt : Nat) (out : List partition_t),
      R + T < d → 2 ≤ R → c1.length + T ≤ 200 → 1 ≤ c1.length → rd a c1.length = c1 →
      (∀ x ∈ c1, (2 : Int) ≤ x) → Ones a c1.length →
      ∃ a' r' t', Reach (zs1_step N v)
        ⟨.fill, a, (c1.length : Int) - 1, m, R, T, cnt, out⟩
        ⟨.outer, a', (c1.length : Int) - 1, (c1.length : Int) + T, r', t',
          cadd cnt (desc R T).length, out ++ vlog v ((desc R T).map (psnap N c1))⟩ ∧
        rd a' c1.length = c1 ∧ Ones a' c1.length) ∧
    (∀ (P j : Nat) (c : List Int) (a : Buf) (r t : Int) (cnt : Nat) (out : List partition_t),
      P + j + P ≤ d → 2 ≤ P → c.length + P + j ≤ 200 → rd a (c.length + 1) = c ++ [(P : Int)] →
      (∀ x ∈ c, (2 : Int) ≤ x) → Ones a (c.length + 1) →
      ∃ a' r' t', Reach (zs1_step N v)
        ⟨.outer, a, c.length, (c.length : Int) + 1 + j, r, t, cnt, out⟩
        ⟨.outer, a', (c.length : Int) - 1, (c.length : Int) + P + j, r', t',
          cadd cnt (desc (P - 1) (P + j)).length,
          out ++ vlog v ((desc (P - 1) (P + j)).map (psnap N c))⟩ ∧
        rd a' c.length = c ∧ Ones a' c.length) := by
  induction d with
  | zero =>
    constructor
    · intro R T c1 a m cnt out h; omega
    · intro P j c a r t cnt out h h2; omega
  | succ d ih =>
    obtain ⟨ihF, ihH⟩ := ih
    constructor
    · -- the fill loop
      intro R T c1 a m cnt out hd hR hlen hc1 hrd hbig hones
      have hk0 : (c1.length : Int) - 1 + 1 = c1.length := by ring
      by_cases hT0 : T = 0
      · -- t == 0: m = h + 1; the visit of c1
        have hd0 : desc R T = [[]] := by rw [hT0]; exact desc_zero R
        refine ⟨a, R, T, ?_, hrd, hones⟩
        apply Reach.one
        have hs : snap N (c1.length : Int) a = psnap N c1 [] :=
          snap_psnap _ _ _ _ _ (by simp) (by simpa using hrd)
        have htr : ¬ ((0 : Int) ≥ (R : Int)) := by omega
        have ht0 : (T : Int) = 0 := by omega
        simp only [zs1_step, ht0, htr, if_false, if_true, zs1_visit, hk0,
          call_visit_eq, incr_eq_cadd, hs, hd0, List.map_cons, List.map_nil,
          List.length_singleton, add_zero]
      by_cases hTR : R ≤ T
      · -- h++; p.a[h] = r; t -= r
        have hrd1 : rd (wr a c1.length R) (c1 ++ [(R : Int)]).length = c1 ++ [(R : Int)] := by
          simp only [List.length_append, List.length_singleton]
          exact rd_wr_snoc a _ _ c1 hrd (by omega)
        have hbig1 : ∀ x ∈ c1 ++ [(R : Int)], (2 : Int) ≤ x := by
          intro x hx
          rcases List.mem_append.mp hx with hx | hx
          · exact hbig x hx
          · simp at hx; omega
        have hlen1 : (c1 ++ [(R : Int)]).length = c1.length + 1 := by simp
        have hones1 : Ones (wr a c1.length R) (c1 ++ [(R : Int)]).length := by
          rw [hlen1]
          exact hones.wr_succ _ _ rfl
        obtain ⟨a1, r1, t1, hr1, hrd2, hones2⟩ := ihF R (T - R) (c1 ++ [(R : Int)])
          (wr a c1.length R) m cnt out (by omega) hR (by rw [hlen1]; omega)
          (by rw [hlen1]; omega) hrd1 hbig1 hones1
        rw [hlen1] at hr1 hrd2 hones2
        obtain ⟨a2, r2, t2, hr2, hrd3, hones3⟩ := ihH R (T - R) c1 a1 r1 t1
          (cadd cnt (desc R (T - R)).length)
          (out ++ vlog v ((desc R (T - R)).map (psnap N (c1 ++ [(R : Int)]))))
          (by omega) hR (by omega) hrd2 hbig hones2
        obtain ⟨e1, e2⟩ := desc_log_split N v c1 R T (by omega) hTR cnt out
        have hRT : R + (T - R) = T := by omega
        rw [hRT, e1, e2] at hr2
        refine ⟨a2, r2, t2, ?_, hrd3, hones3⟩
        refine Reach.step _ ?_ (Reach.trans hr1 (Reach.of_eq' ?_ (Reach.of_eq hr2 ?_)))
        · have htr : ((T : Nat) : Int) ≥ (R : Int) := by omega
          simp only [zs1_step, htr, if_true, hk0]
          congr 1
          all_goals omega
        · congr 1
          all_goals omega
        · congr 1
          all_goals omega
      · -- 0 < t < r: one more part, t itself
        obtain ⟨e1, e2⟩ := desc_log_self N v c1 R T (by omega) (by omega) cnt out
        have htr : ¬ (((T : Nat) : Int) ≥ (R : Int)) := by omega
        have ht0 : ¬ (((T : Nat) : Int) = 0) := by omega
        by_cases hT1 : T = 1
        · -- t == 1: the part is the 1 that the buffer holds already
          have hz : desc (T - 1) T = [] := by
            subst hT1
            exact desc_zero_left 1 (by omega)
          rw [hz] at e1 e2
          simp only [List.length_nil, List.map_nil, vlog_nil, List.append_nil] at e1 e2
          have e3 : cadd cnt 1 = cadd cnt (desc R T).length := by
            rw [← e1, cadd_cadd]
          have hw : rd a (c1.length + 1) = c1 ++ [(T : Int)] := by
            have := hones.rd 1 c1 hrd (by omega)
            rw [this, hT1]; rfl
          have hs : snap N ((c1.length : Int) + 1) a = psnap N c1 [(T : Int)] :=
            snap_psnap _ _ _ _ _ (by simp) (by simpa using hw)
          refine ⟨a, R, T, ?_, hrd, hones⟩
          apply Reach.one
          have ht1 : ¬ (((T : Nat) : Int) > 1) := by omega
          have hm : (c1.length : Int) - 1 + 2 = (c1.length : Int) + 1 := by ring
          simp only [zs1_step, htr, if_false, ht0, ht1, zs1_visit, hm, call_visit_eq,
            incr_eq_cadd, hs, e3, e2]
          congr 1
          omega
        · -- t > 1: h++; p.a[h] = t
          have hw : rd (wr a c1.length (T : Int)) (c1.length + 1) = c1 ++ [(T : Int)] :=
            rd_wr_snoc a _ _ c1 hrd (by omega)
          have hs : snap N ((c1.length : Int) + 1) (wr a c1.length (T : Int))
              = psnap N c1 [(T : Int)] :=
            snap_psnap _ _ _ _ _ (by simp) (by simpa using hw)
          obtain ⟨a2, r2, t2, hr2, hrd3, hones3⟩ := ihH T 0 c1 (wr a c1.length (T : Int)) R T
            (cadd cnt 1) (out ++ vlog v [psnap N c1 [(T : Int)]])
            (by omega) (by omega) (by omega) hw hbig (hones.wr_succ _ _ rfl)
          rw [Nat.add_zero, e1, e2] at hr2
          refine ⟨a2, r2, t2, ?_, hrd3, hones3⟩
          refine Reach.step _ ?_ (Reach.of_eq hr2 ?_)
          · have ht1 : ((T : Nat) : Int) > 1 := by omega
            have hm : (c1.length : Int) - 1 + 2 = (c1.length : Int) + 1 := by ring
            simp only [zs1_step, htr, if_false, ht0, ht1, if_true, zs1_visit, hm, hk0,
              call_visit_eq, incr_eq_cadd, hs]
            congr 1
          · congr 1
    · -- the outer test
      intro P j c a r t cnt out hd hP hlen hrd hbig hones
      obtain ⟨hrd0, hp⟩ := rd_snoc_inv a _ _ _ hrd
      have ha0 : a 0 ≠ 1 := by
        have hmem : a 0 ∈ c ++ [(P : Int)] := by
          rw [← hrd]
          exact rd_zero_mem a _ (by omega)
        rcases List.mem_append.mp hmem with hx | hx
        · have := hbig _ hx
          omega
        · simp at hx; omega
      by_cases hP2 : P = 2
      · -- p.a[h] == 2: m++; p.a[h] = 1; h--
        have hones1 : Ones (wr a c.length 1) c.length := hones.wr_one (by omega)
        have hrd1 : rd (wr a c.length 1) c.length = c := by
          rw [rd_wr_of_le _ _ _ _ (le_refl _)]
          exact hrd0
        have hw : rd (wr a c.length 1) (c.length + (P + j)) = c ++ List.replicate (P + j) 1 :=
          hones1.rd (P + j) c hrd1 (by omega)
        have hs : snap N ((c.length : Int) + 1 + j + 1) (wr a c.length 1)
            = psnap N c (List.replicate (P + j) 1) :=
          snap_psnap _ _ _ _ _ (by simp; omega) (by simpa using hw)
        have hdesc : desc (P - 1) (P + j) = [List.replicate (P + j) 1] := by
          have : P - 1 = 1 := by omega
          rw [this]
          exact desc_one _ (by omega)
        refine ⟨wr a c.length 1, r, t, ?_, hrd1, hones1⟩
        apply Reach.one
        have hp2 : a (c.length : Int) = 2 := by rw [hp, hP2]; rfl
        simp only [zs1_step, ne_eq, ha0, not_false_eq_true, if_true, hp2, zs1_visit,
          call_visit_eq, incr_eq_cadd, hs, hdesc, List.map_cons, List.map_nil,
          List.length_singleton]
        congr 1
        omega
      · -- r = p.a[h] - 1; t = m - h; p.a[h] = r and the fill loop
        have hp3 : ¬ (a (c.length : Int) = 2) := by rw [hp]; omega
        have hrd1 : rd (wr a c.length ((P : Int) - 1)) (c ++ [((P - 1 : Nat) : Int)]).length
            = c ++ [((P - 1 : Nat) : Int)] := by
          simp only [List.length_append, List.length_singleton]
          have hc : ((P - 1 : Nat) : Int) = (P : Int) - 1 := by omega
          rw [hc]
          exact rd_wr_snoc a _ _ c hrd0 (by omega)
        have hlen1 : (c ++ [((P - 1 : Nat) : Int)]).length = c.length + 1 := by simp
        have hbig1 : ∀ x ∈ c ++ [((P - 1 : Nat) : Int)], (2 : Int) ≤ x := by
          intro x hx
          rcases List.mem_append.mp hx with hx | hx
          · exact hbig x hx
          · simp at hx; omega
        have hones1 : Ones (wr a c.length ((P : Int) - 1))
            (c ++ [((P - 1 : Nat) : Int)]).length := by
          rw [hlen1]
          exact hones.wr_lt _ _ (by omega)
        obtain ⟨a1, r1, t1, hr1, hrd2, hones2⟩ := ihF (P - 1) (j + 1)
          (c ++ [((P - 1 : Nat) : Int)]) (wr a c.length ((P : Int) - 1))
          ((c.length : Int) + 1 + j) cnt out (by omega) (by omega) (by rw [hlen1]; omega)
          (by rw [hlen1]; omega) hrd1 hbig1 hones1
        rw [hlen1] at hr1 hrd2 hones2
        obtain ⟨a2, r2, t2, hr2, hrd3, hones3⟩ := ihH (P - 1) (j + 1) c a1 r1 t1
          (cadd cnt (desc (P - 1) (j + 1)).length)
          (out ++ vlog v ((desc (P - 1) (j + 1)).map (psnap N (c ++ [((P - 1 : Nat) : Int)]))))
          (by omega) (by omega) (by omega) hrd2 hbig hones2
        obtain ⟨e1, e2⟩ := desc_log_split N v c (P - 1) (P + j) (by omega) (by omega) cnt out
        have hj1 : P + j - (P - 1) = j + 1 := by omega
        have hj2 : P - 1 + (j + 1) = P + j := by omega
        rw [hj1] at e1 e2
        rw [hj2, e1, e2] at hr2
        refine ⟨a2, r2, t2, ?_, hrd3, hones3⟩
        refine Reach.step _ ?_ (Reach.trans hr1 (Reach.of_eq' ?_ (Reach.of_eq hr2 ?_)))
        · have hP3 : ¬ ((P : Int) = 2) := by omega
          simp only [zs1_step, ne_eq, ha0, not_false_eq_true, if_true, hp, hP3, if_false]
          congr 1
          all_goals omega
        · congr 1
          all_goals omega
        · congr 1
          all_goals omega

/-- For 1 <= n <= MAXNUMP zs1 returns after visiting exactly the list desc n n. -/
theorem zs1_run (mem : Buf) (n : Nat) (v : Bool) (h1 : 1 ≤ n) (h2 : n ≤ 200) :
    Returns (fun fuel => zs1 fuel mem n v)
      (cadd 0 (desc n n).length, vlog v ((desc n n).map (psnap n []))) := by
  have hn0 : ¬ ((n : Int) < 0) := by omega
  have hn1 : ¬ ((n : Int) = 0) := by omega
  have hw : rd (wr (init_partition mem 1) ((0 : Nat) : Int) (n : Int)) (0 + 1)
      = [] ++ [(n : Int)] := rd_wr_snoc _ 0 _ [] rfl (by omega)
  have hs : snap n 1 (wr (init_partition mem 1) 0 (n : Int)) = psnap n [] [(n : Int)] :=
    snap_psnap _ _ _ _ _ (by simp) (by simpa using hw)
  have hinit : zs1_init mem n v = ⟨.outer, wr (init_partition mem 1) 0 n, 0, 1, 0, 0,
      cadd 0 1, [] ++ vlog v [psnap n [] [(n : Int)]]⟩ := by
    unfold zs1_init
    rw [if_neg hn0, if_neg hn1]
    simp only [call_visit_eq, incr_eq_cadd, hs]
  rw [show (fun fuel => zs1 fuel mem n v) = fun fuel =>
      (let s := (zs1_step n v)^[fuel] (zs1_init mem n v)
       if s.pc = .ret then some (s.count, s.out) else none) from rfl, hinit]
  have ha0 : wr (init_partition mem 1) 0 (n : Int) 0 = n :=
    wr_same _ _ _ (by simp) (by simp)
  have hrd1 : rd (wr (init_partition mem 1) 0 (n : Int)) (([] : List Int).length + 1)
      = [] ++ [(n : Int)] := by simpa using hw
  have hones := ones_init mem n
  generalize wr (init_partition mem 1) 0 (n : Int) = a0 at ha0 hrd1 hones
  obtain ⟨e1, e2⟩ := desc_log_self n v [] n n (by omega) (le_refl _) 0 []
  have hfin : ∃ sf : Zs1St, Reach (zs1_step n v)
      ⟨.outer, a0, 0, 1, 0, 0, cadd 0 1, [] ++ vlog v [psnap n [] [(n : Int)]]⟩ sf ∧
      sf.pc = .ret ∧ sf.count = cadd 0 (desc n n).length ∧
      sf.out = vlog v ((desc n n).map (psnap n [])) := by
    by_cases hn : n = 1
    · have hz : desc (n - 1) n = [] := by
        subst hn
        exact desc_zero_left 1 (by omega)
      rw [hz] at e1 e2
      simp only [List.length_nil, List.map_nil, vlog_nil, List.append_nil] at e1 e2
      have hk : ¬ (a0 0 ≠ 1) := by rw [ha0]; omega
      refine ⟨_, Reach.one rfl, ?_, ?_, ?_⟩
      · simp only [zs1_step, hk, if_false]
      · simp only [zs1_step, hk, if_false]
        rw [← e1, cadd_cadd]
      · simp only [zs1_step, hk, if_false]
        simpa using e2
    · obtain ⟨a2, r2, t2, hr2, _, hones2⟩ := (zs1_main n v (n + 0 + n)).2 n 0 [] a0 0 0
        (cadd 0 1) ([] ++ vlog v [psnap n [] [(n : Int)]])
        (le_refl _) (by omega) (by simp; omega) hrd1 (by simp) hones
      rw [Nat.add_zero, e1, e2] at hr2
      have ha2 : ¬ (a2 0 ≠ 1) := by
        have := hones2 0 (by simp) (by omega)
        simpa using this
      refine ⟨_, Reach.trans (Reach.of_eq' ?_ hr2) (Reach.one rfl), ?_, ?_, ?_⟩
      · congr 1
      · simp only [zs1_step, ha2, if_false]
      · simp only [zs1_step, ha2, if_false]
      · simp only [zs1_step, ha2, if_false, List.nil_append]
  obtain ⟨sf, hreach, hpc, hcount, hout⟩ := hfin
  obtain ⟨t0, ht⟩ := hreach.run (by simp [zs1_step, hpc])
  refine ⟨t0, fun fuel hf => ?_⟩
  simp only [ht fuel hf, hpc, if_true, hcount, hout]

/-! ## accel_desc visits the descending compositions -/

/-- Two facts about accel_desc, by induction on the size of what is left to enumerate.
From the test of the fill loop with m = R, n1 = T, the parts c1 written and ones behind,
accel_desc visits c1 ++ l for every l of desc R T and is back at the outer test with the
parts c1 followed by T ones.  From the outer test with the parts c ++ [P] followed by j
ones it visits c ++ l for every l of desc (P - 1) (P + j) and is back at the outer test
with the parts c followed by P + j ones. -/
theorem accel_desc_main (N : Int) (v : Bool) (d : Nat) :
    (∀ (R T : Nat) (c1 : List Int) (a : Buf) (k : Int) (cnt : Nat) (out : List partition_t),
      R + T < d → 2 ≤ R → c1.length + T ≤ 200 → 1 ≤ c1.length → rd a c1.length = c1 →
      Ones a c1.length →
      ∃ a' m' n1', Reach (accel_desc_step N v)
        ⟨.fill, a, k, R, T, (c1.length : Int) - 1, cnt, out⟩
        ⟨.outer, a', (c1.length : Int) + T - 1, m', n1', (c1.length : Int) - 1,
          cadd cnt (desc R T).length, out ++ vlog v ((desc R T).map (psnap N c1))⟩ ∧
        rd a' c1.length = c1 ∧ Ones a' c1.length) ∧
    (∀ (P j : Nat) (c : List Int) (a : Buf) (m n1 : Int) (cnt : Nat) (out : List partition_t),
      P + j + P ≤ d → 2 ≤ P → c.length + P + j ≤ 200 → rd a (c.length + 1) = c ++ [(P : Int)] →
      Ones a (c.length + 1) →
      ∃ a' m' n1', Reach (accel_desc_step N v)
        ⟨.outer, a, (c.length : Int) + j, m, n1, c.length, cnt, out⟩
        ⟨.outer, a', (c.length : Int) + P + j - 1, m', n1', (c.length : Int) - 1,
          cadd cnt (desc (P - 1) (P + j)).length,
          out ++ vlog v ((desc (P - 1) (P + j)).map (psnap N c))⟩ ∧
        rd a' c.length = c ∧ Ones a' c.length) := by
  induction d with
  | zero =>
    constructor
    · intro R T c1 a k cnt out h; omega
    · intro P j c a m n1 cnt out h h2; omega
  | succ d ih =>
    obtain ⟨ihF, ihH⟩ := ih
    constructor
    · -- the fill loop
      intro R T c1 a k cnt out hd hR hlen hc1 hrd hones
      have hk0 : (c1.length : Int) - 1 + 1 = c1.length := by ring
      by_cases hT0 : T = 0
      · -- n1 == 0: k = q; the visit of c1
        have hd0 : desc R T = [[]] := by rw [hT0]; exact desc_zero R
        refine ⟨a, R, T, ?_, hrd, hones⟩
        apply Reach.one
        have hs : snap N (c1.length : Int) a = psnap N c1 [] :=
          snap_psnap _ _ _ _ _ (by simp) (by simpa using hrd)
        have htr : ¬ ((0 : Int) ≥ (R : Int)) := by omega
        have ht0 : (T : Int) = 0 := by omega
        simp only [accel_desc_step, ht0, htr, if_false, if_true, accel_desc_visit, hk0,
          call_visit_eq, incr_eq_cadd, hs, hd0, List.map_cons, List.map_nil,
          List.length_singleton, add_zero]
      by_cases hTR : R ≤ T
      · -- q++; p.a[q] = m; n1 -= m
        have hrd1 : rd (wr a c1.length R) (c1 ++ [(R : Int)]).length = c1 ++ [(R : Int)] := by
          simp only [List.length_append, List.length_singleton]
          exact rd_wr_snoc a _ _ c1 hrd (by omega)
        have hlen1 : (c1 ++ [(R : Int)]).length = c1.length + 1 := by simp
        have hones1 : Ones (wr a c1.length R) (c1 ++ [(R : Int)]).length := by
          rw [hlen1]
          exact hones.wr_succ _ _ rfl
        obtain ⟨a1, m1, n11, hr1, hrd2, hones2⟩ := ihF R (T - R) (c1 ++ [(R : Int)])
          (wr a c1.length R) k cnt out (by omega) hR (by rw [hlen1]; omega)
          (by rw [hlen1]; omega) hrd1 hones1
        rw [hlen1] at hr1 hrd2 hones2
        obtain ⟨a2, m2, n12, hr2, hrd3, hones3⟩ := ihH R (T - R) c1 a1 m1 n11
          (cadd cnt (desc R (T - R)).length)
          (out ++ vlog v ((desc R (T - R)).map (psnap N (c1 ++ [(R : Int)]))))
          (by omega) hR (by omega) hrd2 hones2
        obtain ⟨e1, e2⟩ := desc_log_split N v c1 R T (by omega) hTR cnt out
        have hRT : R + (T - R) = T := by omega
        rw [hRT, e1, e2] at hr2
        refine ⟨a2, m2, n12, ?_, hrd3, hones3⟩
        refine Reach.step _ ?_ (Reach.trans hr1 (Reach.of_eq' ?_ (Reach.of_eq hr2 ?_)))
        · have htr : ((T : Nat) : Int) ≥ (R : Int) := by omega
          simp only [accel_desc_step, htr, if_true, hk0]
          congr 1
          all_goals omega
        · congr 1
          all_goals omega
        · congr 1
          all_goals omega
      · -- 0 < n1 < m: one more part, n1 itself
        obtain ⟨e1, e2⟩ := desc_log_self N v c1 R T (by omega) (by omega) cnt out
        have htr : ¬ (((T : Nat) : Int) ≥ (R : Int)) := by omega
        have ht0 : ¬ (((T : Nat) : Int) = 0) := by omega
        by_cases hT1 : T = 1
        · -- n1 == 1: the part is the 1 that the buffer holds already
          have hz : desc (T - 1) T = [] := by
            subst hT1
            exact desc_zero_left 1 (by omega)
          rw [hz] at e1 e2
          simp only [List.length_nil, List.map_nil, vlog_nil, List.append_nil] at e1 e2
          have e3 : cadd cnt 1 = cadd cnt (desc R T).length := by
            rw [← e1, cadd_cadd]
          have hw : rd a (c1.length + 1) = c1 ++ [(T : Int)] := by
            have := hones.rd 1 c1 hrd (by omega)
            rw [this, hT1]; rfl
          have hs : snap N ((c1.length : Int) + 1) a = psnap N c1 [(T : Int)] :=
            snap_psnap _ _ _ _ _ (by simp) (by simpa using hw)
          refine ⟨a, R, T, ?_, hrd, hones⟩
          apply Reach.one
          have ht1 : ¬ (((T : Nat) : Int) > 1) := by omega
          simp only [accel_desc_step, htr, if_false, ht0, ht1, accel_desc_visit, hk0,
            call_visit_eq, incr_eq_cadd, hs, e3, e2]
          congr 1
          omega
        · -- n1 > 1: q++; p.a[q] = n1
          have hw : rd (wr a c1.length (T : Int)) (c1.length + 1) = c1 ++ [(T : Int)] :=
            rd_wr_snoc a _ _ c1 hrd (by omega)
          have hs : snap N ((c1.length : Int) + 1) (wr a c1.length (T : Int))
              = psnap N c1 [(T : Int)] :=
            snap_psnap _ _ _ _ _ (by simp) (by simpa using hw)
          obtain ⟨a2, m2, n12, hr2, hrd3, hones3⟩ := ihH T 0 c1 (wr a c1.length (T : Int)) R T
            (cadd cnt 1) (out ++ vlog v [psnap N c1 [(T : Int)]])
            (by omega) (by omega) (by omega) hw (hones.wr_succ _ _ rfl)
          rw [Nat.add_zero, e1, e2] at hr2
          refine ⟨a2, m2, n12, ?_, hrd3, hones3⟩
          refine Reach.step _ ?_ (Reach.of_eq hr2 ?_)
          · have ht1 : ((T : Nat) : Int) > 1 := by omega
            simp only [accel_desc_step, htr, if_false, ht0, ht1, if_true, accel_desc_visit,
              hk0, call_visit_eq, incr_eq_cadd, hs]
            congr 1
          · congr 1
    · -- the outer test
      intro P j c a m n1 cnt out hd hP hlen hrd hones
      obtain ⟨hrd0, hp⟩ := rd_snoc_inv a _ _ _ hrd
      have hq : (c.length : Int) ≠ -1 := by omega
      by_cases hP2 : P = 2
      · -- p.a[q] == 2: k++; p.a[q] = 1; q--
        have hones1 : Ones (wr a c.length 1) c.length := hones.wr_one (by omega)
        have hrd1 : rd (wr a c.length 1) c.length = c := by
          rw [rd_wr_of_le _ _ _ _ (le_refl _)]
          exact hrd0
        have hw : rd (wr a c.length 1) (c.length + (P + j)) = c ++ List.replicate (P + j) 1 :=
          hones1.rd (P + j) c hrd1 (by omega)
        have hs : snap N ((c.length : Int) + j + 1 + 1) (wr a c.length 1)
            = psnap N c (List.replicate (P + j) 1) :=
          snap_psnap _ _ _ _ _ (by simp; omega) (by simpa using hw)
        have hdesc : desc (P - 1) (P + j) = [List.replicate (P + j) 1] := by
          have : P - 1 = 1 := by omega
          rw [this]
          exact desc_one _ (by omega)
        refine ⟨wr a c.length 1, m, n1, ?_, hrd1, hones1⟩
        apply Reach.one
        have hp2 : a (c.length : Int) = 2 := by rw [hp, hP2]; rfl
        simp only [accel_desc_step, ne_eq, hq, not_false_eq_true, if_true, hp2,
          accel_desc_visit, call_visit_eq, incr_eq_cadd, hs, hdesc, List.map_cons, List.map_nil,
          List.length_singleton]
        congr 1
        omega
      · -- m = p.a[q] - 1; n1 = k - q + 1; p.a[q] = m and the fill loop
        have hrd1 : rd (wr a c.length ((P : Int) - 1)) (c ++ [((P - 1 : Nat) : Int)]).length
            = c ++ [((P - 1 : Nat) : Int)] := by
          simp only [List.length_append, List.length_singleton]
          have hc : ((P - 1 : Nat) : Int) = (P : Int) - 1 := by omega
          rw [hc]
          exact rd_wr_snoc a _ _ c hrd0 (by omega)
        have hlen1 : (c ++ [((P - 1 : Nat) : Int)]).length = c.length + 1 := by simp
        have hones1 : Ones (wr a c.length ((P : Int) - 1))
            (c ++ [((P - 1 : Nat) : Int)]).length := by
          rw [hlen1]
          exact hones.wr_lt _ _ (by omega)
        obtain ⟨a1, m1, n11, hr1, hrd2, hones2⟩ := ihF (P - 1) (j + 1)
          (c ++ [((P - 1 : Nat) : Int)]) (wr a c.length ((P : Int) - 1))
          ((c.length : Int) + j) cnt out (by omega) (by omega) (by rw [hlen1]; omega)
          (by rw [hlen1]; omega) hrd1 hones1
        rw [hlen1] at hr1 hrd2 hones2
        obtain ⟨a2, m2, n12, hr2, hrd3, hones3⟩ := ihH (P - 1) (j + 1) c a1 m1 n11
          (cadd cnt (desc (P - 1) (j + 1)).length)
          (out ++ vlog v ((desc (P - 1) (j + 1)).map (psnap N (c ++ [((P - 1 : Nat) : Int)]))))
          (by omega) (by omega) (by omega) hrd2 hones2
        obtain ⟨e1, e2⟩ := desc_log_split N v c (P - 1) (P + j) (by omega) (by omega) cnt out
        have hj1 : P + j - (P - 1) = j + 1 := by omega
        have hj2 : P - 1 + (j + 1) = P + j := by omega
        rw [hj1] at e1 e2
        rw [hj2, e1, e2] at hr2
        refine ⟨a2, m2, n12, ?_, hrd3, hones3⟩
        refine Reach.step _ ?_ (Reach.trans hr1 (Reach.of_eq' ?_ (Reach.of_eq hr2 ?_)))
        · have hP3 : ¬ ((P : Int) = 2) := by omega
          simp only [accel_desc_step, ne_eq, hq, not_false_eq_true, if_true, hp, hP3, if_false]
          congr 1
          all_goals omega
        · congr 1
          all_goals omega
        · congr 1
          all_goals omega

/-- For 1 <= n <= MAXNUMP accel_desc returns after visiting exactly the list desc n n. -/
theorem accel_desc_run (mem : Buf) (n : Nat) (v : Bool) (h1 : 1 ≤ n) (h2 : n ≤ 200) :
    Returns (fun fuel => accel_desc fuel mem n v)
      (cadd 0 (desc n n).length, vlog v ((desc n n).map (psnap n []))) := by
  have hn0 : ¬ ((n : Int) < 0) := by omega
  have hn1 : ¬ ((n : Int) = 0) := by omega
  obtain ⟨e1, e2⟩ := desc_log_self n v [] n n (by omega) (le_refl _) 0 []
  rw [show (fun fuel => accel_desc fuel mem n v) = fun fuel =>
      (let s := (accel_desc_step n v)^[fuel] (accel_desc_init mem n v)
       if s.pc = .ret then some (s.count, s.out) else none) from rfl]
  have hfin : ∃ sf : AccelDescSt, Reach (accel_desc_step n v) (accel_desc_init mem n v) sf ∧
      sf.pc = .ret ∧ sf.count = cadd 0 (desc n n).length ∧
      sf.out = vlog v ((desc n n).map (psnap n [])) := by
    by_cases hn : n = 1
    · have hz : desc (n - 1) n = [] := by
        subst hn
        exact desc_zero_left 1 (by omega)
      rw [hz] at e1 e2
      simp only [List.length_nil, List.map_nil, vlog_nil, List.append_nil] at e1 e2
      have hw : rd (wr mem ((0 : Nat) : Int) 1) (0 + 1) = [] ++ [(n : Int)] := by
        rw [hn]
        exact rd_wr_snoc _ 0 _ [] rfl (by omega)
      have hs : snap n 1 (wr mem 0 1) = psnap n [] [(n : Int)] :=
        snap_psnap _ _ _ _ _ (by simp) (by simpa using hw)
      have hn2 : (n : Int) = 1 := by omega
      have hinit : accel_desc_init mem n v = ⟨.ret, wr mem 0 1, 0, 0, 0, 0,
          cadd 0 1, [] ++ vlog v [psnap n [] [(n : Int)]]⟩ := by
        unfold accel_desc_init
        rw [if_neg hn0, if_neg hn1, if_pos hn2]
        simp only [call_visit_eq, incr_eq_cadd, hs]
      rw [hinit]
      refine ⟨_, Reach.refl _ _, rfl, ?_, ?_⟩
      · simp only []
        rw [← e1, cadd_cadd]
      · simpa using e2
    · have hn2 : ¬ ((n : Int) = 1) := by omega
      have hw : rd (wr (init_partition mem 1) ((0 : Nat) : Int) (n : Int)) (0 + 1)
          = [] ++ [(n : Int)] := rd_wr_snoc _ 0 _ [] rfl (by omega)
      have hs : snap n 1 (wr (init_partition mem 1) 0 (n : Int)) = psnap n [] [(n : Int)] :=
        snap_psnap _ _ _ _ _ (by simp) (by simpa using hw)
      have hinit : accel_desc_init mem n v = ⟨.outer, wr (init_partition mem 1) 0 n,
          0, 0, 0, 0, cadd 0 1, [] ++ vlog v [psnap n [] [(n : Int)]]⟩ := by
        unfold accel_desc_init
        rw [if_neg hn0, if_neg hn1, if_neg hn2]
        simp only [call_visit_eq, incr_eq_cadd, hs]
      rw [hinit]
      have hrd1 : rd (wr (init_partition mem 1) 0 (n : Int)) (([] : List Int).length + 1)
          = [] ++ [(n : Int)] := by simpa using hw
      have hones := ones_init mem n
      generalize wr (init_partition mem 1) 0 (n : Int) = a0 at hrd1 hones
      obtain ⟨a2, m2, n12, hr2, _, _⟩ := (accel_desc_main n v (n + 0 + n)).2 n 0 [] a0 0 0
        (cadd 0 1) ([] ++ vlog v [psnap n [] [(n : Int)]])
        (le_refl _) (by omega) (by simp; omega) hrd1 hones
      rw [Nat.add_zero, e1, e2] at hr2
      refine ⟨_, Reach.trans (Reach.of_eq' ?_ hr2) (Reach.one rfl), ?_, ?_, ?_⟩
      · congr 1
      · simp [accel_desc_step]
      · simp [accel_desc_step]
      · simp [accel_desc_step]
  obtain ⟨sf, hreach, hpc, hcount, hout⟩ := hfin
  obtain ⟨t0, ht⟩ := hreach.run (by simp [accel_desc_step, hpc])
  refine ⟨t0, fun fuel hf => ?_⟩
  simp only [ht fuel hf, hpc, if_true, hcount, hout]

/-! ## zs2: the array x and the largest composition -/

theorem rdx_succ (x : Buf) (k : Nat) : rdx x (k + 1) = rdx x k ++ [x ((k : Int) + 1)] := by
  unfold rdx
  rw [List.range_succ, List.map_append]
  rfl

theorem rdx_length (x : Buf) (k : Nat) : (rdx x k).length = k := by simp [rdx]

theorem rdx_congr (x y : Buf) (k : Nat) (h : ∀ i : Nat, 1 ≤ i → i ≤ k → x i = y i) :
    rdx x k = rdx y k := by
  unfold rdx
  apply List.map_congr_left
  intro i hi
  have := h (i + 1) (by omega) (by have := List.mem_range.mp hi; omega)
  simpa using this

theorem rdx_add (x : Buf) (K j : Nat) :
    rdx x (K + j) = rdx x K ++ (List.range j).map (fun (i : Nat) => x ((K : Int) + i + 1)) := by
  induction j with
  | zero => simp [rdx]
  | succ j ih =>
    rw [← Nat.add_assoc, rdx_succ, ih, List.range_succ, List.map_append, List.append_assoc]
    simp

theorem rdx_ones (x : Buf) (K j : Nat) (L : List Int) (h : rdx x K = L)
    (h1 : ∀ i : Nat, K < i → i ≤ K + j → x i = 1) :
    rdx x (K + j) = L ++ List.replicate j 1 := by
  rw [rdx_add, h]
  congr 1
  apply List.eq_replicate_iff.mpr
  refine ⟨by simp, ?_⟩
  intro b hb
  obtain ⟨i, hi, rfl⟩ := List.mem_map.mp hb
  have hi2 : i < j := List.mem_range.mp hi
  have := h1 (K + i + 1) (by omega) (by omega)
  simpa using this

theorem rdx_snoc_inv (x : Buf) (k : Nat) (v : Int) (c : List Int)
    (h : rdx x (k + 1) = c ++ [v]) : rdx x k = c ∧ x ((k : Int) + 1) = v := by
  rw [rdx_succ] at h
  have hl : (rdx x k).length = c.length := by
    have := congrArg List.length h
    simp at this
    simpa using this
  obtain ⟨e1, e2⟩ := List.append_inj h hl
  exact ⟨e1, by simpa using e2⟩

/-- Reading a cell of x out of the list it holds. -/
theorem rdx_get (x : Buf) (K : Nat) (L : List Int) (h : rdx x K = L) (i : Nat) (hi : i < K) :
    L.getD i 0 = x ((i : Int) + 1) := by
  subst h
  unfold rdx
  rw [List.getD_eq_getElem?_getD, List.getElem?_map, List.getElem?_range hi]
  rfl

theorem rd_mk_partition (a x : Buf) (K : Nat) (hK : K ≤ 201) :
    rd (mk_partition a x 1 K) K = rdx x K := by
  unfold rd rdx
  apply List.map_congr_left
  intro i hi
  have hi2 : i < K := List.mem_range.mp hi
  rw [mk_partition_apply a x 1 K hK]
  have : (0 : Int) ≤ (i : Int) ∧ (i : Int) < (K : Int) := by omega
  rw [if_pos this]
  congr 1
  push_cast
  ring

/-- What zs2 hands to the visitor when x[1..m] holds c ++ l. -/
theorem zs2_snap (N m : Int) (a x : Buf) (c l : List Int)
    (hm : m = ((c.length + l.length : Nat) : Int)) (hlen : c.length + l.length ≤ 201)
    (hx : rdx x (c.length + l.length) = c ++ l) :
    snap N m (mk_partition a x 1 m.toNat) = psnap N c l := by
  subst hm
  unfold snap psnap
  rw [Int.toNat_ofNat, rd_mk_partition _ _ _ hlen, hx, List.length_append]

theorem hcount_append (l1 l2 : List Int) : hcount (l1 ++ l2) = hcount l1 + hcount l2 := by
  simp [hcount, List.filter_append]

theorem hcount_big (l : List Int) (h : ∀ y ∈ l, (2 : Int) ≤ y) : hcount l = l.length := by
  unfold hcount
  rw [List.filter_eq_self.mpr]
  intro y hy
  simpa using h y hy

theorem hcount_ones (k : Nat) : hcount (List.replicate k 1) = 0 := by
  unfold hcount
  rw [List.length_eq_zero, List.filter_eq_nil_iff]
  intro y hy
  have := List.eq_of_mem_replicate hy
  subst this
  decide

theorem gr_small (M T : Nat) (h : ¬ (0 < M ∧ M < T)) : gr M T = [(T : Int)] := by
  rw [gr, if_neg h]

theorem gr_big (M T : Nat) (h : 0 < M ∧ M < T) : gr M T = (M : Int) :: gr M (T - M) := by
  rw [gr, if_pos h]

theorem gr_one (T : Nat) (hT : 1 ≤ T) : gr 1 T = List.replicate T 1 := by
  induction T using Nat.strong_induction_on with
  | _ T ih =>
    by_cases h : 1 < T
    · rw [gr_big 1 T ⟨by omega, h⟩, ih (T - 1) (by omega) (by omega)]
      have : T = (T - 1) + 1 := by omega
      conv_rhs => rw [this, List.replicate_succ]
      rfl
    · have : T = 1 := by omega
      subst this
      rw [gr_small 1 1 (by omega)]
      rfl

/-- The largest composition is q times M and then a rest between 1 and M. -/
theorem gr_shape (M : Nat) (hM : 1 ≤ M) (T : Nat) (hT : 1 ≤ T) :
    ∃ q rem : Nat, gr M T = List.replicate q (M : Int) ++ [(rem : Int)] ∧
      ((T : Int) = (q : Int) * M + rem) ∧ 1 ≤ rem ∧ rem ≤ M ∧ (M < T → 1 ≤ q) := by
  induction T using Nat.strong_induction_on with
  | _ T ih =>
    by_cases h : M < T
    · obtain ⟨q, rem, e, hs, h1, h2, _⟩ := ih (T - M) (by omega) (by omega)
      refine ⟨q + 1, rem, ?_, ?_, h1, h2, fun _ => by omega⟩
      · rw [gr_big M T ⟨by omega, h⟩, e, List.replicate_succ]
        rfl
      · have hc : ((T - M : Nat) : Int) = (T : Int) - M := by omega
        rw [hc] at hs
        push_cast
        linarith
    · refine ⟨0, T, ?_, by simp, hT, by omega, fun hh => absurd hh h⟩
      rw [gr_small M T (by omega)]
      rfl

theorem rdx_rep (x : Buf) (K j : Nat) (L : List Int) (w : Int) (h : rdx x K = L)
    (h1 : ∀ i : Nat, K < i → i ≤ K + j → x i = w) :
    rdx x (K + j) = L ++ List.replicate j w := by
  rw [rdx_add, h]
  congr 1
  apply List.eq_replicate_iff.mpr
  refine ⟨by simp, ?_⟩
  intro b hb
  obtain ⟨i, hi, rfl⟩ := List.mem_map.mp hb
  have hi2 : i < j := List.mem_range.mp hi
  have := h1 (K + i + 1) (by omega) (by omega)
  simpa using this

theorem rdx_rep_inv (x : Buf) (K j : Nat) (L : List Int) (w : Int) (hL : L.length = K)
    (h : rdx x (K + j) = L ++ List.replicate j w) :
    rdx x K = L ∧ ∀ i : Nat, K < i → i ≤ K + j → x i = w := by
  rw [rdx_add] at h
  obtain ⟨e1, e2⟩ := List.append_inj h (by rw [rdx_length, hL])
  refine ⟨e1, ?_⟩
  intro i hi1 hi2
  have hmem : x ((K : Int) + ((i - K - 1 : Nat) : Int) + 1) ∈
      (List.range j).map (fun (i : Nat) => x ((K : Int) + i + 1)) :=
    List.mem_map.mpr ⟨i - K - 1, List.mem_range.mpr (by omega), rfl⟩
  rw [e2] at hmem
  have := List.eq_of_mem_replicate hmem
  have hc : (K : Int) + ((i - K - 1 : Nat) : Int) + 1 = i := by omega
  rwa [hc] at this

theorem rdx_first (x : Buf) (K : Nat) (L : List Int) (h : rdx x K = L) (hK : 0 < K) :
    ∃ L', L = x 1 :: L' := by
  obtain ⟨K', rfl⟩ := Nat.exists_eq_succ_of_ne_zero (by omega : K ≠ 0)
  subst h
  unfold rdx
  rw [List.range_succ_eq_map, List.map_cons]
  exact ⟨List.map (fun (i : Nat) => x ((i : Int) + 1)) (List.map Nat.succ (List.range K')),
    by simp⟩

/-- The last cell of a nonempty front c of x holds a part of c. -/
theorem rdx_last_mem (x : Buf) (c : List Int) (h : rdx x c.length = c) (hc : 0 < c.length) :
    x (c.length : Int) ∈ c := by
  have hmem : x (((c.length - 1 : Nat) : Int) + 1) ∈ rdx x c.length :=
    List.mem_map.mpr ⟨c.length - 1, List.mem_range.mpr (by omega), rfl⟩
  rw [h] at hmem
  have hcast : ((c.length - 1 : Nat) : Int) + 1 = c.length := by omega
  rwa [hcast] at hmem

theorem sum_nonneg_of_big (c : List Int) (h : ∀ y ∈ c, (2 : Int) ≤ y) : 0 ≤ c.sum := by
  have := sum_ge_length c (fun y hy => by have := h y hy; omega)
  omega

/-- The head state of zs2 for the parts c ++ [M] followed by k ones, from the cells. -/
theorem zs2_head_intro (N : Int) (x : Buf) (c : List Int) (M : Int) (k : Nat)
    (hx0 : x 0 = -1) (hc : rdx x c.length = c) (hM : x ((c.length : Int) + 1) = M)
    (hones : ∀ i : Nat, c.length + 1 < i → (i : Int) ≤ N → x i = 1)
    (hbig : ∀ y ∈ c, (2 : Int) ≤ y) (hM2 : 2 ≤ M) (hk : ((c.length + 1 + k : Nat) : Int) ≤ N) :
    Zs2Head N x ((c.length : Int) + 1) ((c.length : Int) + 1 + (k : Int))
      ((c ++ [M]) ++ List.replicate k 1) := by
  have hbig1 : ∀ y ∈ c ++ [M], (2 : Int) ≤ y := by
    intro y hy
    rcases List.mem_append.mp hy with hy | hy
    · exact hbig y hy
    · simp at hy; omega
  have hlen : ((c ++ [M]) ++ List.replicate k (1 : Int)).length = c.length + 1 + k := by
    simp; omega
  refine ⟨hx0, ?_, ?_, ?_, ?_⟩
  · rw [hcount_append, hcount_big _ hbig1, hcount_ones]
    simp
  · rw [hlen]; push_cast; ring
  · rw [hlen]
    apply rdx_rep x (c.length + 1) k (c ++ [M]) 1
    · rw [rdx_succ, hc, hM]
    · intro i hi1 hi2
      exact hones i hi1 (by omega)
  · intro i hi1 hi2
    rw [hlen] at hi1
    exact hones i (by omega) hi2

/-! ## zs2 visits the descending compositions in increasing order -/

/-- The loop `while (x[j] == x[m-1])` sets the run of equal parts before x[m-1] to 1. -/
theorem zs2_scan (N : Int) (v : Bool) (K : Nat) (m vv : Int) (a : Buf) (h r : Int)
    (cnt : Nat) (out : List partition_t) (hm : m ≤ 200) :
    ∀ (i : Nat) (x : Buf), (K : Int) + i ≤ m - 2 → x (m - 1) = vv →
      (∀ t : Nat, 1 ≤ t → t ≤ i → x ((K : Int) + t) = vv) →
      ∃ x', Reach (zs2_step N v) ⟨.scan, a, x, h, (K : Int) + i, m, r, cnt, out⟩
          ⟨.scan, a, x', h, K, m, r, cnt, out⟩ ∧
        (∀ t : Int, (t ≤ K ∨ (K : Int) + i < t) → x' t = x t) ∧
        (∀ t : Nat, 1 ≤ t → t ≤ i → x' ((K : Int) + t) = 1) := by
  intro i
  induction i with
  | zero =>
    intro x _ _ _
    refine ⟨x, Reach.of_eq (Reach.refl _ _) ?_, fun _ _ => rfl, fun t h1 h2 => by omega⟩
    congr 1
  | succ i ih =>
    intro x hK hv hrun
    have hcur : x ((K : Int) + ((i + 1 : Nat) : Int)) = vv := hrun (i + 1) (by omega) (le_refl _)
    have h1 : wr x ((K : Int) + ((i + 1 : Nat) : Int)) 1 (m - 1) = vv := by
      rw [wr_other _ _ _ _ (by omega)]; exact hv
    have h2 : ∀ t : Nat, 1 ≤ t → t ≤ i →
        wr x ((K : Int) + ((i + 1 : Nat) : Int)) 1 ((K : Int) + t) = vv := by
      intro t ht1 ht2
      rw [wr_other _ _ _ _ (by omega)]
      exact hrun t ht1 (by omega)
    obtain ⟨x', hr, hsame, hone⟩ := ih (wr x ((K : Int) + ((i + 1 : Nat) : Int)) 1)
      (by omega) h1 h2
    refine ⟨x', Reach.step _ ?_ hr, ?_, ?_⟩
    · have hcond : x ((K : Int) + ((i + 1 : Nat) : Int)) = x (m - 1) := by rw [hcur, hv]
      simp only [zs2_step, hcond, if_true]
      congr 1
      omega
    · intro t ht
      rw [hsame t (by omega), wr_other _ _ _ _ (by omega)]
    · intro t ht1 ht2
      by_cases e : t = i + 1
      · subst e
        rw [hsame _ (Or.inr (by omega)), wr_same _ _ _ (by omega) (by omega)]
      · exact hone t ht1 (by omega)

/-- The step of zs2 from the parts c followed by T ones, T at least 2: two ones become
a 2. -/
theorem zs2_next_two (N : Int) (v : Bool) (T : Nat) (c : List Int) (a x : Buf)
    (h j m r : Int) (cnt : Nat) (out : List partition_t)
    (hT : 2 ≤ T) (hc : ∀ y ∈ c, (2 : Int) ≤ y) (hsum : c.sum + T = N) (hN : N ≤ 200)
    (hhead : Zs2Head N x h m (c ++ List.replicate T 1)) :
    ∃ a' x' j' r', Reach (zs2_step N v) ⟨.outer, a, x, h, j, m, r, cnt, out⟩
        ⟨.outer, a', x', (c.length : Int) + 1, j', (c.length : Int) + 1 + ((T - 2 : Nat) : Int),
          r', cadd cnt 1,
          out ++ vlog v [psnap N (c ++ [(2 : Int)]) (List.replicate (T - 2) 1)]⟩ ∧
      Zs2Head N x' ((c.length : Int) + 1) ((c.length : Int) + 1 + ((T - 2 : Nat) : Int))
        ((c ++ [(2 : Int)]) ++ List.replicate (T - 2) 1) := by
  obtain ⟨hx0, hh, hm, hrdx, hones⟩ := hhead
  have hlen : (c ++ List.replicate T (1 : Int)).length = c.length + T := by simp
  rw [hlen] at hm hrdx hones
  obtain ⟨hbase, hin⟩ := rdx_rep_inv x c.length T c 1 rfl hrdx
  rw [hcount_append, hcount_big _ hc, hcount_ones, Nat.add_zero] at hh
  have hcl := sum_ge_length c (fun y hy => by have := hc y hy; omega)
  have hx1 : x 1 ≠ N := by
    obtain ⟨L', hL'⟩ := rdx_first x _ _ hrdx (by omega)
    cases c with
    | nil =>
      have hT' : T = (T - 1) + 1 := by omega
      rw [hT', List.replicate_succ] at hL'
      simp at hL'
      simp at hsum
      omega
    | cons y c' =>
      simp at hL'
      have h0 := sum_nonneg_of_big c' (fun z hz => hc z (List.mem_cons_of_mem _ hz))
      simp at hsum
      omega
  have hall : ∀ i : Nat, c.length < i → (i : Int) ≤ N → x i = 1 := by
    intro i hi1 hi2
    by_cases hi : i ≤ c.length + T
    · exact hin i hi1 hi
    · exact hones i (by omega) hi2
  have hnew : Zs2Head N (wr x ((c.length : Int) + 1) 2) ((c.length : Int) + 1)
      ((c.length : Int) + 1 + ((T - 2 : Nat) : Int))
      ((c ++ [(2 : Int)]) ++ List.replicate (T - 2) 1) := by
    apply zs2_head_intro N _ c 2 (T - 2)
    · rw [wr_other _ _ _ _ (by omega)]; exact hx0
    · refine Eq.trans (rdx_congr _ _ _ ?_) hbase
      intro i hi1 hi2
      rw [wr_other _ _ _ _ (by omega)]
    · exact wr_same _ _ _ (by omega) (by omega)
    · intro i hi1 hi2
      rw [wr_other _ _ _ _ (by omega)]
      exact hall i (by omega) hi2
    · exact hc
    · omega
    · omega
  have hh1 : h + 1 = (c.length : Int) + 1 := by omega
  have hm1 : m - 1 = (c.length : Int) + 1 + ((T - 2 : Nat) : Int) := by omega
  have hlen2 : (c ++ [(2 : Int)]).length + (List.replicate (T - 2) (1 : Int)).length
      = c.length + 1 + (T - 2) := by simp
  have hs : snap N ((c.length : Int) + 1 + ((T - 2 : Nat) : Int))
      (mk_partition a (wr x ((c.length : Int) + 1) 2) 1
        ((c.length : Int) + 1 + ((T - 2 : Nat) : Int)).toNat)
      = psnap N (c ++ [(2 : Int)]) (List.replicate (T - 2) 1) := by
    apply zs2_snap
    · rw [hlen2]; omega
    · rw [hlen2]; omega
    · rw [hlen2]
      have := hnew.2.2.2.1
      have hl : ((c ++ [(2 : Int)]) ++ List.replicate (T - 2) (1 : Int)).length
          = c.length + 1 + (T - 2) := by simp; omega
      rw [hl] at this
      exact this
  refine ⟨mk_partition a (wr x ((c.length : Int) + 1) 2) 1
    ((c.length : Int) + 1 + ((T - 2 : Nat) : Int)).toNat,
    wr x ((c.length : Int) + 1) 2, j, r, ?_, hnew⟩
  apply Reach.one
  have hcond : m - h > 1 := by omega
  simp only [zs2_step, ne_eq, hx1, not_false_eq_true, if_true, hcond, zs2_visit, hh1, hm1,
    call_visit_eq, incr_eq_cadd, hs]

/-- The step of zs2 from the parts c, then q times w, then a rest, when w is at least 2
and smaller than the parts of c: the run of w is replaced by w + 1 and ones. -/
theorem zs2_next_big (N : Int) (v : Bool) (w q rem T : Nat) (c : List Int) (a x : Buf)
    (h j m r : Int) (cnt : Nat) (out : List partition_t)
    (hw : 2 ≤ w) (hq : 1 ≤ q) (hrem1 : 1 ≤ rem)
    (hT : (T : Int) = (q : Int) * w + rem)
    (hc : ∀ y ∈ c, (2 : Int) ≤ y ∧ ((w : Int) + 1) ≤ y) (hsum : c.sum + T = N) (hN : N ≤ 200)
    (hhead : Zs2Head N x h m (c ++ (List.replicate q (w : Int) ++ [(rem : Int)]))) :
    ∃ a' x' j' r', Reach (zs2_step N v) ⟨.outer, a, x, h, j, m, r, cnt, out⟩
        ⟨.outer, a', x', (c.length : Int) + 1, j',
          (c.length : Int) + 1 + ((T - (w + 1) : Nat) : Int), r', cadd cnt 1,
          out ++ vlog v [psnap N (c ++ [((w + 1 : Nat) : Int)])
            (List.replicate (T - (w + 1)) 1)]⟩ ∧
      Zs2Head N x' ((c.length : Int) + 1) ((c.length : Int) + 1 + ((T - (w + 1) : Nat) : Int))
        ((c ++ [((w + 1 : Nat) : Int)]) ++ List.replicate (T - (w + 1)) 1) := by
  obtain ⟨hx0, hh, hm, hrdx, hones⟩ := hhead
  have hbig : ∀ y ∈ c, (2 : Int) ≤ y := fun y hy => (hc y hy).1
  have hlen : (c ++ (List.replicate q (w : Int) ++ [(rem : Int)])).length
      = c.length + q + 1 := by simp; omega
  rw [hlen] at hm hrdx hones
  have hrdx' : rdx x (c.length + q + 1) = (c ++ List.replicate q (w : Int)) ++ [(rem : Int)] := by
    rw [hrdx, List.append_assoc]
  obtain ⟨hrdx2, hxm⟩ := rdx_snoc_inv x _ _ _ hrdx'
  obtain ⟨hbase, hrun⟩ := rdx_rep_inv x c.length q c w rfl hrdx2
  have hcl := sum_ge_length c (fun y hy => by have := hbig y hy; omega)
  have hqw : (w : Int) ≤ (q : Int) * w := by
    have : (1 : Int) * w ≤ (q : Int) * w :=
      mul_le_mul_of_nonneg_right (by omega) (by omega)
    linarith
  have hqq : (q : Int) ≤ (q : Int) * w := by
    have : (q : Int) * 1 ≤ (q : Int) * w :=
      mul_le_mul_of_nonneg_left (by omega) (by omega)
    linarith
  have hTw : w + 1 ≤ T := by omega
  have hm200 : m ≤ 200 := by omega
  -- the number of parts that are at least 2
  have hh2 : h = (c.length : Int) + q + 1 ∨ h = (c.length : Int) + q := by
    rw [hcount_append, hcount_big _ hbig, hcount_append,
      hcount_big (List.replicate q (w : Int))
        (fun y hy => by have := List.eq_of_mem_replicate hy; omega)] at hh
    have h1 : hcount [(rem : Int)] ≤ 1 := by
      unfold hcount
      exact le_trans (List.length_filter_le _ _) (by simp)
    simp only [List.length_replicate] at hh
    by_cases hr2 : 2 ≤ rem
    · left
      have : hcount [(rem : Int)] = 1 := by
        rw [hcount_big _ (fun y hy => by simp at hy; omega)]
        rfl
      rw [this] at hh
      rw [hh]; push_cast; ring
    · right
      have hrem : rem = 1 := by omega
      have : hcount [(rem : Int)] = 0 := by
        rw [hrem]
        exact hcount_ones 1
      rw [this] at hh
      rw [hh]; push_cast; ring
  have hx1 : x 1 ≠ N := by
    obtain ⟨L', hL'⟩ := rdx_first x _ _ hrdx (by omega)
    cases c with
    | nil =>
      have hq' : q = (q - 1) + 1 := by omega
      rw [hq', List.replicate_succ] at hL'
      simp at hL'
      simp at hsum
      omega
    | cons y c' =>
      simp at hL'
      have h0 := sum_nonneg_of_big c' (fun z hz => hbig z (List.mem_cons_of_mem _ hz))
      simp at hsum
      omega
  have hxK : x (c.length : Int) ≠ (w : Int) := by
    by_cases hc0 : c.length = 0
    · rw [hc0]
      simp only [Nat.cast_zero]
      rw [hx0]
      omega
    · have := (hc _ (rdx_last_mem x c hbase (by omega))).2
      omega
  have hxq : x (m - 1) = (w : Int) := by
    have := hrun (c.length + q) (by omega) (le_refl _)
    have hc2 : m - 1 = ((c.length + q : Nat) : Int) := by omega
    rw [hc2]
    exact this
  have hxm2 : x m = (rem : Int) := by
    have hc2 : m = ((c.length + q : Nat) : Int) + 1 := by omega
    rw [hc2]
    exact hxm
  -- the scan
  obtain ⟨x', hscan, hsame, hone⟩ := zs2_scan N v c.length m w a h r cnt out hm200
    (q - 1) x (by omega) hxq
    (fun t ht1 ht2 => by
      have := hrun (c.length + t) (by omega) (by omega)
      simpa using this)
  have hx'K : x' (c.length : Int) = x (c.length : Int) := hsame _ (Or.inl (le_refl _))
  have hx'q : x' (m - 1) = (w : Int) := by
    rw [hsame _ (Or.inr (by omega))]; exact hxq
  have hx'm : x' m = (rem : Int) := by
    rw [hsame _ (Or.inr (by omega))]; exact hxm2
  -- the array after the body
  have hr1 : wr x' ((c.length : Int) + 1) ((w : Int) + 1) m
      + wr x' ((c.length : Int) + 1) ((w : Int) + 1) (m - 1) * (m - ((c.length : Int) + 1) - 1)
      = (T : Int) - w := by
    rw [wr_other _ _ _ _ (by omega), hx'm]
    by_cases hq1 : q = 1
    · have hz : m - ((c.length : Int) + 1) - 1 = 0 := by omega
      rw [hz, mul_zero, hT, hq1]
      push_cast
      ring
    · rw [wr_other _ _ _ _ (by omega), hx'q]
      have hz : m - ((c.length : Int) + 1) - 1 = (q : Int) - 1 := by omega
      rw [hz, hT]
      ring
  have hfinal : ∀ x3 : Buf,
      x3 = (if m - ((c.length : Int) + 1) > 1
        then wr (wr (wr x' ((c.length : Int) + 1) ((w : Int) + 1)) m 1) (m - 1) 1
        else wr (wr x' ((c.length : Int) + 1) ((w : Int) + 1)) m 1) →
      Zs2Head N x3 ((c.length : Int) + 1) ((c.length : Int) + 1 + ((T - (w + 1) : Nat) : Int))
        ((c ++ [((w + 1 : Nat) : Int)]) ++ List.replicate (T - (w + 1)) 1) := by
    intro x3 hx3
    have hlow : ∀ t : Int, t ≤ c.length → x3 t = x t := by
      intro t ht
      rw [hx3]
      split
      · rw [wr_other _ _ _ _ (by omega), wr_other _ _ _ _ (by omega),
          wr_other _ _ _ _ (by omega)]
        exact hsame t (Or.inl ht)
      · rw [wr_other _ _ _ _ (by omega), wr_other _ _ _ _ (by omega)]
        exact hsame t (Or.inl ht)
    apply zs2_head_intro N x3 c _ (T - (w + 1))
    · rw [hlow 0 (by omega)]; exact hx0
    · refine Eq.trans (rdx_congr _ _ _ ?_) hbase
      intro i hi1 hi2
      exact hlow i (by omega)
    · rw [hx3]
      split
      · rw [wr_other _ _ _ _ (by omega), wr_other _ _ _ _ (by omega),
          wr_same _ _ _ (by omega) (by omega)]
        push_cast; ring
      · rw [wr_other _ _ _ _ (by omega), wr_same _ _ _ (by omega) (by omega)]
        push_cast; ring
    · intro i hi1 hi2
      rw [hx3]
      by_cases him : (i : Int) = m
      · split
        · rw [wr_other _ _ _ _ (by omega), him, wr_same _ _ _ (by omega) (by omega)]
        · rw [him, wr_same _ _ _ (by omega) (by omega)]
      · by_cases him1 : (i : Int) = m - 1
        · have hgt : m - ((c.length : Int) + 1) > 1 := by omega
          rw [if_pos hgt, him1, wr_same _ _ _ (by omega) (by omega)]
        · have hx'i : x' i = 1 := by
            by_cases hi3 : (i : Int) < m - 1
            · have := hone (i - c.length) (by omega) (by omega)
              have hc2 : (c.length : Int) + ((i - c.length : Nat) : Int) = i := by omega
              rw [hc2] at this
              exact this
            · rw [hsame _ (Or.inr (by omega))]
              exact hones i (by omega) hi2
          split
          · rw [wr_other _ _ _ _ (by omega), wr_other _ _ _ _ (by omega),
              wr_other _ _ _ _ (by omega)]
            exact hx'i
          · rw [wr_other _ _ _ _ (by omega), wr_other _ _ _ _ (by omega)]
            exact hx'i
    · exact hbig
    · push_cast; omega
    · omega
  obtain ⟨x3, hx3⟩ : ∃ x3 : Buf, x3 = (if m - ((c.length : Int) + 1) > 1
        then wr (wr (wr x' ((c.length : Int) + 1) ((w : Int) + 1)) m 1) (m - 1) 1
        else wr (wr x' ((c.length : Int) + 1) ((w : Int) + 1)) m 1) := ⟨_, rfl⟩
  have hnew := hfinal x3 hx3
  have hlen2 : (c ++ [((w + 1 : Nat) : Int)]).length
      + (List.replicate (T - (w + 1)) (1 : Int)).length = c.length + 1 + (T - (w + 1)) := by
    simp
  have hs : snap N ((c.length : Int) + 1 + ((T - (w + 1) : Nat) : Int))
      (mk_partition a x3 1 ((c.length : Int) + 1 + ((T - (w + 1) : Nat) : Int)).toNat)
      = psnap N (c ++ [((w + 1 : Nat) : Int)]) (List.replicate (T - (w + 1)) 1) := by
    apply zs2_snap
    · rw [hlen2]; omega
    · rw [hlen2]; omega
    · rw [hlen2]
      have := hnew.2.2.2.1
      have hl : ((c ++ [((w + 1 : Nat) : Int)]) ++ List.replicate (T - (w + 1)) (1 : Int)).length
          = c.length + 1 + (T - (w + 1)) := by simp; omega
      rw [hl] at this
      exact this
  refine ⟨mk_partition a x3 1 ((c.length : Int) + 1 + ((T - (w + 1) : Nat) : Int)).toNat,
    x3, (c.length : Int), (T : Int) - w, ?_, hnew⟩
  refine Reach.step ⟨.scan, a, x, h, m - 2, m, r, cnt, out⟩ ?_
    (Reach.trans (Reach.of_eq' ?_ hscan) (Reach.one ?_))
  · have hcond : ¬ (m - h > 1) := by omega
    simp only [zs2_step, ne_eq, hx1, not_false_eq_true, if_true, hcond, if_false]
  · congr 1
    omega
  · have hcond : ¬ (x' (c.length : Int) = (w : Int)) := by
      rw [hx'K]; exact hxK
    have hm1 : (c.length : Int) + 1 + ((T : Int) - w) - 1
        = (c.length : Int) + 1 + ((T - (w + 1) : Nat) : Int) := by omega
    simp only [zs2_step, hcond, if_false, zs2_visit, hx'q, hr1, hm1, ← hx3, hs,
      call_visit_eq, incr_eq_cadd]

/-- The step of zs2 from the largest composition with parts at most M - 1 behind c to the
smallest composition that continues c with the part M. -/
theorem zs2_next (N : Int) (v : Bool) (M T : Nat) (c : List Int) (a x : Buf)
    (h j m r : Int) (cnt : Nat) (out : List partition_t)
    (hM : 2 ≤ M) (hMT : M ≤ T) (hc : ∀ y ∈ c, (2 : Int) ≤ y ∧ (M : Int) ≤ y)
    (hsum : c.sum + T = N) (hN : N ≤ 200)
    (hhead : Zs2Head N x h m (c ++ gr (M - 1) T)) :
    ∃ a' x' j' r', Reach (zs2_step N v) ⟨.outer, a, x, h, j, m, r, cnt, out⟩
        ⟨.outer, a', x', (c.length : Int) + 1, j', (c.length : Int) + 1 + ((T - M : Nat) : Int),
          r', cadd cnt 1,
          out ++ vlog v [psnap N (c ++ [(M : Int)]) (List.replicate (T - M) 1)]⟩ ∧
      Zs2Head N x' ((c.length : Int) + 1) ((c.length : Int) + 1 + ((T - M : Nat) : Int))
        ((c ++ [(M : Int)]) ++ List.replicate (T - M) 1) := by
  by_cases hM2 : M = 2
  · subst hM2
    rw [show 2 - 1 = 1 from rfl, gr_one T (by omega)] at hhead
    exact zs2_next_two N v T c a x h j m r cnt out hMT (fun y hy => (hc y hy).1) hsum hN hhead
  · obtain ⟨q, rem, e, hT, hr1, _, hq⟩ := gr_shape (M - 1) (by omega) T (by omega)
    rw [e] at hhead
    have hMw : M - 1 + 1 = M := by omega
    have := zs2_next_big N v (M - 1) q rem T c a x h j m r cnt out (by omega)
      (hq (by omega)) hr1 hT
      (fun y hy => ⟨(hc y hy).1, by have := (hc y hy).2; omega⟩) hsum hN hhead
    rw [hMw] at this
    exact this

theorem psnap_snoc (N : Int) (c : List Int) (M : Int) (l : List Int) :
    psnap N (c ++ [M]) l = psnap N c (M :: l) := by
  simp [psnap]

/-- From the outer test with the parts c followed by T ones, zs2 visits c ++ l for every
l of desc M T but the first, from the last to the second, and is at the outer test with
the parts c followed by the largest composition of T with parts at most M. -/
theorem zs2_main (N : Int) (v : Bool) (hN : N ≤ 200) (d : Nat) :
    ∀ (M T : Nat) (c : List Int) (a x : Buf) (h j m r : Int) (cnt : Nat)
      (out : List partition_t),
      M + T < d → 1 ≤ M → 1 ≤ T → (∀ y ∈ c, (2 : Int) ≤ y ∧ (M : Int) ≤ y) →
      c.sum + T = N → cnt < 2 ^ 64 → Zs2Head N x h m (c ++ List.replicate T 1) →
      ∃ L : List (List Int), (desc M T).reverse = List.replicate T 1 :: L ∧
        ∃ a' x' h' j' m' r', Reach (zs2_step N v) ⟨.outer, a, x, h, j, m, r, cnt, out⟩
          ⟨.outer, a', x', h', j', m', r', cadd cnt L.length,
            out ++ vlog v (L.map (psnap N c))⟩ ∧
          Zs2Head N x' h' m' (c ++ gr M T) := by
  induction d with
  | zero => intro M T c a x h j m r cnt out hd; omega
  | succ d ih =>
    intro M T c a x h j m r cnt out hd hM hT hc hsum hcnt hhead
    by_cases hM1 : M = 1
    · subst hM1
      refine ⟨[], by rw [desc_one T hT]; rfl, a, x, h, j, m, r, ?_, ?_⟩
      · refine Reach.of_eq (Reach.refl _ _) ?_
        congr 1
        · exact (cadd_zero cnt hcnt).symm
        · simp [vlog_nil]
      · rw [gr_one T hT]; exact hhead
    by_cases hTM : T < M
    · obtain ⟨L, hL, a', x', h', j', m', r', hr, hh'⟩ := ih (M - 1) T c a x h j m r cnt out
        (by omega) (by omega) hT
        (fun y hy => ⟨(hc y hy).1, by have := (hc y hy).2; omega⟩) hsum hcnt hhead
      refine ⟨L, ?_, a', x', h', j', m', r', hr, ?_⟩
      · rw [desc_skip M T (by omega) hTM]; exact hL
      · rw [gr_small M T (by omega)]
        rw [gr_small (M - 1) T (by omega)] at hh'
        exact hh'
    · -- first the compositions with parts at most M - 1, then those that start with M
      obtain ⟨L1, hL1, a1, x1, h1, j1, m1, r1, hr1, hh1⟩ := ih (M - 1) T c a x h j m r cnt out
        (by omega) (by omega) hT
        (fun y hy => ⟨(hc y hy).1, by have := (hc y hy).2; omega⟩) hsum hcnt hhead
      obtain ⟨a2, x2, j2, r2, hr2, hh2⟩ := zs2_next N v M T c a1 x1 h1 j1 m1 r1
        (cadd cnt L1.length) (out ++ vlog v (L1.map (psnap N c)))
        (by omega) (by omega) hc hsum hN hh1
      have hrec := desc_rec M T (by omega) (by omega)
      by_cases hTeq : T = M
      · have hz : desc M (T - M) = [[]] := by
          rw [hTeq, Nat.sub_self]; exact desc_zero M
        have hrep : List.replicate (T - M) (1 : Int) = [] := by
          rw [hTeq, Nat.sub_self]; rfl
        refine ⟨L1 ++ [[(M : Int)]], ?_, a2, x2, (c.length : Int) + 1, j2,
          (c.length : Int) + 1 + ((T - M : Nat) : Int), r2, Reach.trans hr1
          (Reach.of_eq hr2 ?_), ?_⟩
        · rw [hrec, hz, List.reverse_append, hL1]
          simp
        · rw [hrep]
          congr 1
          · rw [cadd_cadd]; simp
          · simp [vlog_append, psnap_snoc]
        · rw [hrep, List.append_nil] at hh2
          rw [gr_small M T (by omega), show (T : Int) = (M : Int) from by omega]
          exact hh2
      · have hc2 : ∀ y ∈ c ++ [(M : Int)], (2 : Int) ≤ y ∧ (M : Int) ≤ y := by
          intro y hy
          rcases List.mem_append.mp hy with hy | hy
          · exact hc y hy
          · simp at hy; omega
        have hsum2 : (c ++ [(M : Int)]).sum + ((T - M : Nat) : Int) = N := by
          simp; omega
        obtain ⟨L2, hL2, a3, x3, h3, j3, m3, r3, hr3, hh3⟩ := ih M (T - M) (c ++ [(M : Int)])
          a2 x2 ((c.length : Int) + 1) j2 ((c.length : Int) + 1 + ((T - M : Nat) : Int)) r2
          (cadd (cadd cnt L1.length) 1)
          (out ++ vlog v (L1.map (psnap N c))
            ++ vlog v [psnap N (c ++ [(M : Int)]) (List.replicate (T - M) 1)])
          (by omega) hM (by omega) hc2 hsum2 (by unfold cadd; omega) hh2
        refine ⟨L1 ++ [(M : Int) :: List.replicate (T - M) 1] ++ L2.map (fun l => (M : Int) :: l),
          ?_, a3, x3, h3, j3, m3, r3, Reach.trans hr1 (Reach.trans hr2 (Reach.of_eq hr3 ?_)), ?_⟩
        · rw [hrec, List.reverse_append, hL1, ← List.map_reverse, hL2]
          simp
        · congr 1
          · rw [cadd_cadd, cadd_cadd]; simp; ring_nf
          · rw [List.map_append, List.map_append, vlog_append, vlog_append, List.map_map,
              psnap_cons]
            simp only [List.map_cons, List.map_nil, psnap_snoc, List.append_assoc]
        · rw [gr_big M T ⟨by omega, by omega⟩]
          simpa using hh3

/-- For 1 <= n <= MAXNUMP zs2 returns after visiting exactly the list desc n n from its
last composition to its first. -/
theorem zs2_run (mem memx : Buf) (n : Nat) (v : Bool) (h1 : 1 ≤ n) (h2 : n ≤ 200) :
    Returns (fun fuel => zs2 fuel mem memx n v)
      (cadd 0 (desc n n).length, vlog v ((desc n n).reverse.map (psnap n []))) := by
  have hn0 : ¬ ((n : Int) < 0) := by omega
  have hn1 : ¬ ((n : Int) = 0) := by omega
  rw [show (fun fuel => zs2 fuel mem memx n v) = fun fuel =>
      (let s := (zs2_step n v)^[fuel] (zs2_init mem memx n v)
       if s.pc = .ret then some (s.count, s.out) else none) from rfl]
  have hfin : ∃ sf : Zs2St, Reach (zs2_step n v) (zs2_init mem memx n v) sf ∧
      sf.pc = .ret ∧ sf.count = cadd 0 (desc n n).length ∧
      sf.out = vlog v ((desc n n).reverse.map (psnap n [])) := by
    by_cases hn : n = 1
    · have hw : rd (wr mem ((0 : Nat) : Int) 1) (0 + 1) = [] ++ [(1 : Int)] :=
        rd_wr_snoc _ 0 _ [] rfl (by omega)
      have hs : snap n 1 (wr mem 0 1) = psnap n [] [(1 : Int)] :=
        snap_psnap _ _ _ _ _ (by simp) (by simpa using hw)
      have hn2 : (n : Int) = 1 := by omega
      have hinit : zs2_init mem memx n v = ⟨.ret, wr mem 0 1, memx, 0, 0, 0, 0,
          cadd 0 1, [] ++ vlog v [psnap n [] [(1 : Int)]]⟩ := by
        unfold zs2_init
        rw [if_neg hn0, if_neg hn1, if_pos hn2]
        simp only [call_visit_eq, incr_eq_cadd, hs]
      rw [hinit]
      have hd : desc n n = [[(1 : Int)]] := by
        rw [hn]
        exact desc_one 1 (by omega)
      refine ⟨_, Reach.refl _ _, rfl, ?_, ?_⟩
      · rw [hd]; rfl
      · rw [hd]; simp
    · have hn2 : ¬ ((n : Int) = 1) := by omega
      have hx1 : ∀ i : Nat, 1 ≤ i → i ≤ n → zs2_ones memx n i = 1 := by
        intro i hi1 hi2
        rw [zs2_ones_apply memx n h2]
        have : (1 : Int) ≤ (i : Int) ∧ (i : Int) ≤ (n : Int) := by omega
        rw [if_pos this]
      have hinit : zs2_init mem memx n v = ⟨.outer,
          mk_partition (mk_partition mem (zs2_ones memx n) 1 (n : Int).toNat)
            (wr (wr (zs2_ones memx n) 0 (-1)) 1 2) 1 ((n : Int) - 1).toNat,
          wr (wr (zs2_ones memx n) 0 (-1)) 1 2, 1, 0, (n : Int) - 1, 0, incr (incr 0),
          call_visit v (call_visit v []
            (snap n n (mk_partition mem (zs2_ones memx n) 1 (n : Int).toNat)))
            (snap n ((n : Int) - 1)
              (mk_partition (mk_partition mem (zs2_ones memx n) 1 (n : Int).toNat)
                (wr (wr (zs2_ones memx n) 0 (-1)) 1 2) 1 ((n : Int) - 1).toNat))⟩ := by
        unfold zs2_init
        rw [if_neg hn0, if_neg hn1, if_neg hn2]
      rw [hinit]
      generalize zs2_ones memx n = x1 at hx1
      have hrdx1 : rdx x1 (([] : List Int).length + (List.replicate n (1 : Int)).length)
          = [] ++ List.replicate n 1 := by
        have := rdx_rep x1 0 n [] 1 rfl (fun i hi1 hi2 => hx1 i (by omega) (by omega))
        simpa using this
      have hs1 : snap n n (mk_partition mem x1 1 (n : Int).toNat)
          = psnap n [] (List.replicate n 1) :=
        zs2_snap n n mem x1 [] (List.replicate n 1) (by simp) (by simp; omega) hrdx1
      rw [hs1]
      generalize mk_partition mem x1 1 (n : Int).toNat = a1
      have hx00 : wr x1 0 (-1) 0 = -1 := wr_same _ _ _ (by omega) (by omega)
      have hx0i : ∀ i : Nat, 1 ≤ i → i ≤ n → wr x1 0 (-1) i = 1 := by
        intro i hi1 hi2
        rw [wr_other _ _ _ _ (by omega)]
        exact hx1 i hi1 hi2
      generalize wr x1 0 (-1) = x0 at hx00 hx0i
      have hhead : Zs2Head n x0 0 n ([] ++ List.replicate n 1) := by
        refine ⟨hx00, ?_, ?_, ?_, ?_⟩
        · rw [List.nil_append, hcount_ones]; rfl
        · simp
        · have := rdx_rep x0 0 n [] 1 rfl (fun i hi1 hi2 => hx0i i (by omega) (by omega))
          simpa using this
        · intro i hi1 hi2
          simp at hi1
          omega
      obtain ⟨L, hL, a', x', h', j', m', r', hr, hh'⟩ := zs2_main n v (by omega) (n + n + 1)
        n n [] a1 x0 0 0 n 0 (cadd 0 1) ([] ++ vlog v [psnap n [] (List.replicate n 1)])
        (by omega) h1 h1 (by simp) (by simp) (by unfold cadd; omega) hhead
      have hx'1 : x' 1 = n := by
        rw [gr_small n n (by omega)] at hh'
        obtain ⟨L', hL'⟩ := rdx_first x' _ _ hh'.2.2.2.1 (by simp)
        simp at hL'
        exact hL'.1.symm
      have hx01 : x0 1 = 1 := by
        have := hx0i 1 (le_refl _) (by omega)
        simpa using this
      have hne : (⟨.outer, a1, x0, 0, 0, n, 0, cadd 0 1,
          [] ++ vlog v [psnap n [] (List.replicate n 1)]⟩ : Zs2St)
          ≠ ⟨.outer, a', x', h', j', m', r', cadd (cadd 0 1) L.length,
            [] ++ vlog v [psnap n [] (List.replicate n 1)] ++ vlog v (L.map (psnap n []))⟩ := by
        intro e
        have e2 := congrArg (fun s => s.x 1) e
        simp only [] at e2
        rw [hx01, hx'1] at e2
        omega
      have hr2 := hr.tail_of_ne hne
      have hstep0 : zs2_step n v ⟨.outer, a1, x0, 0, 0, n, 0, cadd 0 1,
          [] ++ vlog v [psnap n [] (List.replicate n 1)]⟩
          = ⟨.outer, mk_partition a1 (wr x0 1 2) 1 ((n : Int) - 1).toNat, wr x0 1 2, 1, 0,
              (n : Int) - 1, 0, incr (incr 0),
              call_visit v (call_visit v [] (psnap n [] (List.replicate n 1)))
                (snap n ((n : Int) - 1)
                  (mk_partition a1 (wr x0 1 2) 1 ((n : Int) - 1).toNat))⟩ := by
        have hc1 : x0 1 ≠ (n : Int) := by rw [hx01]; omega
        have hc2 : (n : Int) - 0 > 1 := by omega
        simp only [zs2_step, ne_eq, hc1, not_false_eq_true, if_true, hc2, zs2_visit,
          zero_add, call_visit_eq, incr_eq_cadd, List.nil_append]
      rw [hstep0] at hr2
      refine ⟨_, Reach.trans hr2 (Reach.one rfl), ?_, ?_, ?_⟩
      · have hc : ¬ (x' 1 ≠ (n : Int)) := by rw [hx'1]; simp
        simp only [zs2_step, hc, if_false]
      · have hc : ¬ (x' 1 ≠ (n : Int)) := by rw [hx'1]; simp
        simp only [zs2_step, hc, if_false]
        rw [cadd_cadd]
        have hl : (desc n n).length = 1 + L.length := by
          have := congrArg List.length hL
          simp at this
          omega
        rw [hl]
      · have hc : ¬ (x' 1 ≠ (n : Int)) := by rw [hx'1]; simp
        simp only [zs2_step, hc, if_false]
        rw [hL, List.map_cons, vlog_cons v _ (List.map _ L), List.nil_append]
  obtain ⟨sf, hreach, hpc, hcount, hout⟩ := hfin
  obtain ⟨t0, ht⟩ := hreach.run (by simp [zs2_step, hpc])
  refine ⟨t0, fun fuel hf => ?_⟩
  simp only [ht fuel hf, hpc, if_true, hcount, hout]

/-! ## The reference enumerations list every composition once, in order -/

theorem lexlt_irrefl (l : List Int) : ¬ LexLt l l := by
  induction l with
  | nil => intro h; cases h
  | cons x l ih =>
    intro h
    cases h with
    | cons h => exact ih h
    | rel h => exact lt_irrefl _ h

theorem sum_nonneg_of_pos (l : List Int) (h : ∀ x ∈ l, (1 : Int) ≤ x) : 0 ≤ l.sum := by
  have := sum_ge_length l h
  omega

/-- Every list of asc m n is an ascending composition of n with parts at least m. -/
theorem asc_sound (d : Nat) : ∀ (m n : Nat) (l : List Int), 2 * n - m < d → 1 ≤ m → m ≤ n →
    l ∈ asc m n →
    l ≠ [] ∧ List.Sorted (fun a b => a ≤ b) l ∧ (∀ x ∈ l, (m : Int) ≤ x) ∧ l.sum = n := by
  induction d with
  | zero => intro m n l h; omega
  | succ d ih =>
    intro m n l hd hm hmn hl
    by_cases h2 : 2 * m ≤ n
    · rw [asc_rec m n ⟨hm, h2⟩] at hl
      rcases List.mem_append.mp hl with h | h
      · obtain ⟨l', hl', rfl⟩ := List.mem_map.mp h
        obtain ⟨_, hs, hge, hsum⟩ := ih m (n - m) l' (by omega) hm (by omega) hl'
        refine ⟨by simp, List.sorted_cons.mpr ⟨hge, hs⟩, ?_, ?_⟩
        · intro x hx
          rcases List.mem_cons.mp hx with rfl | hx
          · exact le_refl _
          · exact hge x hx
        · rw [List.sum_cons, hsum]
          omega
      · obtain ⟨hne, hs, hge, hsum⟩ := ih (m + 1) n l (by omega) (by omega) (by omega) h
        exact ⟨hne, hs, fun x hx => by have := hge x hx; omega, hsum⟩
    · rw [asc_base m n (by omega)] at hl
      have : l = [(n : Int)] := by simpa using hl
      subst this
      refine ⟨by simp, List.sorted_singleton _, ?_, by simp⟩
      intro x hx
      have : x = (n : Int) := by simpa using hx
      omega

/-- Every ascending composition of n with parts at least m is in asc m n. -/
theorem asc_complete (d : Nat) : ∀ (m n : Nat) (l : List Int), 2 * n - m < d → 1 ≤ m →
    l ≠ [] → List.Sorted (fun a b => a ≤ b) l → (∀ x ∈ l, (m : Int) ≤ x) → l.sum = n →
    l ∈ asc m n := by
  induction d with
  | zero => intro m n l h; omega
  | succ d ih =>
    intro m n l hd hm hne hs hge hsum
    cases l with
    | nil => exact absurd rfl hne
    | cons x l' =>
      obtain ⟨hxl, hs'⟩ := List.sorted_cons.mp hs
      have hx : (m : Int) ≤ x := hge x (List.mem_cons_self _ _)
      have hge' : ∀ b ∈ l', (m : Int) ≤ b := fun b hb => hge b (List.mem_cons_of_mem _ hb)
      have h0 : 0 ≤ l'.sum := sum_nonneg_of_pos l' (fun b hb => by have := hge' b hb; omega)
      rw [List.sum_cons] at hsum
      have hbig : l' ≠ [] → x ≤ l'.sum := by
        intro hl'
        cases l' with
        | nil => exact absurd rfl hl'
        | cons y l'' =>
          have hy := hxl y (List.mem_cons_self _ _)
          have h00 : 0 ≤ l''.sum := sum_nonneg_of_pos l''
            (fun b hb => by have := hge' b (List.mem_cons_of_mem _ hb); omega)
          rw [List.sum_cons]
          omega
      by_cases h2 : 2 * m ≤ n
      · rw [asc_rec m n ⟨hm, h2⟩]
        apply List.mem_append.mpr
        by_cases hxm : x = (m : Int) ∧ l' ≠ []
        · left
          obtain ⟨rfl, hl'⟩ := hxm
          refine List.mem_map.mpr ⟨l', ?_, rfl⟩
          exact ih m (n - m) l' (by omega) hm hl' hs' hge' (by omega)
        · right
          have hxgt : (m : Int) < x := by
            by_contra hcon
            have hxe : x = (m : Int) := by omega
            have hl' : l' = [] := by
              by_contra hl'
              exact hxm ⟨hxe, hl'⟩
            subst hl'
            simp at hsum
            omega
          apply ih (m + 1) n (x :: l') (by omega) (by omega) hne hs
          · intro b hb
            rcases List.mem_cons.mp hb with rfl | hb
            · push_cast; omega
            · have := hxl b hb
              push_cast; omega
          · rw [List.sum_cons]; exact hsum
      · rw [asc_base m n (by omega)]
        have hl' : l' = [] := by
          by_contra hl'
          have := hbig hl'
          omega
        subst hl'
        simp at hsum
        simp [hsum]

theorem asc_pairwise (d : Nat) : ∀ (m n : Nat), 2 * n - m < d → 1 ≤ m → m ≤ n →
    List.Pairwise LexLt (asc m n) := by
  induction d with
  | zero => intro m n h; omega
  | succ d ih =>
    intro m n hd hm hmn
    by_cases h2 : 2 * m ≤ n
    · rw [asc_rec m n ⟨hm, h2⟩]
      refine List.pairwise_append.mpr ⟨?_, ih (m + 1) n (by omega) (by omega) (by omega), ?_⟩
      · rw [List.pairwise_map]
        exact (ih m (n - m) (by omega) hm (by omega)).imp (fun h => List.Lex.cons h)
      · intro a ha b hb
        obtain ⟨a', _, rfl⟩ := List.mem_map.mp ha
        obtain ⟨hne, _, hge, _⟩ := asc_sound (2 * n) (m + 1) n b (by omega) (by omega)
          (by omega) hb
        cases b with
        | nil => exact absurd rfl hne
        | cons y b' =>
          have := hge y (List.mem_cons_self _ _)
          exact List.Lex.rel (by omega)
    · rw [asc_base m n (by omega)]
      exact List.pairwise_singleton _ _

theorem asc_first (n : Nat) (hn : 1 ≤ n) : ∃ L, asc 1 n = List.replicate n 1 :: L := by
  induction n using Nat.strong_induction_on with
  | _ n ih =>
    by_cases h2 : 2 ≤ n
    · obtain ⟨L', hL'⟩ := ih (n - 1) (by omega) (by omega)
      rw [asc_rec 1 n ⟨by omega, by omega⟩, hL']
      refine ⟨L'.map (fun l => ((1 : Nat) : Int) :: l) ++ asc (1 + 1) n, ?_⟩
      rw [List.map_cons, List.cons_append]
      congr 1
      have : n = (n - 1) + 1 := by omega
      conv_rhs => rw [this, List.replicate_succ]
      rfl
    · have : n = 1 := by omega
      subst this
      exact ⟨[], by rw [asc_base 1 1 (by omega)]; rfl⟩

theorem asc_last (d : Nat) : ∀ (m n : Nat), 2 * n - m < d →
    ∃ L, asc m n = L ++ [[(n : Int)]] := by
  induction d with
  | zero => intro m n h; omega
  | succ d ih =>
    intro m n hd
    by_cases h2 : 0 < m ∧ 2 * m ≤ n
    · obtain ⟨L', hL'⟩ := ih (m + 1) n (by omega)
      rw [asc_rec m n h2, hL']
      exact ⟨_, (List.append_assoc _ _ _).symm⟩
    · exact ⟨[], by rw [asc_base m n h2]; rfl⟩

/-- Every list of desc m n is a descending composition of n with parts at most m. -/
theorem desc_sound (d : Nat) : ∀ (m n : Nat) (l : List Int), m + n < d → l ∈ desc m n →
    List.Sorted (fun a b => a ≥ b) l ∧ (∀ x ∈ l, (1 : Int) ≤ x ∧ x ≤ (m : Int)) ∧
      l.sum = n := by
  induction d with
  | zero => intro m n l h; omega
  | succ d ih =>
    intro m n l hd hl
    by_cases hn : n = 0
    · subst hn
      rw [desc_zero] at hl
      have : l = [] := by simpa using hl
      subst this
      exact ⟨List.sorted_nil, by simp, by simp⟩
    by_cases hm : m = 0
    · subst hm
      rw [desc_zero_left n (by omega)] at hl
      simp at hl
    have hright : l ∈ desc (m - 1) n →
        List.Sorted (fun a b => a ≥ b) l ∧ (∀ x ∈ l, (1 : Int) ≤ x ∧ x ≤ (m : Int)) ∧
          l.sum = n := by
      intro h
      obtain ⟨hs, hb, hsum⟩ := ih (m - 1) n l (by omega) h
      exact ⟨hs, fun x hx => by have := hb x hx; omega, hsum⟩
    by_cases hmn : m ≤ n
    · rw [desc_rec m n (by omega) hmn] at hl
      rcases List.mem_append.mp hl with h | h
      · obtain ⟨l', hl', rfl⟩ := List.mem_map.mp h
        obtain ⟨hs, hb, hsum⟩ := ih m (n - m) l' (by omega) hl'
        refine ⟨List.sorted_cons.mpr ⟨fun b hb' => (hb b hb').2, hs⟩, ?_, ?_⟩
        · intro x hx
          rcases List.mem_cons.mp hx with rfl | hx
          · omega
          · exact hb x hx
        · rw [List.sum_cons, hsum]
          omega
      · exact hright h
    · rw [desc_skip m n (by omega) (by omega)] at hl
      exact hright hl

/-- Every descending composition of n with parts at most m is in desc m n. -/
theorem desc_complete (d : Nat) : ∀ (m n : Nat) (l : List Int), m + n < d →
    List.Sorted (fun a b => a ≥ b) l → (∀ x ∈ l, (1 : Int) ≤ x ∧ x ≤ (m : Int)) →
    l.sum = n → l ∈ desc m n := by
  induction d with
  | zero => intro m n l h; omega
  | succ d ih =>
    intro m n l hd hs hb hsum
    cases l with
    | nil =>
      have : n = 0 := by simpa using hsum.symm
      subst this
      rw [desc_zero]
      simp
    | cons x l' =>
      obtain ⟨hxl, hs'⟩ := List.sorted_cons.mp hs
      have hx := hb x (List.mem_cons_self _ _)
      have hb' : ∀ b ∈ l', (1 : Int) ≤ b ∧ b ≤ x :=
        fun b hb0 => ⟨(hb b (List.mem_cons_of_mem _ hb0)).1, hxl b hb0⟩
      have h0 : 0 ≤ l'.sum := sum_nonneg_of_pos l' (fun b hb0 => (hb' b hb0).1)
      rw [List.sum_cons] at hsum
      by_cases hxm : x = (m : Int)
      · subst hxm
        rw [desc_rec m n (by omega) (by omega)]
        apply List.mem_append.mpr
        left
        refine List.mem_map.mpr ⟨l', ?_, rfl⟩
        exact ih m (n - m) l' (by omega) hs' hb' (by omega)
      · have hmem : (x :: l') ∈ desc (m - 1) n := by
          apply ih (m - 1) n (x :: l') (by omega) hs
          · intro b hb0
            rcases List.mem_cons.mp hb0 with rfl | hb0
            · omega
            · have := hb' b hb0
              omega
          · rw [List.sum_cons]; exact hsum
        by_cases hmn : m ≤ n
        · rw [desc_rec m n (by omega) hmn]
          exact List.mem_append.mpr (Or.inr hmem)
        · rw [desc_skip m n (by omega) (by omega)]
          exact hmem

theorem desc_pairwise (d : Nat) : ∀ (m n : Nat), m + n < d →
    List.Pairwise (fun a b => LexLt b a) (desc m n) := by
  induction d with
  | zero => intro m n h; omega
  | succ d ih =>
    intro m n hd
    by_cases hn : n = 0
    · subst hn
      rw [desc_zero]
      exact List.pairwise_singleton _ _
    by_cases hm : m = 0
    · subst hm
      rw [desc_zero_left n (by omega)]
      exact List.Pairwise.nil
    by_cases hmn : m ≤ n
    · rw [desc_rec m n (by omega) hmn]
      refine List.pairwise_append.mpr ⟨?_, ih (m - 1) n (by omega), ?_⟩
      · rw [List.pairwise_map]
        exact (ih m (n - m) (by omega)).imp (fun h => List.Lex.cons h)
      · intro a ha b hb
        obtain ⟨a', _, rfl⟩ := List.mem_map.mp ha
        obtain ⟨_, hbb, hsum⟩ := desc_sound (m + n) (m - 1) n b (by omega) hb
        cases b with
        | nil => simp at hsum; omega
        | cons y b' =>
          have := (hbb y (List.mem_cons_self _ _)).2
          exact List.Lex.rel (by omega)
    · rw [desc_skip m n (by omega) (by omega)]
      exact ih (m - 1) n (by omega)

theorem desc_last (m : Nat) (hm : 1 ≤ m) (n : Nat) (hn : 1 ≤ n) :
    ∃ L, desc m n = L ++ [List.replicate n 1] := by
  induction m with
  | zero => omega
  | succ m ih =>
    by_cases hm1 : m = 0
    · subst hm1
      exact ⟨[], by rw [desc_one n (by omega)]; rfl⟩
    · obtain ⟨L', hL'⟩ := ih (by omega)
      by_cases hmn : m + 1 ≤ n
      · rw [desc_rec (m + 1) n (by omega) hmn, Nat.add_sub_cancel, hL']
        exact ⟨_, (List.append_assoc _ _ _).symm⟩
      · rw [desc_skip (m + 1) n (by omega) (by omega), Nat.add_sub_cancel, hL']
        exact ⟨_, rfl⟩

/-! ## Compositions, multisets and the partition number -/

/-- A duplicate-free list of sorted lists that holds every sorted list of positive parts
with sum n lists every multiset of positive integers with sum n exactly once. -/
theorem family_multisets (r : Int → Int → Prop) [DecidableRel r] [IsTrans Int r]
    [IsAntisymm Int r] [IsTotal Int r] (L : List (List Int)) (n : Int) (hnd : L.Nodup)
    (hmem : ∀ l, l ∈ L ↔ List.Sorted r l ∧ (∀ x ∈ l, (1 : Int) ≤ x) ∧ l.sum = n) :
    (L.map (fun (l : List Int) => Multiset.ofList l)).Nodup ∧
    ∀ μ : Multiset Int, μ ∈ L.map (fun (l : List Int) => Multiset.ofList l) ↔
      (∀ x ∈ μ, 0 < x) ∧ μ.sum = n := by
  constructor
  · apply List.Nodup.map_on _ hnd
    intro l1 h1 l2 h2 e
    exact List.eq_of_perm_of_sorted (Multiset.coe_eq_coe.mp e) ((hmem l1).mp h1).1
      ((hmem l2).mp h2).1
  · intro μ
    constructor
    · intro h
      obtain ⟨l, hl, rfl⟩ := List.mem_map.mp h
      obtain ⟨_, hp, hs⟩ := (hmem l).mp hl
      refine ⟨fun x hx => ?_, ?_⟩
      · have := hp x (Multiset.mem_coe.mp hx)
        omega
      · rw [Multiset.sum_coe]; exact hs
    · rintro ⟨hp, hs⟩
      refine List.mem_map.mpr ⟨μ.sort r, (hmem _).mpr ⟨Multiset.sort_sorted r μ, ?_, ?_⟩,
        Multiset.sort_eq r μ⟩
      · intro x hx
        have := hp x ((Multiset.mem_sort r).mp hx)
        omega
      · rw [← Multiset.sum_coe, Multiset.sort_eq]; exact hs

theorem map_toNat_cast (μ : Multiset Int) (h : ∀ x ∈ μ, 0 < x) :
    (μ.map Int.toNat).map (fun (k : Nat) => (k : Int)) = μ := by
  rw [Multiset.map_map]
  conv_rhs => rw [← Multiset.map_id μ]
  apply Multiset.map_congr rfl
  intro x hx
  have := h x hx
  simp only [Function.comp_apply, id_eq]
  exact Int.toNat_of_nonneg (by omega)

theorem toNat_sum (μ : Multiset Int) (h : ∀ x ∈ μ, 0 < x) :
    (((μ.map Int.toNat).sum : Nat) : Int) = μ.sum := by
  rw [Nat.cast_multiset_sum]
  exact congrArg Multiset.sum (map_toNat_cast μ h)

/-- A duplicate-free list of all the multisets of positive integers with sum n has as many
entries as there are partitions of n. -/
theorem card_partitions (Ms : List (Multiset Int)) (n : Nat) (hnd : Ms.Nodup)
    (hmem : ∀ μ, μ ∈ Ms ↔ (∀ x ∈ μ, 0 < x) ∧ μ.sum = (n : Int)) :
    Ms.length = Fintype.card (Nat.Partition n) := by
  have hinj : Function.Injective
      (fun p : Nat.Partition n => p.parts.map (fun (k : Nat) => (k : Int))) := by
    intro p q e
    exact Nat.Partition.ext (Multiset.map_injective Nat.cast_injective e)
  have hset : Ms.toFinset = Finset.univ.map
      ⟨fun p : Nat.Partition n => p.parts.map (fun (k : Nat) => (k : Int)), hinj⟩ := by
    ext μ
    rw [List.mem_toFinset, hmem, Finset.mem_map]
    constructor
    · rintro ⟨hp, hs⟩
      have hsum : (μ.map Int.toNat).sum = n := by
        have := toNat_sum μ hp
        rw [hs] at this
        exact_mod_cast this
      refine ⟨⟨μ.map Int.toNat, ?_, hsum⟩, Finset.mem_univ _, ?_⟩
      · intro i hi
        obtain ⟨x, hx, rfl⟩ := Multiset.mem_map.mp hi
        have := hp x hx
        omega
      · exact map_toNat_cast μ hp
    · rintro ⟨p, _, rfl⟩
      refine ⟨?_, ?_⟩
      · intro x hx
        obtain ⟨k, hk, rfl⟩ := Multiset.mem_map.mp hx
        have := p.parts_pos hk
        show (0 : Int) < (k : Int)
        omega
      · show (p.parts.map (fun (k : Nat) => (k : Int))).sum = (n : Int)
        rw [← Nat.cast_multiset_sum, p.parts_sum]
  rw [← List.toFinset_card_of_nodup hnd, hset, Finset.card_map]
  rfl

/-! ## The table of partition counts -/

theorem desc_count_rec (M i : Nat) :
    (desc (M + 1) i).length
      = (desc M i).length + (if M + 1 ≤ i then (desc (M + 1) (i - (M + 1))).length else 0) := by
  by_cases hi : i = 0
  · subst hi
    rw [desc_zero, desc_zero]
    simp
  by_cases h : M + 1 ≤ i
  · rw [desc_rec (M + 1) i (by omega) h, if_pos h]
    simp [Nat.add_comm]
  · rw [desc_skip (M + 1) i (by omega) (by omega), if_neg h]
    simp

theorem getD_zipWith_add (a b : List Nat) (i : Nat) (ha : i < a.length) (hb : i < b.length) :
    (List.zipWith (fun x y => x + y) a b).getD i 0 = a.getD i 0 + b.getD i 0 := by
  induction a generalizing b i with
  | nil => simp at ha
  | cons x a ih =>
    cases b with
    | nil => simp at hb
    | cons y b =>
      cases i with
      | zero => simp
      | succ i =>
        simp only [List.zipWith_cons_cons, List.getD_cons_succ]
        exact ih b i (by simpa using ha) (by simpa using hb)

theorem getD_replicate_append (M : Nat) (L : List Nat) (i : Nat) :
    (List.replicate M 0 ++ L).getD i 0 = if i < M then 0 else L.getD (i - M) 0 := by
  induction M generalizing i with
  | zero => simp
  | succ M ih =>
    cases i with
    | zero => simp [List.replicate_succ]
    | succ i =>
      rw [List.replicate_succ, List.cons_append, List.getD_cons_succ, ih]
      by_cases h : i < M
      · rw [if_pos h, if_pos (by omega)]
      · rw [if_neg h, if_neg (by omega)]
        congr 1
        omega

theorem rowStep_length (M : Nat) (prev L : List Nat) (h : prev.length = L.length) :
    (rowStep M prev L).length = prev.length := by
  unfold rowStep
  simp only [List.length_zipWith, List.length_append, List.length_replicate]
  omega

theorem rowStep_getD (M : Nat) (prev L : List Nat) (i : Nat) (h : prev.length = L.length)
    (hi : i < prev.length) :
    (rowStep M prev L).getD i 0 = prev.getD i 0 + (if i < M then 0 else L.getD (i - M) 0) := by
  unfold rowStep
  rw [getD_zipWith_add _ _ i hi (by rw [List.length_append, List.length_replicate]; omega),
    getD_replicate_append]

/-- After k passes the first k (M + 1) entries are the counts for parts at most M + 1. -/
theorem rowStep_iter (N M : Nat) (prev : List Nat) (hlen : prev.length = N + 1)
    (hprev : ∀ i, i ≤ N → prev.getD i 0 = (desc M i).length) (k : Nat) :
    ∀ L : List Nat, L.length = N + 1 →
      ((rowStep (M + 1) prev)^[k] L).length = N + 1 ∧
      ∀ i, i ≤ N → i < k * (M + 1) →
        ((rowStep (M + 1) prev)^[k] L).getD i 0 = (desc (M + 1) i).length := by
  induction k with
  | zero =>
    intro L hL
    exact ⟨hL, fun i _ hi => by omega⟩
  | succ k ih =>
    intro L hL
    rw [Function.iterate_succ_apply']
    obtain ⟨hl, hv⟩ := ih L hL
    have hlen2 : (rowStep (M + 1) prev ((rowStep (M + 1) prev)^[k] L)).length = N + 1 := by
      rw [rowStep_length _ _ _ (by omega), hlen]
    refine ⟨hlen2, ?_⟩
    intro i hi1 hi2
    rw [rowStep_getD _ _ _ _ (by omega) (by omega), hprev i hi1, desc_count_rec M i]
    congr 1
    by_cases h : i < M + 1
    · rw [if_pos h, if_neg (by omega)]
    · rw [if_neg h, if_pos (by omega)]
      apply hv
      · omega
      · have : (k + 1) * (M + 1) = k * (M + 1) + (M + 1) := by ring
        omega

theorem ptable_spec (N : Nat) : ∀ M : Nat, (ptable N M).length = N + 1 ∧
    ∀ i, i ≤ N → (ptable N M).getD i 0 = (desc M i).length := by
  intro M
  induction M with
  | zero =>
    refine ⟨by simp [ptable], ?_⟩
    intro i hi
    cases i with
    | zero => simp [ptable, desc_zero]
    | succ i =>
      rw [desc_zero_left (i + 1) (by omega)]
      simp only [ptable, List.getD_cons_succ, List.length_nil]
      rw [List.getD_eq_getElem?_getD]
      by_cases h : i < N
      · rw [List.getElem?_replicate_of_lt h]; rfl
      · rw [List.getElem?_eq_none (by simp; omega)]; rfl
  | succ M ih =>
    obtain ⟨hl, hv⟩ := ih
    have := rowStep_iter N M (ptable N M) hl hv ((ptable N M).length / (M + 1) + 1)
      (ptable N M) hl
    refine ⟨this.1, ?_⟩
    intro i hi
    apply this.2 i hi
    rw [hl]
    have h1 := Nat.div_add_mod (N + 1) (M + 1)
    have h2 := Nat.mod_lt (N + 1) (show 0 < M + 1 by omega)
    have h3 : ((N + 1) / (M + 1) + 1) * (M + 1)
        = (M + 1) * ((N + 1) / (M + 1)) + (M + 1) := by ring
    omega


/-! ## The partition numbers as the digits of one number -/

theorem desc_length_le_pow (M : Nat) : ∀ d, (desc M d).length ≤ 2 ^ (M + d) := by
  induction M with
  | zero =>
    intro d
    by_cases hd : d = 0
    · subst hd
      rw [desc_zero]
      exact le_refl _
    · rw [desc_zero_left d (by omega)]
      exact Nat.zero_le _
  | succ M ih =>
    intro d
    induction d using Nat.strong_induction_on with
    | _ d ihd =>
      rw [desc_count_rec]
      have h1 := ih d
      have h4 : 2 ^ (M + 1 + d) = 2 ^ (M + d) + 2 ^ (M + d) := by
        rw [show M + 1 + d = (M + d) + 1 by omega, pow_succ]
        ring
      by_cases h : M + 1 ≤ d
      · rw [if_pos h]
        have h2 := ihd (d - (M + 1)) (by omega)
        have e1 : M + 1 + (d - (M + 1)) = d := by omega
        rw [e1] at h2
        have h3 : 2 ^ d ≤ 2 ^ (M + d) := Nat.pow_le_pow_right (by omega) (by omega)
        omega
      · rw [if_neg h]
        omega

theorem pack_succ (B W : Nat) (g : Nat → Nat) :
    pack B (W + 1) g = pack B W g + g W * B ^ W := by
  unfold pack
  rw [Finset.sum_range_succ]

theorem pack_lt (B W : Nat) (g : Nat → Nat) (h : ∀ d, d < W → g d < B) :
    pack B W g < B ^ W := by
  induction W with
  | zero =>
    unfold pack
    simp
  | succ W ih =>
    rw [pack_succ]
    have h1 := ih (fun d hd => h d (by omega))
    have h2 := Nat.mul_le_mul_right (B ^ W) (show g W + 1 ≤ B from h W (by omega))
    rw [Nat.add_mul, Nat.one_mul] at h2
    rw [pow_succ, Nat.mul_comm (B ^ W) B]
    omega

/-- The digit number d of a packed number whose digits are below the base. -/
theorem pack_digit (B W : Nat) (g : Nat → Nat) (h : ∀ d, d < W → g d < B) (d : Nat)
    (hd : d < W) : pack B W g / B ^ d % B = g d := by
  have hB : 0 < B := by
    have := h d hd
    omega
  have e : W = d + ((W - d - 1) + 1) := by omega
  have hlow := pack_lt B d g (fun i hi => h i (by omega))
  have hsplit : pack B W g = pack B d g
      + B ^ d * (g d + B * Finset.sum (Finset.range (W - d - 1))
          (fun j => g (d + (j + 1)) * B ^ j)) := by
    unfold pack
    rw [e, Finset.sum_range_add, Finset.sum_range_succ']
    have e2 : W - (d + ((W - d - 1) + 1)) = 0 := by omega
    congr 1
    rw [Nat.mul_add, Finset.mul_sum, Finset.mul_sum]
    simp only [Nat.add_zero, pow_zero, Nat.mul_one]
    rw [Nat.add_comm]
    congr 1
    · rw [Nat.mul_comm]
    · have e3 : d + (W - d - 1 + 1) - d - 1 = W - d - 1 := by omega
      rw [e3]
      apply Finset.sum_congr rfl
      intro j _
      rw [pow_add, pow_succ]
      ring
  rw [hsplit, Nat.add_mul_div_left _ _ (pow_pos hB d), Nat.div_eq_of_lt hlow, Nat.zero_add,
    Nat.add_mul_mod_self_left, Nat.mod_eq_of_lt (h d hd)]

/-- A packed number times B^m, cut off at W digits: the digits moved up by m places. -/
theorem pack_shift (B W m : Nat) (g : Nat → Nat) :
    B ^ m * pack B W g
      ≡ Finset.sum (Finset.range W) (fun d => (if m ≤ d then g (d - m) else 0) * B ^ d)
      [MOD B ^ W] := by
  have hA : B ^ m * pack B W g
      = Finset.sum (Finset.range (m + W))
          (fun d => (if m ≤ d then g (d - m) else 0) * B ^ d) := by
    rw [Finset.sum_range_add, Finset.sum_eq_zero, Nat.zero_add]
    · unfold pack
      rw [Finset.mul_sum]
      apply Finset.sum_congr rfl
      intro x _
      rw [if_pos (Nat.le_add_right m x), Nat.add_sub_cancel_left, pow_add]
      ring
    · intro x hx
      rw [if_neg (by have := Finset.mem_range.mp hx; omega), Nat.zero_mul]
  have hB : Finset.sum (Finset.range (W + m))
        (fun d => (if m ≤ d then g (d - m) else 0) * B ^ d)
      = Finset.sum (Finset.range W) (fun d => (if m ≤ d then g (d - m) else 0) * B ^ d)
        + Finset.sum (Finset.range m)
          (fun j => (if m ≤ W + j then g (W + j - m) else 0) * B ^ (W + j)) :=
    Finset.sum_range_add _ W m
  have hdvd : B ^ W ∣ Finset.sum (Finset.range m)
      (fun j => (if m ≤ W + j then g (W + j - m) else 0) * B ^ (W + j)) := by
    apply Finset.dvd_sum
    intro j _
    rw [pow_add]
    exact Dvd.dvd.mul_left (Dvd.intro _ rfl) _
  rw [hA, Nat.add_comm m W, hB]
  have := (Nat.modEq_zero_iff_dvd.mpr hdvd).add_left
    (Finset.sum (Finset.range W) (fun d => (if m ≤ d then g (d - m) else 0) * B ^ d))
  rwa [Nat.add_zero] at this

/-- The packed form of the recurrence g d = h d + g (d - m). -/
theorem pack_rec (B W m : Nat) (g h : Nat → Nat)
    (hgh : ∀ d, g d = h d + (if m ≤ d then g (d - m) else 0)) :
    pack B W g ≡ pack B W h + B ^ m * pack B W g [MOD B ^ W] := by
  have e : pack B W g = pack B W h
      + Finset.sum (Finset.range W) (fun d => (if m ≤ d then g (d - m) else 0) * B ^ d) := by
    unfold pack
    rw [← Finset.sum_add_distrib]
    apply Finset.sum_congr rfl
    intro d _
    rw [← Nat.add_mul, ← hgh d]
  have := (pack_shift B W m g).symm.add_left (pack B W h)
  rw [← e] at this
  exact this

theorem pgeom_spec (B m k W : Nat) (hB : 2 ≤ B) (hm : 1 ≤ m) (hk : W ≤ m * k) :
    pgeom B m k * B ^ m + 1 ≡ pgeom B m k [MOD B ^ W] := by
  have hx : 2 ≤ B ^ m := by
    calc 2 ≤ B := hB
      _ = B ^ 1 := (pow_one B).symm
      _ ≤ B ^ m := Nat.pow_le_pow_right (by omega) hm
  have hdvd : B ^ m - 1 ∣ (B ^ m) ^ k - 1 := by
    have := nat_sub_dvd_pow_sub_pow (B ^ m) 1 k
    rwa [one_pow] at this
  have e1 : pgeom B m k * (B ^ m - 1) = (B ^ m) ^ k - 1 := by
    unfold pgeom
    rw [pow_mul]
    exact Nat.div_mul_cancel hdvd
  have hpos : 1 ≤ (B ^ m) ^ k := Nat.one_le_pow _ _ (by omega)
  have e2 : pgeom B m k * B ^ m + 1 = pgeom B m k + (B ^ m) ^ k := by
    have e3 : pgeom B m k * B ^ m = pgeom B m k * (B ^ m - 1) + pgeom B m k := by
      have : B ^ m = (B ^ m - 1) + 1 := by omega
      nth_rewrite 1 [this]
      ring
    rw [e3, e1]
    omega
  have hz : B ^ W ∣ (B ^ m) ^ k := by
    rw [← pow_mul]
    exact pow_dvd_pow B hk
  rw [e2]
  have := (Nat.modEq_zero_iff_dvd.mpr hz).add_left (pgeom B m k)
  rwa [Nat.add_zero] at this

theorem modEq_of_fixed (n x t X Y N : Nat) (hx : n ∣ x ^ t) (hX : X ≡ N + x * X [MOD n])
    (hY : Y ≡ N + x * Y [MOD n]) : X ≡ Y [MOD n] := by
  rw [← ZMod.eq_iff_modEq_nat] at hX hY ⊢
  push_cast at hX hY
  have hD : (X : ZMod n) - Y = x * ((X : ZMod n) - Y) := by linear_combination hX - hY
  have hk : ∀ k : Nat, (X : ZMod n) - Y = (x : ZMod n) ^ k * ((X : ZMod n) - Y) := by
    intro k
    induction k with
    | zero => rw [pow_zero, one_mul]
    | succ k ih =>
      rw [pow_succ, mul_assoc, ← hD]
      exact ih
  have h0 : ((x : ZMod n)) ^ t = 0 := by
    have := (ZMod.natCast_zmod_eq_zero_iff_dvd (x ^ t) n).mpr hx
    rwa [Nat.cast_pow] at this
  have := hk t
  rw [h0, zero_mul] at this
  exact sub_eq_zero.mp this

/-- The packed rows hold the numbers of partitions into parts at most M as their digits, as
long as these numbers are below the base. -/
theorem prow_eq_pack (B W : Nat) (hB : 2 ≤ B) (hW : 1 ≤ W) (M : Nat) :
    (∀ M1 d, M1 ≤ M → d < W → (desc M1 d).length < B) →
    prow B W M = pack B W (fun d => (desc M d).length) := by
  induction M with
  | zero =>
    intro _
    unfold pack
    rw [Finset.sum_eq_single 0]
    · show prow B W 0 = (desc 0 0).length * B ^ 0
      rw [desc_zero]
      rfl
    · intro d _ hd
      show (desc 0 d).length * B ^ d = 0
      rw [desc_zero_left d (by omega)]
      exact Nat.zero_mul _
    · intro h
      exact absurd (Finset.mem_range.mpr (by omega)) h
  | succ M ih =>
    intro hf
    have hN := ih (fun M1 d h1 h2 => hf M1 d (by omega) h2)
    have hn : 0 < B ^ W := pow_pos (by omega) W
    have hXeq : prow B W (M + 1)
        ≡ prow B W M * pgeom B (M + 1) (W / (M + 1) + 1) [MOD B ^ W] := Nat.mod_modEq _ _
    have hG := pgeom_spec B (M + 1) (W / (M + 1) + 1) W hB (by omega)
      (le_of_lt (Nat.lt_mul_div_succ W (by omega)))
    have h1 := Nat.ModEq.mul_left (prow B W M) hG
    have h2 : prow B W M + B ^ (M + 1) * (prow B W M * pgeom B (M + 1) (W / (M + 1) + 1))
        = prow B W M * (pgeom B (M + 1) (W / (M + 1) + 1) * B ^ (M + 1) + 1) := by ring
    have h3 := (hXeq.mul_left (B ^ (M + 1))).add_left (prow B W M)
    rw [h2] at h3
    have hX : prow B W (M + 1) ≡ prow B W M + B ^ (M + 1) * prow B W (M + 1) [MOD B ^ W] :=
      hXeq.trans (h1.symm.trans h3.symm)
    have hY := pack_rec B W (M + 1) (fun d => (desc (M + 1) d).length)
      (fun d => (desc M d).length) (fun d => desc_count_rec M d)
    rw [← hN] at hY
    have hz : B ^ W ∣ (B ^ (M + 1)) ^ W := by
      rw [← pow_mul]
      exact pow_dvd_pow B (Nat.le_mul_of_pos_left W (by omega))
    have hXY := modEq_of_fixed (B ^ W) (B ^ (M + 1)) W _ _ _ hz hX hY
    exact Nat.ModEq.eq_of_lt_of_lt hXY (Nat.mod_lt _ hn)
      (pack_lt B W _ (fun d hd => hf (M + 1) d (le_refl _) hd))

set_option maxRecDepth 1000000 in
set_option maxHeartbeats 0 in
theorem prow_facts :
    ((List.range 256).all (fun d =>
        decide (prow (2 ^ 512) 256 255 / (2 ^ 512) ^ d % 2 ^ 512 < 2 ^ 63)) &&
      decide (2 ^ 63 ≤ (prow (2 ^ 512) 256 255 / (2 ^ 512) ^ 127 % 2 ^ 512) *
        (prow (2 ^ 512) 256 255 / (2 ^ 512) ^ 128 % 2 ^ 512))) = true := by
  decide!

theorem desc_length_lt_pow (K M d : Nat) (h : M + d < K) : (desc M d).length < 2 ^ K :=
  lt_of_le_of_lt (desc_length_le_pow M d) (Nat.pow_lt_pow_right (by omega) h)

set_option exponentiation.threshold 1024 in
theorem desc_255_digit (d : Nat) (hd : d < 256) :
    prow (2 ^ 512) 256 255 / (2 ^ 512) ^ d % 2 ^ 512 = (desc 255 d).length := by
  have hf : ∀ M1 d, M1 ≤ 255 → d < 256 → (desc M1 d).length < 2 ^ 512 := by
    intro M1 d h1 h2
    exact desc_length_lt_pow 512 M1 d (by omega)
  rw [prow_eq_pack (2 ^ 512) 256 (Nat.one_lt_two_pow (by omega)) (by omega) 255 hf]
  exact pack_digit (2 ^ 512) 256 _ (fun d hd => hf 255 d (le_refl _) hd) d hd

/-- The number of partitions of d into parts at most 255 is below 2^63 for d up to 255. -/
theorem desc_255_lt (d : Nat) (hd : d ≤ 255) : (desc 255 d).length < 2 ^ 63 := by
  have h1 := (Bool.and_eq_true _ _).mp prow_facts
  have hall := List.all_eq_true.mp h1.1 d (List.mem_range.mpr (by omega))
  rw [← desc_255_digit d (by omega)]
  exact of_decide_eq_true hall

theorem desc_255_product : 2 ^ 63 ≤ (desc 255 127).length * (desc 255 128).length := by
  have h1 := (Bool.and_eq_true _ _).mp prow_facts
  rw [← desc_255_digit 127 (by omega), ← desc_255_digit 128 (by omega)]
  exact of_decide_eq_true h1.2
theorem ptable_200_lt : (ptable 200 200).all (fun x => decide (x < 2 ^ 64)) = true := by
  obtain ⟨hl, hv⟩ := ptable_spec 200 200
  rw [List.all_eq_true]
  intro x hx
  obtain ⟨i, hi, rfl⟩ := List.getElem_of_mem hx
  have hi2 : i ≤ 200 := by omega
  have e := hv i hi2
  rw [List.getD_eq_getElem _ _ hi] at e
  rw [e, desc_ge 200 i hi2, ← desc_ge 255 i (by omega)]
  have := desc_255_lt i (by omega)
  exact decide_eq_true (by omega)

set_option maxRecDepth 100000 in
theorem ptable_10 : ptable 10 10 = [1, 1, 2, 3, 5, 7, 11, 15, 22, 30, 42] := by decide

/-- The number of partitions of n fits the uint64_t count for n up to MAXNUMP. -/
theorem desc_length_lt (n : Nat) (hn : n ≤ 200) : (desc n n).length < 2 ^ 64 := by
  obtain ⟨hl, hv⟩ := ptable_spec 200 200
  rw [← desc_ge 200 n hn, ← hv n hn, List.getD_eq_getElem _ _ (by omega)]
  have hall := List.all_eq_true.mp ptable_200_lt _ (List.getElem_mem (l := ptable 200 200)
    (by omega : n < (ptable 200 200).length))
  simpa using hall

theorem desc_length_small (n : Nat) (hn : n ≤ 10) :
    (desc n n).length = [1, 1, 2, 3, 5, 7, 11, 15, 22, 30, 42].getD n 0 := by
  obtain ⟨_, hv⟩ := ptable_spec 10 10
  rw [← desc_ge 10 n hn, ← hv n hn, ptable_10]

/-! ## The generators on every input -/

theorem generators_neg (algo : algo_t) (fuel : Nat) (mem memx : Buf) (n : Int) (v : Bool)
    (h : n < 0) : generators algo fuel mem memx n v = some (0, []) := by
  cases algo
  all_goals simp only [generators, rule_asc, rule_desc, accel_asc, accel_desc, merca1, merca2,
    merca3, zs1, zs2, rule_asc_init, rule_desc_init, accel_asc_init, accel_desc_init,
    merca1_init, merca2_init, merca3_init, zs1_init, zs2_init, if_pos h]
  all_goals rw [iterate_fixed _ _ rfl]
  all_goals rfl

theorem generators_zero (algo : algo_t) (fuel : Nat) (mem memx : Buf) (v : Bool) :
    generators algo fuel mem memx 0 v = some (1, vlog v [⟨0, 0, []⟩]) := by
  have h0 : ¬ ((0 : Int) < 0) := by omega
  cases algo
  all_goals simp only [generators, rule_asc, rule_desc, accel_asc, accel_desc, merca1, merca2,
    merca3, zs1, zs2, rule_asc_init, rule_desc_init, accel_asc_init, accel_desc_init,
    merca1_init, merca2_init, merca3_init, zs1_init, zs2_init, if_neg h0, if_true]
  all_goals rw [iterate_fixed _ _ rfl]
  all_goals cases v <;> rfl

/-- Each generator returns, for every n up to MAXNUMP, the number of the compositions of
visits and the log of these compositions. -/
theorem generators_run (algo : algo_t) (mem memx : Buf) (n : Nat) (v : Bool) (h : n ≤ 200) :
    Returns (fun fuel => generators algo fuel mem memx (n : Int) v)
      (cadd 0 (visits algo n).length, vlog v ((visits algo n).map (psnap n []))) := by
  by_cases h0 : n = 0
  · subst h0
    refine ⟨0, fun fuel _ => ?_⟩
    show generators algo fuel mem memx 0 v = _
    rw [generators_zero]
    cases algo <;> simp [visits, desc_zero, cadd, psnap]
  · have h1 : 1 ≤ n := by omega
    cases algo
    · simp only [generators, visits, if_neg h0]; exact rule_asc_run mem n v h1 h
    · simp only [generators, visits]; exact rule_desc_run mem n v h1 h
    · simp only [generators, visits, if_neg h0]; exact accel_asc_run mem n v h1 h
    · simp only [generators, visits]; exact accel_desc_run mem n v h1 h
    · simp only [generators, visits, if_neg h0]; exact merca1_run mem n v h1 h
    · simp only [generators, visits, if_neg h0]; exact merca2_run mem n v h1 h
    · simp only [generators, visits, if_neg h0]; exact merca3_run mem n v h1 h
    · simp only [generators, visits]; exact zs1_run mem n v h1 h
    · simp only [generators, visits, List.length_reverse]; exact zs2_run mem memx n v h1 h

theorem mem_le_sum (l : List Int) (h : ∀ x ∈ l, (1 : Int) ≤ x) : ∀ x ∈ l, x ≤ l.sum := by
  induction l with
  | nil => intro x hx; cases hx
  | cons a l ih =>
    intro x hx
    have hl : ∀ y ∈ l, (1 : Int) ≤ y := fun y hy => h y (List.mem_cons_of_mem _ hy)
    have h0 := sum_nonneg_of_pos l hl
    have ha := h a (List.mem_cons_self _ _)
    rw [List.sum_cons]
    rcases List.mem_cons.mp hx with e | e
    · omega
    · have := ih hl x e
      omega

theorem asc_mem (n : Nat) (hn : 1 ≤ n) (l : List Int) :
    l ∈ asc 1 n ↔ List.Sorted (fun a b => a ≤ b) l ∧ (∀ x ∈ l, (1 : Int) ≤ x) ∧ l.sum = n := by
  constructor
  · intro h
    obtain ⟨_, h1, h2, h3⟩ := asc_sound (2 * n) 1 n l (by omega) (le_refl _) hn h
    exact ⟨h1, fun x hx => by simpa using h2 x hx, h3⟩
  · rintro ⟨h1, h2, h3⟩
    refine asc_complete (2 * n) 1 n l (by omega) (le_refl _) ?_ h1
      (fun x hx => by simpa using h2 x hx) h3
    rintro rfl
    simp at h3
    omega

theorem desc_mem (n : Nat) (l : List Int) :
    l ∈ desc n n ↔ List.Sorted (fun a b => a ≥ b) l ∧ (∀ x ∈ l, (1 : Int) ≤ x) ∧ l.sum = n := by
  constructor
  · intro h
    obtain ⟨h1, h2, h3⟩ := desc_sound (n + n + 1) n n l (by omega) h
    exact ⟨h1, fun x hx => (h2 x hx).1, h3⟩
  · rintro ⟨h1, h2, h3⟩
    refine desc_complete (n + n + 1) n n l (by omega) h1 (fun x hx => ⟨h2 x hx, ?_⟩) h3
    rw [← h3]
    exact mem_le_sum l h2 x hx

theorem asc_nodup (n : Nat) (hn : 1 ≤ n) : (asc 1 n).Nodup := by
  refine (asc_pairwise (2 * n) 1 n (by omega) (le_refl _) hn).imp ?_
  intro a b hab e
  subst e
  exact lexlt_irrefl a hab

theorem desc_nodup (n : Nat) : (desc n n).Nodup := by
  refine (desc_pairwise (n + n + 1) n n (by omega)).imp ?_
  intro a b hab e
  subst e
  exact lexlt_irrefl a hab

theorem asc_family (n : Nat) (hn : 1 ≤ n) :
    ((asc 1 n).map (fun (l : List Int) => Multiset.ofList l)).Nodup ∧
    ∀ μ : Multiset Int, μ ∈ (asc 1 n).map (fun (l : List Int) => Multiset.ofList l) ↔
      (∀ x ∈ μ, 0 < x) ∧ μ.sum = n :=
  family_multisets (fun a b => a ≤ b) (asc 1 n) n (asc_nodup n hn) (asc_mem n hn)

theorem desc_family (n : Nat) :
    ((desc n n).map (fun (l : List Int) => Multiset.ofList l)).Nodup ∧
    ∀ μ : Multiset Int, μ ∈ (desc n n).map (fun (l : List Int) => Multiset.ofList l) ↔
      (∀ x ∈ μ, 0 < x) ∧ μ.sum = n :=
  family_multisets (fun a b => a ≥ b) (desc n n) n (desc_nodup n) (desc_mem n)

theorem visits_cases (algo : algo_t) (n : Nat) :
    visits algo n = desc n n ∨ visits algo n = (desc n n).reverse ∨
      (1 ≤ n ∧ visits algo n = asc 1 n) := by
  by_cases h0 : n = 0
  · subst h0
    left
    cases algo <;> simp [visits, desc_zero]
  · have h1 : 1 ≤ n := by omega
    cases algo
    all_goals first
      | exact Or.inl rfl
      | exact Or.inr (Or.inl rfl)
      | exact Or.inr (Or.inr ⟨h1, by simp only [visits, if_neg h0]⟩)

/-- The compositions a generator visits are, as multisets, the partitions of n, each
once. -/
theorem visits_family (algo : algo_t) (n : Nat) :
    ((visits algo n).map (fun (l : List Int) => Multiset.ofList l)).Nodup ∧
    ∀ μ : Multiset Int, μ ∈ (visits algo n).map (fun (l : List Int) => Multiset.ofList l) ↔
      (∀ x ∈ μ, 0 < x) ∧ μ.sum = n := by
  rcases visits_cases algo n with e | e | ⟨h1, e⟩
  · rw [e]; exact desc_family n
  · rw [e, List.map_reverse]
    refine ⟨List.nodup_reverse.mpr (desc_family n).1, fun μ => ?_⟩
    rw [List.mem_reverse]
    exact (desc_family n).2 μ
  · rw [e]; exact asc_family n h1

theorem visits_mem (algo : algo_t) (n : Nat) (l : List Int) (h : l ∈ visits algo n) :
    (∀ x ∈ l, (1 : Int) ≤ x) ∧ l.sum = n := by
  rcases visits_cases algo n with e | e | ⟨h1, e⟩
  · rw [e] at h
    exact ((desc_mem n l).mp h).2
  · rw [e, List.mem_reverse] at h
    exact ((desc_mem n l).mp h).2
  · rw [e] at h
    exact ((asc_mem n h1 l).mp h).2

theorem visits_length (algo : algo_t) (n : Nat) :
    (visits algo n).length = Fintype.card (Nat.Partition n) := by
  have h := visits_family algo n
  rw [← card_partitions _ n h.1 h.2, List.length_map]

theorem visits_length_lt (algo : algo_t) (n : Nat) (h : n ≤ 200) :
    (visits algo n).length < 2 ^ 64 := by
  have e : (visits algo n).length = (desc n n).length := by
    rw [visits_length, ← visits_length .ALGO_ZS1 n]
    rfl
  rw [e]
  exact desc_length_lt n h

theorem visits_length_small (algo : algo_t) (n : Nat) (h : n ≤ 10) :
    (visits algo n).length = [1, 1, 2, 3, 5, 7, 11, 15, 22, 30, 42].getD n 0 := by
  rw [visits_length, ← visits_length .ALGO_ZS1 n]
  exact desc_length_small n h

theorem visited_multisets_map (n : Int) (L : List (List Int)) :
    visited_multisets (L.map (psnap n [])) = L.map (fun (l : List Int) => Multiset.ofList l) := by
  unfold visited_multisets
  rw [List.map_map]
  rfl

theorem visited_parts_map (n : Int) (L : List (List Int)) :
    visited_parts (L.map (psnap n [])) = L := by
  unfold visited_parts
  rw [List.map_map]
  exact List.map_id _

/-! ## The claims on the generators -/

/-- C1: for every n up to 200, so for every n with 1 ≤ n ≤ 200, each of the nine generators
returns, and the partitions it hands to the visitor, taken as multisets of parts, contain no
multiset twice and contain exactly the multisets of positive integers with sum n. -/
theorem generators_visit_each_partition_once (algo : algo_t) (mem memx : Buf) (n : Nat)
    (h2 : n ≤ 200) :
    ∃ count out, Returns (fun fuel => generators algo fuel mem memx (n : Int) true) (count, out) ∧
      (visited_multisets out).Nodup ∧
      ∀ μ : Multiset Int, μ ∈ visited_multisets out ↔ (∀ x ∈ μ, 0 < x) ∧ μ.sum = n := by
  refine ⟨_, _, generators_run algo mem memx n true h2, ?_⟩
  rw [vlog_true, visited_multisets_map]
  exact visits_family algo n

theorem generators_visit_each_partition_once_witness :
    ∃ count out, Returns (fun fuel => generators .ALGO_ZS2 fuel (fun _ => 0) (fun _ => 0)
        ((5 : Nat) : Int) true) (count, out) ∧
      (visited_multisets out).Nodup ∧
      ∀ μ : Multiset Int, μ ∈ visited_multisets out ↔ (∀ x ∈ μ, 0 < x) ∧ μ.sum = (5 : Nat) :=
  generators_visit_each_partition_once .ALGO_ZS2 (fun _ => 0) (fun _ => 0) 5 (by decide)

/-- C2: for every n in [0, 200] each of the nine generators returns the same count with a
visitor and with the NULL visitor; the count is the number of partitions handed to the
visitor and is the partition number p(n), the number of partitions of n; it is 1 for
n = 0, 1 for n = 1, 7 for n = 5 and 42 for n = 10. -/
theorem generators_count_eq_partition_number (algo : algo_t) (mem memx : Buf) (n : Nat)
    (h : n ≤ 200) :
    ∃ count out, Returns (fun fuel => generators algo fuel mem memx (n : Int) true) (count, out) ∧
      Returns (fun fuel => generators algo fuel mem memx (n : Int) false) (count, []) ∧
      count = out.length ∧ count = Fintype.card (Nat.Partition n) ∧
      (n = 0 → count = 1) ∧ (n = 1 → count = 1) ∧ (n = 5 → count = 7) ∧
      (n = 10 → count = 42) := by
  have hc : cadd 0 (visits algo n).length = (visits algo n).length :=
    cadd_of_lt _ (visits_length_lt algo n h)
  have ht := generators_run algo mem memx n true h
  have hf := generators_run algo mem memx n false h
  rw [hc] at ht hf
  rw [vlog_true] at ht
  rw [vlog_false] at hf
  refine ⟨_, _, ht, hf, by rw [List.length_map], visits_length algo n, ?_, ?_, ?_, ?_⟩
  · rintro rfl; exact visits_length_small algo 0 (by decide)
  · rintro rfl; exact visits_length_small algo 1 (by decide)
  · rintro rfl; exact visits_length_small algo 5 (by decide)
  · rintro rfl; exact visits_length_small algo 10 (by decide)

theorem generators_count_eq_partition_number_witness :
    ∃ count out, Returns (fun fuel => generators .ALGO_MERCA3 fuel (fun _ => 0) (fun _ => 0)
        ((10 : Nat) : Int) true) (count, out) ∧
      Returns (fun fuel => generators .ALGO_MERCA3 fuel (fun _ => 0) (fun _ => 0)
        ((10 : Nat) : Int) false) (count, []) ∧
      count = out.length ∧ count = Fintype.card (Nat.Partition 10) ∧
      ((10 : Nat) = 0 → count = 1) ∧ ((10 : Nat) = 1 → count = 1) ∧
      ((10 : Nat) = 5 → count = 7) ∧ ((10 : Nat) = 10 → count = 42) :=
  generators_count_eq_partition_number .ALGO_MERCA3 (fun _ => 0) (fun _ => 0) 10 (by decide)

/-- C3: for every n in [0, 200] each of the nine generators returns, and every partition
it hands to the visitor satisfies the Partition invariant: the field n is the input n,
every part a[i] with i < len is at least 1, the parts a[0..len) sum to n, and len is 0
exactly when n is 0. -/
theorem generators_partition_invariant (algo : algo_t) (mem memx : Buf) (n : Nat)
    (h : n ≤ 200) :
    ∃ count out, Returns (fun fuel => generators algo fuel mem memx (n : Int) true) (count, out) ∧
      ∀ p ∈ out, PartitionInv n p := by
  refine ⟨_, _, generators_run algo mem memx n true h, ?_⟩
  rw [vlog_true]
  intro p hp
  obtain ⟨l, hl, rfl⟩ := List.mem_map.mp hp
  obtain ⟨hpos, hsum⟩ := visits_mem algo n l hl
  refine ⟨rfl, rfl, hpos, hsum, ?_⟩
  show ([] ++ l).length = 0 ↔ (n : Int) = 0
  have hlen := sum_ge_length l hpos
  constructor
  · intro e
    have : l = [] := List.length_eq_zero.mp (by simpa using e)
    subst this
    simpa using hsum.symm
  · intro e
    simp only [List.nil_append]
    omega

theorem generators_partition_invariant_witness :
    ∃ count out, Returns (fun fuel => generators .ALGO_ACCEL_DESC fuel (fun _ => 7)
        (fun _ => 0) ((6 : Nat) : Int) true) (count, out) ∧
      ∀ p ∈ out, PartitionInv (6 : Nat) p :=
  generators_partition_invariant .ALGO_ACCEL_DESC (fun _ => 7) (fun _ => 0) 6 (by decide)

/-- C4: for every n < 0 each of the nine generators returns 0, whatever the fuel and
whether the visitor is NULL or not, and the log of the calls of the visitor is empty. -/
theorem generators_negative (algo : algo_t) (fuel : Nat) (mem memx : Buf) (n : Int)
    (visit : Bool) (h : n < 0) : generators algo fuel mem memx n visit = some (0, []) :=
  generators_neg algo fuel mem memx n visit h

theorem generators_negative_witness :
    generators .ALGO_ZS1 0 (fun _ => 0) (fun _ => 0) (-3) true = some (0, []) :=
  generators_negative .ALGO_ZS1 0 (fun _ => 0) (fun _ => 0) (-3) true (by decide)

/-- C5: for n = 0 each of the nine generators returns 1, whatever the fuel, after one call
of the visitor, with the empty partition (len = 0, n = 0, no parts). -/
theorem generators_zero_visits_empty (algo : algo_t) (fuel : Nat) (mem memx : Buf) :
    generators algo fuel mem memx 0 true = some (1, [⟨0, 0, []⟩]) :=
  generators_zero algo fuel mem memx true

/-- C6: for every n in [0, 200] any two of the nine generators return, and a multiset of
parts is visited by the one if and only if it is visited by the other. -/
theorem generators_same_partitions (g1 g2 : algo_t) (mem1 memx1 mem2 memx2 : Buf) (n : Nat)
    (h : n ≤ 200) :
    ∃ c1 out1 c2 out2,
      Returns (fun fuel => generators g1 fuel mem1 memx1 (n : Int) true) (c1, out1) ∧
      Returns (fun fuel => generators g2 fuel mem2 memx2 (n : Int) true) (c2, out2) ∧
      ∀ μ : Multiset Int, μ ∈ visited_multisets out1 ↔ μ ∈ visited_multisets out2 := by
  refine ⟨_, _, _, _, generators_run g1 mem1 memx1 n true h,
    generators_run g2 mem2 memx2 n true h, ?_⟩
  intro μ
  rw [vlog_true, vlog_true, visited_multisets_map, visited_multisets_map,
    (visits_family g1 n).2 μ, (visits_family g2 n).2 μ]

theorem generators_same_partitions_witness :
    ∃ c1 out1 c2 out2,
      Returns (fun fuel => generators .ALGO_RULE_ASC fuel (fun _ => 0) (fun _ => 0)
        ((4 : Nat) : Int) true) (c1, out1) ∧
      Returns (fun fuel => generators .ALGO_ZS2 fuel (fun _ => 0) (fun _ => 0)
        ((4 : Nat) : Int) true) (c2, out2) ∧
      ∀ μ : Multiset Int, μ ∈ visited_multisets out1 ↔ μ ∈ visited_multisets out2 :=
  generators_same_partitions .ALGO_RULE_ASC .ALGO_ZS2 (fun _ => 0) (fun _ => 0) (fun _ => 0)
    (fun _ => 0) 4 (by decide)

/-- C7: for every n in [1, 200] each of rule_asc, accel_asc, merca1, merca2 and merca3
returns; the parts of every partition it hands to the visitor are in non-decreasing order,
every visited partition is strictly greater in lexicographic order than the one visited
just before it, the first one visited is n ones and the last one is [n]. -/
theorem ascending_generators_order (algo : algo_t) (mem memx : Buf) (n : Nat)
    (halgo : algo = .ALGO_RULE_ASC ∨ algo = .ALGO_ACCEL_ASC ∨ algo = .ALGO_MERCA1 ∨
      algo = .ALGO_MERCA2 ∨ algo = .ALGO_MERCA3)
    (h1 : 1 ≤ n) (h2 : n ≤ 200) :
    ∃ count out, Returns (fun fuel => generators algo fuel mem memx (n : Int) true) (count, out) ∧
      (∀ l ∈ visited_parts out, List.Sorted (fun a b => a ≤ b) l) ∧
      List.Chain' (fun prev next => LexLt prev next) (visited_parts out) ∧
      (visited_parts out).head? = some (List.replicate n 1) ∧
      (visited_parts out).getLast? = some [(n : Int)] := by
  refine ⟨_, _, generators_run algo mem memx n true h2, ?_⟩
  rw [vlog_true, visited_parts_map]
  have e : visits algo n = asc 1 n := by
    have h0 : ¬ (n = 0) := by omega
    rcases halgo with h | h | h | h | h
    all_goals subst h
    all_goals simp only [visits, if_neg h0]
  rw [e]
  refine ⟨fun l hl => ((asc_mem n h1 l).mp hl).1,
    (asc_pairwise (2 * n) 1 n (by omega) (le_refl _) h1).chain', ?_, ?_⟩
  · obtain ⟨L, hL⟩ := asc_first n h1
    rw [hL]
    rfl
  · obtain ⟨L, hL⟩ := asc_last (2 * n) 1 n (by omega)
    rw [hL, List.getLast?_append]
    rfl

theorem ascending_generators_order_witness :
    ∃ count out, Returns (fun fuel => generators .ALGO_MERCA2 fuel (fun _ => 0) (fun _ => 0)
        ((7 : Nat) : Int) true) (count, out) ∧
      (∀ l ∈ visited_parts out, List.Sorted (fun a b => a ≤ b) l) ∧
      List.Chain' (fun prev next => LexLt prev next) (visited_parts out) ∧
      (visited_parts out).head? = some (List.replicate 7 1) ∧
      (visited_parts out).getLast? = some [((7 : Nat) : Int)] :=
  ascending_generators_order .ALGO_MERCA2 (fun _ => 0) (fun _ => 0) 7
    (Or.inr (Or.inr (Or.inr (Or.inl rfl)))) (by decide) (by decide)

/-- C8: for every n in [1, 200] each of rule_desc and zs1 returns; the parts of every
partition it hands to the visitor are in non-increasing order, every visited partition is
strictly smaller in lexicographic order than the one visited just before it, the first one
visited is [n] and the last one is n ones. -/
theorem descending_generators_order (algo : algo_t) (mem memx : Buf) (n : Nat)
    (halgo : algo = .ALGO_RULE_DESC ∨ algo = .ALGO_ZS1) (h1 : 1 ≤ n) (h2 : n ≤ 200) :
    ∃ count out, Returns (fun fuel => generators algo fuel mem memx (n : Int) true) (count, out) ∧
      (∀ l ∈ visited_parts out, List.Sorted (fun a b => a ≥ b) l) ∧
      List.Chain' (fun prev next => LexLt next prev) (visited_parts out) ∧
      (visited_parts out).head? = some [(n : Int)] ∧
      (visited_parts out).getLast? = some (List.replicate n 1) := by
  refine ⟨_, _, generators_run algo mem memx n true h2, ?_⟩
  rw [vlog_true, visited_parts_map]
  have e : visits algo n = desc n n := by
    rcases halgo with h | h
    all_goals subst h
    all_goals rfl
  rw [e]
  refine ⟨fun l hl => ((desc_mem n l).mp hl).1,
    (desc_pairwise (n + n + 1) n n (by omega)).chain', ?_, ?_⟩
  · rw [desc_self n (by omega)]
    rfl
  · obtain ⟨L, hL⟩ := desc_last n h1 n h1
    rw [hL, List.getLast?_append]
    rfl

theorem descending_generators_order_witness :
    ∃ count out, Returns (fun fuel => generators .ALGO_RULE_DESC fuel (fun _ => 0) (fun _ => 0)
        ((7 : Nat) : Int) true) (count, out) ∧
      (∀ l ∈ visited_parts out, List.Sorted (fun a b => a ≥ b) l) ∧
      List.Chain' (fun prev next => LexLt next prev) (visited_parts out) ∧
      (visited_parts out).head? = some [((7 : Nat) : Int)] ∧
      (visited_parts out).getLast? = some (List.replicate 7 1) :=
  descending_generators_order .ALGO_RULE_DESC (fun _ => 0) (fun _ => 0) 7 (Or.inl rfl)
    (by decide) (by decide)

/-- C9: for every n in [1, 200] zs2 returns; the parts of every partition it hands to the
visitor are in non-increasing order, every visited partition is strictly greater in
lexicographic order than the one visited just before it, the first one visited is n ones
and the last one is [n]. -/
theorem zs2_order (mem memx : Buf) (n : Nat) (h1 : 1 ≤ n) (h2 : n ≤ 200) :
    ∃ count out, Returns (fun fuel => zs2 fuel mem memx (n : Int) true) (count, out) ∧
      (∀ l ∈ visited_parts out, List.Sorted (fun a b => a ≥ b) l) ∧
      List.Chain' (fun prev next => LexLt prev next) (visited_parts out) ∧
      (visited_parts out).head? = some (List.replicate n 1) ∧
      (visited_parts out).getLast? = some [(n : Int)] := by
  refine ⟨_, _, zs2_run mem memx n true h1 h2, ?_⟩
  rw [vlog_true, visited_parts_map]
  refine ⟨fun l hl => ((desc_mem n l).mp (List.mem_reverse.mp hl)).1, ?_, ?_, ?_⟩
  · exact (List.pairwise_reverse.mpr (desc_pairwise (n + n + 1) n n (by omega))).chain'
  · obtain ⟨L, hL⟩ := desc_last n h1 n h1
    rw [List.head?_reverse, hL, List.getLast?_append]
    rfl
  · rw [List.getLast?_reverse, desc_self n (by omega)]
    rfl

theorem zs2_order_witness :
    ∃ count out, Returns (fun fuel => zs2 fuel (fun _ => 0) (fun _ => 0)
        ((7 : Nat) : Int) true) (count, out) ∧
      (∀ l ∈ visited_parts out, List.Sorted (fun a b => a ≥ b) l) ∧
      List.Chain' (fun prev next => LexLt prev next) (visited_parts out) ∧
      (visited_parts out).head? = some (List.replicate 7 1) ∧
      (visited_parts out).getLast? = some [((7 : Nat) : Int)] :=
  zs2_order (fun _ => 0) (fun _ => 0) 7 (by decide) (by decide)

/-! ## The product of q-series -/

theorem wrap64_add (a b : Int) : wrap64 (wrap64 a + wrap64 b) = wrap64 (a + b) := by
  unfold wrap64
  omega

theorem wrap64_of_fits (z : Int) (h : Int64 z) : wrap64 z = z := by
  unfold Int64 at h
  unfold wrap64
  omega

theorem multiply_fold (f : Nat → Int) (k : Nat) :
    (List.range k).foldl (fun sum i => wrap64 (sum + wrap64 (f i))) 0
      = wrap64 (((List.range k).map f).sum) := by
  induction k with
  | zero => rfl
  | succ k ih =>
    rw [List.range_succ, List.foldl_append, ih, List.map_append, List.sum_append]
    simp only [List.foldl_cons, List.foldl_nil, List.map_cons, List.map_nil, List.sum_cons,
      List.sum_nil, add_zero]
    exact wrap64_add _ _

/-- The inner loop leaves the sum of the products reduced to an int64_t. -/
theorem multiply_sum_eq (s t : qseries_t) (deg : Nat) :
    multiply_sum s t deg = wrap64 (conv s t deg) :=
  multiply_fold (fun i => s i * t (deg - i)) (deg + 1)

theorem multiply_outer (s t : qseries_t) (K : Nat) (ans : qseries_t) (d : Nat) :
    (List.range K).foldl (fun ans deg => Function.update ans deg (multiply_sum s t deg)) ans d
      = if d < K then multiply_sum s t d else ans d := by
  induction K with
  | zero => rfl
  | succ K ih =>
    rw [List.range_succ, List.foldl_append]
    simp only [List.foldl_cons, List.foldl_nil]
    by_cases hd : d = K
    · subst hd
      rw [Function.update_same, if_pos (by omega)]
    · rw [Function.update_noteq hd, ih]
      by_cases h : d < K
      · rw [if_pos h, if_pos (by omega)]
      · rw [if_neg h, if_neg (by omega)]

theorem multiply_qseries_apply (s t ans : qseries_t) (d : Nat) (hd : d < MAXORD) :
    multiply_qseries s t ans d = wrap64 (conv s t d) := by
  unfold multiply_qseries
  rw [multiply_outer, if_pos hd, multiply_sum_eq]

/-- C10, as amended: for all series s and t, every buffer ans distinct from them and every
degree d below MAXORD, multiply_qseries leaves in ans[d] the sum of s[i] t[d - i] for
i = 0..d reduced to an int64_t (wrap-around modulo 2^64), and leaves the sum itself if the
sum fits an int64_t, as it does when no product and no partial sum overflows. -/
theorem multiply_qseries_convolution (s t ans : qseries_t) (d : Nat) (hd : d < MAXORD) :
    multiply_qseries s t ans d = wrap64 (conv s t d) ∧
    (Int64 (conv s t d) → multiply_qseries s t ans d = conv s t d) := by
  refine ⟨multiply_qseries_apply s t ans d hd, fun h => ?_⟩
  rw [multiply_qseries_apply s t ans d hd, wrap64_of_fits _ h]

theorem multiply_qseries_convolution_witness :
    multiply_qseries qs_two32 qs_two32 (fun _ => 0) 1 = wrap64 (conv qs_two32 qs_two32 1) ∧
    (Int64 (conv qs_two32 qs_two32 1) →
      multiply_qseries qs_two32 qs_two32 (fun _ => 0) 1 = conv qs_two32 qs_two32 1) :=
  multiply_qseries_convolution qs_two32 qs_two32 (fun _ => 0) 1 (by decide)

/-- C10, counterexample: for s = t = 2^32 (every coefficient fits an int64_t) the sum for
degree 0 is s[0] t[0] = 2^64, which no int64_t holds; multiply_qseries leaves ans[0] = 0. -/
theorem multiply_qseries_overflow :
    (∀ i, Int64 (qs_two32 i)) ∧ conv qs_two32 qs_two32 0 = 2 ^ 64 ∧
    multiply_qseries qs_two32 qs_two32 (fun _ => 0) 0 = 0 ∧
    multiply_qseries qs_two32 qs_two32 (fun _ => 0) 0 ≠ conv qs_two32 qs_two32 0 := by
  have hc : conv qs_two32 qs_two32 0 = 2 ^ 64 := by
    simp [conv, qs_two32, List.range_succ]
  have hm : multiply_qseries qs_two32 qs_two32 (fun _ => 0) 0 = 0 := by
    rw [multiply_qseries_apply _ _ _ 0 (by decide), hc]
    decide
  refine ⟨fun i => ?_, hc, hm, ?_⟩
  · unfold qs_two32 Int64
    split <;> norm_num
  · rw [hm, hc]
    norm_num

/-! ## Reads of the arrays the q-series operations write -/

theorem foldl_update_apply (v : Nat → Int) (K : Nat) (ans : qseries_t) (d : Nat) :
    (List.range K).foldl (fun ans deg => Function.update ans deg (v deg)) ans d
      = if d < K then v d else ans d := by
  induction K with
  | zero => rfl
  | succ K ih =>
    rw [List.range_succ, List.foldl_append]
    simp only [List.foldl_cons, List.foldl_nil]
    by_cases hd : d = K
    · subst hd
      rw [Function.update_same, if_pos (by omega)]
    · rw [Function.update_noteq hd, ih]
      by_cases h : d < K
      · rw [if_pos h, if_pos (by omega)]
      · rw [if_neg h, if_neg (by omega)]

theorem init_qseries_apply (s : qseries_t) (v : Int) (d : Nat) :
    init_qseries s v d = if d < MAXORD then v else s d :=
  foldl_update_apply (fun _ => v) MAXORD s d

theorem cp_qseries_apply (s t : qseries_t) (d : Nat) :
    cp_qseries s t d = if d < MAXORD then s d else t d :=
  foldl_update_apply s MAXORD t d

theorem shift_qseries_apply (s : qseries_t) (shift : Int) (ans : qseries_t) (d : Nat) :
    shift_qseries s shift ans d
      = if d < MAXORD then (if (d : Int) < shift then 0 else s (shift_index d shift))
        else ans d :=
  foldl_update_apply (fun deg => if (deg : Int) < shift then 0 else s (shift_index deg shift))
    MAXORD ans d

theorem multiply_qseries_high (s t ans : qseries_t) (d : Nat) (hd : ¬ d < MAXORD) :
    multiply_qseries s t ans d = ans d := by
  unfold multiply_qseries
  rw [multiply_outer, if_neg hd]

/-! ## Arithmetic modulo 2^64 -/

theorem wrap64_modEq (z : Int) : wrap64 z ≡ z [ZMOD 2 ^ 64] := by
  unfold wrap64 Int.ModEq
  omega

theorem wrap64_fits (z : Int) : Int64 (wrap64 z) := by
  unfold wrap64 Int64
  omega

theorem eq_of_modEq (a b : Int) (ha : Int64 a) (hb : Int64 b) (h : a ≡ b [ZMOD 2 ^ 64]) :
    a = b := by
  unfold Int64 at ha hb
  unfold Int.ModEq at h
  omega

theorem wrap64_eq_of_modEq (a b : Int) (h : a ≡ b [ZMOD 2 ^ 64]) : wrap64 a = wrap64 b :=
  eq_of_modEq _ _ (wrap64_fits a) (wrap64_fits b)
    ((wrap64_modEq a).trans (h.trans (wrap64_modEq b).symm))

theorem list_sum_modEq (l : List Nat) (f g : Nat → Int)
    (h : ∀ i ∈ l, f i ≡ g i [ZMOD 2 ^ 64]) :
    (l.map f).sum ≡ (l.map g).sum [ZMOD 2 ^ 64] := by
  induction l with
  | nil => exact Int.ModEq.refl _
  | cons a l ih =>
    rw [List.map_cons, List.map_cons, List.sum_cons, List.sum_cons]
    exact (h a (List.mem_cons_self _ _)).add (ih (fun i hi => h i (List.mem_cons_of_mem _ hi)))

/-- The coefficient of degree d of a product depends, modulo 2^64, on the coefficients of
degree at most d of the factors modulo 2^64 only. -/
theorem conv_modEq (f f1 g g1 : qseries_t) (d : Nat)
    (hf : ∀ i, i ≤ d → f i ≡ f1 i [ZMOD 2 ^ 64]) (hg : ∀ i, i ≤ d → g i ≡ g1 i [ZMOD 2 ^ 64]) :
    conv f g d ≡ conv f1 g1 d [ZMOD 2 ^ 64] := by
  unfold conv
  apply list_sum_modEq
  intro i hi
  have hi1 : i < d + 1 := List.mem_range.mp hi
  exact (hf i (by omega)).mul (hg (d - i) (by omega))

theorem conv_congr (f f1 g g1 : qseries_t) (d : Nat)
    (hf : ∀ i, i ≤ d → f i = f1 i) (hg : ∀ i, i ≤ d → g i = g1 i) :
    conv f g d = conv f1 g1 d := by
  unfold conv
  congr 1
  apply List.map_congr_left
  intro i hi
  have hi1 : i < d + 1 := List.mem_range.mp hi
  rw [hf i (by omega), hg (d - i) (by omega)]

/-- The loop `sum += s[i] * t[..]` over a list of indices leaves the sum of the products
reduced modulo 2^64. -/
theorem foldl_wrap_modEq (l : List Nat) (f : Nat → Int) (z : Int) :
    l.foldl (fun sum i => wrap64 (sum + wrap64 (f i))) z ≡ z + (l.map f).sum [ZMOD 2 ^ 64] := by
  induction l generalizing z with
  | nil => simp [Int.ModEq.refl]
  | cons a l ih =>
    rw [List.foldl_cons, List.map_cons, List.sum_cons]
    refine (ih _).trans ?_
    have h1 : wrap64 (z + wrap64 (f a)) ≡ z + f a [ZMOD 2 ^ 64] :=
      (wrap64_modEq _).trans ((Int.ModEq.refl z).add (wrap64_modEq _))
    have h2 := h1.add (Int.ModEq.refl (l.map f).sum)
    rw [add_assoc] at h2
    exact h2

theorem QEq.qrefl (f : qseries_t) : QEq f f := fun _ _ => Int.ModEq.refl _

theorem QEq.symm {f g : qseries_t} (h : QEq f g) : QEq g f := fun d hd => (h d hd).symm

theorem QEq.qtrans {f g k : qseries_t} (h1 : QEq f g) (h2 : QEq g k) : QEq f k :=
  fun d hd => (h1 d hd).trans (h2 d hd)

theorem QEq.of_agree {f g : qseries_t} (h : ∀ d, d < MAXORD → f d = g d) : QEq f g :=
  fun d hd => by rw [h d hd]

theorem QEq.conv {f f1 g g1 : qseries_t} (hf : QEq f f1) (hg : QEq g g1) :
    QEq (conv f g) (conv f1 g1) := by
  intro d hd
  exact conv_modEq f f1 g g1 d (fun i hi => hf i (by omega)) (fun i hi => hg i (by omega))

/-- The array multiply_qseries leaves is the product of the series modulo 2^64. -/
theorem multiply_qseries_qeq (s t ans : qseries_t) : QEq (multiply_qseries s t ans) (conv s t) := by
  intro d hd
  rw [multiply_qseries_apply s t ans d hd]
  exact wrap64_modEq _

theorem multiply_qseries_isQseries (s t ans : qseries_t) : IsQseries (multiply_qseries s t ans) := by
  intro d hd
  rw [multiply_qseries_apply s t ans d hd]
  exact wrap64_fits _

/-- Two arrays of int64_t values that agree modulo 2^64 are equal below MAXORD. -/
theorem QEq.eq {f g : qseries_t} (h : QEq f g) (hf : IsQseries f) (hg : IsQseries g) (d : Nat)
    (hd : d < MAXORD) : f d = g d :=
  eq_of_modEq _ _ (hf d hd) (hg d hd) (h d hd)

theorem qs_one_isQseries : IsQseries qs_one := by
  intro d _
  unfold qs_one Int64
  split <;> norm_num

/-! ## The ring of series over the integers -/

theorem list_range_sum (f : Nat → Int) (n : Nat) :
    ((List.range n).map f).sum = Finset.sum (Finset.range n) f := by
  induction n with
  | zero => rfl
  | succ n ih =>
    rw [List.range_succ, List.map_append, List.sum_append, ih, Finset.sum_range_succ]
    simp

theorem mk_conv (f g : qseries_t) :
    PowerSeries.mk (conv f g) = PowerSeries.mk f * PowerSeries.mk g := by
  ext d
  rw [PowerSeries.coeff_mk, PowerSeries.coeff_mul,
    Finset.Nat.sum_antidiagonal_eq_sum_range_succ
      (fun i j => PowerSeries.coeff Int i (PowerSeries.mk f) *
        PowerSeries.coeff Int j (PowerSeries.mk g)) d]
  unfold conv
  rw [list_range_sum]
  apply Finset.sum_congr rfl
  intro i _
  rw [PowerSeries.coeff_mk, PowerSeries.coeff_mk]

theorem mk_qs_one : PowerSeries.mk qs_one = (1 : PowerSeries Int) := by
  ext d
  rw [PowerSeries.coeff_mk, PowerSeries.coeff_one]
  rfl

theorem mk_qs_pow (f : qseries_t) (n : Nat) :
    PowerSeries.mk (qs_pow f n) = (PowerSeries.mk f) ^ n := by
  induction n with
  | zero => rw [pow_zero]; exact mk_qs_one
  | succ n ih =>
    show PowerSeries.mk (conv (qs_pow f n) f) = _
    rw [mk_conv, ih, pow_succ]

theorem mk_inj (f g : qseries_t) (h : PowerSeries.mk f = (PowerSeries.mk g : PowerSeries Int)) :
    f = g := by
  funext d
  have := congrArg (PowerSeries.coeff Int d) h
  rwa [PowerSeries.coeff_mk, PowerSeries.coeff_mk] at this

theorem conv_comm (f g : qseries_t) : conv f g = conv g f :=
  mk_inj _ _ (by rw [mk_conv, mk_conv, mul_comm])

theorem conv_assoc (f g h : qseries_t) : conv (conv f g) h = conv f (conv g h) :=
  mk_inj _ _ (by rw [mk_conv, mk_conv, mk_conv, mk_conv, mul_assoc])

theorem conv_one_right (f : qseries_t) : conv f qs_one = f :=
  mk_inj _ _ (by rw [mk_conv, mk_qs_one, mul_one])

theorem conv_one_left (f : qseries_t) : conv qs_one f = f :=
  mk_inj _ _ (by rw [mk_conv, mk_qs_one, one_mul])

theorem qs_pow_add (f : qseries_t) (a b : Nat) :
    qs_pow f (a + b) = conv (qs_pow f a) (qs_pow f b) :=
  mk_inj _ _ (by rw [mk_conv, mk_qs_pow, mk_qs_pow, mk_qs_pow, pow_add])

theorem qs_pow_qs_one (n : Nat) : qs_pow qs_one n = qs_one :=
  mk_inj _ _ (by rw [mk_qs_pow, mk_qs_one, one_pow])

theorem qs_pow_one (f : qseries_t) : qs_pow f 1 = f := by
  show conv qs_one f = f
  exact conv_one_left f

theorem qs_pow_conv (f g : qseries_t) (n : Nat) :
    qs_pow (conv f g) n = conv (qs_pow f n) (qs_pow g n) :=
  mk_inj _ _ (by rw [mk_conv, mk_qs_pow, mk_qs_pow, mk_qs_pow, mk_conv, mul_pow])

theorem QEq.qs_pow {f g : qseries_t} (h : QEq f g) (n : Nat) : QEq (qs_pow f n) (qs_pow g n) := by
  induction n with
  | zero => exact QEq.qrefl _
  | succ n ih => exact QEq.conv ih h

/-- If s i is the identity modulo 2^64 below MAXORD then so is s^n i^n. -/
theorem qs_pow_inverse (s i : qseries_t) (h : QEq (conv s i) qs_one) (n : Nat) :
    QEq (conv (qs_pow s n) (qs_pow i n)) qs_one := by
  rw [← qs_pow_conv]
  have := QEq.qs_pow h n
  rwa [qs_pow_qs_one] at this

/-! ## invert_qseries -/

theorem invert_sum_congr (s a b : qseries_t) (deg : Nat) (h : ∀ j, j < deg → a j = b j) :
    invert_sum s a deg = invert_sum s b deg := by
  unfold invert_sum
  apply List.foldl_ext
  intro z i hi
  have hi1 := List.mem_range'_1.mp hi
  rw [h (deg - i) (by omega)]

theorem invert_sum_modEq (s a : qseries_t) (deg : Nat) :
    invert_sum s a deg ≡ ((List.range' 1 deg).map (fun i => s i * a (deg - i))).sum
      [ZMOD 2 ^ 64] := by
  have := foldl_wrap_modEq (List.range' 1 deg) (fun i => s i * a (deg - i)) 0
  rwa [zero_add] at this

theorem conv_split (s a : qseries_t) (d : Nat) :
    conv s a d = s 0 * a d + ((List.range' 1 d).map (fun i => s i * a (d - i))).sum := by
  unfold conv
  rw [List.range_eq_range', List.range'_succ, List.map_cons, List.sum_cons]
  rfl

/-! ### The two divisions without a result -/

theorem div64_of (a b : Int) (hb : b ≠ 0) (h : ¬ (a = -2 ^ 63 ∧ b = -1)) :
    div64 a b = some (Int.tdiv a b) := by
  unfold div64
  rw [if_neg]
  rintro (h1 | h1)
  · exact hb h1
  · exact h h1

theorem div64_some (a b q : Int) (h : div64 a b = some q) :
    b ≠ 0 ∧ ¬ (a = -2 ^ 63 ∧ b = -1) ∧ q = Int.tdiv a b := by
  unfold div64 at h
  by_cases hc : b = 0 ∨ (a = -2 ^ 63 ∧ b = -1)
  · rw [if_pos hc] at h
    cases h
  · rw [if_neg hc] at h
    cases h
    exact ⟨fun h0 => hc (Or.inl h0), fun h1 => hc (Or.inr h1), rfl⟩

theorem div64_zero (a : Int) : div64 a 0 = none := by
  unfold div64
  rw [if_pos (Or.inl rfl)]

theorem div64_int64_min : div64 (-2 ^ 63) (-1) = none := by
  unfold div64
  rw [if_pos (Or.inr ⟨rfl, rfl⟩)]

/-- The quotient of an int64_t, when the division has a result, is an int64_t. -/
theorem div64_fits (a b q : Int) (ha : Int64 a) (h : div64 a b = some q) : Int64 q := by
  obtain ⟨hb, hm, rfl⟩ := div64_some a b q h
  unfold Int64 at ha ⊢
  by_cases h1 : b = 1
  · rw [h1, Int.tdiv_one]
    exact ha
  by_cases h2 : b = -1
  · rw [h2, Int.tdiv_neg, Int.tdiv_one]
    have : a ≠ -2 ^ 63 := fun e => hm ⟨e, h2⟩
    omega
  · have hq : (Int.tdiv a b).natAbs ≤ a.natAbs / 2 := by
      rw [Int.natAbs_tdiv]
      exact Nat.div_le_div_left (by omega) (by omega)
    omega

/-! ### The loop of invert_qseries -/

/-- The outer loop of invert_qseries up to degree K, when it has a result: the cells of
degree 1..K are the quotients of the recurrence on the final array, the other cells are as
before. -/
theorem invert_loop (s : qseries_t) (K : Nat) (a0 : qseries_t) : ∀ r : qseries_t,
    (List.range' 1 K).foldlM (fun ans deg =>
      (div64 (wrap64 (-invert_sum s ans deg)) (s 0)).map (Function.update ans deg)) a0
      = some r →
    (∀ d, d = 0 ∨ K < d → r d = a0 d) ∧
    ∀ d, 1 ≤ d → d ≤ K → div64 (wrap64 (-invert_sum s r d)) (s 0) = some (r d) := by
  induction K with
  | zero =>
    intro r h
    cases h
    refine ⟨fun d _ => rfl, fun d h1 h2 => ?_⟩
    omega
  | succ K ih =>
    intro r h
    rw [List.range'_concat, List.foldlM_append] at h
    obtain ⟨r0, hr0, hstep⟩ := Option.bind_eq_some.mp h
    obtain ⟨ih1, ih2⟩ := ih r0 hr0
    simp only [List.foldlM_cons, List.foldlM_nil, one_mul, Option.bind_eq_bind] at hstep
    obtain ⟨r1, hr1, hpure⟩ := Option.bind_eq_some.mp hstep
    cases hpure
    obtain ⟨q, hq, rfl⟩ := Option.map_eq_some'.mp hr1
    have hagree : ∀ d, d ≤ K → Function.update r0 (1 + K) q d = r0 d := by
      intro d hd
      exact Function.update_noteq (by omega) _ _
    have hsum : ∀ d, d ≤ 1 + K →
        invert_sum s (Function.update r0 (1 + K) q) d = invert_sum s r0 d := by
      intro d hd
      apply invert_sum_congr
      intro j hj
      exact hagree j (by omega)
    refine ⟨fun d hd => ?_, fun d h1 h2 => ?_⟩
    · rw [Function.update_noteq (by omega)]
      exact ih1 d (by omega)
    · by_cases hd : d = 1 + K
      · subst hd
        rw [Function.update_same, hsum _ (le_refl _)]
        exact hq
      · rw [hagree d (by omega), hsum d (by omega)]
        exact ih2 d h1 (by omega)

/-- The outer loop of invert_qseries has a result when no division by s[0] is without
one. -/
theorem invert_loop_total (s : qseries_t) (hs : ∀ x, ∃ q, div64 x (s 0) = some q) (K : Nat)
    (a0 : qseries_t) :
    ∃ r, (List.range' 1 K).foldlM (fun ans deg =>
      (div64 (wrap64 (-invert_sum s ans deg)) (s 0)).map (Function.update ans deg)) a0
      = some r := by
  induction K with
  | zero => exact ⟨a0, rfl⟩
  | succ K ih =>
    obtain ⟨r0, hr0⟩ := ih
    obtain ⟨q, hq⟩ := hs (wrap64 (-invert_sum s r0 (1 + 1 * K)))
    refine ⟨Function.update r0 (1 + 1 * K) q, ?_⟩
    rw [List.range'_concat, List.foldlM_append, hr0]
    simp only [List.foldlM_cons, List.foldlM_nil, Option.bind_eq_bind, Option.some_bind, hq,
      Option.map_some']
    rfl

/-- Whether the outer loop of invert_qseries has a result, and the cells 0..K of the
result, do not depend on what the array held beyond the cell 0. -/
theorem invert_loop_indep (s : qseries_t) (K : Nat) (a0 b0 : qseries_t) (h0 : a0 0 = b0 0) :
    ∀ ra : qseries_t,
    (List.range' 1 K).foldlM (fun ans deg =>
      (div64 (wrap64 (-invert_sum s ans deg)) (s 0)).map (Function.update ans deg)) a0
      = some ra →
    ∃ rb, (List.range' 1 K).foldlM (fun ans deg =>
      (div64 (wrap64 (-invert_sum s ans deg)) (s 0)).map (Function.update ans deg)) b0
      = some rb ∧ ∀ d, d ≤ K → ra d = rb d := by
  induction K with
  | zero =>
    intro ra h
    cases h
    refine ⟨b0, rfl, fun d hd => ?_⟩
    have e : d = 0 := by omega
    rw [e]
    exact h0
  | succ K ih =>
    intro ra h
    rw [List.range'_concat, List.foldlM_append] at h
    obtain ⟨r0, hr0, hstep⟩ := Option.bind_eq_some.mp h
    obtain ⟨rb0, hrb0, hag⟩ := ih r0 hr0
    simp only [List.foldlM_cons, List.foldlM_nil, one_mul, Option.bind_eq_bind] at hstep
    obtain ⟨r1, hr1, hpure⟩ := Option.bind_eq_some.mp hstep
    cases hpure
    obtain ⟨q, hq, rfl⟩ := Option.map_eq_some'.mp hr1
    have hsum : invert_sum s r0 (1 + K) = invert_sum s rb0 (1 + K) :=
      invert_sum_congr s r0 rb0 (1 + K) (fun j hj => hag j (by omega))
    rw [hsum] at hq
    refine ⟨Function.update rb0 (1 + K) q, ?_, fun d hd => ?_⟩
    · rw [List.range'_concat, List.foldlM_append, hrb0]
      simp only [List.foldlM_cons, List.foldlM_nil, Option.bind_eq_bind, Option.some_bind,
        one_mul, hq, Option.map_some']
      rfl
    · by_cases hd1 : d = 1 + K
      · subst hd1
        rw [Function.update_same, Function.update_same]
      · rw [Function.update_noteq hd1, Function.update_noteq hd1]
        exact hag d (by omega)

/-- What invert_qseries leaves when it has a result: s[0] is not 0, ans[0] = 1/s[0],
ans[deg] = -sum / s[0] for the sum over the final array with a division that has a result,
every cell an int64_t, the cells behind the array untouched. -/
theorem invert_qseries_spec (s ans r : qseries_t) (h : invert_qseries s ans = some r) :
    s 0 ≠ 0 ∧ r 0 = Int.tdiv 1 (s 0) ∧
      (∀ d, 1 ≤ d → d < MAXORD → div64 (wrap64 (-invert_sum s r d)) (s 0) = some (r d)) ∧
      IsQseries r ∧ ∀ d, ¬ d < MAXORD → r d = ans d := by
  unfold invert_qseries at h
  obtain ⟨a0, ha0, hloop⟩ := Option.bind_eq_some.mp h
  obtain ⟨hs0, _, rfl⟩ := div64_some 1 (s 0) a0 ha0
  obtain ⟨h1, h2⟩ := invert_loop s (MAXORD - 1) _ r hloop
  have hr0 : r 0 = Int.tdiv 1 (s 0) := by
    rw [h1 0 (Or.inl rfl), Function.update_same]
  refine ⟨hs0, hr0, fun d hd1 hd2 => h2 d hd1 (by unfold MAXORD at hd2 ⊢; omega), ?_, ?_⟩
  · intro d hd
    by_cases hd0 : d = 0
    · subst hd0
      rw [hr0]
      exact div64_fits 1 (s 0) _ (by unfold Int64; decide) ha0
    · exact div64_fits _ (s 0) _ (wrap64_fits _)
        (h2 d (by omega) (by unfold MAXORD at hd ⊢; omega))
  · intro d hd
    rw [h1 d (Or.inr (by unfold MAXORD at hd ⊢; omega)),
      Function.update_noteq (by unfold MAXORD at hd; omega)]

/-- For s[0] other than 0 and -1 invert_qseries has a result. -/
theorem invert_qseries_total (s ans : qseries_t) (h0 : s 0 ≠ 0) (h1 : s 0 ≠ -1) :
    ∃ r, invert_qseries s ans = some r := by
  unfold invert_qseries
  rw [div64_of 1 (s 0) h0 (fun h => h1 h.2)]
  exact invert_loop_total s (fun x => ⟨_, div64_of x (s 0) h0 (fun h => h1 h.2)⟩) _ _

/-- When s[0] is 0 invert_qseries has no result. -/
theorem invert_qseries_zero (s ans : qseries_t) (h0 : s 0 = 0) : invert_qseries s ans = none := by
  unfold invert_qseries
  rw [h0, div64_zero]
  rfl

/-- Whether invert_qseries has a result, and the result below MAXORD, do not depend on what
the array held. -/
theorem invert_qseries_indep (s a b ra : qseries_t) (h : invert_qseries s a = some ra) :
    ∃ rb, invert_qseries s b = some rb ∧ ∀ d, d < MAXORD → ra d = rb d := by
  unfold invert_qseries at h ⊢
  obtain ⟨a0, ha0, hloop⟩ := Option.bind_eq_some.mp h
  rw [ha0]
  obtain ⟨rb, hrb, hag⟩ := invert_loop_indep s (MAXORD - 1) (Function.update a 0 a0)
    (Function.update b 0 a0) (by rw [Function.update_same, Function.update_same]) ra hloop
  exact ⟨rb, hrb, fun d hd => hag d (by unfold MAXORD at hd ⊢; omega)⟩

theorem invert_qseries_none (s a b : qseries_t) (h : invert_qseries s a = none) :
    invert_qseries s b = none := by
  cases hb : invert_qseries s b with
  | none => rfl
  | some rb =>
    obtain ⟨ra, hra, _⟩ := invert_qseries_indep s b a rb hb
    rw [h] at hra
    cases hra

/-- The quotient by 1 or -1, when the division has a result, is exact. -/
theorem div64_unit (x s0 q : Int) (h0 : s0 = 1 ∨ s0 = -1) (h : div64 x s0 = some q) :
    s0 * q = x := by
  obtain ⟨_, _, rfl⟩ := div64_some x s0 q h
  rcases h0 with h | h
  · subst h
    rw [Int.tdiv_one, one_mul]
  · subst h
    rw [Int.tdiv_neg, Int.tdiv_one]
    ring

/-- For s[0] = 1 or -1 invert_qseries, when it has a result, leaves an array of int64_t
whose product with s is the identity series modulo 2^64. -/
theorem invert_unit (s ans r : qseries_t) (h0 : s 0 = 1 ∨ s 0 = -1)
    (hr : invert_qseries s ans = some r) :
    IsQseries r ∧ QEq (conv s r) qs_one ∧ ∀ d, ¬ d < MAXORD → r d = ans d := by
  obtain ⟨_, hr0, hrd, hq, hhigh⟩ := invert_qseries_spec s ans r hr
  refine ⟨hq, ?_, hhigh⟩
  intro d hd
  rw [conv_split]
  by_cases hd0 : d = 0
  · subst hd0
    rw [hr0]
    simp only [List.range'_zero, List.map_nil, List.sum_nil, add_zero]
    have e : s 0 * Int.tdiv 1 (s 0) = 1 := by
      rcases h0 with h | h
      · rw [h]
        rfl
      · rw [h]
        rfl
    rw [e]
    exact Int.ModEq.refl _
  · have e1 := div64_unit _ (s 0) _ h0 (hrd d (by omega) hd)
    have e2 : wrap64 (-invert_sum s r d)
        ≡ -((List.range' 1 d).map (fun i => s i * r (d - i))).sum [ZMOD 2 ^ 64] :=
      (wrap64_modEq _).trans (invert_sum_modEq s r d).neg
    rw [← e1] at e2
    have e3 := e2.add (Int.ModEq.refl ((List.range' 1 d).map (fun i => s i * r (d - i))).sum)
    rw [neg_add_cancel] at e3
    have e4 : qs_one d = 0 := by unfold qs_one; rw [if_neg hd0]
    rw [e4]
    exact e3

/-- For s[0] = 1 invert_qseries has a result, an array of int64_t whose product with s is
the identity series modulo 2^64. -/
theorem invert_one (s ans : qseries_t) (h0 : s 0 = 1) :
    ∃ r, invert_qseries s ans = some r ∧ IsQseries r ∧ QEq (conv s r) qs_one ∧
      ∀ d, ¬ d < MAXORD → r d = ans d := by
  obtain ⟨r, hr⟩ := invert_qseries_total s ans (by rw [h0]; decide) (by rw [h0]; decide)
  exact ⟨r, hr, invert_unit s ans r (Or.inl h0) hr⟩

/-- The outer loop of invert_qseries for s[0] = 1 or -1, when s has an inverse t over the
integers whose coefficients are below 2^63 in absolute value: every division has a result,
and the cells 0..K hold the coefficients of t. -/
theorem invert_loop_exact (s t : qseries_t) (h0 : s 0 = 1 ∨ s 0 = -1)
    (ht : ∀ d, d < MAXORD → conv s t d = qs_one d)
    (hb : ∀ d, d < MAXORD → -2 ^ 63 < t d ∧ t d < 2 ^ 63) (K : Nat) (hK : K ≤ MAXORD - 1)
    (a0 : qseries_t) (ha0 : a0 0 = t 0) :
    ∃ r, (List.range' 1 K).foldlM (fun ans deg =>
      (div64 (wrap64 (-invert_sum s ans deg)) (s 0)).map (Function.update ans deg)) a0
      = some r ∧ ∀ d, d ≤ K → r d = t d := by
  induction K with
  | zero =>
    refine ⟨a0, rfl, fun d hd => ?_⟩
    have e : d = 0 := by omega
    rw [e]
    exact ha0
  | succ K ih =>
    obtain ⟨r0, hr0, hag⟩ := ih (by omega)
    have hK1 : K + 1 < MAXORD := by unfold MAXORD at hK ⊢; omega
    have hbK := hb (K + 1) hK1
    have hsum : ((List.range' 1 (K + 1)).map (fun i => s i * r0 (K + 1 - i))).sum
        = -(s 0 * t (K + 1)) := by
      have e : (List.range' 1 (K + 1)).map (fun i => s i * r0 (K + 1 - i))
          = (List.range' 1 (K + 1)).map (fun i => s i * t (K + 1 - i)) := by
        apply List.map_congr_left
        intro i hi
        have hi1 := List.mem_range'_1.mp hi
        rw [hag (K + 1 - i) (by omega)]
      have h1 := conv_split s t (K + 1)
      rw [ht (K + 1) hK1] at h1
      have e4 : qs_one (K + 1) = 0 := by unfold qs_one; rw [if_neg (by omega)]
      rw [e4] at h1
      rw [e]
      omega
    have hfit : Int64 (s 0 * t (K + 1)) := by
      unfold Int64
      rcases h0 with h | h <;> rw [h] <;> omega
    have hx : wrap64 (-invert_sum s r0 (K + 1)) = s 0 * t (K + 1) := by
      have e1 : -invert_sum s r0 (K + 1) ≡ s 0 * t (K + 1) [ZMOD 2 ^ 64] := by
        have := (invert_sum_modEq s r0 (K + 1)).neg
        rw [hsum, neg_neg] at this
        exact this
      rw [wrap64_eq_of_modEq _ _ e1, wrap64_of_fits _ hfit]
    have hq : div64 (wrap64 (-invert_sum s r0 (K + 1))) (s 0) = some (t (K + 1)) := by
      rw [hx]
      rcases h0 with h | h
      · rw [h, one_mul, div64_of _ 1 (by decide) (fun hh => absurd hh.2 (by decide)),
          Int.tdiv_one]
      · rw [h, div64_of _ (-1) (by decide) (fun hh => by omega), Int.tdiv_neg, Int.tdiv_one]
        congr 1
        ring
    have hdeg : 1 + 1 * K = K + 1 := by omega
    refine ⟨Function.update r0 (K + 1) (t (K + 1)), ?_, fun d hd => ?_⟩
    · rw [List.range'_concat, List.foldlM_append, hr0, hdeg]
      simp only [List.foldlM_cons, List.foldlM_nil, Option.bind_eq_bind, Option.some_bind, hq,
        Option.map_some']
      rfl
    · by_cases hd1 : d = K + 1
      · subst hd1
        rw [Function.update_same]
      · rw [Function.update_noteq hd1]
        exact hag d (by omega)

/-- For s[0] = 1 or -1, when s has an inverse t over the integers whose coefficients of
degree below MAXORD are below 2^63 in absolute value, invert_qseries has a result and
leaves the coefficients of t. -/
theorem invert_exact (s t ans : qseries_t) (h0 : s 0 = 1 ∨ s 0 = -1)
    (ht : ∀ d, d < MAXORD → conv s t d = qs_one d)
    (hb : ∀ d, d < MAXORD → -2 ^ 63 < t d ∧ t d < 2 ^ 63) :
    ∃ r, invert_qseries s ans = some r ∧ ∀ d, d < MAXORD → r d = t d := by
  have ht0 : Int.tdiv 1 (s 0) = t 0 := by
    have h1 := ht 0 (by decide)
    have e1 : conv s t 0 = s 0 * t 0 := by
      rw [conv_split]
      simp
    have e2 : qs_one 0 = 1 := rfl
    rw [e1, e2] at h1
    rcases h0 with h | h
    · rw [h] at h1 ⊢
      rw [Int.tdiv_one]
      omega
    · rw [h] at h1 ⊢
      have e3 : Int.tdiv 1 (-1) = -1 := rfl
      rw [e3]
      omega
  obtain ⟨r, hr, hag⟩ := invert_loop_exact s t h0 ht hb (MAXORD - 1) (le_refl _)
    (Function.update ans 0 (Int.tdiv 1 (s 0))) (by rw [Function.update_same, ht0])
  refine ⟨r, ?_, fun d hd => hag d (by unfold MAXORD at hd ⊢; omega)⟩
  unfold invert_qseries
  rw [div64_of 1 (s 0) (by rcases h0 with h | h <;> rw [h] <;> decide)
    (fun hh => absurd hh.1 (by decide))]
  exact hr

/-! ## pow_qseries -/

theorem pow_loop_zero (s0 ans tmp : qseries_t) : pow_loop s0 0 ans tmp = (ans, tmp) := rfl

theorem pow_loop_succ (s0 : qseries_t) (k : Nat) (ans tmp : qseries_t) :
    pow_loop s0 (k + 1) ans tmp
      = (multiply_qseries (cp_qseries (pow_loop s0 k ans tmp).1 (pow_loop s0 k ans tmp).2) s0
          (pow_loop s0 k ans tmp).1,
        cp_qseries (pow_loop s0 k ans tmp).1 (pow_loop s0 k ans tmp).2) := by
  unfold pow_loop
  rw [List.range_succ, List.foldl_append]
  rfl

theorem cp_qseries_qeq (s t : qseries_t) : QEq (cp_qseries s t) s := by
  intro d hd
  rw [cp_qseries_apply, if_pos hd]

theorem pow_init_apply (ans : qseries_t) (d : Nat) (hd : d < MAXORD) :
    Function.update (init_qseries ans 0) 0 1 d = qs_one d := by
  unfold qs_one
  by_cases h : d = 0
  · subst h
    rw [Function.update_same, if_pos rfl]
  · rw [Function.update_noteq h, init_qseries_apply, if_pos hd, if_neg h]

theorem pow_init_isQseries (ans : qseries_t) :
    IsQseries (Function.update (init_qseries ans 0) 0 1) := by
  intro d hd
  rw [pow_init_apply ans d hd]
  exact qs_one_isQseries d hd

/-- After k passes the loop of pow_qseries holds the k-th power of s0 modulo 2^64. -/
theorem pow_loop_qeq (s0 s1 : qseries_t) (hs : QEq s0 s1) (k : Nat) (a0 tmp : qseries_t)
    (h0 : QEq a0 qs_one) : QEq (pow_loop s0 k a0 tmp).1 (qs_pow s1 k) := by
  induction k with
  | zero =>
    rw [pow_loop_zero]
    exact h0
  | succ k ih =>
    rw [pow_loop_succ]
    dsimp only
    have h1 := multiply_qseries_qeq (cp_qseries (pow_loop s0 k a0 tmp).1 (pow_loop s0 k a0 tmp).2)
      s0 (pow_loop s0 k a0 tmp).1
    have h2 : QEq (conv (cp_qseries (pow_loop s0 k a0 tmp).1 (pow_loop s0 k a0 tmp).2) s0)
        (conv (qs_pow s1 k) s1) :=
      QEq.conv ((cp_qseries_qeq _ _).qtrans ih) hs
    exact h1.qtrans h2

theorem pow_loop_isQseries (s0 : qseries_t) (k : Nat) (a0 tmp : qseries_t) (h0 : IsQseries a0) :
    IsQseries (pow_loop s0 k a0 tmp).1 := by
  cases k with
  | zero =>
    rw [pow_loop_zero]
    exact h0
  | succ k =>
    rw [pow_loop_succ]
    dsimp only
    exact multiply_qseries_isQseries
      (cp_qseries (pow_loop s0 k a0 tmp).1 (pow_loop s0 k a0 tmp).2) s0 (pow_loop s0 k a0 tmp).1

theorem pow_init_qeq (ans : qseries_t) :
    QEq (Function.update (init_qseries ans 0) 0 1) qs_one :=
  QEq.of_agree (pow_init_apply ans)

theorem wrap32_neg (n : Int) (h1 : -2 ^ 31 < n) (h2 : n < 0) : wrap32 (-n) = -n := by
  unfold wrap32
  omega

/-- For n at least 0 pow_qseries leaves the n-th power of s modulo 2^64. -/
theorem pow_qseries_nonneg (s : qseries_t) (n : Int) (ans s0 tmp : qseries_t) (hn : 0 ≤ n) :
    ∃ r, pow_qseries s n ans s0 tmp = some r ∧ IsQseries r ∧ QEq r (qs_pow s n.toNat) := by
  unfold pow_qseries
  generalize hi : Function.update (init_qseries ans 0) 0 1 = a0
  have hq : QEq a0 qs_one := hi ▸ pow_init_qeq ans
  have hz : IsQseries a0 := hi ▸ pow_init_isQseries ans
  by_cases h : n > 0
  · rw [if_pos h, Option.map_some']
    dsimp only
    refine ⟨_, rfl, ?_, ?_⟩
    · exact pow_loop_isQseries (cp_qseries s s0) n.toNat a0 tmp hz
    · exact pow_loop_qeq (cp_qseries s s0) s (cp_qseries_qeq s s0) n.toNat a0 tmp hq
  · have h0 : n = 0 := by omega
    subst h0
    rw [if_neg (show ¬ ((0 : Int) > 0) by decide), if_neg (show ¬ ((0 : Int) < 0) by decide),
      Option.map_some']
    dsimp only
    refine ⟨_, rfl, ?_, ?_⟩
    · exact pow_loop_isQseries s0 (0 : Int).toNat a0 tmp hz
    · exact pow_loop_qeq s0 s0 (QEq.qrefl _) 0 a0 tmp hq

/-- For a negative n pow_qseries leaves the |n|-th power of what invert_qseries leaves. -/
theorem pow_qseries_neg (s : qseries_t) (n : Int) (ans s0 tmp inv : qseries_t) (hn : n < 0)
    (hn1 : -2 ^ 31 < n) (hinv : invert_qseries s s0 = some inv) :
    ∃ r, pow_qseries s n ans s0 tmp = some r ∧ IsQseries r ∧ QEq r (qs_pow inv (-n).toNat) := by
  unfold pow_qseries
  generalize hi : Function.update (init_qseries ans 0) 0 1 = a0
  have hq : QEq a0 qs_one := hi ▸ pow_init_qeq ans
  have hz : IsQseries a0 := hi ▸ pow_init_isQseries ans
  rw [if_neg (show ¬ n > 0 by omega), if_pos hn, hinv, wrap32_neg n hn1 hn, Option.map_some',
    Option.map_some']
  dsimp only
  refine ⟨_, rfl, ?_, ?_⟩
  · exact pow_loop_isQseries inv (-n).toNat a0 tmp hz
  · exact pow_loop_qeq inv inv (QEq.qrefl _) (-n).toNat a0 tmp hq

/-- What invert_qseries leaves in the array does not depend on what the array held. -/
theorem invert_qseries_agree (s a b r1 r2 : qseries_t) (h1 : invert_qseries s a = some r1)
    (h2 : invert_qseries s b = some r2) : ∀ d, d < MAXORD → r1 d = r2 d := by
  obtain ⟨rb, hrb, hag⟩ := invert_qseries_indep s a b r1 h1
  rw [h2] at hrb
  cases hrb
  exact hag

theorem QEq.isQseries_eq {f g : qseries_t} (h : ∀ d, d < MAXORD → f d = g d) (hf : IsQseries f) :
    IsQseries g := by
  intro d hd
  rw [← h d hd]
  exact hf d hd

/-- The powers with an integer exponent add up, modulo 2^64 below MAXORD, when i is an
inverse of s. -/
theorem qs_zpow_add_aux (s i : qseries_t) (h : QEq (conv s i) qs_one) (a b : Int)
    (ha : 0 ≤ a) (hb : b < 0) :
    QEq (qs_zpow s i (a + b)) (conv (qs_zpow s i a) (qs_zpow s i b)) := by
  unfold qs_zpow
  rw [if_pos ha, if_neg (show ¬ 0 ≤ b by omega)]
  by_cases hab : 0 ≤ a + b
  · rw [if_pos hab]
    have e : a.toNat = (a + b).toNat + (-b).toNat := by omega
    rw [e, qs_pow_add, conv_assoc]
    have := QEq.conv (QEq.qrefl (qs_pow s (a + b).toNat)) (qs_pow_inverse s i h (-b).toNat)
    rw [conv_one_right] at this
    exact this.symm
  · rw [if_neg hab]
    have e : (-b).toNat = a.toNat + (-(a + b)).toNat := by omega
    rw [e, qs_pow_add, ← conv_assoc]
    have := QEq.conv (qs_pow_inverse s i h a.toNat) (QEq.qrefl (qs_pow i (-(a + b)).toNat))
    rw [conv_one_left] at this
    exact this.symm

theorem qs_zpow_add (s i : qseries_t) (h : QEq (conv s i) qs_one) (a b : Int) :
    QEq (qs_zpow s i (a + b)) (conv (qs_zpow s i a) (qs_zpow s i b)) := by
  by_cases ha : 0 ≤ a
  · by_cases hb : 0 ≤ b
    · unfold qs_zpow
      rw [if_pos ha, if_pos hb, if_pos (show 0 ≤ a + b by omega)]
      have e : (a + b).toNat = a.toNat + b.toNat := by omega
      rw [e, qs_pow_add]
      exact QEq.qrefl _
    · exact qs_zpow_add_aux s i h a b ha (by omega)
  · by_cases hb : 0 ≤ b
    · rw [add_comm, conv_comm]
      exact qs_zpow_add_aux s i h b a hb (by omega)
    · unfold qs_zpow
      rw [if_neg ha, if_neg hb, if_neg (show ¬ 0 ≤ a + b by omega)]
      have e : (-(a + b)).toNat = (-a).toNat + (-b).toNat := by omega
      rw [e, qs_pow_add]
      exact QEq.qrefl _

/-- For an int n other than the least one pow_qseries leaves the n-th power of s modulo
2^64, the powers of what invert_qseries leaves for a negative n. -/
theorem pow_qseries_zpow (s : qseries_t) (n : Int) (ans s0 tmp mem inv : qseries_t)
    (hn1 : -2 ^ 31 < n) (hinv : invert_qseries s mem = some inv) :
    ∃ r, pow_qseries s n ans s0 tmp = some r ∧ IsQseries r ∧ QEq r (qs_zpow s inv n) := by
  unfold qs_zpow
  by_cases hn : 0 ≤ n
  · rw [if_pos hn]
    exact pow_qseries_nonneg s n ans s0 tmp hn
  · rw [if_neg hn]
    obtain ⟨inv0, hinv0, _⟩ := invert_qseries_indep s mem s0 inv hinv
    obtain ⟨r, hr, hq, he⟩ := pow_qseries_neg s n ans s0 tmp inv0 (by omega) hn1 hinv0
    refine ⟨r, hr, hq, he.qtrans (QEq.qs_pow (QEq.of_agree ?_) _)⟩
    exact invert_qseries_agree s s0 mem inv0 inv hinv0 hinv

/-! ## The claims on invert, pow, divide, shift and mk -/

theorem invert_qseries_ne_zero (s mem inv : qseries_t) (h : invert_qseries s mem = some inv) :
    s 0 ≠ 0 :=
  (invert_qseries_spec s mem inv h).1

/-! ## shift_qseries and mk_qseries -/

theorem list_sum_single (n j : Nat) (f : Nat → Int) (hj : j < n)
    (h : ∀ i, i < n → i ≠ j → f i = 0) : ((List.range n).map f).sum = f j := by
  rw [list_range_sum]
  apply Finset.sum_eq_single j
  · intro i hi hne
    exact h i (Finset.mem_range.mp hi) hne
  · intro hn
    exact absurd (Finset.mem_range.mpr hj) hn

theorem list_sum_zero (n : Nat) (f : Nat → Int) (h : ∀ i, i < n → f i = 0) :
    ((List.range n).map f).sum = 0 := by
  rw [list_range_sum]
  exact Finset.sum_eq_zero (fun i hi => h i (Finset.mem_range.mp hi))

/-- The product of a series with q^k: the series shifted by k. -/
theorem conv_monomial (s : qseries_t) (k : Int) (hk : 0 ≤ k) (d : Nat) (hd : d < MAXORD) :
    conv s (qs_monomial k) d = if (d : Int) < k then 0 else s (d - k.toNat) := by
  unfold conv
  by_cases h : (d : Int) < k
  · rw [if_pos h]
    apply list_sum_zero
    intro i hi
    unfold qs_monomial
    rw [if_neg (by omega), mul_zero]
  · rw [if_neg h, list_sum_single (d + 1) (d - k.toNat) _ (by omega)]
    · unfold qs_monomial
      rw [if_pos ⟨by omega, by omega⟩, mul_one]
    · intro i hi hne
      unfold qs_monomial
      rw [if_neg (by omega), mul_zero]

theorem shift_index_nonneg (d : Nat) (k : Int) (hd : d < MAXORD) (hk : 0 ≤ k)
    (h : ¬ (d : Int) < k) : shift_index d k = d - k.toNat := by
  unfold shift_index
  unfold MAXORD at hd
  omega

/-- C18: for every series s and every shift k at least 0 shift_qseries(s, k, ans) leaves
ans[d] = 0 for d < k and ans[d] = s[d-k] for k ≤ d < MAXORD; for a series of int64_t this
is multiply(s, q^k), where q^k is the zero series when k is at least MAXORD. -/
theorem shift_qseries_spec (s ans ans2 : qseries_t) (k : Int) (hk : 0 ≤ k) (d : Nat)
    (hd : d < MAXORD) :
    shift_qseries s k ans d = (if (d : Int) < k then 0 else s (d - k.toNat)) ∧
    (IsQseries s → shift_qseries s k ans d = multiply_qseries s (qs_monomial k) ans2 d) := by
  have h1 : shift_qseries s k ans d = (if (d : Int) < k then 0 else s (d - k.toNat)) := by
    rw [shift_qseries_apply, if_pos hd]
    by_cases h : (d : Int) < k
    · rw [if_pos h, if_pos h]
    · rw [if_neg h, if_neg h, shift_index_nonneg d k hd hk h]
  refine ⟨h1, fun hs => ?_⟩
  rw [h1, multiply_qseries_apply s _ ans2 d hd, conv_monomial s k hk d hd]
  by_cases h : (d : Int) < k
  · rw [if_pos h]
    rfl
  · rw [if_neg h]
    exact (wrap64_of_fits _ (hs _ (by omega))).symm

theorem shift_qseries_spec_witness :
    shift_qseries qs_two32 3 (fun _ => 0) 3
      = (if ((3 : Nat) : Int) < 3 then 0 else qs_two32 (3 - (3 : Int).toNat)) ∧
    (IsQseries qs_two32 →
      shift_qseries qs_two32 3 (fun _ => 0) 3
        = multiply_qseries qs_two32 (qs_monomial 3) (fun _ => 0) 3) :=
  shift_qseries_spec qs_two32 (fun _ => 0) (fun _ => 0) 3 (by decide) 3 (by decide)

/-- C19 fails for a negative shift: with shift = -1 the test `(int) deg < shift` is false at
every degree, and at deg = 255 the index deg - shift is 256 = MAXORD, so shift_qseries
stores in ans[255] what lies one cell behind the array s. -/
theorem shift_qseries_negative_shift (s ans : qseries_t) :
    ¬ (((255 : Nat) : Int) < -1) ∧ shift_index 255 (-1) = 256 ∧
    ¬ (shift_index 255 (-1) < MAXORD) ∧ shift_qseries s (-1) ans 255 = s 256 := by
  have e : shift_index 255 (-1) = 256 := by decide
  refine ⟨by decide, e, by rw [e]; decide, ?_⟩
  rw [shift_qseries_apply, if_pos (by decide), if_neg (by decide), e]

/-- C20 fails for an offset other than 0: with start = 0, num = 1 and offset = 1 the bound
is max = 2, the loop test `deg + offset < max` is 2 < 2 at deg = offset = 1, and mk_qseries
returns without a store: s[1] is not set to a[0]. -/
theorem mk_qseries_offset_one (fuel : Nat) (a : Nat → Int) (s : qseries_t) :
    mk_qseries (fuel + 1) a 0 1 1 s = some s := by
  unfold mk_qseries mk_qseries_loop
  rw [if_neg (by decide)]

/-! ## product_side -/

/-- The product with 1 - q^k: the series minus its shift by k. -/
theorem conv_one_minus (k : Nat) (hk : 1 ≤ k) (f : qseries_t) (d : Nat) :
    conv (qs_one_minus k) f d = f d - (if k ≤ d then f (d - k) else 0) := by
  unfold conv
  rw [list_range_sum]
  by_cases h : k ≤ d
  · rw [if_pos h, Finset.sum_eq_add 0 k (by omega)]
    · unfold qs_one_minus
      rw [if_pos rfl, if_neg (by omega), if_pos rfl]
      simp only [Nat.sub_zero]
      ring
    · intro i _ hi
      unfold qs_one_minus
      rw [if_neg hi.1, if_neg hi.2, zero_mul]
    · intro h0
      exact absurd (Finset.mem_range.mpr (by omega)) h0
    · intro h0
      exact absurd (Finset.mem_range.mpr (by omega)) h0
  · rw [if_neg h, Finset.sum_eq_single 0]
    · unfold qs_one_minus
      rw [if_pos rfl]
      simp
    · intro i hi hne
      have := Finset.mem_range.mp hi
      unfold qs_one_minus
      rw [if_neg hne, if_neg (by omega), zero_mul]
    · intro h0
      exact absurd (Finset.mem_range.mpr (by omega)) h0

/-- The series 1 + q^k + q^(2k) + ... is the inverse of 1 - q^k. -/
theorem conv_one_minus_geom (k : Nat) (hk : 1 ≤ k) : conv (qs_one_minus k) (qs_geom k) = qs_one := by
  funext d
  rw [conv_one_minus k hk]
  unfold qs_geom qs_one
  by_cases hd : d = 0
  · subst hd
    rw [if_pos (dvd_zero k), if_neg (by omega), if_pos rfl]
    rfl
  · rw [if_neg hd]
    by_cases h : k ≤ d
    · rw [if_pos h]
      have e : k ∣ d - k ↔ k ∣ d := by
        constructor
        · intro h1
          have := Nat.dvd_add h1 (dvd_refl k)
          rwa [Nat.sub_add_cancel h] at this
        · intro h1
          exact Nat.dvd_sub' h1 (dvd_refl k)
      by_cases h1 : k ∣ d
      · rw [if_pos h1, if_pos (e.mpr h1)]
        rfl
      · rw [if_neg h1, if_neg (fun h2 => h1 (e.mp h2))]
        rfl
    · rw [if_neg h, if_neg (Nat.not_dvd_of_pos_of_lt (by omega) (by omega))]
      rfl

/-- The recurrence of the product with the inverse of 1 - q^k. -/
theorem conv_geom_rec (k : Nat) (hk : 1 ≤ k) (f : qseries_t) (d : Nat) :
    conv f (qs_geom k) d = f d + (if k ≤ d then conv f (qs_geom k) (d - k) else 0) := by
  have e : conv (qs_one_minus k) (conv f (qs_geom k)) = f := by
    rw [conv_comm f, ← conv_assoc, conv_one_minus_geom k hk, conv_one_left]
  have := conv_one_minus k hk (conv f (qs_geom k)) d
  rw [e] at this
  omega

theorem product_factor_apply (tmp : qseries_t) (n : Nat) (hn : 1 ≤ n) (d : Nat)
    (hd : d < MAXORD) : product_factor tmp n d = qs_one_minus n d := by
  unfold product_factor qs_one_minus
  by_cases h0 : d = 0
  · subst h0
    rw [Function.update_noteq (by omega), Function.update_same, if_pos rfl]
  · rw [if_neg h0]
    by_cases h1 : d = n
    · subst h1
      rw [Function.update_same, if_pos rfl]
    · rw [Function.update_noteq h1, Function.update_noteq h0, init_qseries_apply, if_pos hd,
        if_neg h1]

/-- An inverse modulo 2^64 of 1 - q^k is the series 1 + q^k + q^(2k) + ... modulo 2^64. -/
theorem inverse_one_minus (k : Nat) (hk : 1 ≤ k) (f r : qseries_t) (hf : QEq f (qs_one_minus k))
    (h : QEq (conv f r) qs_one) : QEq r (qs_geom k) := by
  have h1 : QEq (conv (qs_geom k) (conv f r)) (conv (qs_geom k) qs_one) :=
    QEq.conv (QEq.qrefl _) h
  have h2 : QEq (conv (qs_geom k) (conv f r)) (conv (qs_geom k) (conv (qs_one_minus k) r)) :=
    QEq.conv (QEq.qrefl _) (QEq.conv hf (QEq.qrefl r))
  rw [← conv_assoc (qs_geom k) (qs_one_minus k) r, conv_comm (qs_geom k) (qs_one_minus k),
    conv_one_minus_geom k hk, conv_one_left] at h2
  rw [conv_one_right] at h1
  exact h2.symm.qtrans h1

/-- The call of pow_qseries in product_side leaves the factor (1 - q^n)^e modulo 2^64. -/
theorem product_pow (tmp : qseries_t) (n : Nat) (hn : 1 ≤ n) (e : Int) (he : IntExp e)
    (nxt s0 tmp0 : qseries_t) :
    ∃ r, pow_qseries (product_factor tmp n) e nxt s0 tmp0 = some r ∧ IsQseries r ∧
      QEq r (qs_factor n e) := by
  have hf : QEq (product_factor tmp n) (qs_one_minus n) :=
    QEq.of_agree (product_factor_apply tmp n hn)
  have hf0 : product_factor tmp n 0 = 1 := by
    unfold product_factor
    rw [Function.update_noteq (by omega), Function.update_same]
  obtain ⟨inv, hinv, _, hu, _⟩ := invert_one (product_factor tmp n) s0 hf0
  obtain ⟨r, hr, hz, hq⟩ := pow_qseries_zpow (product_factor tmp n) e nxt s0 tmp0 s0 inv he.1 hinv
  refine ⟨r, hr, hz, hq.qtrans ?_⟩
  unfold qs_zpow qs_factor
  by_cases h : 0 ≤ e
  · rw [if_pos h, if_pos h]
    exact QEq.qs_pow hf _
  · rw [if_neg h, if_neg h]
    exact QEq.qs_pow (inverse_one_minus n hn _ inv hf hu) _

theorem product_step_spec (m : Nat) (c : Nat → Int) (hm : 1 ≤ m)
    (hc : ∀ k, k < m → IntExp (c k)) (s0 tmp0 : qseries_t)
    (st : qseries_t × qseries_t × qseries_t) (n : Nat) (hn : 1 ≤ n) (F : qseries_t)
    (hq : QEq st.1 F) :
    ∃ st1, product_step (m : Int) c s0 tmp0 st n = some st1 ∧ IsQseries st1.1 ∧
      QEq st1.1 (conv F (qs_factor n (c (n % m)))) := by
  unfold product_step
  have hi : (Int.tmod (n : Int) (m : Int)).toNat = n % m := by
    rw [← Int.ofNat_tmod, Int.toNat_ofNat]
  rw [hi]
  obtain ⟨r, hr, hz, hqr⟩ := product_pow st.2.1 n hn (c (n % m))
    (hc _ (Nat.mod_lt _ (by omega))) st.2.2 s0 tmp0
  rw [hr, Option.map_some']
  refine ⟨_, rfl, ?_, ?_⟩
  · dsimp only
    exact multiply_qseries_isQseries (cp_qseries st.1 (product_factor st.2.1 n)) r st.1
  · dsimp only
    exact (multiply_qseries_qeq (cp_qseries st.1 (product_factor st.2.1 n)) r st.1).qtrans
      (QEq.conv ((cp_qseries_qeq _ _).qtrans hq) hqr)

theorem product_loop (m : Nat) (c : Nat → Int) (hm : 1 ≤ m) (hc : ∀ k, k < m → IntExp (c k))
    (s0 tmp0 : qseries_t) (st0 : qseries_t × qseries_t × qseries_t) (hz0 : IsQseries st0.1)
    (hq0 : QEq st0.1 qs_one) (K : Nat) :
    ∃ st, (List.range' 1 K).foldlM (product_step (m : Int) c s0 tmp0) st0 = some st ∧
      IsQseries st.1 ∧
      QEq st.1 ((List.range' 1 K).foldl (fun acc k => conv acc (qs_factor k (c (k % m))))
        qs_one) := by
  induction K with
  | zero => exact ⟨st0, rfl, hz0, hq0⟩
  | succ K ih =>
    obtain ⟨st, hst, _, hq⟩ := ih
    obtain ⟨st1, hst1, hz1, hq1⟩ := product_step_spec m c hm hc s0 tmp0 st (1 + 1 * K) (by omega)
      _ hq
    refine ⟨st1, ?_, hz1, ?_⟩
    · rw [List.range'_concat, List.foldlM_append, hst]
      simp only [Option.bind_eq_bind, Option.some_bind, List.foldlM_cons, List.foldlM_nil]
      rw [hst1]
      rfl
    · rw [List.range'_concat, List.foldl_append]
      exact hq1

/-- The array product_side leaves is the product of the factors modulo 2^64. -/
theorem product_side_qeq (m : Nat) (c : Nat → Int) (hm : 1 ≤ m)
    (hc : ∀ k, k < m → IntExp (c k)) (ans tmp nxt s0 tmp0 : qseries_t) :
    ∃ r, product_side (m : Int) c ans tmp nxt s0 tmp0 = some r ∧ IsQseries r ∧
      QEq r (qs_product m c) := by
  unfold product_side
  rw [if_neg (show ¬ ((m : Int) = 0) by omega)]
  generalize hi : Function.update (init_qseries ans 0) 0 1 = a0
  have hq : QEq a0 qs_one := hi ▸ pow_init_qeq ans
  have hz : IsQseries a0 := hi ▸ pow_init_isQseries ans
  obtain ⟨st, hst, hz1, hq1⟩ := product_loop m c hm hc s0 tmp0 (a0, tmp, nxt) hz hq (MAXORD - 1)
  rw [hst, Option.map_some']
  exact ⟨st.1, rfl, hz1, hq1⟩

/-! ## Partitions into allowed parts -/

theorem rdesc_zero (A : Nat → Bool) (m : Nat) : rdesc A m 0 = [[]] := by
  unfold rdesc
  rw [desc_zero]
  rfl

theorem rdesc_zero_left (A : Nat → Bool) (n : Nat) (h : 0 < n) : rdesc A 0 n = [] := by
  unfold rdesc
  rw [desc_zero_left n h]
  rfl

theorem rdesc_ge (A : Nat → Bool) (m n : Nat) (h : n ≤ m) : rdesc A m n = rdesc A n n := by
  unfold rdesc
  rw [desc_ge m n h]

theorem rdesc_length_le (A : Nat → Bool) (m n : Nat) :
    (rdesc A m n).length ≤ (desc m n).length :=
  List.length_filter_le _ _

theorem rdesc_cons (A : Nat → Bool) (k : Nat) (L : List (List Int)) :
    ((L.map (fun l => (k : Int) :: l)).filter (fun l => l.all (fun x => A x.toNat))).length
      = if A k = true then (L.filter (fun l => l.all (fun x => A x.toNat))).length else 0 := by
  rw [List.filter_map, List.length_map]
  by_cases h : A k = true
  · rw [if_pos h]
    congr 2
    funext l
    simp [h]
  · rw [if_neg h]
    have e : ((fun l => l.all (fun x => A x.toNat)) ∘ fun l => (k : Int) :: l)
        = fun (_ : List Int) => false := by
      funext l
      simp [h]
    rw [e]
    simp

/-- The recurrence of the number of partitions into allowed parts at most K + 1. -/
theorem rdesc_count_rec (A : Nat → Bool) (K d : Nat) :
    (rdesc A (K + 1) d).length
      = (rdesc A K d).length +
        (if A (K + 1) = true ∧ K + 1 ≤ d then (rdesc A (K + 1) (d - (K + 1))).length else 0) := by
  by_cases hd : d = 0
  · subst hd
    rw [rdesc_zero, rdesc_zero, if_neg (by omega)]
    rfl
  by_cases h : K + 1 ≤ d
  · unfold rdesc
    rw [desc_rec (K + 1) d (by omega) h, List.filter_append, List.length_append, rdesc_cons,
      Nat.add_sub_cancel, Nat.add_comm]
    congr 1
    by_cases hA : A (K + 1) = true
    · rw [if_pos hA, if_pos ⟨hA, h⟩]
    · rw [if_neg hA, if_neg (fun h1 => hA h1.1)]
  · unfold rdesc
    rw [desc_skip (K + 1) d (by omega) (by omega), if_neg (fun h1 => h h1.2), Nat.add_sub_cancel,
      Nat.add_zero]

/-- The product of the inverses of 1 - q^k over the allowed k up to K counts the partitions
into allowed parts at most K. -/
theorem allowed_product_count (m : Nat) (c : Nat → Int) (K : Nat) : ∀ d : Nat,
    (List.range' 1 K).foldl (fun acc k => if c (k % m) = -1 then conv acc (qs_geom k) else acc)
      qs_one d = ((rdesc (allowed m c) K d).length : Int) := by
  induction K with
  | zero =>
    intro d
    by_cases hd : d = 0
    · subst hd
      rw [rdesc_zero]
      rfl
    · rw [rdesc_zero_left _ d (by omega)]
      show qs_one d = 0
      unfold qs_one
      rw [if_neg hd]
  | succ K ih =>
    intro d
    rw [List.range'_concat, List.foldl_append]
    simp only [List.foldl_cons, List.foldl_nil, one_mul]
    generalize hE : (List.range' 1 K).foldl
      (fun acc k => if c (k % m) = -1 then conv acc (qs_geom k) else acc) qs_one = E at ih
    have hk : 1 + K = K + 1 := Nat.add_comm 1 K
    rw [hk]
    by_cases hA : c ((K + 1) % m) = -1
    · rw [if_pos hA]
      have hA1 : allowed m c (K + 1) = true := by
        unfold allowed
        exact decide_eq_true hA
      induction d using Nat.strong_induction_on with
      | _ d ihd =>
        rw [conv_geom_rec (K + 1) (by omega) E d, rdesc_count_rec, ih d]
        by_cases h : K + 1 ≤ d
        · rw [if_pos h, if_pos ⟨hA1, h⟩, ihd (d - (K + 1)) (by omega)]
          push_cast
          rfl
        · rw [if_neg h, if_neg (fun h1 => h h1.2)]
          push_cast
          rfl
    · rw [if_neg hA, rdesc_count_rec, ih d]
      have hA1 : ¬ (allowed m c (K + 1) = true) := by
        unfold allowed
        intro h1
        exact hA (of_decide_eq_true h1)
      rw [if_neg (fun h1 => hA1 h1.1)]
      push_cast
      rfl

theorem qs_factor_zero (k : Nat) : qs_factor k 0 = qs_one := rfl

theorem qs_factor_neg_one (k : Nat) : qs_factor k (-1) = qs_geom k := by
  show conv qs_one (qs_geom k) = qs_geom k
  exact conv_one_left _

/-- For exponents -1 and 0 the product is the product of the inverses over the allowed k. -/
theorem qs_product_eq_allowed (m : Nat) (c : Nat → Int) (hm : 1 ≤ m)
    (hc : ∀ k, k < m → c k = -1 ∨ c k = 0) : qs_product m c = qs_allowed_product m c := by
  unfold qs_product qs_allowed_product
  apply List.foldl_ext
  intro acc k _
  rcases hc (k % m) (Nat.mod_lt _ (by omega)) with h | h
  · rw [h, qs_factor_neg_one, if_pos rfl]
  · rw [h, qs_factor_zero, conv_one_right, if_neg (by decide)]

theorem qs_product_count (m : Nat) (c : Nat → Int) (hm : 1 ≤ m)
    (hc : ∀ k, k < m → c k = -1 ∨ c k = 0) (d : Nat) :
    qs_product m c d = ((rdesc (allowed m c) (MAXORD - 1) d).length : Int) := by
  rw [qs_product_eq_allowed m c hm hc]
  exact allowed_product_count m c (MAXORD - 1) d

/-! ## The number of partitions into allowed parts -/

/-- A duplicate-free list of all the multisets of positive allowed integers with sum n has as
many entries as there are partitions of n into allowed parts. -/
theorem card_partitions_filter (Ms : List (Multiset Int)) (n : Nat) (A : Nat → Bool)
    (hnd : Ms.Nodup)
    (hmem : ∀ μ, μ ∈ Ms ↔
      ((∀ x ∈ μ, 0 < x) ∧ μ.sum = (n : Int)) ∧ ∀ x ∈ μ, A (Int.toNat x) = true) :
    Ms.length
      = (Finset.univ.filter (fun p : Nat.Partition n => ∀ k ∈ p.parts, A k = true)).card := by
  have hinj : Function.Injective
      (fun p : Nat.Partition n => p.parts.map (fun (k : Nat) => (k : Int))) := by
    intro p q e
    exact Nat.Partition.ext (Multiset.map_injective Nat.cast_injective e)
  have hset : Ms.toFinset
      = (Finset.univ.filter (fun p : Nat.Partition n => ∀ k ∈ p.parts, A k = true)).map
        ⟨fun p : Nat.Partition n => p.parts.map (fun (k : Nat) => (k : Int)), hinj⟩ := by
    ext μ
    rw [List.mem_toFinset, hmem, Finset.mem_map]
    constructor
    · rintro ⟨⟨hp, hs⟩, hA⟩
      have hsum : (μ.map Int.toNat).sum = n := by
        have := toNat_sum μ hp
        rw [hs] at this
        exact_mod_cast this
      refine ⟨⟨μ.map Int.toNat, ?_, hsum⟩, ?_, ?_⟩
      · intro i hi
        obtain ⟨x, hx, rfl⟩ := Multiset.mem_map.mp hi
        have := hp x hx
        omega
      · rw [Finset.mem_filter]
        refine ⟨Finset.mem_univ _, ?_⟩
        intro k hk
        obtain ⟨x, hx, rfl⟩ := Multiset.mem_map.mp hk
        exact hA x hx
      · exact map_toNat_cast μ hp
    · rintro ⟨p, hp, rfl⟩
      rw [Finset.mem_filter] at hp
      refine ⟨⟨?_, ?_⟩, ?_⟩
      · intro x hx
        obtain ⟨k, hk, rfl⟩ := Multiset.mem_map.mp hx
        have := p.parts_pos hk
        show (0 : Int) < (k : Int)
        omega
      · show (p.parts.map (fun (k : Nat) => (k : Int))).sum = (n : Int)
        rw [← Nat.cast_multiset_sum, p.parts_sum]
      · intro x hx
        obtain ⟨k, hk, rfl⟩ := Multiset.mem_map.mp hx
        rw [Int.toNat_ofNat]
        exact hp.2 k hk
  rw [← List.toFinset_card_of_nodup hnd, hset, Finset.card_map]

/-- The descending compositions of n into allowed parts are as many as the partitions of n
into allowed parts. -/
theorem rdesc_card (A : Nat → Bool) (n : Nat) :
    (rdesc A n n).length
      = (Finset.univ.filter (fun p : Nat.Partition n => ∀ k ∈ p.parts, A k = true)).card := by
  have hfam := desc_family n
  have hsub : List.Sublist ((rdesc A n n).map (fun (l : List Int) => Multiset.ofList l))
      ((desc n n).map (fun (l : List Int) => Multiset.ofList l)) :=
    List.Sublist.map _ (List.filter_sublist _)
  rw [← card_partitions_filter ((rdesc A n n).map (fun (l : List Int) => Multiset.ofList l)) n A
    (hfam.1.sublist hsub), List.length_map]
  intro μ
  constructor
  · intro h
    obtain ⟨l, hl, rfl⟩ := List.mem_map.mp h
    unfold rdesc at hl
    obtain ⟨hl1, hl2⟩ := List.mem_filter.mp hl
    refine ⟨(hfam.2 _).mp (List.mem_map.mpr ⟨l, hl1, rfl⟩), ?_⟩
    intro x hx
    exact List.all_eq_true.mp hl2 x (Multiset.mem_coe.mp hx)
  · rintro ⟨h1, h2⟩
    obtain ⟨l, hl, rfl⟩ := List.mem_map.mp ((hfam.2 μ).mpr h1)
    refine List.mem_map.mpr ⟨l, ?_, rfl⟩
    unfold rdesc
    refine List.mem_filter.mpr ⟨hl, List.all_eq_true.mpr ?_⟩
    intro x hx
    exact h2 x (Multiset.mem_coe.mpr hx)

theorem rdesc_255_fits (A : Nat → Bool) (d : Nat) (hd : d < MAXORD) :
    Int64 ((rdesc A (MAXORD - 1) d).length : Int) := by
  have h1 := rdesc_length_le A (MAXORD - 1) d
  have h2 := desc_255_lt d (by unfold MAXORD at hd; omega)
  have e : MAXORD - 1 = 255 := rfl
  rw [e] at h1
  unfold Int64
  rw [e]
  omega

/-- For exponents -1 and 0 product_side leaves at every degree below MAXORD the number of
partitions of the degree into allowed parts. -/
theorem product_side_count (m : Nat) (c : Nat → Int) (hm : 1 ≤ m)
    (hc : ∀ k, k < m → c k = -1 ∨ c k = 0) (ans tmp nxt s0 tmp0 : qseries_t) :
    ∃ r, product_side (m : Int) c ans tmp nxt s0 tmp0 = some r ∧
      ∀ d, d < MAXORD → r d = qs_product m c d ∧
        r d = ((rdesc (allowed m c) d d).length : Int) := by
  have hc1 : ∀ k, k < m → IntExp (c k) := by
    intro k hk
    unfold IntExp
    rcases hc k hk with h | h <;> rw [h] <;> decide
  obtain ⟨r, hr, hz, hq⟩ := product_side_qeq m c hm hc1 ans tmp nxt s0 tmp0
  refine ⟨r, hr, fun d hd => ?_⟩
  have e := qs_product_count m c hm hc d
  have h1 : r d = qs_product m c d := by
    refine eq_of_modEq _ _ (hz d hd) ?_ (hq d hd)
    rw [e]
    exact rdesc_255_fits _ d hd
  refine ⟨h1, ?_⟩
  rw [h1, e, rdesc_ge _ (MAXORD - 1) d (by unfold MAXORD at hd ⊢; omega)]

/-! ## The table of the numbers of partitions into allowed parts -/

theorem rowStep_iter_gen (N M : Nat) (prev : List Nat) (F G : Nat → Nat)
    (hlen : prev.length = N + 1) (hprev : ∀ i, i ≤ N → prev.getD i 0 = F i)
    (hG : ∀ i, G i = F i + (if M + 1 ≤ i then G (i - (M + 1)) else 0)) (k : Nat) :
    ∀ L : List Nat, L.length = N + 1 →
      ((rowStep (M + 1) prev)^[k] L).length = N + 1 ∧
      ∀ i, i ≤ N → i < k * (M + 1) → ((rowStep (M + 1) prev)^[k] L).getD i 0 = G i := by
  induction k with
  | zero =>
    intro L hL
    exact ⟨hL, fun i _ hi => by omega⟩
  | succ k ih =>
    intro L hL
    rw [Function.iterate_succ_apply']
    obtain ⟨hl, hv⟩ := ih L hL
    have hlen2 : (rowStep (M + 1) prev ((rowStep (M + 1) prev)^[k] L)).length = N + 1 := by
      rw [rowStep_length _ _ _ (by omega), hlen]
    refine ⟨hlen2, ?_⟩
    intro i hi1 hi2
    rw [rowStep_getD _ _ _ _ (by omega) (by omega), hprev i hi1, hG i]
    congr 1
    by_cases h : i < M + 1
    · rw [if_pos h, if_neg (by omega)]
    · rw [if_neg h, if_pos (by omega)]
      apply hv
      · omega
      · have : (k + 1) * (M + 1) = k * (M + 1) + (M + 1) := by ring
        omega

theorem rtable_spec (A : Nat → Bool) (N : Nat) : ∀ M : Nat, (rtable A N M).length = N + 1 ∧
    ∀ i, i ≤ N → (rtable A N M).getD i 0 = (rdesc A M i).length := by
  intro M
  induction M with
  | zero =>
    obtain ⟨hl, hv⟩ := ptable_spec N 0
    refine ⟨hl, fun i hi => ?_⟩
    have e : (rdesc A 0 i).length = (desc 0 i).length := by
      by_cases h0 : i = 0
      · subst h0
        rw [rdesc_zero, desc_zero]
      · rw [rdesc_zero_left A i (by omega), desc_zero_left i (by omega)]
    rw [e]
    exact hv i hi
  | succ M ih =>
    obtain ⟨hl, hv⟩ := ih
    by_cases hA : A (M + 1) = true
    · have e : rtable A N (M + 1) = nextRow (M + 1) (rtable A N M) := by
        show (if A (M + 1) = true then _ else _) = _
        rw [if_pos hA]
      rw [e]
      have := rowStep_iter_gen N M (rtable A N M) (fun i => (rdesc A M i).length)
        (fun i => (rdesc A (M + 1) i).length) hl hv
        (fun i => by
          show (rdesc A (M + 1) i).length = _
          rw [rdesc_count_rec]
          by_cases h : M + 1 ≤ i
          · rw [if_pos ⟨hA, h⟩, if_pos h]
          · rw [if_neg (fun h1 => h h1.2), if_neg h])
        ((rtable A N M).length / (M + 1) + 1) (rtable A N M) hl
      refine ⟨this.1, ?_⟩
      intro i hi
      apply this.2 i hi
      rw [hl]
      have h1 := Nat.div_add_mod (N + 1) (M + 1)
      have h2 := Nat.mod_lt (N + 1) (show 0 < M + 1 by omega)
      have h3 : ((N + 1) / (M + 1) + 1) * (M + 1)
          = (M + 1) * ((N + 1) / (M + 1)) + (M + 1) := by ring
      omega
    · have e : rtable A N (M + 1) = rtable A N M := by
        show (if A (M + 1) = true then _ else _) = _
        rw [if_neg hA]
      rw [e]
      refine ⟨hl, fun i hi => ?_⟩
      rw [hv i hi, rdesc_count_rec, if_neg (fun h1 => hA h1.1), Nat.add_zero]

set_option maxRecDepth 100000 in
theorem rtable_new_06 :
    rtable (allowed 5 cong_new_06) 10 10 = [1, 1, 2, 2, 4, 5, 8, 10, 14, 18, 25] := by decide

set_option maxRecDepth 100000 in
theorem rtable_all : rtable (allowed 1 (fun _ => -1)) 1 1 = [1, 1] := by decide

set_option maxRecDepth 100000 in
theorem rtable_none : rtable (allowed 1 (fun _ => 0)) 1 1 = [1, 0] := by decide

theorem rdesc_small (A : Nat → Bool) (N d : Nat) (hd : d ≤ N) :
    (rdesc A d d).length = (rtable A N N).getD d 0 := by
  rw [(rtable_spec A N N).2 d hd, rdesc_ge A N d hd]

/-! ## The claims on product_side -/

/-- C14, as amended: for every modulus m ≥ 1 and every exponent array c[0..m) of ints other
than the least int, product_side(m, c) returns, and at every degree d below MAXORD it leaves
the coefficient of the product over k = 1..MAXORD-1 of (1 - q^k)^(c[k mod m]) reduced to an
int64_t (modulo 2^64), which is the coefficient itself if that fits an int64_t.  A negative
exponent e means the |e|-th power of the formal inverse of 1 - q^k, and the exponent 0
contributes the factor 1. -/
theorem product_side_spec (m : Nat) (c : Nat → Int) (ans tmp nxt s0 tmp0 : qseries_t)
    (hm : 1 ≤ m) (hc : ∀ k, k < m → IntExp (c k)) :
    ∃ r, product_side (m : Int) c ans tmp nxt s0 tmp0 = some r ∧
      ∀ d, d < MAXORD → r d = wrap64 (qs_product m c d) ∧
        (Int64 (qs_product m c d) → r d = qs_product m c d) := by
  obtain ⟨r, hr, hz, hq⟩ := product_side_qeq m c hm hc ans tmp nxt s0 tmp0
  refine ⟨r, hr, fun d hd => ⟨?_, fun hfit => ?_⟩⟩
  · exact eq_of_modEq _ _ (hz d hd) (wrap64_fits _) ((hq d hd).trans (wrap64_modEq _).symm)
  · exact eq_of_modEq _ _ (hz d hd) hfit (hq d hd)

theorem product_side_spec_witness :
    ∃ r, product_side ((5 : Nat) : Int) cong_new_06 (fun _ => 0) (fun _ => 0) (fun _ => 0)
        (fun _ => 0) (fun _ => 0) = some r ∧
      ∀ d, d < MAXORD → r d = wrap64 (qs_product 5 cong_new_06 d) ∧
        (Int64 (qs_product 5 cong_new_06 d) → r d = qs_product 5 cong_new_06 d) :=
  product_side_spec 5 cong_new_06 (fun _ => 0) (fun _ => 0) (fun _ => 0) (fun _ => 0)
    (fun _ => 0) (by decide) (by unfold IntExp cong_new_06; decide)

theorem mk_foldl_conv (l : List Nat) (F : Nat → qseries_t) (a : qseries_t) :
    PowerSeries.mk (l.foldl (fun acc k => conv acc (F k)) a)
      = PowerSeries.mk a * (l.map (fun k => (PowerSeries.mk (F k) : PowerSeries Int))).prod := by
  induction l generalizing a with
  | nil => simp
  | cons x l ih =>
    rw [List.foldl_cons, ih, mk_conv, List.map_cons, List.prod_cons, mul_assoc]

/-- The product with every exponent -2 is the square of the product with every exponent -1. -/
theorem qs_product_minus_two :
    qs_product 1 (fun _ => -2)
      = conv (qs_product 1 (fun _ => -1)) (qs_product 1 (fun _ => -1)) := by
  apply mk_inj
  unfold qs_product
  rw [mk_conv, mk_foldl_conv, mk_foldl_conv]
  have e2 : ∀ k : Nat, (PowerSeries.mk (qs_factor k (-2)) : PowerSeries Int)
      = PowerSeries.mk (qs_factor k (-1)) * PowerSeries.mk (qs_factor k (-1)) := by
    intro k
    rw [qs_factor_neg_one, ← mk_conv]
    show PowerSeries.mk (conv (conv qs_one (qs_geom k)) (qs_geom k)) = _
    rw [conv_one_left]
  simp only [e2]
  rw [List.prod_map_mul, mk_qs_one]
  ring

theorem rdesc_all (A : Nat → Bool) (hA : ∀ k, A k = true) (m n : Nat) :
    rdesc A m n = desc m n := by
  unfold rdesc
  apply List.filter_eq_self.mpr
  intro l _
  exact List.all_eq_true.mpr (fun x _ => hA _)

theorem qs_product_minus_one (d : Nat) :
    qs_product 1 (fun _ => -1) d = ((desc 255 d).length : Int) := by
  rw [qs_product_count 1 (fun _ => -1) (le_refl _) (fun _ _ => Or.inl rfl) d,
    rdesc_all _ (fun k => by unfold allowed; exact decide_eq_true rfl)]
  rfl

/-- The coefficient of degree 255 of the square of the series of the partition numbers is
at least 2^63. -/
theorem conv_square_large (P : qseries_t) (hP : ∀ d, P d = ((desc 255 d).length : Int)) :
    2 ^ 63 ≤ conv P P 255 := by
  unfold conv
  rw [list_range_sum]
  have h1 : P 127 * P (255 - 127)
      ≤ Finset.sum (Finset.range (255 + 1)) (fun i => P i * P (255 - i)) := by
    apply Finset.single_le_sum (f := fun i => P i * P (255 - i))
    · intro i _
      show 0 ≤ P i * P (255 - i)
      rw [hP, hP]
      positivity
    · exact Finset.mem_range.mpr (by omega)
  refine le_trans ?_ h1
  have e : 255 - 127 = 128 := rfl
  rw [e, hP, hP]
  have h3 : ((2 : Int) ^ 63) ≤ (((desc 255 127).length * (desc 255 128).length : Nat) : Int) := by
    exact_mod_cast desc_255_product
  rw [Nat.cast_mul] at h3
  exact h3

/-- The coefficient of degree 255 of the product with every exponent -2 is at least 2^63. -/
theorem qs_product_minus_two_large : 2 ^ 63 ≤ qs_product 1 (fun _ => -2) 255 := by
  rw [qs_product_minus_two]
  exact conv_square_large _ qs_product_minus_one

/-- C14, counterexample: for m = 1 and the exponent -2 the coefficient of degree 255 of the
product of the (1 - q^k)^(-2) is at least 2^63, and product_side leaves another value. -/
theorem product_side_overflow :
    ∃ r, product_side ((1 : Nat) : Int) (fun _ => -2) (fun _ => 0) (fun _ => 0) (fun _ => 0)
        (fun _ => 0) (fun _ => 0) = some r ∧
      2 ^ 63 ≤ qs_product 1 (fun _ => -2) 255 ∧ r 255 ≠ qs_product 1 (fun _ => -2) 255 := by
  obtain ⟨r, hr, hz, _⟩ := product_side_qeq 1 (fun _ => -2) (le_refl _)
    (fun _ _ => by unfold IntExp; constructor <;> norm_num) (fun _ => 0) (fun _ => 0) (fun _ => 0) (fun _ => 0)
    (fun _ => 0)
  refine ⟨r, hr, qs_product_minus_two_large, ?_⟩
  have h1 := hz 255 (show 255 < MAXORD by decide)
  have h2 := qs_product_minus_two_large
  unfold Int64 at h1
  omega

theorem allowed_product_none (m : Nat) (c : Nat → Int) (h : ∀ k, k < m → c k = 0)
    (hm : 1 ≤ m) : qs_allowed_product m c = qs_one := by
  unfold qs_allowed_product
  have e : ∀ (l : List Nat) (a : qseries_t),
      l.foldl (fun acc k => if c (k % m) = -1 then conv acc (qs_geom k) else acc) a = a := by
    intro l
    induction l with
    | nil => intro a; rfl
    | cons x l ih =>
      intro a
      rw [List.foldl_cons, h (x % m) (Nat.mod_lt _ (by omega)), if_neg (by decide)]
      exact ih a
  exact e _ _

/-- C15, as amended: in product_side a residue class whose exponent is 0 is excluded from
the product and contributes no factor, and a class whose exponent is -1 contributes for
each of its k the formal inverse 1 + q^k + q^(2k) + ... of 1 - q^k (a negative power): for
every m ≥ 1 and c with entries -1 and 0, product_side(m, c) is the product of these inverses
over the k = 1..MAXORD-1 with c[k mod m] = -1, on every degree below MAXORD, and it is the
identity series when every entry is 0. -/
theorem product_side_exponents (m : Nat) (c : Nat → Int) (ans tmp nxt s0 tmp0 : qseries_t)
    (hm : 1 ≤ m) (hc : ∀ k, k < m → c k = -1 ∨ c k = 0) :
    ∃ r, product_side (m : Int) c ans tmp nxt s0 tmp0 = some r ∧
      (∀ d, d < MAXORD → r d = qs_allowed_product m c d) ∧
      ((∀ k, k < m → c k = 0) → ∀ d, d < MAXORD → r d = if d = 0 then 1 else 0) := by
  obtain ⟨r, hr, hd⟩ := product_side_count m c hm hc ans tmp nxt s0 tmp0
  have h1 : ∀ d, d < MAXORD → r d = qs_allowed_product m c d := by
    intro d hd1
    rw [(hd d hd1).1, qs_product_eq_allowed m c hm hc]
  refine ⟨r, hr, h1, fun h0 d hd1 => ?_⟩
  rw [h1 d hd1, allowed_product_none m c h0 hm]
  rfl

theorem product_side_exponents_witness :
    ∃ r, product_side ((5 : Nat) : Int) cong_new_06 (fun _ => 0) (fun _ => 0) (fun _ => 0)
        (fun _ => 0) (fun _ => 0) = some r ∧
      (∀ d, d < MAXORD → r d = qs_allowed_product 5 cong_new_06 d) ∧
      ((∀ k, k < 5 → cong_new_06 k = 0) → ∀ d, d < MAXORD → r d = if d = 0 then 1 else 0) :=
  product_side_exponents 5 cong_new_06 (fun _ => 0) (fun _ => 0) (fun _ => 0) (fun _ => 0)
    (fun _ => 0) (by decide) (by unfold cong_new_06; decide)

/-- C15, counterexample: product_side(1, {-1}) has the coefficient 1 at degree 1, where the
identity series and product_side(1, {0}) have 0. -/
theorem product_side_minus_one_included :
    ∃ r r0, product_side ((1 : Nat) : Int) (fun _ => -1) (fun _ => 0) (fun _ => 0) (fun _ => 0)
        (fun _ => 0) (fun _ => 0) = some r ∧
      product_side ((1 : Nat) : Int) (fun _ => 0) (fun _ => 0) (fun _ => 0) (fun _ => 0)
        (fun _ => 0) (fun _ => 0) = some r0 ∧
      r 1 = 1 ∧ r0 1 = 0 ∧ r 1 ≠ r0 1 ∧ r 1 ≠ qs_one 1 := by
  obtain ⟨r, hr, hd⟩ := product_side_count 1 (fun _ => -1) (le_refl _) (fun _ _ => Or.inl rfl)
    (fun _ => 0) (fun _ => 0) (fun _ => 0) (fun _ => 0) (fun _ => 0)
  obtain ⟨r0, hr0, hd0⟩ := product_side_count 1 (fun _ => 0) (le_refl _) (fun _ _ => Or.inr rfl)
    (fun _ => 0) (fun _ => 0) (fun _ => 0) (fun _ => 0) (fun _ => 0)
  have e1 : r 1 = 1 := by
    rw [(hd 1 (show 1 < MAXORD by decide)).2, rdesc_small _ 1 1 (le_refl _), rtable_all]
    rfl
  have e0 : r0 1 = 0 := by
    rw [(hd0 1 (show 1 < MAXORD by decide)).2, rdesc_small _ 1 1 (le_refl _), rtable_none]
    rfl
  refine ⟨r, r0, hr, hr0, e1, e0, ?_, ?_⟩
  · rw [e1, e0]
    decide
  · rw [e1]
    decide

/-- C16: for every modulus m ≥ 1, every array c with entries -1 and 0 and every n below
MAXORD, product_side(m, c) returns and the coefficient of q^n it leaves is the number of
partitions of n all of whose parts k satisfy c[k mod m] = -1; product_side(5,
{-1,-1,-1,0,-1}) leaves the coefficients 1, 1, 2, 2, 4, 5, 8, 10, 14, 18, 25 at the degrees
0..10. -/
theorem product_side_counts_partitions (m : Nat) (c : Nat → Int)
    (ans tmp nxt s0 tmp0 : qseries_t) (hm : 1 ≤ m) (hc : ∀ k, k < m → c k = -1 ∨ c k = 0)
    (n : Nat) (hn : n < MAXORD) :
    (∃ r, product_side (m : Int) c ans tmp nxt s0 tmp0 = some r ∧
      r n = ((Finset.univ.filter
        (fun p : Nat.Partition n => ∀ k ∈ p.parts, c (k % m) = -1)).card : Int)) ∧
    ∃ r5, product_side 5 cong_new_06 ans tmp nxt s0 tmp0 = some r5 ∧
      ∀ d, d ≤ 10 → r5 d = ([1, 1, 2, 2, 4, 5, 8, 10, 14, 18, 25].getD d 0 : Int) := by
  constructor
  · obtain ⟨r, hr, hd⟩ := product_side_count m c hm hc ans tmp nxt s0 tmp0
    refine ⟨r, hr, ?_⟩
    rw [(hd n hn).2, rdesc_card]
    congr 2
    apply Finset.filter_congr
    intro p _
    unfold allowed
    simp only [decide_eq_true_eq]
  · obtain ⟨r, hr, hd⟩ := product_side_count 5 cong_new_06 (by decide)
      (by unfold cong_new_06; decide) ans tmp nxt s0 tmp0
    refine ⟨r, hr, fun d hd1 => ?_⟩
    rw [(hd d (show d < MAXORD by unfold MAXORD; omega)).2, rdesc_small _ 10 d hd1, rtable_new_06]
    have hd2 : d < 11 := by omega
    interval_cases d <;> rfl

theorem product_side_counts_partitions_witness :
    (∃ r, product_side ((3 : Nat) : Int) (fun i => if i = 0 then 0 else -1) (fun _ => 0)
        (fun _ => 0) (fun _ => 0) (fun _ => 0) (fun _ => 0) = some r ∧
      r 7 = ((Finset.univ.filter
        (fun p : Nat.Partition 7 =>
          ∀ k ∈ p.parts, (fun i => if i = 0 then (0 : Int) else -1) (k % 3) = -1)).card : Int)) ∧
    ∃ r5, product_side 5 cong_new_06 (fun _ => 0) (fun _ => 0) (fun _ => 0) (fun _ => 0)
        (fun _ => 0) = some r5 ∧
      ∀ d, d ≤ 10 → r5 d = ([1, 1, 2, 2, 4, 5, 8, 10, 14, 18, 25].getD d 0 : Int) :=
  product_side_counts_partitions 3 (fun i => if i = 0 then 0 else -1) (fun _ => 0) (fun _ => 0)
    (fun _ => 0) (fun _ => 0) (fun _ => 0) (by decide)
    (fun k _ => by by_cases h : k = 0 <;> simp [h]) 7 (by decide)

/-! ## The filters of partnid.c -/

theorem wrap32_of_fits (z : Int) (h1 : -2 ^ 31 ≤ z) (h2 : z < 2 ^ 31) : wrap32 z = z := by
  unfold wrap32
  omega

/-- A loop with early exit whose state after i turns has the closed form S i. -/
theorem foldlM_closed {σ : Type} (T : σ → Nat → Option σ) (S : Nat → σ) (bad : Nat → Prop)
    (K : Nat) (h : ∀ i, i < K → (bad i → T (S i) i = none) ∧ (¬ bad i → T (S i) i = some (S (i + 1)))) :
    ∀ k, k ≤ K → ((∃ i, i < k ∧ bad i) → (List.range k).foldlM T (S 0) = none) ∧
      ((¬ ∃ i, i < k ∧ bad i) → (List.range k).foldlM T (S 0) = some (S k)) := by
  intro k
  induction k with
  | zero =>
    intro _
    refine ⟨fun ⟨i, hi, _⟩ => by omega, fun _ => rfl⟩
  | succ k ih =>
    intro hk
    obtain ⟨ih1, ih2⟩ := ih (by omega)
    rw [List.range_succ, List.foldlM_append]
    by_cases hb : ∃ i, i < k ∧ bad i
    · refine ⟨fun _ => ?_, fun hn => ?_⟩
      · rw [ih1 hb]
        rfl
      · obtain ⟨i, hi, hbi⟩ := hb
        exact absurd ⟨i, by omega, hbi⟩ hn
    · rw [ih2 hb]
      refine ⟨fun ⟨i, hi, hbi⟩ => ?_, fun hn => ?_⟩
      · have e : i = k := by
          by_contra hne
          exact hb ⟨i, by omega, hbi⟩
        subst e
        show (T (S i) i >>= fun b => pure b) = none
        rw [(h i (by omega)).1 hbi]
        rfl
      · have hnb : ¬ bad k := fun hbk => hn ⟨k, by omega, hbk⟩
        show (T (S k) k >>= fun b => pure b) = some (S (k + 1))
        rw [(h k (by omega)).2 hnb]
        rfl

theorem foldlM_closed_isSome {σ : Type} (T : σ → Nat → Option σ) (S : Nat → σ)
    (bad : Nat → Prop) (K : Nat)
    (h : ∀ i, i < K → (bad i → T (S i) i = none) ∧ (¬ bad i → T (S i) i = some (S (i + 1)))) :
    ((List.range K).foldlM T (S 0)).isSome = false ↔ ∃ i, i < K ∧ bad i := by
  obtain ⟨h1, h2⟩ := foldlM_closed T S bad K h K (le_refl _)
  constructor
  · intro hf
    by_contra hn
    rw [h2 hn] at hf
    exact absurd hf (by simp)
  · intro hb
    rw [h1 hb]
    rfl

theorem part_at_nat (a : List Int) (i : Nat) : part_at a (i : Int) = a.getD i 0 := by
  unfold part_at
  rw [if_neg (by omega), Int.toNat_ofNat]

theorem part_at_neg (a : List Int) (j : Int) (h : j < 0) : part_at a j = 0 := by
  unfold part_at
  rw [if_pos h]

theorem getD_nonneg (a : List Int) (h : ∀ x ∈ a, (1 : Int) ≤ x) (i : Nat) : 0 ≤ a.getD i 0 := by
  by_cases hi : i < a.length
  · rw [List.getD_eq_getElem _ _ hi]
    have := h _ (List.getElem_mem hi)
    omega
  · rw [List.getD_eq_default _ _ (by omega)]

theorem getD_pos (a : List Int) (h : ∀ x ∈ a, (1 : Int) ≤ x) (i : Nat) (hi : i < a.length) :
    1 ≤ a.getD i 0 := by
  rw [List.getD_eq_getElem _ _ hi]
  exact h _ (List.getElem_mem hi)

theorem getD_le_sum (a : List Int) (h : ∀ x ∈ a, (1 : Int) ≤ x) : ∀ i : Nat, a.getD i 0 ≤ a.sum := by
  induction a with
  | nil => intro i; simp
  | cons x a ih =>
    intro i
    have hx : 1 ≤ x := h x (List.mem_cons_self _ _)
    have ha := sum_nonneg_of_pos a (fun y hy => h y (List.mem_cons_of_mem _ hy))
    cases i with
    | zero => simp; omega
    | succ i =>
      have := ih (fun y hy => h y (List.mem_cons_of_mem _ hy)) i
      simp only [List.getD_cons_succ, List.sum_cons]
      omega

theorem getD_sum2_le (a : List Int) (h : ∀ x ∈ a, (1 : Int) ≤ x) :
    ∀ i : Nat, a.getD i 0 + a.getD (i + 1) 0 ≤ a.sum := by
  induction a with
  | nil => intro i; simp
  | cons x a ih =>
    intro i
    have hx : 1 ≤ x := h x (List.mem_cons_self _ _)
    have h' : ∀ y ∈ a, (1 : Int) ≤ y := fun y hy => h y (List.mem_cons_of_mem _ hy)
    cases i with
    | zero =>
      have := getD_le_sum a h' 0
      simp only [List.getD_cons_zero, List.getD_cons_succ, List.sum_cons, Nat.zero_add]
      omega
    | succ i =>
      have := ih h' i
      simp only [List.getD_cons_succ, List.sum_cons]
      omega

theorem getD_sum3_le (a : List Int) (h : ∀ x ∈ a, (1 : Int) ≤ x) :
    ∀ i : Nat, a.getD i 0 + a.getD (i + 1) 0 + a.getD (i + 2) 0 ≤ a.sum := by
  induction a with
  | nil => intro i; simp
  | cons x a ih =>
    intro i
    have hx : 1 ≤ x := h x (List.mem_cons_self _ _)
    have h' : ∀ y ∈ a, (1 : Int) ≤ y := fun y hy => h y (List.mem_cons_of_mem _ hy)
    cases i with
    | zero =>
      have := getD_sum2_le a h' 0
      simp only [List.getD_cons_zero, List.getD_cons_succ, List.sum_cons, Nat.zero_add] at this ⊢
      omega
    | succ i =>
      have := ih h' i
      simp only [List.getD_cons_succ, List.sum_cons]
      omega

/-- The parts of a partition of an int: none is negative and any three neighbours sum to
less than 2^31. -/
theorem part_at_bounds (a : List Int) (h : ∀ x ∈ a, (1 : Int) ≤ x) (hs : a.sum < 2 ^ 31)
    (j : Int) : 0 ≤ part_at a j ∧ part_at a j + part_at a (j + 1) + part_at a (j + 2) < 2 ^ 31 := by
  have hn : ∀ j, 0 ≤ part_at a j := by
    intro j
    unfold part_at
    by_cases hj : j < 0
    · rw [if_pos hj]
    · rw [if_neg hj]
      exact getD_nonneg a h _
  refine ⟨hn j, ?_⟩
  by_cases h0 : 0 ≤ j
  · obtain ⟨i, rfl⟩ := Int.eq_ofNat_of_zero_le h0
    have e1 : ((i : Int) + 1) = ((i + 1 : Nat) : Int) := by push_cast; rfl
    have e2 : ((i : Int) + 2) = ((i + 2 : Nat) : Int) := by push_cast; rfl
    rw [e1, e2, part_at_nat, part_at_nat, part_at_nat]
    have := getD_sum3_le a h i
    omega
  · by_cases h1 : 0 ≤ j + 1
    · have ej : j = -1 := by omega
      subst ej
      rw [part_at_neg a (-1) (by omega)]
      have := getD_sum2_le a h 0
      have e0 : (-1 : Int) + 1 = ((0 : Nat) : Int) := by norm_num
      have e1 : (-1 : Int) + 2 = ((1 : Nat) : Int) := by norm_num
      rw [e0, e1, part_at_nat, part_at_nat]
      simp only [Nat.zero_add] at this
      omega
    · rw [part_at_neg a j (by omega), part_at_neg a (j + 1) (by omega)]
      by_cases h2 : 0 ≤ j + 2
      · obtain ⟨i, hi⟩ := Int.eq_ofNat_of_zero_le h2
        rw [hi, part_at_nat]
        have := getD_le_sum a h i
        omega
      · rw [part_at_neg a (j + 2) (by omega)]
        norm_num

theorem sorted_getD (a : List Int) (hs : List.Sorted (fun x y => x ≤ y) a) (i j : Nat)
    (hij : i ≤ j) (hj : j < a.length) : a.getD i 0 ≤ a.getD j 0 := by
  rw [List.getD_eq_getElem _ _ hj, List.getD_eq_getElem _ _ (by omega : i < a.length)]
  by_cases e : i = j
  · subst e
    exact le_refl _
  · exact (List.pairwise_iff_getElem.mp hs) i j (by omega) hj (by omega)

/-- The state of the loop of filter_new_04, _05, _06, _6x, _6y before the turn for i. -/
theorem gap3_step (res : Int) (p : partition_t) (h : ∀ x ∈ p.a, (1 : Int) ≤ x)
    (hs : p.a.sum < 2 ^ 31) (i : Nat) :
    partnid.gap3_turn res p
        ⟨part_at p.a ((i : Int) - 1), part_at p.a ((i : Int) - 2), part_at p.a ((i : Int) - 3),
          part_at p.a ((i : Int) - 1) + part_at p.a ((i : Int) - 2) + part_at p.a ((i : Int) - 3),
          if i = 0 then -1 else part_at p.a ((i : Int) - 1) - part_at p.a ((i : Int) - 3)⟩ i
      = if 2 ≤ i ∧ part_at p.a i - part_at p.a ((i : Int) - 2) < 2 ∧
            Int.tmod (part_at p.a ((i : Int) - 2) + part_at p.a ((i : Int) - 1) + part_at p.a i) 5
              = res
        then none
        else some ⟨part_at p.a i, part_at p.a ((i : Int) - 1), part_at p.a ((i : Int) - 2),
          part_at p.a i + part_at p.a ((i : Int) - 1) + part_at p.a ((i : Int) - 2),
          part_at p.a i - part_at p.a ((i : Int) - 2)⟩ := by
  have b3 := part_at_bounds p.a h hs ((i : Int) - 3)
  have b2 := part_at_bounds p.a h hs ((i : Int) - 2)
  have b1 := part_at_bounds p.a h hs ((i : Int) - 1)
  have b0 := part_at_bounds p.a h hs (i : Int)
  have e1 : (i : Int) - 3 + 1 = (i : Int) - 2 := by ring
  have e2 : (i : Int) - 3 + 2 = (i : Int) - 1 := by ring
  have e3 : (i : Int) - 2 + 1 = (i : Int) - 1 := by ring
  have e4 : (i : Int) - 2 + 2 = (i : Int) := by ring
  rw [e1, e2] at b3
  rw [e3, e4] at b2
  have w1 : wrap32 (part_at p.a ((i : Int) - 1) + part_at p.a ((i : Int) - 2)
      + part_at p.a ((i : Int) - 3) - part_at p.a ((i : Int) - 3))
      = part_at p.a ((i : Int) - 1) + part_at p.a ((i : Int) - 2) :=
    by rw [wrap32_of_fits _ (by omega) (by omega)]; ring
  have w2 : wrap32 (part_at p.a ((i : Int) - 1) + part_at p.a ((i : Int) - 2) + part_at p.a i)
      = part_at p.a i + part_at p.a ((i : Int) - 1) + part_at p.a ((i : Int) - 2) :=
    by rw [wrap32_of_fits _ (by omega) (by omega)]; ring
  have w3 : wrap32 (part_at p.a i - part_at p.a ((i : Int) - 2))
      = part_at p.a i - part_at p.a ((i : Int) - 2) :=
    wrap32_of_fits _ (by omega) (by omega)
  have e5 : part_at p.a i + part_at p.a ((i : Int) - 1) + part_at p.a ((i : Int) - 2)
      = part_at p.a ((i : Int) - 2) + part_at p.a ((i : Int) - 1) + part_at p.a i := by ring
  simp only [partnid.gap3_turn, ← part_at_nat, w1, w2, w3, e5]

/-- The loop of the five filters rejects exactly when some turn finds the forbidden gap. -/
theorem gap3_loop (res : Int) (p : partition_t) (h : ∀ x ∈ p.a, (1 : Int) ≤ x)
    (hs : p.a.sum < 2 ^ 31) :
    ((List.range p.len).foldlM (partnid.gap3_turn res p) ⟨0, 0, 0, 0, -1⟩).isSome = false ↔
      ∃ i, i < p.len ∧ (2 ≤ i ∧ part_at p.a i - part_at p.a ((i : Int) - 2) < 2 ∧
        Int.tmod (part_at p.a ((i : Int) - 2) + part_at p.a ((i : Int) - 1) + part_at p.a i) 5
          = res) := by
  have key := foldlM_closed_isSome (partnid.gap3_turn res p)
    (fun i => ⟨part_at p.a ((i : Int) - 1), part_at p.a ((i : Int) - 2),
      part_at p.a ((i : Int) - 3),
      part_at p.a ((i : Int) - 1) + part_at p.a ((i : Int) - 2) + part_at p.a ((i : Int) - 3),
      if i = 0 then -1 else part_at p.a ((i : Int) - 1) - part_at p.a ((i : Int) - 3)⟩)
    (fun i => 2 ≤ i ∧ part_at p.a i - part_at p.a ((i : Int) - 2) < 2 ∧
      Int.tmod (part_at p.a ((i : Int) - 2) + part_at p.a ((i : Int) - 1) + part_at p.a i) 5 = res)
    p.len (fun i _ => by
      have := gap3_step res p h hs i
      refine ⟨fun hb => ?_, fun hb => ?_⟩
      · rw [this, if_pos hb]
      · rw [this, if_neg hb]
        congr 1
        dsimp only
        have e1 : ((i + 1 : Nat) : Int) - 1 = i := by push_cast; ring
        have e2 : ((i + 1 : Nat) : Int) - 2 = (i : Int) - 1 := by push_cast; ring
        have e3 : ((i + 1 : Nat) : Int) - 3 = (i : Int) - 2 := by push_cast; ring
        rw [e1, e2, e3, if_neg (by omega)])
  have e0 : (⟨part_at p.a (((0 : Nat) : Int) - 1), part_at p.a (((0 : Nat) : Int) - 2),
      part_at p.a (((0 : Nat) : Int) - 3),
      part_at p.a (((0 : Nat) : Int) - 1) + part_at p.a (((0 : Nat) : Int) - 2)
        + part_at p.a (((0 : Nat) : Int) - 3),
      if (0 : Nat) = 0 then -1
        else part_at p.a (((0 : Nat) : Int) - 1) - part_at p.a (((0 : Nat) : Int) - 3)⟩ :
        partnid.Gap3) = ⟨0, 0, 0, 0, -1⟩ := by
    rw [part_at_neg _ _ (by norm_num), part_at_neg _ _ (by norm_num),
      part_at_neg _ _ (by norm_num)]
    rfl
  rw [← e0]
  exact key

/-- The forbidden gap of a turn, in the words of the specification, for a partition with
non-decreasing parts. -/
theorem gap3_bad_iff (res : Int) (a : List Int) (h : ∀ x ∈ a, (1 : Int) ≤ x)
    (hsorted : List.Sorted (fun x y => x ≤ y) a) (i : Nat) (hi : i < a.length) (h2 : 2 ≤ i) :
    (part_at a i - part_at a ((i : Int) - 2) < 2 ∧
      Int.tmod (part_at a ((i : Int) - 2) + part_at a ((i : Int) - 1) + part_at a i) 5 = res) ↔
    ((a.getD i 0 - a.getD (i - 2) 0 = 0 ∨ a.getD i 0 - a.getD (i - 2) 0 = 1) ∧
      (a.getD (i - 2) 0 + a.getD (i - 1) 0 + a.getD i 0) % 5 = res) := by
  have e1 : (i : Int) - 2 = ((i - 2 : Nat) : Int) := by omega
  have e2 : (i : Int) - 1 = ((i - 1 : Nat) : Int) := by omega
  rw [e1, e2, part_at_nat, part_at_nat, part_at_nat]
  have hle := sorted_getD a hsorted (i - 2) i (by omega) hi
  have n0 := getD_nonneg a h i
  have n1 := getD_nonneg a h (i - 1)
  have n2 := getD_nonneg a h (i - 2)
  rw [Int.tmod_eq_emod (by omega) (by norm_num)]
  constructor
  · rintro ⟨hd, hm⟩
    exact ⟨by omega, hm⟩
  · rintro ⟨hd, hm⟩
    exact ⟨by omega, hm⟩

theorem gap3_loop_spec (res : Int) (n : Int) (p : partition_t) (hp : PartitionInv n p)
    (hn : n < 2 ^ 31) (hsorted : List.Sorted (fun x y => x ≤ y) p.a) :
    ((List.range p.len).foldlM (partnid.gap3_turn res p) ⟨0, 0, 0, 0, -1⟩).isSome = false ↔
      gap3_rejects res p := by
  obtain ⟨_, hlen, hpos, hsum, _⟩ := hp
  rw [gap3_loop res p hpos (by omega)]
  unfold gap3_rejects
  constructor
  · rintro ⟨i, hi, h2, hb⟩
    exact ⟨i, h2, hi, (gap3_bad_iff res p.a hpos hsorted i (by omega) h2).mp hb⟩
  · rintro ⟨i, h2, hi, hb⟩
    exact ⟨i, hi, h2, (gap3_bad_iff res p.a hpos hsorted i (by omega) h2).mpr hb⟩

theorem gap3_rejects_len (res : Int) (p : partition_t) (h : gap3_rejects res p) : ¬ p.len < 3 := by
  obtain ⟨i, h2, hi, _⟩ := h
  omega

/-! ### filter_new_01 and filter_new_02 -/

theorem gap2_bounds (p : partition_t) (h : ∀ x ∈ p.a, (1 : Int) ≤ x) (hs : p.a.sum < 2 ^ 31)
    (i : Nat) :
    0 ≤ part_at p.a ((i : Int) - 2) ∧ 0 ≤ part_at p.a ((i : Int) - 1) ∧ 0 ≤ part_at p.a i ∧
    part_at p.a ((i : Int) - 2) + part_at p.a ((i : Int) - 1) + part_at p.a i < 2 ^ 31 := by
  have b2 := part_at_bounds p.a h hs ((i : Int) - 2)
  have b1 := part_at_bounds p.a h hs ((i : Int) - 1)
  have b0 := part_at_bounds p.a h hs (i : Int)
  have e3 : (i : Int) - 2 + 1 = (i : Int) - 1 := by ring
  have e4 : (i : Int) - 2 + 2 = (i : Int) := by ring
  rw [e3, e4] at b2
  exact ⟨b2.1, b1.1, b0.1, b2.2⟩

theorem filter_new_01_step (p : partition_t) (h : ∀ x ∈ p.a, (1 : Int) ≤ x)
    (hs : p.a.sum < 2 ^ 31) (i : Nat) :
    partnid.filter_new_01_turn p
        ⟨part_at p.a ((i : Int) - 1), part_at p.a ((i : Int) - 2),
          part_at p.a ((i : Int) - 1) + part_at p.a ((i : Int) - 2),
          if i = 0 then -1 else part_at p.a ((i : Int) - 1) - part_at p.a ((i : Int) - 2)⟩ i
      = if 1 ≤ i ∧ part_at p.a i - part_at p.a ((i : Int) - 1) = 1 ∧
            Int.tmod (part_at p.a ((i : Int) - 1) + part_at p.a i) 4 = 3
        then none
        else some ⟨part_at p.a i, part_at p.a ((i : Int) - 1),
          part_at p.a i + part_at p.a ((i : Int) - 1),
          part_at p.a i - part_at p.a ((i : Int) - 1)⟩ := by
  obtain ⟨b2, b1, b0, bs⟩ := gap2_bounds p h hs i
  have w1 : wrap32 (part_at p.a ((i : Int) - 1) + part_at p.a ((i : Int) - 2)
      - part_at p.a ((i : Int) - 2)) = part_at p.a ((i : Int) - 1) :=
    by rw [wrap32_of_fits _ (by omega) (by omega)]; ring
  have w2 : wrap32 (part_at p.a ((i : Int) - 1) + part_at p.a i)
      = part_at p.a i + part_at p.a ((i : Int) - 1) :=
    by rw [wrap32_of_fits _ (by omega) (by omega)]; ring
  have w3 : wrap32 (part_at p.a i - part_at p.a ((i : Int) - 1))
      = part_at p.a i - part_at p.a ((i : Int) - 1) :=
    wrap32_of_fits _ (by omega) (by omega)
  have e5 : part_at p.a i + part_at p.a ((i : Int) - 1)
      = part_at p.a ((i : Int) - 1) + part_at p.a i := by ring
  simp only [partnid.filter_new_01_turn, ← part_at_nat, w1, w2, w3, e5]

theorem filter_new_02_step (p : partition_t) (h : ∀ x ∈ p.a, (1 : Int) ≤ x)
    (hs : p.a.sum < 2 ^ 31) (i : Nat) :
    partnid.filter_new_02_turn p
        ⟨part_at p.a ((i : Int) - 1), part_at p.a ((i : Int) - 2),
          part_at p.a ((i : Int) - 1) + part_at p.a ((i : Int) - 2),
          if i = 0 then -1 else part_at p.a ((i : Int) - 1) - part_at p.a ((i : Int) - 2)⟩ i
      = if 1 ≤ i ∧ ((part_at p.a i - part_at p.a ((i : Int) - 1) = 1 ∧
            Int.tmod (part_at p.a ((i : Int) - 1) + part_at p.a i) 4 = 3) ∨
          (part_at p.a i - part_at p.a ((i : Int) - 1) = 3 ∧
            Int.tmod (part_at p.a ((i : Int) - 1) + part_at p.a i) 4 = 1))
        then none
        else some ⟨part_at p.a i, part_at p.a ((i : Int) - 1),
          part_at p.a i + part_at p.a ((i : Int) - 1),
          part_at p.a i - part_at p.a ((i : Int) - 1)⟩ := by
  obtain ⟨b2, b1, b0, bs⟩ := gap2_bounds p h hs i
  have w1 : wrap32 (part_at p.a ((i : Int) - 1) + part_at p.a ((i : Int) - 2)
      - part_at p.a ((i : Int) - 2)) = part_at p.a ((i : Int) - 1) :=
    by rw [wrap32_of_fits _ (by omega) (by omega)]; ring
  have w2 : wrap32 (part_at p.a ((i : Int) - 1) + part_at p.a i)
      = part_at p.a i + part_at p.a ((i : Int) - 1) :=
    by rw [wrap32_of_fits _ (by omega) (by omega)]; ring
  have w3 : wrap32 (part_at p.a i - part_at p.a ((i : Int) - 1))
      = part_at p.a i - part_at p.a ((i : Int) - 1) :=
    wrap32_of_fits _ (by omega) (by omega)
  have e5 : part_at p.a i + part_at p.a ((i : Int) - 1)
      = part_at p.a ((i : Int) - 1) + part_at p.a i := by ring
  simp only [partnid.filter_new_02_turn, ← part_at_nat, w1, w2, w3, e5]

theorem gap2_init (a : List Int) :
    (⟨part_at a (((0 : Nat) : Int) - 1), part_at a (((0 : Nat) : Int) - 2),
      part_at a (((0 : Nat) : Int) - 1) + part_at a (((0 : Nat) : Int) - 2),
      if (0 : Nat) = 0 then -1
        else part_at a (((0 : Nat) : Int) - 1) - part_at a (((0 : Nat) : Int) - 2)⟩ :
        partnid.Gap2) = ⟨0, 0, 0, -1⟩ := by
  rw [part_at_neg _ _ (by norm_num), part_at_neg _ _ (by norm_num)]
  rfl

theorem gap2_succ (a : List Int) (i : Nat) :
    (⟨part_at a (((i + 1 : Nat) : Int) - 1), part_at a (((i + 1 : Nat) : Int) - 2),
      part_at a (((i + 1 : Nat) : Int) - 1) + part_at a (((i + 1 : Nat) : Int) - 2),
      if i + 1 = 0 then -1
        else part_at a (((i + 1 : Nat) : Int) - 1) - part_at a (((i + 1 : Nat) : Int) - 2)⟩ :
        partnid.Gap2)
      = ⟨part_at a i, part_at a ((i : Int) - 1), part_at a i + part_at a ((i : Int) - 1),
          part_at a i - part_at a ((i : Int) - 1)⟩ := by
  have e1 : ((i + 1 : Nat) : Int) - 1 = i := by push_cast; ring
  have e2 : ((i + 1 : Nat) : Int) - 2 = (i : Int) - 1 := by push_cast; ring
  rw [e1, e2, if_neg (by omega)]

theorem filter_new_01_loop (p : partition_t) (h : ∀ x ∈ p.a, (1 : Int) ≤ x)
    (hs : p.a.sum < 2 ^ 31) :
    ((List.range p.len).foldlM (partnid.filter_new_01_turn p) ⟨0, 0, 0, -1⟩).isSome = false ↔
      ∃ i, i < p.len ∧ (1 ≤ i ∧ part_at p.a i - part_at p.a ((i : Int) - 1) = 1 ∧
        Int.tmod (part_at p.a ((i : Int) - 1) + part_at p.a i) 4 = 3) := by
  have key := foldlM_closed_isSome (partnid.filter_new_01_turn p)
    (fun i => ⟨part_at p.a ((i : Int) - 1), part_at p.a ((i : Int) - 2),
      part_at p.a ((i : Int) - 1) + part_at p.a ((i : Int) - 2),
      if i = 0 then -1 else part_at p.a ((i : Int) - 1) - part_at p.a ((i : Int) - 2)⟩)
    (fun i => 1 ≤ i ∧ part_at p.a i - part_at p.a ((i : Int) - 1) = 1 ∧
      Int.tmod (part_at p.a ((i : Int) - 1) + part_at p.a i) 4 = 3)
    p.len (fun i _ => by
      have := filter_new_01_step p h hs i
      refine ⟨fun hb => ?_, fun hb => ?_⟩
      · rw [this, if_pos hb]
      · rw [this, if_neg hb]
        congr 1
        exact (gap2_succ p.a i).symm)
  rw [← gap2_init p.a]
  exact key

theorem filter_new_02_loop (p : partition_t) (h : ∀ x ∈ p.a, (1 : Int) ≤ x)
    (hs : p.a.sum < 2 ^ 31) :
    ((List.range p.len).foldlM (partnid.filter_new_02_turn p) ⟨0, 0, 0, -1⟩).isSome = false ↔
      ∃ i, i < p.len ∧ (1 ≤ i ∧ ((part_at p.a i - part_at p.a ((i : Int) - 1) = 1 ∧
            Int.tmod (part_at p.a ((i : Int) - 1) + part_at p.a i) 4 = 3) ∨
          (part_at p.a i - part_at p.a ((i : Int) - 1) = 3 ∧
            Int.tmod (part_at p.a ((i : Int) - 1) + part_at p.a i) 4 = 1))) := by
  have key := foldlM_closed_isSome (partnid.filter_new_02_turn p)
    (fun i => ⟨part_at p.a ((i : Int) - 1), part_at p.a ((i : Int) - 2),
      part_at p.a ((i : Int) - 1) + part_at p.a ((i : Int) - 2),
      if i = 0 then -1 else part_at p.a ((i : Int) - 1) - part_at p.a ((i : Int) - 2)⟩)
    (fun i => 1 ≤ i ∧ ((part_at p.a i - part_at p.a ((i : Int) - 1) = 1 ∧
            Int.tmod (part_at p.a ((i : Int) - 1) + part_at p.a i) 4 = 3) ∨
          (part_at p.a i - part_at p.a ((i : Int) - 1) = 3 ∧
            Int.tmod (part_at p.a ((i : Int) - 1) + part_at p.a i) 4 = 1)))
    p.len (fun i _ => by
      have := filter_new_02_step p h hs i
      refine ⟨fun hb => ?_, fun hb => ?_⟩
      · rw [this, if_pos hb]
      · rw [this, if_neg hb]
        congr 1
        exact (gap2_succ p.a i).symm)
  rw [← gap2_init p.a]
  exact key

/-- The test of a turn of filter_new_01 and filter_new_02 in the words of the specification. -/
theorem gap2_bad_iff (d res : Int) (a : List Int) (h : ∀ x ∈ a, (1 : Int) ≤ x) (i : Nat)
    (h1 : 1 ≤ i) :
    (part_at a i - part_at a ((i : Int) - 1) = d ∧
      Int.tmod (part_at a ((i : Int) - 1) + part_at a i) 4 = res) ↔
    (a.getD i 0 - a.getD (i - 1) 0 = d ∧ (a.getD (i - 1) 0 + a.getD i 0) % 4 = res) := by
  have e2 : (i : Int) - 1 = ((i - 1 : Nat) : Int) := by omega
  rw [e2, part_at_nat, part_at_nat]
  have n0 := getD_nonneg a h i
  have n1 := getD_nonneg a h (i - 1)
  rw [Int.tmod_eq_emod (by omega) (by norm_num)]

theorem filter_new_01_eq (n : Int) (p : partition_t) (hp : PartitionInv n p)
    (hn : n < 2 ^ 31) : partnid.filter_new_01 p = false ↔ gap2_rejects 1 3 p := by
  obtain ⟨_, hlen, hpos, hsum, _⟩ := hp
  unfold partnid.filter_new_01 gap2_rejects
  by_cases hl : p.len < 2
  · rw [if_pos hl]
    constructor
    · intro h
      exact absurd h (by simp)
    · rintro ⟨i, h1, hi, _⟩
      omega
  · rw [if_neg hl, filter_new_01_loop p hpos (by omega)]
    constructor
    · rintro ⟨i, hi, h1, hb⟩
      exact ⟨i, h1, hi, (gap2_bad_iff 1 3 p.a hpos i h1).mp hb⟩
    · rintro ⟨i, h1, hi, hb⟩
      exact ⟨i, hi, h1, (gap2_bad_iff 1 3 p.a hpos i h1).mpr hb⟩

theorem filter_new_02_eq (n : Int) (p : partition_t) (hp : PartitionInv n p)
    (hn : n < 2 ^ 31) :
    partnid.filter_new_02 p = false ↔ gap2_rejects 1 3 p ∨ gap2_rejects 3 1 p := by
  obtain ⟨_, hlen, hpos, hsum, _⟩ := hp
  unfold partnid.filter_new_02 gap2_rejects
  by_cases hl : p.len < 2
  · rw [if_pos hl]
    constructor
    · intro h
      exact absurd h (by simp)
    · rintro (⟨i, h1, hi, _⟩ | ⟨i, h1, hi, _⟩)
      all_goals omega
  · rw [if_neg hl, filter_new_02_loop p hpos (by omega)]
    constructor
    · rintro ⟨i, hi, h1, hb | hb⟩
      · exact Or.inl ⟨i, h1, hi, (gap2_bad_iff 1 3 p.a hpos i h1).mp hb⟩
      · exact Or.inr ⟨i, h1, hi, (gap2_bad_iff 3 1 p.a hpos i h1).mp hb⟩
    · rintro (⟨i, h1, hi, hb⟩ | ⟨i, h1, hi, hb⟩)
      · exact ⟨i, hi, h1, Or.inl ((gap2_bad_iff 1 3 p.a hpos i h1).mpr hb)⟩
      · exact ⟨i, hi, h1, Or.inr ((gap2_bad_iff 3 1 p.a hpos i h1).mpr hb)⟩

/-! ### filter_new_03 -/

theorem filter_new_03_step (p : partition_t) (h : ∀ x ∈ p.a, (1 : Int) ≤ x)
    (hs : p.a.sum < 2 ^ 31) (i : Nat) :
    partnid.filter_new_03_turn p
        ⟨part_at p.a ((i : Int) - 1), part_at p.a ((i : Int) - 2), part_at p.a ((i : Int) - 3),
          part_at p.a ((i : Int) - 2) + part_at p.a ((i : Int) - 1),
          part_at p.a ((i : Int) - 3) + part_at p.a ((i : Int) - 2) + part_at p.a ((i : Int) - 1),
          if i = 0 then -1 else part_at p.a ((i : Int) - 1) - part_at p.a ((i : Int) - 2),
          if i = 0 then -1 else part_at p.a ((i : Int) - 1) - part_at p.a ((i : Int) - 3)⟩ i
      = if (1 ≤ i ∧ part_at p.a i - part_at p.a ((i : Int) - 1) < 2 ∧
            Int.tmod (part_at p.a ((i : Int) - 1) + part_at p.a i) 5 = 0) ∨
          (2 ≤ i ∧ part_at p.a i - part_at p.a ((i : Int) - 2) < 2 ∧
            Int.tmod (part_at p.a ((i : Int) - 2) + part_at p.a ((i : Int) - 1) + part_at p.a i) 5
              = 3)
        then none
        else some ⟨part_at p.a i, part_at p.a ((i : Int) - 1), part_at p.a ((i : Int) - 2),
          part_at p.a ((i : Int) - 1) + part_at p.a i,
          part_at p.a ((i : Int) - 2) + part_at p.a ((i : Int) - 1) + part_at p.a i,
          part_at p.a i - part_at p.a ((i : Int) - 1),
          part_at p.a i - part_at p.a ((i : Int) - 2)⟩ := by
  have b3 := part_at_bounds p.a h hs ((i : Int) - 3)
  have e1 : (i : Int) - 3 + 1 = (i : Int) - 2 := by ring
  have e2 : (i : Int) - 3 + 2 = (i : Int) - 1 := by ring
  rw [e1, e2] at b3
  obtain ⟨b2, b1, b0, bs⟩ := gap2_bounds p h hs i
  have w0 : wrap32 (part_at p.a ((i : Int) - 2) + part_at p.a ((i : Int) - 1)
      - part_at p.a ((i : Int) - 2)) = part_at p.a ((i : Int) - 1) :=
    by rw [wrap32_of_fits _ (by omega) (by omega)]; ring
  have w1 : wrap32 (part_at p.a ((i : Int) - 3) + part_at p.a ((i : Int) - 2)
      + part_at p.a ((i : Int) - 1) - part_at p.a ((i : Int) - 3))
      = part_at p.a ((i : Int) - 2) + part_at p.a ((i : Int) - 1) :=
    by rw [wrap32_of_fits _ (by omega) (by omega)]; ring
  have w2 : wrap32 (part_at p.a ((i : Int) - 2) + part_at p.a ((i : Int) - 1) + part_at p.a i)
      = part_at p.a ((i : Int) - 2) + part_at p.a ((i : Int) - 1) + part_at p.a i :=
    wrap32_of_fits _ (by omega) (by omega)
  have w2' : wrap32 (part_at p.a ((i : Int) - 1) + part_at p.a i)
      = part_at p.a ((i : Int) - 1) + part_at p.a i :=
    wrap32_of_fits _ (by omega) (by omega)
  have w3 : wrap32 (part_at p.a i - part_at p.a ((i : Int) - 2))
      = part_at p.a i - part_at p.a ((i : Int) - 2) :=
    wrap32_of_fits _ (by omega) (by omega)
  have w3' : wrap32 (part_at p.a i - part_at p.a ((i : Int) - 1))
      = part_at p.a i - part_at p.a ((i : Int) - 1) :=
    wrap32_of_fits _ (by omega) (by omega)
  simp only [partnid.filter_new_03_turn, ← part_at_nat, w0, w1, w2, w2', w3, w3']

theorem filter_new_03_loop (p : partition_t) (h : ∀ x ∈ p.a, (1 : Int) ≤ x)
    (hs : p.a.sum < 2 ^ 31) :
    ((List.range p.len).foldlM (partnid.filter_new_03_turn p) ⟨0, 0, 0, 0, 0, -1, -1⟩).isSome
        = false ↔
      ∃ i, i < p.len ∧ ((1 ≤ i ∧ part_at p.a i - part_at p.a ((i : Int) - 1) < 2 ∧
            Int.tmod (part_at p.a ((i : Int) - 1) + part_at p.a i) 5 = 0) ∨
          (2 ≤ i ∧ part_at p.a i - part_at p.a ((i : Int) - 2) < 2 ∧
            Int.tmod (part_at p.a ((i : Int) - 2) + part_at p.a ((i : Int) - 1) + part_at p.a i) 5
              = 3)) := by
  have key := foldlM_closed_isSome (partnid.filter_new_03_turn p)
    (fun i => ⟨part_at p.a ((i : Int) - 1), part_at p.a ((i : Int) - 2),
      part_at p.a ((i : Int) - 3),
      part_at p.a ((i : Int) - 2) + part_at p.a ((i : Int) - 1),
      part_at p.a ((i : Int) - 3) + part_at p.a ((i : Int) - 2) + part_at p.a ((i : Int) - 1),
      if i = 0 then -1 else part_at p.a ((i : Int) - 1) - part_at p.a ((i : Int) - 2),
      if i = 0 then -1 else part_at p.a ((i : Int) - 1) - part_at p.a ((i : Int) - 3)⟩)
    (fun i => (1 ≤ i ∧ part_at p.a i - part_at p.a ((i : Int) - 1) < 2 ∧
            Int.tmod (part_at p.a ((i : Int) - 1) + part_at p.a i) 5 = 0) ∨
          (2 ≤ i ∧ part_at p.a i - part_at p.a ((i : Int) - 2) < 2 ∧
            Int.tmod (part_at p.a ((i : Int) - 2) + part_at p.a ((i : Int) - 1) + part_at p.a i) 5
              = 3))
    p.len (fun i _ => by
      have := filter_new_03_step p h hs i
      refine ⟨fun hb => ?_, fun hb => ?_⟩
      · rw [this, if_pos hb]
      · rw [this, if_neg hb]
        congr 1
        dsimp only
        have e1 : ((i + 1 : Nat) : Int) - 1 = i := by push_cast; ring
        have e2 : ((i + 1 : Nat) : Int) - 2 = (i : Int) - 1 := by push_cast; ring
        have e3 : ((i + 1 : Nat) : Int) - 3 = (i : Int) - 2 := by push_cast; ring
        rw [e1, e2, e3, if_neg (by omega), if_neg (by omega)])
  have e0 : (⟨part_at p.a (((0 : Nat) : Int) - 1), part_at p.a (((0 : Nat) : Int) - 2),
      part_at p.a (((0 : Nat) : Int) - 3),
      part_at p.a (((0 : Nat) : Int) - 2) + part_at p.a (((0 : Nat) : Int) - 1),
      part_at p.a (((0 : Nat) : Int) - 3) + part_at p.a (((0 : Nat) : Int) - 2)
        + part_at p.a (((0 : Nat) : Int) - 1),
      if (0 : Nat) = 0 then -1
        else part_at p.a (((0 : Nat) : Int) - 1) - part_at p.a (((0 : Nat) : Int) - 2),
      if (0 : Nat) = 0 then -1
        else part_at p.a (((0 : Nat) : Int) - 1) - part_at p.a (((0 : Nat) : Int) - 3)⟩ :
        partnid.Gap23) = ⟨0, 0, 0, 0, 0, -1, -1⟩ := by
    rw [part_at_neg _ _ (by norm_num), part_at_neg _ _ (by norm_num),
      part_at_neg _ _ (by norm_num)]
    rfl
  rw [← e0]
  exact key

/-- The test of filter_new_03 on neighbours, in the words of the specification, for a
partition with non-decreasing parts. -/
theorem gap1_bad_iff (a : List Int) (h : ∀ x ∈ a, (1 : Int) ≤ x)
    (hsorted : List.Sorted (fun x y => x ≤ y) a) (i : Nat) (hi : i < a.length) (h1 : 1 ≤ i) :
    (part_at a i - part_at a ((i : Int) - 1) < 2 ∧
      Int.tmod (part_at a ((i : Int) - 1) + part_at a i) 5 = 0) ↔
    ((a.getD i 0 - a.getD (i - 1) 0 = 0 ∨ a.getD i 0 - a.getD (i - 1) 0 = 1) ∧
      (a.getD (i - 1) 0 + a.getD i 0) % 5 = 0) := by
  have e2 : (i : Int) - 1 = ((i - 1 : Nat) : Int) := by omega
  rw [e2, part_at_nat, part_at_nat]
  have hle := sorted_getD a hsorted (i - 1) i (by omega) hi
  have n0 := getD_nonneg a h i
  have n1 := getD_nonneg a h (i - 1)
  rw [Int.tmod_eq_emod (by omega) (by norm_num)]
  constructor
  · rintro ⟨hd, hm⟩
    exact ⟨by omega, hm⟩
  · rintro ⟨hd, hm⟩
    exact ⟨by omega, hm⟩

/-- What filter_new_03 computes on a partition with non-decreasing parts: condition (a), or
the condition of filter_new_06 (the difference at distance 2, from the index 2 on). -/
theorem filter_new_03_eq (n : Int) (p : partition_t) (hp : PartitionInv n p)
    (hn : n < 2 ^ 31) (hsorted : List.Sorted (fun x y => x ≤ y) p.a) :
    partnid.filter_new_03 p = false ↔ new_03_rejects_a p ∨ new_03_rejects_b 2 2 p := by
  obtain ⟨_, hlen, hpos, hsum, _⟩ := hp
  unfold partnid.filter_new_03 new_03_rejects_a new_03_rejects_b
  by_cases hl : p.len < 2
  · rw [if_pos hl]
    constructor
    · intro h
      exact absurd h (by simp)
    · rintro (⟨i, h1, hi, _⟩ | ⟨i, h1, hi, _⟩)
      all_goals omega
  · rw [if_neg hl, filter_new_03_loop p hpos (by omega)]
    constructor
    · rintro ⟨i, hi, ⟨h1, hb⟩ | ⟨h2, hb⟩⟩
      · exact Or.inl ⟨i, h1, hi, (gap1_bad_iff p.a hpos hsorted i (by omega) h1).mp hb⟩
      · exact Or.inr ⟨i, h2, hi, (gap3_bad_iff 3 p.a hpos hsorted i (by omega) h2).mp hb⟩
    · rintro (⟨i, h1, hi, hb⟩ | ⟨i, h2, hi, hb⟩)
      · exact ⟨i, hi, Or.inl ⟨h1, (gap1_bad_iff p.a hpos hsorted i (by omega) h1).mpr hb⟩⟩
      · exact ⟨i, hi, Or.inr ⟨h2, (gap3_bad_iff 3 p.a hpos hsorted i (by omega) h2).mpr hb⟩⟩

/-! ## The claims on the filters -/

theorem gap3_filter_eq (res : Int) (n : Int) (p : partition_t) (hp : PartitionInv n p)
    (hn : n < 2 ^ 31) (hsorted : List.Sorted (fun x y => x ≤ y) p.a) :
    (if p.len < 3 then true
      else ((List.range p.len).foldlM (partnid.gap3_turn res p) ⟨0, 0, 0, 0, -1⟩).isSome) = false
      ↔ gap3_rejects res p := by
  by_cases hl : p.len < 3
  · rw [if_pos hl]
    constructor
    · intro h
      exact absurd h (by simp)
    · intro h
      exact absurd hl (gap3_rejects_len res p h)
  · rw [if_neg hl]
    exact gap3_loop_spec res n p hp hn hsorted

/-- C21: for every partition p of an int n (the Partition invariant holds and n is below
2^31) whose parts are in non-decreasing order, filter_new_06 rejects p if and only if some
index i with 2 <= i < len has a[i] - a[i-2] in {0, 1} and (a[i-2] + a[i-1] + a[i]) mod 5 = 3;
filter_new_6x and filter_new_6y reject p if and only if the same holds with the residue 4
and the residue 0.  Every partition with fewer than 3 parts, in whatever order, is accepted
by the three filters. -/
theorem filter_new_06_family_spec (n : Int) (p : partition_t) (hp : PartitionInv n p)
    (hn : n < 2 ^ 31) :
    (List.Sorted (fun x y => x ≤ y) p.a →
      (partnid.filter_new_06 p = false ↔ gap3_rejects 3 p) ∧
      (partnid.filter_new_6x p = false ↔ gap3_rejects 4 p) ∧
      (partnid.filter_new_6y p = false ↔ gap3_rejects 0 p)) ∧
    (p.len < 3 → partnid.filter_new_06 p = true ∧ partnid.filter_new_6x p = true ∧
      partnid.filter_new_6y p = true) := by
  refine ⟨fun hsorted => ⟨gap3_filter_eq 3 n p hp hn hsorted, gap3_filter_eq 4 n p hp hn hsorted,
    gap3_filter_eq 0 n p hp hn hsorted⟩, fun hl => ?_⟩
  unfold partnid.filter_new_06 partnid.filter_new_6x partnid.filter_new_6y
  rw [if_pos hl, if_pos hl, if_pos hl]
  exact ⟨rfl, rfl, rfl⟩

theorem filter_new_06_family_spec_witness :
    (List.Sorted (fun x y => x ≤ y) [(1 : Int), 1, 1] →
      (partnid.filter_new_06 ⟨3, 3, [1, 1, 1]⟩ = false ↔ gap3_rejects 3 ⟨3, 3, [1, 1, 1]⟩) ∧
      (partnid.filter_new_6x ⟨3, 3, [1, 1, 1]⟩ = false ↔ gap3_rejects 4 ⟨3, 3, [1, 1, 1]⟩) ∧
      (partnid.filter_new_6y ⟨3, 3, [1, 1, 1]⟩ = false ↔ gap3_rejects 0 ⟨3, 3, [1, 1, 1]⟩)) ∧
    ((3 : Nat) < 3 → partnid.filter_new_06 ⟨3, 3, [1, 1, 1]⟩ = true ∧
      partnid.filter_new_6x ⟨3, 3, [1, 1, 1]⟩ = true ∧
      partnid.filter_new_6y ⟨3, 3, [1, 1, 1]⟩ = true) :=
  filter_new_06_family_spec 3 ⟨3, 3, [1, 1, 1]⟩ ⟨rfl, rfl, by decide, rfl, by decide⟩
    (by norm_num)

/-- C22: for every partition p of an int n, filter_new_04 rejects p when p is not empty and
its first part is 1, and filter_new_05 rejects p when p has at least two parts and its first
two parts are both 1.  When the parts of p are in non-decreasing order and p passes the
initial condition, filter_new_04 (filter_new_05) rejects p if and only if some index i with
2 <= i < len has a[i] - a[i-2] in {0, 1} and (a[i-2] + a[i-1] + a[i]) mod 5 equal to 1
(equal to 2). -/
theorem filter_new_04_05_spec (n : Int) (p : partition_t) (hp : PartitionInv n p)
    (hn : n < 2 ^ 31) :
    ((0 < p.len ∧ p.a.getD 0 0 = 1) → partnid.filter_new_04 p = false) ∧
    ((2 ≤ p.len ∧ p.a.getD 0 0 = 1 ∧ p.a.getD 1 0 = 1) → partnid.filter_new_05 p = false) ∧
    (List.Sorted (fun x y => x ≤ y) p.a → ¬ (0 < p.len ∧ p.a.getD 0 0 = 1) →
      (partnid.filter_new_04 p = false ↔ gap3_rejects 1 p)) ∧
    (List.Sorted (fun x y => x ≤ y) p.a →
      ¬ (2 ≤ p.len ∧ p.a.getD 0 0 = 1 ∧ p.a.getD 1 0 = 1) →
      (partnid.filter_new_05 p = false ↔ gap3_rejects 2 p)) := by
  refine ⟨fun h => ?_, fun h => ?_, fun hsorted h => ?_, fun hsorted h => ?_⟩
  · unfold partnid.filter_new_04
    rw [if_pos (show p.len > 0 ∧ p.a.getD 0 0 = 1 from h)]
  · unfold partnid.filter_new_05
    rw [if_pos (show p.len > 1 ∧ p.a.getD 0 0 = 1 ∧ p.a.getD 1 0 = 1 from ⟨h.1, h.2⟩)]
  · unfold partnid.filter_new_04
    rw [if_neg (show ¬ (p.len > 0 ∧ p.a.getD 0 0 = 1) from h)]
    exact gap3_filter_eq 1 n p hp hn hsorted
  · unfold partnid.filter_new_05
    rw [if_neg (show ¬ (p.len > 1 ∧ p.a.getD 0 0 = 1 ∧ p.a.getD 1 0 = 1) from
      fun h1 => h ⟨h1.1, h1.2⟩)]
    exact gap3_filter_eq 2 n p hp hn hsorted

theorem filter_new_04_05_spec_witness :
    ((0 < 3 ∧ [(2 : Int), 2, 2].getD 0 0 = 1) → partnid.filter_new_04 ⟨6, 3, [2, 2, 2]⟩ = false) ∧
    ((2 ≤ 3 ∧ [(2 : Int), 2, 2].getD 0 0 = 1 ∧ [(2 : Int), 2, 2].getD 1 0 = 1) →
      partnid.filter_new_05 ⟨6, 3, [2, 2, 2]⟩ = false) ∧
    (List.Sorted (fun x y => x ≤ y) [(2 : Int), 2, 2] →
      ¬ (0 < 3 ∧ [(2 : Int), 2, 2].getD 0 0 = 1) →
      (partnid.filter_new_04 ⟨6, 3, [2, 2, 2]⟩ = false ↔ gap3_rejects 1 ⟨6, 3, [2, 2, 2]⟩)) ∧
    (List.Sorted (fun x y => x ≤ y) [(2 : Int), 2, 2] →
      ¬ (2 ≤ 3 ∧ [(2 : Int), 2, 2].getD 0 0 = 1 ∧ [(2 : Int), 2, 2].getD 1 0 = 1) →
      (partnid.filter_new_05 ⟨6, 3, [2, 2, 2]⟩ = false ↔ gap3_rejects 2 ⟨6, 3, [2, 2, 2]⟩)) :=
  filter_new_04_05_spec 6 ⟨6, 3, [2, 2, 2]⟩ ⟨rfl, rfl, by decide, rfl, by decide⟩ (by norm_num)

/-- C23, as amended: for every partition p of an int n with non-decreasing parts,
filter_new_03 rejects p if and only if (a) some i with 1 <= i < len has a[i] - a[i-1] in
{0, 1} and (a[i-1] + a[i]) mod 5 = 0, or (b) some i with 2 <= i < len has the difference at
distance 2, a[i] - a[i-2], in {0, 1} and (a[i-2] + a[i-1] + a[i]) mod 5 = 3. -/
theorem filter_new_03_spec (n : Int) (p : partition_t) (hp : PartitionInv n p)
    (hn : n < 2 ^ 31) (hsorted : List.Sorted (fun x y => x ≤ y) p.a) :
    partnid.filter_new_03 p = false ↔ new_03_rejects_a p ∨ new_03_rejects_b 2 2 p :=
  filter_new_03_eq n p hp hn hsorted

theorem filter_new_03_spec_witness :
    partnid.filter_new_03 ⟨3, 3, [1, 1, 1]⟩ = false ↔
      new_03_rejects_a ⟨3, 3, [1, 1, 1]⟩ ∨ new_03_rejects_b 2 2 ⟨3, 3, [1, 1, 1]⟩ :=
  filter_new_03_spec 3 ⟨3, 3, [1, 1, 1]⟩ ⟨rfl, rfl, by decide, rfl, by decide⟩ (by norm_num)
    (by decide)

/-- C23, the counterexample: the partition 1 + 1 + 1 of 3 has non-decreasing parts and is
rejected by filter_new_03 (a[2] - a[0] = 0 and 1 + 1 + 1 = 3), but neither condition (a) nor
condition (b) with the difference at distance 3 from the index 3 on holds for it. -/
theorem filter_new_03_rejects_at_distance_two :
    PartitionInv 3 ⟨3, 3, [1, 1, 1]⟩ ∧ List.Sorted (fun x y => x ≤ y) [(1 : Int), 1, 1] ∧
    partnid.filter_new_03 ⟨3, 3, [1, 1, 1]⟩ = false ∧
    ¬ (new_03_rejects_a ⟨3, 3, [1, 1, 1]⟩ ∨ new_03_rejects_b 3 3 ⟨3, 3, [1, 1, 1]⟩) := by
  refine ⟨⟨rfl, rfl, by decide, rfl, by decide⟩, by decide, by decide, ?_⟩
  rintro (⟨i, h1, hi, _, hm⟩ | ⟨i, h3, hi, _⟩)
  · have hi3 : i < 3 := hi
    interval_cases i
    · revert hm; decide
    · revert hm; decide
  · have hi3 : i < 3 := hi
    omega

/-- C24: for every partition p of an int n (parts at least 1, in any order), filter_new_01
rejects p if and only if some i with 1 <= i < len has a[i] - a[i-1] = 1 and
(a[i-1] + a[i]) mod 4 = 3; filter_new_02 rejects p if and only if some i with 1 <= i < len
has a[i] - a[i-1] = 1 and (a[i-1] + a[i]) mod 4 = 3, or some i with 1 <= i < len has
a[i] - a[i-1] = 3 and (a[i-1] + a[i]) mod 4 = 1. -/
theorem filter_new_01_02_spec (n : Int) (p : partition_t) (hp : PartitionInv n p)
    (hn : n < 2 ^ 31) :
    (partnid.filter_new_01 p = false ↔ gap2_rejects 1 3 p) ∧
    (partnid.filter_new_02 p = false ↔ gap2_rejects 1 3 p ∨ gap2_rejects 3 1 p) :=
  ⟨filter_new_01_eq n p hp hn, filter_new_02_eq n p hp hn⟩

theorem filter_new_01_02_spec_witness :
    (partnid.filter_new_01 ⟨6, 3, [3, 1, 2]⟩ = false ↔ gap2_rejects 1 3 ⟨6, 3, [3, 1, 2]⟩) ∧
    (partnid.filter_new_02 ⟨6, 3, [3, 1, 2]⟩ = false ↔
      gap2_rejects 1 3 ⟨6, 3, [3, 1, 2]⟩ ∨ gap2_rejects 3 1 ⟨6, 3, [3, 1, 2]⟩) :=
  filter_new_01_02_spec 6 ⟨6, 3, [3, 1, 2]⟩ ⟨rfl, rfl, by decide, rfl, by decide⟩ (by norm_num)

/-! ## The generator of partnid.c -/

theorem pwr_eq (a : Buf) (i v : Int) (h : i ≤ 199) : partnid.wr a i v = wr a i v := by
  funext j
  unfold partnid.wr wr partnid.MAXNUMP partnid.MAXN MAXNUMP
  by_cases hj : j = i
  · subst hj
    by_cases h0 : 0 ≤ j
    · rw [if_pos ⟨rfl, h0, by push_cast; omega⟩, if_pos ⟨rfl, h0, by push_cast; omega⟩]
    · rw [if_neg (fun hh => h0 hh.2.1), if_neg (fun hh => h0 hh.2.1)]
  · rw [if_neg (fun hh => hj hh.1), if_neg (fun hh => hj hh.1)]

theorem prd_wr_snoc (a : Buf) (k : Nat) (v : Int) (c : List Int) (hc : rd a k = c)
    (hk : k ≤ 199) : rd (partnid.wr a k v) (k + 1) = c ++ [v] := by
  rw [pwr_eq _ _ _ (by omega)]
  exact rd_wr_snoc a k v c hc (by omega)

theorem prd_wr_snoc_int (a : Buf) (k : Nat) (j v : Int) (c : List Int) (hj : j = (k : Int))
    (hc : rd a k = c) (hk : k ≤ 199) : rd (partnid.wr a j v) (k + 1) = c ++ [v] := by
  subst hj
  exact prd_wr_snoc a k v c hc hk

/-- What a fold over the visits of c ++ l for l in asc m (n - m) and then in asc (m + 1) n
leaves is what the fold over the visits for l in asc m n leaves. -/
theorem asc_fold_split {γ : Type} (f : γ → partition_t → γ) (N : Int) (c : List Int)
    (m n : Nat) (h : 0 < m ∧ 2 * m ≤ n) (g : γ) :
    ((asc (m + 1) n).map (psnap N c)).foldl f
        (((asc m (n - m)).map (psnap N (c ++ [(m : Int)]))).foldl f g)
      = ((asc m n).map (psnap N c)).foldl f g := by
  rw [asc_rec m n h]
  simp only [List.map_append, List.map_map, List.foldl_append, psnap_cons]

theorem asc_fold_pair {γ : Type} (f : γ → partition_t → γ) (N : Int) (c : List Int)
    (m n : Nat) (h : 0 < m ∧ 2 * m ≤ n) (h3 : n < 3 * m) (g : γ) :
    ((asc (m + 1) n).map (psnap N c)).foldl f (f g (psnap N c [(m : Int), ((n : Int) - m)]))
      = ((asc m n).map (psnap N c)).foldl f g := by
  rw [← asc_fold_split f N c m n h g]
  have e : asc m (n - m) = [[((n - m : Nat) : Int)]] := asc_base m (n - m) (by omega)
  have hc : ((n - m : Nat) : Int) = (n : Int) - m := by omega
  rw [e]
  simp only [List.map_cons, List.map_nil, List.foldl_cons, List.foldl_nil, hc]
  congr 2
  simp [psnap]

theorem asc_fold_triple {γ : Type} (f : γ → partition_t → γ) (N : Int) (c : List Int)
    (m n : Nat) (h : 0 < m ∧ 3 * m ≤ n) (h4 : n < 4 * m) (g : γ) :
    ((asc (m + 1) n).map (psnap N c)).foldl f
        (((asc (m + 1) (n - m)).map (psnap N (c ++ [(m : Int)]))).foldl f
          (f g (psnap N c [(m : Int), (m : Int), ((n : Int) - m - m)])))
      = ((asc m n).map (psnap N c)).foldl f g := by
  rw [← asc_fold_split f N c m n ⟨h.1, by omega⟩ g,
    ← asc_fold_pair f N (c ++ [(m : Int)]) m (n - m) ⟨h.1, by omega⟩ (by omega) g]
  have hc : ((n - m : Nat) : Int) - m = (n : Int) - m - m := by omega
  rw [hc]
  congr 3
  simp [psnap]

/-- From the test of the loop over the pairs (r, s) with r = r0, s = T - r0, y = T, when
3 r0 > T, merca3 of partnid.c visits c1 ++ l for every l of asc r0 T and is back at the test of
`while (2*x <= y)` with x one more and y one less. -/
theorem pmerca3_rs (F : partition_t → Bool) (N : Int) (d : Nat) :
    ∀ (r0 T : Nat) (c1 : List Int) (a : Buf) (k x : Int) (cnt : Nat) (g : partnid.Glob),
      T - r0 < d → 1 ≤ r0 → r0 ≤ T → T < 3 * r0 → c1.length + T ≤ 200 → rd a c1.length = c1 →
      ∃ a' r' s', Reach (partnid.merca3_step F N)
        ⟨.rs, a, k, r0, (T : Int) - r0, c1.length, (c1.length : Int) + 1, x, T, cnt, g⟩
        ⟨.w2, a', k, r', s', c1.length, (c1.length : Int) + 1, x + 1, (T : Int) - 1,
          cnt, ((asc r0 T).map (psnap N c1)).foldl (partnid.visit F N) g⟩ ∧
        rd a' (c1.length + 1) = c1 ++ [(T : Int)] := by
  induction d with
  | zero => intro r0 T c1 a k x cnt g h; omega
  | succ d ih =>
    intro r0 T c1 a k x cnt g hd hr hrT h3 hlen hrd
    by_cases h2 : 2 * r0 ≤ T
    · -- the visit of c1 ++ [r, s]; r++; s--
      have hw1 : rd (partnid.wr a c1.length r0) (c1.length + 1) = c1 ++ [(r0 : Int)] :=
        prd_wr_snoc a _ _ c1 hrd (by omega)
      have hw2 : rd (partnid.wr (partnid.wr a c1.length r0) ((c1.length : Int) + 1) ((T : Int) - r0))
          (c1.length + [(r0 : Int), (T : Int) - r0].length)
          = c1 ++ [(r0 : Int), (T : Int) - r0] := by
        have := prd_wr_snoc_int (partnid.wr a c1.length r0) (c1.length + 1) ((c1.length : Int) + 1)
          ((T : Int) - r0) _ (by push_cast; rfl) hw1 (by omega)
        simpa using this
      have hrd1 : rd (partnid.wr (partnid.wr a c1.length r0) ((c1.length : Int) + 1) ((T : Int) - r0))
          c1.length = c1 := rd_append_inv _ _ _ hw2
      obtain ⟨a2, r2, s2, hr2, hrd2⟩ := ih (r0 + 1) T c1 _ k x cnt
        (partnid.visit F N g (psnap N c1 [(r0 : Int), ((T : Int) - r0)]))
        (by omega) (by omega) (by omega) (by omega) hlen hrd1
      rw [asc_fold_pair (partnid.visit F N) N c1 r0 T ⟨hr, h2⟩ h3 g] at hr2
      refine ⟨a2, r2, s2, ?_, hrd2⟩
      refine Reach.step _ ?_ hr2
      have hxy : (r0 : Int) ≤ (T : Int) - r0 := by omega
      have hs : snap N ((c1.length : Int) + 1 + 1)
          (partnid.wr (partnid.wr a c1.length r0) ((c1.length : Int) + 1) ((T : Int) - r0))
          = psnap N c1 [(r0 : Int), (T : Int) - r0] :=
        snap_psnap _ _ _ _ _ (by simp; omega) hw2
      simp only [partnid.merca3_step, hxy, if_true, hs]
      congr 1
      all_goals first | rfl | (push_cast; omega)
    · -- p.a[t] = y; the visit of c1 ++ [y]; x++; y--
      have e : asc r0 T = [[(T : Int)]] := asc_base r0 T (by omega)
      have hw : rd (partnid.wr a c1.length (T : Int)) (c1.length + 1) = c1 ++ [(T : Int)] :=
        prd_wr_snoc a _ _ c1 hrd (by omega)
      refine ⟨_, r0, (T : Int) - r0, ?_, hw⟩
      apply Reach.one
      have hxy : ¬ ((r0 : Int) ≤ (T : Int) - r0) := by omega
      have hs : snap N ((c1.length : Int) + 1) (partnid.wr a c1.length (T : Int))
          = psnap N c1 [(T : Int)] :=
        snap_psnap _ _ _ _ _ (by simp) (by simpa using hw)
      simp only [partnid.merca3_step, hxy, if_false, e, hs,
        List.map_cons, List.map_nil, List.foldl_cons, List.foldl_nil]

/-- From the test of the loop over the pairs (x, y) with x = m, y = n - m, when 3 m > n,
merca3 of partnid.c visits c ++ l for every l of asc m n and is back at the outer test. -/
theorem pmerca3_pair (F : partition_t → Bool) (N : Int) (d : Nat) :
    ∀ (m n : Nat) (c : List Int) (a : Buf) (r s u : Int) (cnt : Nat)
      (g : partnid.Glob),
      n - m < d → 1 ≤ m → m ≤ n → n < 3 * m → c.length + n ≤ 200 → rd a c.length = c →
      ∃ a', Reach (partnid.merca3_step F N)
        ⟨.pair, a, c.length, r, s, (c.length : Int) + 1, u, m, (n : Int) - m, cnt, g⟩
        ⟨.outer, a', (c.length : Int) - 1, r, s, (c.length : Int) + 1, u,
          a' ((c.length : Int) - 1) + 1, (n : Int) - 1,
          cnt, ((asc m n).map (psnap N c)).foldl (partnid.visit F N) g⟩ ∧
        rd a' (c.length + 1) = c ++ [(n : Int)] := by
  induction d with
  | zero => intro m n c a r s u cnt g h; omega
  | succ d ih =>
    intro m n c a r s u cnt g hd hm hmn h3 hlen hrd
    by_cases h2 : 2 * m ≤ n
    · -- the visit of c ++ [x, y]; x++; y--
      have hw1 : rd (partnid.wr a c.length m) (c.length + 1) = c ++ [(m : Int)] :=
        prd_wr_snoc a _ _ c hrd (by omega)
      have hw2 : rd (partnid.wr (partnid.wr a c.length m) ((c.length : Int) + 1) ((n : Int) - m))
          (c.length + [(m : Int), (n : Int) - m].length) = c ++ [(m : Int), (n : Int) - m] := by
        have := prd_wr_snoc_int (partnid.wr a c.length m) (c.length + 1) ((c.length : Int) + 1)
          ((n : Int) - m) _ (by push_cast; rfl) hw1 (by omega)
        simpa using this
      have hrd1 : rd (partnid.wr (partnid.wr a c.length m) ((c.length : Int) + 1) ((n : Int) - m)) c.length
          = c := rd_append_inv _ _ _ hw2
      obtain ⟨a2, hr2, hrd2⟩ := ih (m + 1) n c _ r s u cnt
        (partnid.visit F N g (psnap N c [(m : Int), ((n : Int) - m)]))
        (by omega) (by omega) (by omega) (by omega) hlen hrd1
      rw [asc_fold_pair (partnid.visit F N) N c m n ⟨hm, h2⟩ h3 g] at hr2
      refine ⟨a2, ?_, hrd2⟩
      refine Reach.step _ ?_ hr2
      have hxy : (m : Int) ≤ (n : Int) - m := by omega
      have hs : snap N ((c.length : Int) + 1 + 1)
          (partnid.wr (partnid.wr a c.length m) ((c.length : Int) + 1) ((n : Int) - m))
          = psnap N c [(m : Int), (n : Int) - m] :=
        snap_psnap _ _ _ _ _ (by simp; omega) hw2
      simp only [partnid.merca3_step, hxy, if_true, hs]
      congr 1
      all_goals first | rfl | (push_cast; omega)
    · -- y += x - 1; p.a[k] = y + 1; the visit of c ++ [n]; k--; x = p.a[k] + 1
      have e : asc m n = [[(n : Int)]] := asc_base m n (by omega)
      have hy : (n : Int) - m + ((m : Int) - 1) + 1 = n := by ring
      have hw : rd (partnid.wr a c.length ((n : Int) - m + ((m : Int) - 1) + 1)) (c.length + 1)
          = c ++ [(n : Int)] := by
        rw [hy]
        exact prd_wr_snoc a _ _ c hrd (by omega)
      refine ⟨_, ?_, hw⟩
      apply Reach.one
      have hxy : ¬ ((m : Int) ≤ (n : Int) - m) := by omega
      have hs : snap N ((c.length : Int) + 1)
          (partnid.wr a c.length ((n : Int) - m + ((m : Int) - 1) + 1)) = psnap N c [(n : Int)] :=
        snap_psnap _ _ _ _ _ (by simp) (by simpa using hw)
      simp only [partnid.merca3_step, hxy, if_false, e, hs,
        List.map_cons, List.map_nil, List.foldl_cons, List.foldl_nil]
      congr 1
      omega

/-- From the test of `while (2*x <= y)` with x = m, y = n - m, when 4 m > n, merca3 of partnid.c visits
c ++ l for every l of asc m n and is back at the outer test. -/
theorem pmerca3_w2 (F : partition_t → Bool) (N : Int) (d : Nat) :
    ∀ (m n : Nat) (c : List Int) (a : Buf) (r s : Int) (cnt : Nat) (g : partnid.Glob),
      n - m < d → 1 ≤ m → m ≤ n → n < 4 * m → c.length + n ≤ 200 → rd a c.length = c →
      ∃ a' r' s', Reach (partnid.merca3_step F N)
        ⟨.w2, a, c.length, r, s, (c.length : Int) + 1, (c.length : Int) + 2, m,
          (n : Int) - m, cnt, g⟩
        ⟨.outer, a', (c.length : Int) - 1, r', s', (c.length : Int) + 1,
          (c.length : Int) + 2, a' ((c.length : Int) - 1) + 1, (n : Int) - 1,
          cnt, ((asc m n).map (psnap N c)).foldl (partnid.visit F N) g⟩ ∧
        rd a' (c.length + 1) = c ++ [(n : Int)] := by
  induction d with
  | zero => intro m n c a r s cnt g h; omega
  | succ d ih =>
    intro m n c a r s cnt g hd hm hmn h4 hlen hrd
    by_cases h3 : 3 * m ≤ n
    · -- the visit of c ++ [x, x, y - x], then the pairs (r, s), then c ++ [x, y]
      have hw1 : rd (partnid.wr a c.length m) (c.length + 1) = c ++ [(m : Int)] :=
        prd_wr_snoc a _ _ c hrd (by omega)
      have hw2 : rd (partnid.wr (partnid.wr a c.length m) ((c.length : Int) + 1) m) (c.length + 1 + 1)
          = c ++ [(m : Int)] ++ [(m : Int)] :=
        prd_wr_snoc_int (partnid.wr a c.length m) (c.length + 1) ((c.length : Int) + 1)
          m _ (by push_cast; rfl) hw1 (by omega)
      have hw3 : rd (partnid.wr (partnid.wr (partnid.wr a c.length m) ((c.length : Int) + 1) m)
          ((c.length : Int) + 2) ((n : Int) - m - m))
          (c.length + [(m : Int), (m : Int), (n : Int) - m - m].length)
          = c ++ [(m : Int), (m : Int), (n : Int) - m - m] := by
        have := prd_wr_snoc_int (partnid.wr (partnid.wr a c.length m) ((c.length : Int) + 1) m)
          (c.length + 1 + 1) ((c.length : Int) + 2)
          ((n : Int) - m - m) _ (by push_cast; ring) hw2 (by omega)
        simpa using this
      have hrd1 : rd (partnid.wr (partnid.wr (partnid.wr a c.length m) ((c.length : Int) + 1) m)
          ((c.length : Int) + 2) ((n : Int) - m - m)) (c ++ [(m : Int)]).length
          = c ++ [(m : Int)] := by
        have h5 : rd (partnid.wr (partnid.wr (partnid.wr a c.length m) ((c.length : Int) + 1) m)
            ((c.length : Int) + 2) ((n : Int) - m - m))
            ((c ++ [(m : Int)]).length + [(m : Int), (n : Int) - m - m].length)
            = (c ++ [(m : Int)]) ++ [(m : Int), (n : Int) - m - m] := by
          simpa [Nat.add_assoc] using hw3
        exact rd_append_inv _ _ _ h5
      have hlen1 : (c ++ [(m : Int)]).length = c.length + 1 := by simp
      obtain ⟨a1, r1, s1, hr1, hrd2⟩ := pmerca3_rs F N (n - m) (m + 1) (n - m)
        (c ++ [(m : Int)]) _ c.length m cnt
        (partnid.visit F N g (psnap N c [(m : Int), (m : Int), ((n : Int) - m - m)]))
        (by omega) (by omega) (by omega) (by omega) (by rw [hlen1]; omega) hrd1
      rw [hlen1] at hr1 hrd2
      obtain ⟨hrd3, _⟩ := rd_snoc_inv a1 _ _ _ hrd2
      obtain ⟨hrd4, _⟩ := rd_snoc_inv a1 _ _ _ hrd3
      obtain ⟨a2, r2, s2, hr2, hrd5⟩ := ih (m + 1) n c a1 r1 s1 _ _
        (by omega) (by omega) (by omega) (by omega) hlen hrd4
      rw [asc_fold_triple (partnid.visit F N) N c m n ⟨hm, h3⟩ h4 g] at hr2
      refine ⟨a2, r2, s2, ?_, hrd5⟩
      refine Reach.step _ ?_ (Reach.trans (Reach.of_eq hr1 ?_) hr2)
      · have hxy : 2 * (m : Int) ≤ (n : Int) - m := by omega
        have hs : snap N ((c.length : Int) + 2 + 1)
            (partnid.wr (partnid.wr (partnid.wr a c.length m) ((c.length : Int) + 1) m)
              ((c.length : Int) + 2) ((n : Int) - m - m))
            = psnap N c [(m : Int), (m : Int), (n : Int) - m - m] :=
          snap_psnap _ _ _ _ _ (by simp; omega) hw3
        simp only [partnid.merca3_step, hxy, if_true, hs]
        congr 1
        all_goals first | rfl | (push_cast; omega)
      · congr 1
        all_goals first | rfl | (push_cast; omega)
    · -- the loop over the pairs (x, y)
      obtain ⟨a1, hr1, hrd1⟩ := pmerca3_pair F N (n - m + 1) m n c a r s
        ((c.length : Int) + 2) cnt g (by omega) hm hmn (by omega) hlen hrd
      refine ⟨a1, r, s, ?_, hrd1⟩
      refine Reach.step _ ?_ hr1
      have hxy : ¬ (2 * (m : Int) ≤ (n : Int) - m) := by omega
      simp only [partnid.merca3_step, hxy, if_false]

/-- From the test of `while (3*x <= y)` with x = m, y = n - m and the parts c in front,
merca3 of partnid.c visits c ++ l for every l of asc m n, in order, and is back at the outer test. -/
theorem pmerca3_w3 (F : partition_t → Bool) (N : Int) (d : Nat) :
    ∀ (m n : Nat) (c : List Int) (a : Buf) (r s t u : Int) (cnt : Nat)
      (g : partnid.Glob),
      2 * n - m < d → 1 ≤ m → m ≤ n → c.length + n ≤ 200 → rd a c.length = c →
      ∃ a' r' s' t' u', Reach (partnid.merca3_step F N)
        ⟨.w3, a, c.length, r, s, t, u, m, (n : Int) - m, cnt, g⟩
        ⟨.outer, a', (c.length : Int) - 1, r', s', t', u',
          a' ((c.length : Int) - 1) + 1, (n : Int) - 1,
          cnt, ((asc m n).map (psnap N c)).foldl (partnid.visit F N) g⟩ ∧
        rd a' (c.length + 1) = c ++ [(n : Int)] := by
  induction d with
  | zero => intro m n c a r s t u cnt g h; omega
  | succ d ih =>
    intro m n c a r s t u cnt g hd hm hmn hlen hrd
    by_cases h4 : 4 * m ≤ n
    · -- a[k] = x; y -= x; k++
      have hrd1 : rd (partnid.wr a c.length m) (c ++ [(m : Int)]).length = c ++ [(m : Int)] := by
        simp only [List.length_append, List.length_singleton]
        exact prd_wr_snoc a _ _ c hrd (by omega)
      obtain ⟨a1, r1, s1, t1, u1, hr1, hrd2⟩ := ih m (n - m) (c ++ [(m : Int)])
        (partnid.wr a c.length m) r s t u cnt g (by omega) hm (by omega) (by simp; omega) hrd1
      have hlen1 : (c ++ [(m : Int)]).length = c.length + 1 := by simp
      rw [hlen1] at hr1 hrd2
      obtain ⟨hrd3, _⟩ := rd_snoc_inv a1 _ _ _ hrd2
      obtain ⟨hrd4, hp⟩ := rd_snoc_inv a1 _ _ _ hrd3
      obtain ⟨a2, r2, s2, t2, u2, hr2, hrd5⟩ := ih (m + 1) n c a1 r1 s1 t1 u1
        cnt
        (((asc m (n - m)).map (psnap N (c ++ [(m : Int)]))).foldl (partnid.visit F N) g)
        (by omega) (by omega)
        (by omega) hlen hrd4
      rw [asc_fold_split (partnid.visit F N) N c m n ⟨hm, by omega⟩ g] at hr2
      refine ⟨a2, r2, s2, t2, u2, ?_, hrd5⟩
      refine Reach.step ⟨.w3, partnid.wr a c.length m, ((c.length + 1 : Nat) : Int), r, s, t, u, m,
        ((n - m : Nat) : Int) - m, cnt, g⟩ ?_ ?_
      · have hxy : 3 * (m : Int) ≤ (n : Int) - m := by omega
        simp only [partnid.merca3_step, hxy, if_true]
        congr 1
        all_goals omega
      have hk1 : ((c.length + 1 : Nat) : Int) - 1 = c.length := by omega
      rw [hk1, hp] at hr1
      refine Reach.trans hr1 ?_
      refine Reach.step _ ?_ hr2
      have hk : (c.length : Int) ≥ 0 := by omega
      simp only [partnid.merca3_step, hk, if_true]
      congr 1
      all_goals omega
    · -- t = k + 1; u = k + 2 and the loop `while (2*x <= y)`
      obtain ⟨a1, r1, s1, hr1, hrd1⟩ := pmerca3_w2 F N (n - m + 1) m n c a r s cnt g
        (by omega) hm hmn (by omega) hlen hrd
      refine ⟨a1, r1, s1, (c.length : Int) + 1, (c.length : Int) + 2, ?_, hrd1⟩
      refine Reach.step _ ?_ hr1
      have hxy : ¬ (3 * (m : Int) ≤ (n : Int) - m) := by omega
      simp only [partnid.merca3_step, hxy, if_false]


/-! ## The runs of the generator and of the verification -/

/-- For 1 <= n <= MAXN merca3 of partnid.c returns 0 after the filter block has been run on
every composition of asc 1 n, in order. -/
theorem pmerca3_run (F : partition_t → Bool) (mem : Buf) (n : Nat) (g : partnid.Glob)
    (h1 : 1 ≤ n) (h2 : n ≤ 199) :
    Returns (fun fuel => partnid.merca3 F fuel mem n g)
      (0, ((asc 1 n).map (psnap n [])).foldl (partnid.visit F n) g) := by
  have hn0 : ¬ ((n : Int) < 0) := by omega
  have hn1 : ¬ ((n : Int) = 0) := by omega
  have hinit : partnid.merca3_init F mem n g
      = ⟨.outer, partnid.memset_a mem, 0, 0, 0, 0, 0, 1, (n : Int) - 1, 0, g⟩ := by
    unfold partnid.merca3_init
    rw [if_neg hn0, if_neg hn1]
  rw [show (fun fuel => partnid.merca3 F fuel mem n g) = fun fuel =>
      (let s := (partnid.merca3_step F n)^[fuel] (partnid.merca3_init F mem n g)
       if s.pc = .ret then some (s.count, s.g) else none) from rfl, hinit]
  generalize partnid.memset_a mem = a0
  obtain ⟨a', r', s', t', u', hr, _⟩ := pmerca3_w3 F n (2 * n) 1 n [] a0 0 0 0 0 0 g
    (by omega) (le_refl _) h1 (by simp; omega) rfl
  have hreach : Reach (partnid.merca3_step F n)
      ⟨.outer, a0, 0, 0, 0, 0, 0, 1, (n : Int) - 1, 0, g⟩
      ⟨.ret, a', -1, r', s', t', u', a' (-1) + 1, (n : Int) - 1, 0,
        ((asc 1 n).map (psnap n [])).foldl (partnid.visit F n) g⟩ := by
    refine Reach.step ⟨.w3, a0, 0, 0, 0, 0, 0, 1, (n : Int) - 1, 0, g⟩ ?_ ?_
    · simp only [partnid.merca3_step, ge_iff_le, le_refl, if_true]
    refine Reach.trans (by simpa using hr) ?_
    apply Reach.one
    simp [partnid.merca3_step]
  obtain ⟨t0, ht⟩ := hreach.run (by simp [partnid.merca3_step])
  refine ⟨t0, fun fuel hf => ?_⟩
  simp only [ht fuel hf, if_true]

theorem pmerca3_neg (F : partition_t → Bool) (fuel : Nat) (mem : Buf) (n : Int)
    (g : partnid.Glob) (h : n < 0) : partnid.merca3 F fuel mem n g = some (0, g) := by
  have hinit : partnid.merca3_init F mem n g = ⟨.ret, mem, 0, 0, 0, 0, 0, 0, 0, 0, g⟩ := by
    unfold partnid.merca3_init
    rw [if_pos h]
  unfold partnid.merca3
  rw [hinit, iterate_fixed _ _ (by simp [partnid.merca3_step])]
  rfl

theorem pmerca3_zero (F : partition_t → Bool) (fuel : Nat) (mem : Buf) (g : partnid.Glob) :
    partnid.merca3 F fuel mem 0 g = some (0, partnid.visit F 0 g ⟨0, 0, []⟩) := by
  have hinit : partnid.merca3_init F mem 0 g
      = ⟨.ret, mem, 0, 0, 0, 0, 0, 0, 0, 0, partnid.visit F 0 g ⟨0, 0, []⟩⟩ := by
    unfold partnid.merca3_init
    rw [if_neg (by omega), if_pos rfl]
    rfl
  unfold partnid.merca3
  rw [hinit, iterate_fixed _ _ (by simp [partnid.merca3_step])]
  rfl

/-- For every n up to MAXN merca3 of partnid.c returns 0 after the filter block has been run
on every partition that merca3 enumerates, in order. -/
theorem pmerca3_visits (F : partition_t → Bool) (mem : Buf) (n : Nat) (g : partnid.Glob)
    (h : n ≤ 199) :
    Returns (fun fuel => partnid.merca3 F fuel mem n g)
      (0, ((visits .ALGO_MERCA3 n).map (psnap n [])).foldl (partnid.visit F n) g) := by
  by_cases h0 : n = 0
  · subst h0
    refine ⟨0, fun fuel _ => ?_⟩
    show partnid.merca3 F fuel mem 0 g = _
    rw [pmerca3_zero]
    rfl
  · have e : visits .ALGO_MERCA3 n = asc 1 n := by
      unfold visits
      simp [h0]
    rw [e]
    exact pmerca3_run F mem n g (by omega) h

/-- What the filter block leaves after it has been run on the partitions of L for the
number N. -/
theorem visit_fold (F : partition_t → Bool) (N : Nat) (hN : N ≤ 199) (L : List partition_t) :
    ∀ g : partnid.Glob,
      (L.foldl (partnid.visit F N) g).calls = g.calls ++ L ∧
      (L.foldl (partnid.visit F N) g).printed
        = g.printed ++ (if g.action = .ACTION_PRINT then L.filter F else []) ∧
      (L.foldl (partnid.visit F N) g).prod_side = g.prod_side ∧
      (L.foldl (partnid.visit F N) g).diff = g.diff ∧
      (L.foldl (partnid.visit F N) g).current = g.current ∧
      (L.foldl (partnid.visit F N) g).action = g.action ∧
      (L.foldl (partnid.visit F N) g).rows = g.rows ∧
      (∀ j, j ≠ N → (L.foldl (partnid.visit F N) g).sum_side j = g.sum_side j) ∧
      (0 ≤ g.sum_side N → g.sum_side N + (L.filter F).length < 2 ^ 63 →
        (L.foldl (partnid.visit F N) g).sum_side N = g.sum_side N + (L.filter F).length) := by
  induction L with
  | nil =>
    intro g
    simp
  | cons p L ih =>
    intro g
    obtain ⟨i1, i2, i3, i4, i5, i6, i7, i8, i9⟩ := ih (partnid.visit F N g p)
    rw [List.foldl_cons, i1, i2, i3, i4, i5, i6, i7]
    by_cases hF : F p = true
    · have e : partnid.visit F N g p
          = { g with calls := g.calls ++ [p],
                     printed := if g.action = .ACTION_PRINT then g.printed ++ [p] else g.printed,
                     sum_side := partnid.incr_sum_side g.sum_side N } := by
        unfold partnid.visit
        rw [if_pos hF]
      have hs : (partnid.visit F N g p).sum_side N = wrap64 (g.sum_side N + 1) := by
        rw [e]
        show partnid.incr_sum_side g.sum_side N N = _
        unfold partnid.incr_sum_side partnid.MAXN
        rw [if_pos ⟨rfl, hN⟩]
      have hs' : ∀ j, j ≠ N → (partnid.visit F N g p).sum_side j = g.sum_side j := by
        intro j hj
        rw [e]
        show partnid.incr_sum_side g.sum_side N j = _
        unfold partnid.incr_sum_side
        rw [if_neg (fun hh => hj (by exact_mod_cast hh.1))]
      refine ⟨?_, ?_, ?_, ?_, ?_, ?_, ?_, ?_, ?_⟩
      · rw [e]; simp
      · rw [e]
        by_cases ha : g.action = .ACTION_PRINT
        · simp [ha, hF]
        · simp [ha]
      · rw [e]
      · rw [e]
      · rw [e]
      · rw [e]
      · rw [e]
      · intro j hj
        rw [i8 j hj, hs' j hj]
      · intro h0 hlt
        have hl : ((p :: L).filter F).length = (L.filter F).length + 1 := by
          rw [List.filter_cons_of_pos hF, List.length_cons]
        rw [hl] at hlt ⊢
        have hw : wrap64 (g.sum_side N + 1) = g.sum_side N + 1 := by
          unfold wrap64
          push_cast at hlt
          omega
        rw [i9 (by rw [hs, hw]; omega) (by rw [hs, hw]; push_cast at hlt ⊢; omega), hs, hw]
        push_cast
        ring
    · have e : partnid.visit F N g p = { g with calls := g.calls ++ [p] } := by
        unfold partnid.visit
        rw [if_neg hF]
      refine ⟨?_, ?_, ?_, ?_, ?_, ?_, ?_, ?_, ?_⟩
      · rw [e]; simp
      · rw [e]
        by_cases ha : g.action = .ACTION_PRINT
        · simp [ha, hF]
        · simp [ha]
      · rw [e]
      · rw [e]
      · rw [e]
      · rw [e]
      · rw [e]
      · intro j hj
        rw [i8 j hj, e]
      · intro h0 hlt
        have hl : ((p :: L).filter F).length = (L.filter F).length := by
          rw [List.filter_cons_of_neg hF]
        rw [hl] at hlt ⊢
        have hs : (partnid.visit F N g p).sum_side N = g.sum_side N := by rw [e]
        rw [i9 (by rw [hs]; exact h0) (by rw [hs]; exact hlt), hs]

theorem accepted_eq (F : partition_t → Bool) (n : Nat) :
    (((visits .ALGO_MERCA3 n).map (psnap n [])).filter F).length = accepted F n := by
  unfold accepted
  rw [List.filter_map, List.length_map]
  rfl

theorem visits_length_lt63 (algo : algo_t) (n : Nat) (h : n ≤ 255) :
    (visits algo n).length < 2 ^ 63 := by
  have e : (visits algo n).length = (desc n n).length := by
    rw [visits_length, ← visits_length .ALGO_ZS1 n]
    rfl
  rw [e, ← desc_ge 255 n h]
  exact desc_255_lt n h

theorem accepted_lt (F : partition_t → Bool) (n : Nat) (h : n ≤ 255) : accepted F n < 2 ^ 63 := by
  have h1 : accepted F n ≤ (visits .ALGO_MERCA3 n).length := by
    unfold accepted
    exact List.length_filter_le _ _
  have h2 := visits_length_lt63 .ALGO_MERCA3 n h
  omega

/-- The call of merca3 of partnid.c for n, from globals whose cell sum_side[n] is 0. -/
theorem pmerca3_call (F : partition_t → Bool) (mem : Buf) (n : Nat) (g : partnid.Glob)
    (h : n ≤ 199) (h0 : g.sum_side n = 0) :
    ∃ g', Returns (fun fuel => partnid.merca3 F fuel mem n g) (0, g') ∧
      g'.sum_side n = accepted F n ∧ (∀ j, j ≠ n → g'.sum_side j = g.sum_side j) ∧
      g'.prod_side = g.prod_side ∧ g'.diff = g.diff ∧ g'.current = g.current ∧
      g'.action = g.action ∧ g'.rows = g.rows ∧
      g'.calls = g.calls ++ (visits .ALGO_MERCA3 n).map (psnap n []) := by
  refine ⟨_, pmerca3_visits F mem n g h, ?_⟩
  obtain ⟨i1, _, i3, i4, i5, i6, i7, i8, i9⟩ :=
    visit_fold F n h ((visits .ALGO_MERCA3 n).map (psnap n [])) g
  have hlt := accepted_lt F n (by omega)
  rw [accepted_eq] at i9
  refine ⟨?_, i8, i3, i4, i5, i6, i7, i1⟩
  rw [i9 (by rw [h0]) (by rw [h0]; exact_mod_cast (by omega : 0 + accepted F n < 2 ^ 63)), h0]
  ring

theorem run_thread_succ (F : partition_t → Bool) (fuel : Nat) (mem : Int → Buf) (turns : Nat)
    (g : partnid.Glob) :
    partnid.run_thread F fuel mem (turns + 1) g
      = if g.current ≥ 0 then
          match partnid.merca3 F fuel (mem g.current) g.current
              { g with current := wrap32 (g.current - 1) } with
          | some (_, g2) => partnid.run_thread F fuel mem turns g2
          | none => none
        else some { g with current := wrap32 (g.current - 1) } := rfl

/-- The loop of run_thread, run by one worker from current = j - 1 with the cells
sum_side[0..j) at 0, ends and leaves in sum_side[n] the number of accepted partitions of n for
every n below j. -/
theorem run_thread_spec (F : partition_t → Bool) (mem : Int → Buf) (j : Nat) :
    ∀ g : partnid.Glob, j ≤ 200 → g.current = (j : Int) - 1 → (∀ n, n < j → g.sum_side n = 0) →
      ∃ g', (∃ t0, ∀ fuel turns : Nat, t0 ≤ fuel → t0 ≤ turns →
          partnid.run_thread F fuel mem turns g = some g') ∧
        (∀ n, n < j → g'.sum_side n = accepted F n) ∧
        (∀ n, j ≤ n → g'.sum_side n = g.sum_side n) ∧
        g'.prod_side = g.prod_side ∧ g'.diff = g.diff ∧ g'.action = g.action ∧
        g'.rows = g.rows := by
  induction j with
  | zero =>
    intro g _ hcur _
    refine ⟨{ g with current := wrap32 (g.current - 1) }, ⟨1, fun fuel turns _ ht => ?_⟩,
      fun n hn => by omega, fun n _ => rfl, rfl, rfl, rfl, rfl⟩
    obtain ⟨t, rfl⟩ : ∃ t, turns = t + 1 := ⟨turns - 1, by omega⟩
    rw [run_thread_succ, if_neg (by rw [hcur]; norm_num)]
  | succ j ih =>
    intro g hj hcur h0
    have hc : g.current = (j : Int) := by rw [hcur]; push_cast; ring
    have hw : wrap32 (g.current - 1) = (j : Int) - 1 := by
      rw [hc]
      exact wrap32_of_fits _ (by omega) (by omega)
    obtain ⟨g1, ⟨t1, hr1⟩, s1, s2, s3, s4, s5, s6, s7, _⟩ :=
      pmerca3_call F (mem j) j { g with current := wrap32 (g.current - 1) } (by omega)
        (h0 j (by omega))
    obtain ⟨g2, ⟨t2, hr2⟩, q1, q2, q3, q4, q5, q6⟩ := ih g1 (by omega)
      (by rw [s5]; exact hw)
      (fun n hn => by rw [s2 n (by omega)]; exact h0 n (by omega))
    refine ⟨g2, ⟨max t1 t2 + 1, fun fuel turns hf ht => ?_⟩, fun n hn => ?_, fun n hn => ?_,
      by rw [q3, s3], by rw [q4, s4], by rw [q5, s6], by rw [q6, s7]⟩
    · obtain ⟨t, rfl⟩ : ∃ t, turns = t + 1 := ⟨turns - 1, by omega⟩
      have e1 := hr1 fuel (by omega)
      rw [run_thread_succ, if_pos (by rw [hc]; omega), hc]
      rw [hc] at e1
      dsimp only at e1
      rw [e1]
      exact hr2 fuel t (by omega) (by omega)
    · by_cases e : n = j
      · subst e
        rw [q2 n (le_refl _), s1]
      · exact q1 n (by omega)
    · rw [q2 n (by omega), s2 n (by omega)]

/-- What the loop of report leaves after the rows for n below K. -/
theorem report_fold (K : Nat) : ∀ g : partnid.Glob,
    ((List.range K).foldl partnid.report_row g).sum_side = g.sum_side ∧
    ((List.range K).foldl partnid.report_row g).prod_side = g.prod_side ∧
    (∀ n, ((List.range K).foldl partnid.report_row g).diff n
      = if n < K then wrap64 (g.sum_side n - g.prod_side n) else g.diff n) ∧
    ((List.range K).foldl partnid.report_row g).rows
      = g.rows ++ (List.range K).map (fun n =>
          ⟨decide (wrap64 (g.sum_side n - g.prod_side n) ≠ 0), n, g.sum_side n, g.prod_side n,
            wrap64 (g.sum_side n - g.prod_side n)⟩) := by
  induction K with
  | zero =>
    intro g
    simp
  | succ K ih =>
    intro g
    obtain ⟨i1, i2, i3, i4⟩ := ih g
    rw [List.range_succ, List.foldl_append, List.foldl_cons, List.foldl_nil]
    refine ⟨?_, ?_, ?_, ?_⟩
    · exact i1
    · exact i2
    · intro n
      show Function.update ((List.range K).foldl partnid.report_row g).diff K _ n = _
      by_cases e : n = K
      · subst e
        rw [Function.update_same, i1, i2, if_pos (by omega)]
      · rw [Function.update_noteq e, i3 n]
        by_cases hn : n < K
        · rw [if_pos hn, if_pos (by omega)]
        · rw [if_neg hn, if_neg (by omega)]
    · show ((List.range K).foldl partnid.report_row g).rows ++ [_] = _
      rw [i4, i1, i2, List.map_append, List.append_assoc]
      rfl

/-! ## The claims on the generator of partnid.c and on verify -/

theorem rdesc_fits (A : Nat → Bool) (d : Nat) (hd : d ≤ 255) :
    ((rdesc A d d).length : Int) < 2 ^ 63 := by
  have h1 := rdesc_length_le A d d
  have h2 := desc_255_lt d hd
  rw [desc_ge 255 d hd] at h2
  omega

/-- The run of verify with one worker, for a product side with entries -1 and 0. -/
theorem verify_run (F : partition_t → Bool) (m : Nat) (c : Nat → Int)
    (tmp nxt s0 tmp0 : qseries_t) (mem : Int → Buf) (N : Nat) (g : partnid.Glob)
    (hm : 1 ≤ m) (hc : ∀ k, k < m → c k = -1 ∨ c k = 0) (hN : N ≤ 199)
    (h0 : ∀ n, g.sum_side n = 0) :
    ∃ g', Returns (fun fuel => partnid.verify F
          (fun s => product_side (m : Int) c s tmp nxt s0 tmp0) fuel mem (N : Int) g) g' ∧
      (∀ n, n ≤ N → g'.sum_side n = accepted F n ∧ g'.prod_side n = qs_product m c n ∧
        g'.diff n = g'.sum_side n - g'.prod_side n) ∧
      g'.rows = g.rows ++ (List.range (N + 1)).map (fun n =>
        ⟨decide (g'.diff n ≠ 0), n, g'.sum_side n, g'.prod_side n, g'.diff n⟩) := by
  obtain ⟨r, hr, hrd⟩ := product_side_count m c hm hc g.prod_side tmp nxt s0 tmp0
  obtain ⟨g2, ⟨t0, ht0⟩, q1, _, q3, _, _, q6⟩ := run_thread_spec F mem (N + 1)
    { g with prod_side := r, action := .ACTION_NONE, current := N } (by omega)
    (by push_cast; ring) (fun n _ => h0 n)
  obtain ⟨i1, i2, i3, i4⟩ := report_fold (N + 1) g2
  have hK : ((N : Int) + 1).toNat = N + 1 := by omega
  have hrep : partnid.report (N : Int) g2 = (List.range (N + 1)).foldl partnid.report_row g2 := by
    unfold partnid.report
    rw [hK]
  have hdiff : ∀ n, n ≤ N → wrap64 (g2.sum_side n - g2.prod_side n)
      = g2.sum_side n - g2.prod_side n := by
    intro n hn
    rw [q1 n (by omega), q3]
    show wrap64 ((accepted F n : Int) - r n) = (accepted F n : Int) - r n
    rw [(hrd n (by unfold MAXORD; omega)).2]
    have h1 := accepted_lt F n (by omega)
    have h2 := rdesc_fits (allowed m c) n (by omega)
    unfold wrap64
    omega
  refine ⟨partnid.report (N : Int) g2, ⟨t0, fun fuel hf => ?_⟩, fun n hn => ?_, ?_⟩
  · show partnid.verify F (fun s => product_side (m : Int) c s tmp nxt s0 tmp0) fuel mem
      (N : Int) g = _
    unfold partnid.verify
    simp only [hr, ht0 fuel fuel hf hf]
  · rw [hrep, i1, i2, i3 n, if_pos (by omega), hdiff n hn, q1 n (by omega), q3]
    exact ⟨rfl, (hrd n (by unfold MAXORD; omega)).1, rfl⟩
  · rw [hrep, i4, q6]
    congr 1
    apply List.map_congr_left
    intro n hn
    have hn' : n < N + 1 := List.mem_range.mp hn
    rw [i1, i2, i3 n, if_pos hn']

/-- C28: with one worker in place of the threads and sum_side all zero at entry, verify(N)
returns for every N in [0, 199], every filter and every product side product_side(m, c) with
entries -1 and 0; it leaves in sum_side[n], for every n in [0, N], the number of partitions
of n (as merca3 enumerates them) that the filter accepts, in prod_side[n] the coefficient of
q^n of the product side, in diff[n] their difference, and report has printed after the
earlier rows the rows for n = 0..N, the row of n marked with "**" exactly when diff[n] is
not zero. -/
theorem verify_sequential (F : partition_t → Bool) (m : Nat) (c : Nat → Int)
    (tmp nxt s0 tmp0 : qseries_t) (mem : Int → Buf) (N : Nat) (g : partnid.Glob)
    (hm : 1 ≤ m) (hc : ∀ k, k < m → c k = -1 ∨ c k = 0) (hN : N ≤ 199)
    (h0 : ∀ n, g.sum_side n = 0) :
    ∃ g', Returns (fun fuel => partnid.verify F
          (fun s => product_side (m : Int) c s tmp nxt s0 tmp0) fuel mem (N : Int) g) g' ∧
      (∀ n, n ≤ N → g'.sum_side n = accepted F n ∧ g'.prod_side n = qs_product m c n ∧
        g'.diff n = g'.sum_side n - g'.prod_side n) ∧
      g'.rows = g.rows ++ (List.range (N + 1)).map (fun n =>
        ⟨decide (g'.diff n ≠ 0), n, g'.sum_side n, g'.prod_side n, g'.diff n⟩) :=
  verify_run F m c tmp nxt s0 tmp0 mem N g hm hc hN h0

theorem verify_sequential_witness :
    ∃ g', Returns (fun fuel => partnid.verify partnid.filter_new_06
          (fun s => product_side ((5 : Nat) : Int) cong_new_06 s (fun _ => 0) (fun _ => 0)
            (fun _ => 0) (fun _ => 0)) fuel (fun _ _ => 0) ((100 : Nat) : Int)
          ⟨fun _ => 0, fun _ => 0, fun _ => 0, 0, .ACTION_NONE, [], [], []⟩) g' ∧
      (∀ n, n ≤ 100 → g'.sum_side n = accepted partnid.filter_new_06 n ∧
        g'.prod_side n = qs_product 5 cong_new_06 n ∧
        g'.diff n = g'.sum_side n - g'.prod_side n) ∧
      g'.rows = ([] : List partnid.row_t) ++ (List.range (100 + 1)).map (fun n =>
        ⟨decide (g'.diff n ≠ 0), n, g'.sum_side n, g'.prod_side n, g'.diff n⟩) :=
  verify_sequential partnid.filter_new_06 5 cong_new_06 (fun _ => 0) (fun _ => 0) (fun _ => 0)
    (fun _ => 0) (fun _ _ => 0) 100 ⟨fun _ => 0, fun _ => 0, fun _ => 0, 0, .ACTION_NONE, [], [], []⟩
    (by decide) (by unfold cong_new_06; decide) (by decide) (fun _ => rfl)

/-- C30: merca3 of partnid.c with filter_none, called for n = 0, calls the filter once, with
the empty partition, adds 1 to sum_side[0] and returns 0, not 1; called for n = -1 it
returns 0 and leaves the globals as they are; called for any n in [0, 199] it returns 0
although it calls the filter once for each of the p(n) partitions of n: its variable count
is never incremented. -/
theorem partnid_merca3_returns_zero (mem : Buf) (g : partnid.Glob) :
    (∀ fuel, ∃ g0, partnid.merca3 partnid.filter_none fuel mem 0 g = some (0, g0) ∧
      g0.calls = g.calls ++ [⟨0, 0, []⟩] ∧ g0.sum_side 0 = wrap64 (g.sum_side 0 + 1)) ∧
    (∀ fuel, partnid.merca3 partnid.filter_none fuel mem (-1) g = some (0, g)) ∧
    ∀ n : Nat, n ≤ 199 →
      ∃ gn, Returns (fun fuel => partnid.merca3 partnid.filter_none fuel mem n g) (0, gn) ∧
        gn.calls.length = g.calls.length + Fintype.card (Nat.Partition n) := by
  refine ⟨fun fuel => ⟨_, pmerca3_zero _ fuel mem g, rfl, rfl⟩,
    fun fuel => pmerca3_neg _ fuel mem (-1) g (by norm_num), fun n hn => ?_⟩
  refine ⟨_, pmerca3_visits partnid.filter_none mem n g hn, ?_⟩
  rw [(visit_fold partnid.filter_none n hn _ g).1, List.length_append, List.length_map,
    visits_length]

/-! ## The table of the partitions that a gap condition accepts -/

theorem gclamp_shift (x x' m z : Int) (hz : z ≤ m) (hx : m ≤ x) (hx' : m ≤ x')
    (h : gclamp (x - m) = gclamp (x' - m)) : gclamp (x - z) = gclamp (x' - z) := by
  unfold gclamp at h ⊢
  omega

theorem gclamp_nat (m e : Nat) (he : e ≤ 2) : gclamp (((m + e : Nat) : Int) - (m : Int)) = e := by
  unfold gclamp
  omega

/-- Whether parts at most m may follow x and y depends on the excesses of x and y over m,
cut at 2, only. -/
theorem gap_acc_congr (okd : Nat → Nat → Nat → Bool) (m x y x' y' : Int) (hx : m ≤ x)
    (hy : m ≤ y) (hx' : m ≤ x') (hy' : m ≤ y') (h1 : gclamp (x - m) = gclamp (x' - m))
    (h2 : gclamp (y - m) = gclamp (y' - m)) (l : List Int) (hl : ∀ z ∈ l, z ≤ m) :
    gap_acc okd x y l = gap_acc okd x' y' l := by
  cases l with
  | nil => rfl
  | cons z l =>
    have hz : z ≤ m := hl z (List.mem_cons_self _ _)
    cases l with
    | nil =>
      simp only [gap_acc]
      rw [gclamp_shift x x' m z hz hx hx' h1, gclamp_shift y y' m z hz hy hy' h2]
    | cons w l =>
      have hw : w ≤ m := hl w (List.mem_cons_of_mem _ (List.mem_cons_self _ _))
      simp only [gap_acc]
      rw [gclamp_shift x x' m z hz hx hx' h1, gclamp_shift y y' m z hz hy hy' h2,
        gclamp_shift y y' m w hw hy hy' h2]

theorem desc_le (m n : Nat) (l : List Int) (h : l ∈ desc m n) : ∀ z ∈ l, z ≤ (m : Int) :=
  fun z hz => ((desc_sound (m + n + 1) m n l (by omega) h).2.1 z hz).2

/-- The recurrence of the numbers of accepted compositions. -/
theorem gcount_rec (okd : Nat → Nat → Nat → Bool) (ex ey m n : Nat) (hex : ex ≤ 2)
    (hey : ey ≤ 2) :
    gcount okd ex ey (m + 1) n
      = gcount okd (min (ex + 1) 2) (min (ey + 1) 2) m n +
        (if okd ex ey (m + 1) = true ∧ m + 1 ≤ n then gcount okd ey 0 (m + 1) (n - (m + 1))
          else 0) := by
  have hrest : (gdesc okd ((m + 1 + ex : Nat) : Int) ((m + 1 + ey : Nat) : Int) m n)
      = gdesc okd ((m + min (ex + 1) 2 : Nat) : Int) ((m + min (ey + 1) 2 : Nat) : Int) m n := by
    unfold gdesc
    apply List.filter_congr
    intro l hl
    exact gap_acc_congr okd (m : Int) _ _ _ _ (by omega) (by omega) (by omega) (by omega)
      (by unfold gclamp; omega) (by unfold gclamp; omega) l (desc_le m n l hl)
  unfold gcount
  rw [← hrest]
  by_cases hn : n = 0
  · subst hn
    unfold gdesc
    rw [desc_zero, desc_zero, if_neg (by omega)]
    rfl
  by_cases h : m + 1 ≤ n
  · unfold gdesc
    rw [desc_rec (m + 1) n (by omega) h, List.filter_append, List.length_append,
      Nat.add_sub_cancel, Nat.add_comm, List.filter_map, List.length_map]
    congr 1
    have hfun : (gap_acc okd ((m + 1 + ex : Nat) : Int) ((m + 1 + ey : Nat) : Int)
          ∘ fun l => ((m + 1 : Nat) : Int) :: l)
        = fun l => okd ex ey (m + 1) &&
            gap_acc okd ((m + 1 + ey : Nat) : Int) ((m + 1 + 0 : Nat) : Int) l := by
      funext l
      show gap_acc okd _ _ (((m + 1 : Nat) : Int) :: l) = _
      simp only [gap_acc]
      rw [gclamp_nat (m + 1) ex hex, gclamp_nat (m + 1) ey hey, Int.toNat_ofNat]
    rw [hfun]
    by_cases hok : okd ex ey (m + 1) = true
    · rw [if_pos ⟨hok, h⟩, hok]
      simp only [Bool.true_and]
    · rw [if_neg (fun hh => hok hh.1)]
      have hf : okd ex ey (m + 1) = false := by simpa using hok
      rw [hf]
      simp
  · unfold gdesc
    rw [desc_skip (m + 1) n (by omega) (by omega), if_neg (fun hh => h hh.2), Nat.add_sub_cancel]
    rfl

theorem gcount_zero (okd : Nat → Nat → Nat → Bool) (ex ey i : Nat) :
    gcount okd ex ey 0 i = (desc 0 i).length := by
  unfold gcount gdesc
  by_cases h0 : i = 0
  · subst h0
    rw [desc_zero]
    rfl
  · rw [desc_zero_left i (by omega)]
    rfl

theorem growok_step (okd : Nat → Nat → Nat → Bool) (N ex ey ex1 ey1 M : Nat) (prev L : List Nat)
    (hex : ex ≤ 2) (hey : ey ≤ 2) (hex1 : ex1 = min (ex + 1) 2) (hey1 : ey1 = min (ey + 1) 2)
    (hprev : GRowOK okd N ex1 ey1 M prev) (hL : GRowOK okd N ey 0 (M + 1) L) :
    GRowOK okd N ex ey (M + 1) (if okd ex ey (M + 1) then rowStep (M + 1) prev L else prev) := by
  obtain ⟨pl, pv⟩ := hprev
  obtain ⟨ll, lv⟩ := hL
  subst hex1 hey1
  by_cases hok : okd ex ey (M + 1) = true
  · rw [if_pos hok]
    refine ⟨by rw [rowStep_length _ _ _ (by omega), pl], fun i hi => ?_⟩
    rw [rowStep_getD _ _ _ _ (by omega) (by omega), pv i hi, gcount_rec okd ex ey M i hex hey]
    congr 1
    by_cases h : i < M + 1
    · rw [if_pos h, if_neg (fun hh => by omega)]
    · rw [if_neg h, if_pos ⟨hok, by omega⟩]
      exact lv _ (by omega)
  · rw [if_neg hok]
    refine ⟨pl, fun i hi => ?_⟩
    rw [pv i hi, gcount_rec okd ex ey M i hex hey, if_neg (fun hh => hok hh.1)]
    rfl

theorem growok_self (okd : Nat → Nat → Nat → Bool) (N M : Nat) (prev : List Nat)
    (hprev : GRowOK okd N 1 1 M prev) :
    GRowOK okd N 0 0 (M + 1) (if okd 0 0 (M + 1) then nextRow (M + 1) prev else prev) := by
  obtain ⟨pl, pv⟩ := hprev
  by_cases hok : okd 0 0 (M + 1) = true
  · rw [if_pos hok]
    have := rowStep_iter_gen N M prev (fun i => gcount okd 1 1 M i)
      (fun i => gcount okd 0 0 (M + 1) i) pl pv
      (fun i => by
        show gcount okd 0 0 (M + 1) i = _
        rw [gcount_rec okd 0 0 M i (by omega) (by omega)]
        congr 1
        by_cases h : M + 1 ≤ i
        · rw [if_pos ⟨hok, h⟩, if_pos h]
        · rw [if_neg (fun hh => h hh.2), if_neg h])
      (prev.length / (M + 1) + 1) prev pl
    refine ⟨this.1, fun i hi => ?_⟩
    apply this.2 i hi
    rw [pl]
    have h1 := Nat.div_add_mod (N + 1) (M + 1)
    have h2 := Nat.mod_lt (N + 1) (show 0 < M + 1 by omega)
    have h3 : ((N + 1) / (M + 1) + 1) * (M + 1)
        = (M + 1) * ((N + 1) / (M + 1)) + (M + 1) := by ring
    omega
  · rw [if_neg hok]
    refine ⟨pl, fun i hi => ?_⟩
    rw [pv i hi, gcount_rec okd 0 0 M i (by omega) (by omega), if_neg (fun hh => hok hh.1)]
    rfl

/-- The rows of the table hold the numbers of accepted compositions. -/
theorem gtable_spec (okd : Nat → Nat → Nat → Bool) (N : Nat) : ∀ M : Nat,
    GRowOK okd N 0 0 M (gtable okd N M).r00 ∧ GRowOK okd N 1 0 M (gtable okd N M).r10 ∧
    GRowOK okd N 2 0 M (gtable okd N M).r20 ∧ GRowOK okd N 1 1 M (gtable okd N M).r11 ∧
    GRowOK okd N 2 1 M (gtable okd N M).r21 ∧ GRowOK okd N 2 2 M (gtable okd N M).r22 := by
  intro M
  induction M with
  | zero =>
    obtain ⟨hl, hv⟩ := ptable_spec N 0
    have h : ∀ ex ey, GRowOK okd N ex ey 0 (1 :: List.replicate N 0) :=
      fun ex ey => ⟨hl, fun i hi => by rw [gcount_zero]; exact hv i hi⟩
    exact ⟨h 0 0, h 1 0, h 2 0, h 1 1, h 2 1, h 2 2⟩
  | succ M ih =>
    obtain ⟨_, _, _, i11, i21, i22⟩ := ih
    have h00 : GRowOK okd N 0 0 (M + 1) (gnext00 okd (M + 1) (gtable okd N M)) :=
      growok_self okd N M _ i11
    have h10 : GRowOK okd N 1 0 (M + 1) (gnext0 okd 1 (M + 1) (gtable okd N M)) :=
      growok_step okd N 1 0 2 1 M _ _ (by omega) (by omega) rfl rfl i21 h00
    have h20 : GRowOK okd N 2 0 (M + 1) (gnext0 okd 2 (M + 1) (gtable okd N M)) :=
      growok_step okd N 2 0 2 1 M _ _ (by omega) (by omega) rfl rfl i21 h00
    exact ⟨h00, h10, h20,
      growok_step okd N 1 1 2 2 M _ _ (by omega) (by omega) rfl rfl i22 h10,
      growok_step okd N 2 1 2 2 M _ _ (by omega) (by omega) rfl rfl i22 h10,
      growok_step okd N 2 2 2 2 M _ _ (by omega) (by omega) rfl rfl i22 h20⟩

/-! ## The filters as gap conditions on the parts in non-increasing order -/

theorem gap_acc_iff (okd : Nat → Nat → Nat → Bool) : ∀ (l : List Int) (x y : Int),
    gap_acc okd x y l = true ↔ ∀ j, j < l.length →
      okd (gclamp ((x :: y :: l).getD j 0 - l.getD j 0))
        (gclamp ((x :: y :: l).getD (j + 1) 0 - l.getD j 0)) (l.getD j 0).toNat = true := by
  intro l
  induction l with
  | nil =>
    intro x y
    simp [gap_acc]
  | cons z l ih =>
    intro x y
    simp only [gap_acc, Bool.and_eq_true]
    rw [ih y z]
    constructor
    · rintro ⟨h0, hr⟩ j hj
      cases j with
      | zero => simpa using h0
      | succ j =>
        have := hr j (by simpa using hj)
        simpa using this
    · intro h
      refine ⟨by simpa using h 0 (by simp), fun j hj => ?_⟩
      have := h (j + 1) (by simpa using hj)
      simpa using this

theorem bool_eq_of_false_iff (b c : Bool) (h : b = false ↔ c = false) : b = c := by
  cases b <;> cases c <;> simp at h ⊢

theorem gap_acc_false_iff (okd : Nat → Nat → Nat → Bool) (l : List Int) (x y : Int) :
    gap_acc okd x y l = false ↔ ∃ j, j < l.length ∧
      okd (gclamp ((x :: y :: l).getD j 0 - l.getD j 0))
        (gclamp ((x :: y :: l).getD (j + 1) 0 - l.getD j 0)) (l.getD j 0).toNat = false := by
  have h := gap_acc_iff okd l x y
  constructor
  · intro hf
    by_contra hne
    have : gap_acc okd x y l = true := h.mpr (fun j hj => by
      by_contra hb
      exact hne ⟨j, hj, by simpa using hb⟩)
    rw [hf] at this
    exact absurd this (by simp)
  · rintro ⟨j, hj, hb⟩
    by_contra hne
    have ht : gap_acc okd x y l = true := by simpa using hne
    have := h.mp ht j hj
    rw [hb] at this
    exact absurd this (by simp)

theorem sorted_desc_getD (l : List Int) (hs : List.Sorted (fun x y => x ≥ y) l) (i j : Nat)
    (hij : i ≤ j) (hj : j < l.length) : l.getD j 0 ≤ l.getD i 0 := by
  rw [List.getD_eq_getElem _ _ hj, List.getD_eq_getElem _ _ (by omega : i < l.length)]
  by_cases e : i = j
  · subst e
    exact le_refl _
  · exact (List.pairwise_iff_getElem.mp hs) i j (by omega) hj (by omega)

theorem getD_reverse_int (l : List Int) (i : Nat) (hi : i < l.length) :
    l.reverse.getD i 0 = l.getD (l.length - 1 - i) 0 := by
  rw [List.getD_eq_getElem _ _ (by simpa using hi), List.getD_eq_getElem _ _ (by omega),
    List.getElem_reverse]

/-- A window of three neighbours of the reversed list is a window of the list. -/
theorem rev_window3 (l : List Int) (P : Int → Int → Int → Prop) :
    (∃ i, 2 ≤ i ∧ i < l.length ∧
      P (l.reverse.getD (i - 2) 0) (l.reverse.getD (i - 1) 0) (l.reverse.getD i 0)) ↔
    ∃ j, j + 2 < l.length ∧ P (l.getD (j + 2) 0) (l.getD (j + 1) 0) (l.getD j 0) := by
  constructor
  · rintro ⟨i, h2, hi, hP⟩
    refine ⟨l.length - 1 - i, by omega, ?_⟩
    rw [getD_reverse_int l _ (by omega), getD_reverse_int l _ (by omega),
      getD_reverse_int l _ hi] at hP
    have e1 : l.length - 1 - (i - 2) = l.length - 1 - i + 2 := by omega
    have e2 : l.length - 1 - (i - 1) = l.length - 1 - i + 1 := by omega
    rw [e1, e2] at hP
    exact hP
  · rintro ⟨j, hj, hP⟩
    refine ⟨l.length - 1 - j, by omega, by omega, ?_⟩
    rw [getD_reverse_int l _ (by omega), getD_reverse_int l _ (by omega),
      getD_reverse_int l _ (by omega)]
    have e1 : l.length - 1 - (l.length - 1 - j - 2) = j + 2 := by omega
    have e2 : l.length - 1 - (l.length - 1 - j - 1) = j + 1 := by omega
    have e3 : l.length - 1 - (l.length - 1 - j) = j := by omega
    rw [e1, e2, e3]
    exact hP

/-- A window of two neighbours of the reversed list is a window of the list. -/
theorem rev_window2 (l : List Int) (P : Int → Int → Prop) :
    (∃ i, 1 ≤ i ∧ i < l.length ∧ P (l.reverse.getD (i - 1) 0) (l.reverse.getD i 0)) ↔
    ∃ j, j + 1 < l.length ∧ P (l.getD (j + 1) 0) (l.getD j 0) := by
  constructor
  · rintro ⟨i, h2, hi, hP⟩
    refine ⟨l.length - 1 - i, by omega, ?_⟩
    rw [getD_reverse_int l _ (by omega), getD_reverse_int l _ hi] at hP
    have e2 : l.length - 1 - (i - 1) = l.length - 1 - i + 1 := by omega
    rw [e2] at hP
    exact hP
  · rintro ⟨j, hj, hP⟩
    refine ⟨l.length - 1 - j, by omega, by omega, ?_⟩
    rw [getD_reverse_int l _ (by omega), getD_reverse_int l _ (by omega)]
    have e2 : l.length - 1 - (l.length - 1 - j - 1) = j + 1 := by omega
    have e3 : l.length - 1 - (l.length - 1 - j) = j := by omega
    rw [e2, e3]
    exact hP

theorem okd_new_06_false (ex ey z : Nat) :
    okd_new_06 ex ey z = false ↔ ex < 2 ∧ (3 * z + ex + ey) % 5 = 3 := by
  unfold okd_new_06
  simp

theorem okd_new_03_false (ex ey z : Nat) :
    okd_new_03 ex ey z = false ↔
      (ey < 2 ∧ (2 * z + ey) % 5 = 0) ∨ (ex < 2 ∧ (3 * z + ex + ey) % 5 = 3) := by
  unfold okd_new_03
  simp only [Bool.and_eq_false_iff, Bool.not_eq_false', Bool.and_eq_true, decide_eq_true_eq]

/-- The test of a gap condition on three neighbours X ≥ Y ≥ Z ≥ 1 in terms of the parts. -/
theorem gclamp_window (X Y Z : Int) (hZ : 1 ≤ Z) (hYZ : Z ≤ Y) (hXY : Y ≤ X) (res : Nat) :
    (gclamp (X - Z) < 2 ∧ (3 * Z.toNat + gclamp (X - Z) + gclamp (Y - Z)) % 5 = res) ↔
    ((X - Z = 0 ∨ X - Z = 1) ∧ (Z + Y + X) % 5 = (res : Int)) := by
  unfold gclamp
  constructor
  · rintro ⟨h1, h2⟩
    refine ⟨by omega, ?_⟩
    have e : ((3 * Z.toNat + min (X - Z).toNat 2 + min (Y - Z).toNat 2 : Nat) : Int)
        = Z + Y + X := by omega
    rw [← e]
    omega
  · rintro ⟨h1, h2⟩
    refine ⟨by omega, ?_⟩
    have e : ((3 * Z.toNat + min (X - Z).toNat 2 + min (Y - Z).toNat 2 : Nat) : Int)
        = Z + Y + X := by omega
    rw [← e] at h2
    omega

theorem gclamp_pair (Y Z : Int) (hZ : 1 ≤ Z) (hYZ : Z ≤ Y) (res : Nat) :
    (gclamp (Y - Z) < 2 ∧ (2 * Z.toNat + gclamp (Y - Z)) % 5 = res) ↔
    ((Y - Z = 0 ∨ Y - Z = 1) ∧ (Z + Y) % 5 = (res : Int)) := by
  unfold gclamp
  constructor
  · rintro ⟨h1, h2⟩
    refine ⟨by omega, ?_⟩
    have e : ((2 * Z.toNat + min (Y - Z).toNat 2 : Nat) : Int) = Z + Y := by omega
    rw [← e]
    omega
  · rintro ⟨h1, h2⟩
    refine ⟨by omega, ?_⟩
    have e : ((2 * Z.toNat + min (Y - Z).toNat 2 : Nat) : Int) = Z + Y := by omega
    rw [← e] at h2
    omega

theorem desc_partition (n : Nat) (l : List Int) (hl : l ∈ desc n n) :
    PartitionInv n (psnap n [] l.reverse) ∧
      List.Sorted (fun x y => x ≤ y) (psnap n [] l.reverse).a := by
  obtain ⟨hs, hpos, hsum⟩ := (desc_mem n l).mp hl
  have hpos' : ∀ x ∈ l.reverse, (1 : Int) ≤ x := fun x hx => hpos x (List.mem_reverse.mp hx)
  have hsum' : l.reverse.sum = n := by rw [List.sum_reverse, hsum]
  refine ⟨⟨rfl, rfl, hpos', hsum', ?_⟩, ?_⟩
  · show l.reverse.length = 0 ↔ (n : Int) = 0
    have h1 := sum_ge_length l.reverse hpos'
    constructor
    · intro h0
      have : l.reverse = [] := List.length_eq_zero.mp h0
      rw [this] at hsum'
      simpa using hsum'.symm
    · intro h0
      omega
  · show List.Sorted (fun x y => x ≤ y) l.reverse
    exact List.pairwise_reverse.mpr hs

/-- The windows of three parts that the gap condition of filter_new_06 forbids, found by
gap_acc on the parts in non-increasing order after two parts that exceed all of them by 2. -/
theorem gap_acc_triple (l : List Int) (S : Int) (hs : List.Sorted (fun x y => x ≥ y) l)
    (hpos : ∀ x ∈ l, (1 : Int) ≤ x) (hS : ∀ x ∈ l, x + 2 ≤ S) (j : Nat) (hj : j < l.length) :
    (gclamp ((S :: S :: l).getD j 0 - l.getD j 0) < 2 ∧
      (3 * (l.getD j 0).toNat + gclamp ((S :: S :: l).getD j 0 - l.getD j 0)
        + gclamp ((S :: S :: l).getD (j + 1) 0 - l.getD j 0)) % 5 = 3) ↔
    (2 ≤ j ∧ (l.getD (j - 2) 0 - l.getD j 0 = 0 ∨ l.getD (j - 2) 0 - l.getD j 0 = 1) ∧
      (l.getD j 0 + l.getD (j - 1) 0 + l.getD (j - 2) 0) % 5 = 3) := by
  have hZ : 1 ≤ l.getD j 0 := getD_pos l hpos j hj
  have hZS : l.getD j 0 + 2 ≤ S := by
    rw [List.getD_eq_getElem _ _ hj]
    exact hS _ (List.getElem_mem hj)
  match j, hj with
  | 0, hj =>
    simp only [List.getD_cons_zero]
    constructor
    · rintro ⟨h1, _⟩
      unfold gclamp at h1
      omega
    · rintro ⟨h2, _⟩
      omega
  | 1, hj =>
    simp only [List.getD_cons_succ, List.getD_cons_zero]
    constructor
    · rintro ⟨h1, _⟩
      unfold gclamp at h1
      omega
    · rintro ⟨h2, _⟩
      omega
  | j + 2, hj =>
    simp only [List.getD_cons_succ]
    have h1 := sorted_desc_getD l hs (j + 1) (j + 2) (by omega) hj
    have h2 := sorted_desc_getD l hs j (j + 1) (by omega) (by omega)
    have key := gclamp_window (l.getD j 0) (l.getD (j + 1) 0) (l.getD (j + 2) 0) hZ h1 h2 3
    have e1 : j + 2 - 2 = j := by omega
    have e2 : j + 2 - 1 = j + 1 := by omega
    rw [e1, e2]
    constructor
    · intro h
      exact ⟨by omega, key.mp h⟩
    · rintro ⟨_, h⟩
      exact key.mpr h

/-- The windows of two parts that the gap condition of filter_new_03 forbids. -/
theorem gap_acc_pair (l : List Int) (S : Int) (hs : List.Sorted (fun x y => x ≥ y) l)
    (hpos : ∀ x ∈ l, (1 : Int) ≤ x) (hS : ∀ x ∈ l, x + 2 ≤ S) (j : Nat) (hj : j < l.length) :
    (gclamp ((S :: S :: l).getD (j + 1) 0 - l.getD j 0) < 2 ∧
      (2 * (l.getD j 0).toNat + gclamp ((S :: S :: l).getD (j + 1) 0 - l.getD j 0)) % 5 = 0) ↔
    (1 ≤ j ∧ (l.getD (j - 1) 0 - l.getD j 0 = 0 ∨ l.getD (j - 1) 0 - l.getD j 0 = 1) ∧
      (l.getD j 0 + l.getD (j - 1) 0) % 5 = 0) := by
  have hZ : 1 ≤ l.getD j 0 := getD_pos l hpos j hj
  have hZS : l.getD j 0 + 2 ≤ S := by
    rw [List.getD_eq_getElem _ _ hj]
    exact hS _ (List.getElem_mem hj)
  match j, hj with
  | 0, hj =>
    simp only [List.getD_cons_succ, List.getD_cons_zero]
    constructor
    · rintro ⟨h1, _⟩
      unfold gclamp at h1
      omega
    · rintro ⟨h2, _⟩
      omega
  | j + 1, hj =>
    simp only [List.getD_cons_succ]
    have h1 := sorted_desc_getD l hs j (j + 1) (by omega) hj
    have key := gclamp_pair (l.getD j 0) (l.getD (j + 1) 0) hZ h1 0
    have e2 : j + 1 - 1 = j := by omega
    rw [e2]
    constructor
    · intro h
      exact ⟨by omega, key.mp h⟩
    · rintro ⟨_, h⟩
      exact key.mpr h

theorem desc_sentinel (n : Nat) (l : List Int) (hl : l ∈ desc n n) :
    ∀ x ∈ l, x + 2 ≤ ((n + 2 : Nat) : Int) := by
  intro x hx
  have := desc_le n n l hl x hx
  push_cast
  omega

/-- On the partitions of n, read from the largest part down, filter_new_06 is the gap
condition okd_new_06. -/
theorem filter_new_06_gap_acc (n : Nat) (hn : n < 2 ^ 31) (l : List Int) (hl : l ∈ desc n n) :
    partnid.filter_new_06 (psnap n [] l.reverse)
      = gap_acc okd_new_06 ((n + 2 : Nat) : Int) ((n + 2 : Nat) : Int) l := by
  obtain ⟨hs, hpos, hsum⟩ := (desc_mem n l).mp hl
  obtain ⟨hp, hsorted⟩ := desc_partition n l hl
  apply bool_eq_of_false_iff
  have hA : partnid.filter_new_06 (psnap n [] l.reverse) = false ↔
      gap3_rejects 3 (psnap n [] l.reverse) :=
    gap3_filter_eq 3 n _ hp (by exact_mod_cast hn) hsorted
  rw [hA, gap_acc_false_iff]
  have hR : gap3_rejects 3 (psnap n [] l.reverse) ↔
      ∃ j, j + 2 < l.length ∧ (l.getD j 0 - l.getD (j + 2) 0 = 0 ∨
        l.getD j 0 - l.getD (j + 2) 0 = 1) ∧
        (l.getD (j + 2) 0 + l.getD (j + 1) 0 + l.getD j 0) % 5 = 3 := by
    have := rev_window3 l (fun x y z => (z - x = 0 ∨ z - x = 1) ∧ (x + y + z) % 5 = 3)
    rw [← this]
    unfold gap3_rejects
    show (∃ i, 2 ≤ i ∧ i < l.reverse.length ∧ _) ↔ _
    rw [List.length_reverse]
    rfl
  rw [hR]
  constructor
  · rintro ⟨j, hj, hb⟩
    refine ⟨j + 2, hj, ?_⟩
    rw [okd_new_06_false, gap_acc_triple l _ hs hpos (desc_sentinel n l hl) (j + 2) hj]
    exact ⟨by omega, hb⟩
  · rintro ⟨j, hj, hb⟩
    rw [okd_new_06_false, gap_acc_triple l _ hs hpos (desc_sentinel n l hl) j hj] at hb
    obtain ⟨h2, hb⟩ := hb
    refine ⟨j - 2, by omega, ?_⟩
    have e1 : j - 2 + 2 = j := by omega
    have e2 : j - 2 + 1 = j - 1 := by omega
    rw [e1, e2]
    exact hb

/-- On the partitions of n, read from the largest part down, filter_new_03 is the gap
condition okd_new_03. -/
theorem filter_new_03_gap_acc (n : Nat) (hn : n < 2 ^ 31) (l : List Int) (hl : l ∈ desc n n) :
    partnid.filter_new_03 (psnap n [] l.reverse)
      = gap_acc okd_new_03 ((n + 2 : Nat) : Int) ((n + 2 : Nat) : Int) l := by
  obtain ⟨hs, hpos, hsum⟩ := (desc_mem n l).mp hl
  obtain ⟨hp, hsorted⟩ := desc_partition n l hl
  apply bool_eq_of_false_iff
  rw [filter_new_03_eq n _ hp (by exact_mod_cast hn) hsorted, gap_acc_false_iff]
  have hRa : new_03_rejects_a (psnap n [] l.reverse) ↔
      ∃ j, j + 1 < l.length ∧ (l.getD j 0 - l.getD (j + 1) 0 = 0 ∨
        l.getD j 0 - l.getD (j + 1) 0 = 1) ∧ (l.getD (j + 1) 0 + l.getD j 0) % 5 = 0 := by
    have := rev_window2 l (fun x y => (y - x = 0 ∨ y - x = 1) ∧ (x + y) % 5 = 0)
    rw [← this]
    unfold new_03_rejects_a
    show (∃ i, 1 ≤ i ∧ i < l.reverse.length ∧ _) ↔ _
    rw [List.length_reverse]
    rfl
  have hRb : new_03_rejects_b 2 2 (psnap n [] l.reverse) ↔
      ∃ j, j + 2 < l.length ∧ (l.getD j 0 - l.getD (j + 2) 0 = 0 ∨
        l.getD j 0 - l.getD (j + 2) 0 = 1) ∧
        (l.getD (j + 2) 0 + l.getD (j + 1) 0 + l.getD j 0) % 5 = 3 := by
    have := rev_window3 l (fun x y z => (z - x = 0 ∨ z - x = 1) ∧ (x + y + z) % 5 = 3)
    rw [← this]
    unfold new_03_rejects_b
    show (∃ i, 2 ≤ i ∧ i < l.reverse.length ∧ _) ↔ _
    rw [List.length_reverse]
    rfl
  rw [hRa, hRb]
  constructor
  · rintro (⟨j, hj, hb⟩ | ⟨j, hj, hb⟩)
    · refine ⟨j + 1, hj, ?_⟩
      rw [okd_new_03_false, gap_acc_pair l _ hs hpos (desc_sentinel n l hl) (j + 1) hj]
      exact Or.inl ⟨by omega, hb⟩
    · refine ⟨j + 2, hj, ?_⟩
      rw [okd_new_03_false, gap_acc_triple l _ hs hpos (desc_sentinel n l hl) (j + 2) hj]
      exact Or.inr ⟨by omega, hb⟩
  · rintro ⟨j, hj, hb⟩
    rw [okd_new_03_false, gap_acc_pair l _ hs hpos (desc_sentinel n l hl) j hj,
      gap_acc_triple l _ hs hpos (desc_sentinel n l hl) j hj] at hb
    rcases hb with ⟨h1, hb⟩ | ⟨h2, hb⟩
    · refine Or.inl ⟨j - 1, by omega, ?_⟩
      have e1 : j - 1 + 1 = j := by omega
      rw [e1]
      exact hb
    · refine Or.inr ⟨j - 2, by omega, ?_⟩
      have e1 : j - 2 + 2 = j := by omega
      have e2 : j - 2 + 1 = j - 1 := by omega
      rw [e1, e2]
      exact hb

/-! ## The accepted partitions counted by the table -/

theorem visits_rev_perm (n : Nat) :
    ((visits .ALGO_MERCA3 n).map List.reverse).Perm (desc n n) := by
  by_cases h0 : n = 0
  · subst h0
    rw [desc_zero]
    exact List.Perm.refl _
  · have e : visits .ALGO_MERCA3 n = asc 1 n := by
      unfold visits
      simp [h0]
    rw [e]
    apply (List.perm_ext_iff_of_nodup
      ((asc_nodup n (by omega)).map List.reverse_injective) (desc_nodup n)).mpr
    intro l
    rw [desc_mem, List.mem_map]
    constructor
    · rintro ⟨a, ha, rfl⟩
      obtain ⟨hs, hpos, hsum⟩ := (asc_mem n (by omega) a).mp ha
      exact ⟨List.pairwise_reverse.mpr hs, fun x hx => hpos x (List.mem_reverse.mp hx),
        by rw [List.sum_reverse, hsum]⟩
    · rintro ⟨hs, hpos, hsum⟩
      refine ⟨l.reverse, (asc_mem n (by omega) _).mpr
        ⟨List.pairwise_reverse.mpr (by simpa using hs),
          fun x hx => hpos x (List.mem_reverse.mp hx), by rw [List.sum_reverse, hsum]⟩,
        List.reverse_reverse l⟩

/-- The accepted partitions counted over the descending compositions. -/
theorem accepted_desc (F : partition_t → Bool) (n : Nat) :
    accepted F n = ((desc n n).filter (fun l => F (psnap n [] l.reverse))).length := by
  have hp := (visits_rev_perm n).filter (fun l => F (psnap n [] l.reverse))
  rw [← hp.length_eq, List.filter_map, List.length_map]
  unfold accepted
  congr 2
  funext l
  show _ = F (psnap n [] l.reverse.reverse)
  rw [List.reverse_reverse]

theorem gcount_top (okd : Nat → Nat → Nat → Bool) (N n : Nat) (hn : n ≤ N) :
    gcount okd 2 2 N n = gcount okd 2 2 n n := by
  unfold gcount gdesc
  rw [desc_ge N n hn]
  congr 1
  apply List.filter_congr
  intro l hl
  exact gap_acc_congr okd (n : Int) _ _ _ _ (by omega) (by omega) (by omega) (by omega)
    (by unfold gclamp; omega) (by unfold gclamp; omega) l (desc_le n n l hl)

/-- The number of accepted partitions of n is an entry of the table when the filter is a gap
condition on the partitions of n. -/
theorem accepted_table (F : partition_t → Bool) (okd : Nat → Nat → Nat → Bool) (N n : Nat)
    (hn : n ≤ N)
    (h : ∀ l ∈ desc n n, F (psnap n [] l.reverse)
      = gap_acc okd ((n + 2 : Nat) : Int) ((n + 2 : Nat) : Int) l) :
    accepted F n = (gtable okd N N).r22.getD n 0 := by
  obtain ⟨_, _, _, _, _, _, hv⟩ := gtable_spec okd N N
  rw [hv n hn, gcount_top okd N n hn, accepted_desc]
  unfold gcount gdesc
  congr 1
  apply List.filter_congr
  intro l hl
  exact h l hl

set_option maxRecDepth 1000000 in
theorem gtable_new_06 :
    (gtable okd_new_06 100 100).r22 = rtable (allowed 5 cong_new_06) 100 100 := by
  decide!

set_option maxRecDepth 1000000 in
theorem gtable_new_03 :
    (gtable okd_new_03 30 30).r22 = rtable (allowed 10 partnid.cong_new_03) 30 30 := by
  decide!

set_option maxRecDepth 1000000 in
theorem gtable_new_03_31 :
    (gtable okd_new_03 31 31).r22.getD 31 0 = 1397 ∧
      (rtable (allowed 10 partnid.cong_new_03) 31 31).getD 31 0 = 1396 := by
  decide!

set_option maxRecDepth 1000000 in
theorem gtable_new_03_13 :
    (gtable okd_new_03 13 13).r22.getD 13 0 = 41 ∧
      (rtable (allowed 10 partnid.cong_new_03) 13 13).getD 13 0 = 41 := by
  decide!

/-- The New-06 pairing up to 100: as many accepted partitions as partitions into parts not
congruent to 3 modulo 5. -/
theorem accepted_new_06 (n : Nat) (hn : n ≤ 100) :
    accepted partnid.filter_new_06 n = (rdesc (allowed 5 cong_new_06) n n).length := by
  rw [accepted_table partnid.filter_new_06 okd_new_06 100 n hn
      (fun l hl => filter_new_06_gap_acc n (by omega) l hl),
    gtable_new_06, rdesc_small _ 100 n hn]

/-- The New-03 pairing up to 30. -/
theorem accepted_new_03 (n : Nat) (hn : n ≤ 30) :
    accepted partnid.filter_new_03 n = (rdesc (allowed 10 partnid.cong_new_03) n n).length := by
  rw [accepted_table partnid.filter_new_03 okd_new_03 30 n hn
      (fun l hl => filter_new_03_gap_acc n (by omega) l hl),
    gtable_new_03, rdesc_small _ 30 n hn]

theorem accepted_new_03_31 : accepted partnid.filter_new_03 31 = 1397 ∧
    (rdesc (allowed 10 partnid.cong_new_03) 31 31).length = 1396 := by
  rw [accepted_table partnid.filter_new_03 okd_new_03 31 31 (le_refl _)
      (fun l hl => filter_new_03_gap_acc 31 (by norm_num) l hl),
    rdesc_small _ 31 31 (le_refl _)]
  exact gtable_new_03_31

theorem accepted_new_03_13 : accepted partnid.filter_new_03 13 = 41 ∧
    (rdesc (allowed 10 partnid.cong_new_03) 13 13).length = 41 := by
  rw [accepted_table partnid.filter_new_03 okd_new_03 13 13 (le_refl _)
      (fun l hl => filter_new_03_gap_acc 13 (by norm_num) l hl),
    rdesc_small _ 13 13 (le_refl _)]
  exact gtable_new_03_13

/-! ## The claims on the pairings -/

theorem qs_product_rdesc (m : Nat) (c : Nat → Int) (hm : 1 ≤ m)
    (hc : ∀ k, k < m → c k = -1 ∨ c k = 0) (d : Nat) (hd : d ≤ 255) :
    qs_product m c d = ((rdesc (allowed m c) d d).length : Int) := by
  rw [qs_product_count m c hm hc d, show MAXORD - 1 = 255 from rfl, rdesc_ge _ 255 d hd]

theorem cong_new_06_entries : ∀ k, k < 5 → cong_new_06 k = -1 ∨ cong_new_06 k = 0 := by
  unfold cong_new_06
  decide

theorem cong_new_03_entries :
    ∀ k, k < 10 → partnid.cong_new_03 k = -1 ∨ partnid.cong_new_03 k = 0 := by
  unfold partnid.cong_new_03
  decide

theorem cong_none_entries : ∀ k, k < 1 → partnid.cong_none k = -1 ∨ partnid.cong_none k = 0 := by
  unfold partnid.cong_none
  decide

/-- C25: with one worker and sum_side all zero at entry, verify(N) with filter_new_06 and
pside_new_06 returns for every N in [0, 100], and for every n in [0, N] it leaves in
sum_side[n] the number of the partitions of n (as merca3 enumerates them) that filter_new_06
accepts, in prod_side[n] the coefficient of q^n of the product over k of (1 - q^k)^(c[k mod 5])
with c = {-1, -1, -1, 0, -1}, the two are equal, and diff[n] = 0. -/
theorem new_06_identity (tmp nxt s0 tmp0 : qseries_t) (mem : Int → Buf) (N : Nat)
    (g : partnid.Glob) (hN : N ≤ 100) (h0 : ∀ n, g.sum_side n = 0) :
    ∃ g', Returns (fun fuel => partnid.verify partnid.filter_new_06
          (fun s => partnid.pside_new_06 s tmp nxt s0 tmp0) fuel mem (N : Int) g) g' ∧
      ∀ n, n ≤ N → g'.sum_side n = accepted partnid.filter_new_06 n ∧
        g'.prod_side n = qs_product 5 cong_new_06 n ∧ g'.sum_side n = g'.prod_side n ∧
        g'.diff n = 0 := by
  obtain ⟨g', hr, hv, _⟩ := verify_run partnid.filter_new_06 5 cong_new_06 tmp nxt s0 tmp0 mem N g
    (by decide) cong_new_06_entries (by omega) h0
  refine ⟨g', hr, fun n hn => ?_⟩
  obtain ⟨e1, e2, e3⟩ := hv n hn
  have e4 : g'.sum_side n = g'.prod_side n := by
    rw [e1, e2, qs_product_rdesc 5 cong_new_06 (by decide) cong_new_06_entries n (by omega),
      accepted_new_06 n (by omega)]
  refine ⟨e1, e2, e4, ?_⟩
  rw [e3, e4]
  ring

theorem new_06_identity_witness :
    ∃ g', Returns (fun fuel => partnid.verify partnid.filter_new_06
          (fun s => partnid.pside_new_06 s (fun _ => 0) (fun _ => 0) (fun _ => 0) (fun _ => 0))
          fuel (fun _ _ => 0) ((100 : Nat) : Int)
          ⟨fun _ => 0, fun _ => 0, fun _ => 0, 0, .ACTION_NONE, [], [], []⟩) g' ∧
      ∀ n, n ≤ 100 → g'.sum_side n = accepted partnid.filter_new_06 n ∧
        g'.prod_side n = qs_product 5 cong_new_06 n ∧ g'.sum_side n = g'.prod_side n ∧
        g'.diff n = 0 :=
  new_06_identity (fun _ => 0) (fun _ => 0) (fun _ => 0) (fun _ => 0) (fun _ _ => 0) 100
    ⟨fun _ => 0, fun _ => 0, fun _ => 0, 0, .ACTION_NONE, [], [], []⟩ (by decide) (fun _ => rfl)

/-- C26: filter_none accepts every partition, and for every n in [0, 199], so for every n in
[0, 100], pside_none returns, merca3 of partnid.c with filter_none returns, and the number it
leaves in a cell sum_side[n] that was 0 is the coefficient of q^n that pside_none leaves,
which is the number p(n) of partitions of n. -/
theorem none_pairing (s tmp nxt s0 tmp0 : qseries_t) (mem : Buf) (n : Nat) (g : partnid.Glob)
    (hn : n ≤ 199) (h0 : g.sum_side n = 0) :
    (∀ p, partnid.filter_none p = true) ∧
    ∃ r g', partnid.pside_none s tmp nxt s0 tmp0 = some r ∧
      Returns (fun fuel => partnid.merca3 partnid.filter_none fuel mem n g) (0, g') ∧
      g'.sum_side n = r n ∧ r n = (Fintype.card (Nat.Partition n) : Int) := by
  refine ⟨fun _ => rfl, ?_⟩
  obtain ⟨r, hr, hd⟩ := product_side_count 1 partnid.cong_none (by decide) cong_none_entries
    s tmp nxt s0 tmp0
  obtain ⟨g', hg, e1, _⟩ := pmerca3_call partnid.filter_none mem n g hn h0
  have hA : ∀ k, allowed 1 partnid.cong_none k = true := by
    intro k
    unfold allowed
    rw [Nat.mod_one]
    rfl
  have e2 : r n = (Fintype.card (Nat.Partition n) : Int) := by
    rw [(hd n (by unfold MAXORD; omega)).2, rdesc_all _ hA, ← visits_length .ALGO_ZS1 n]
    rfl
  have e3 : accepted partnid.filter_none n = Fintype.card (Nat.Partition n) := by
    rw [← visits_length .ALGO_MERCA3 n]
    unfold accepted
    exact congrArg List.length (List.filter_eq_self.mpr (fun _ _ => rfl))
  exact ⟨r, g', hr, hg, by rw [e1, e2, e3], e2⟩

theorem none_pairing_witness :
    (∀ p, partnid.filter_none p = true) ∧
    ∃ r g', partnid.pside_none (fun _ => 0) (fun _ => 0) (fun _ => 0) (fun _ => 0) (fun _ => 0)
        = some r ∧
      Returns (fun fuel => partnid.merca3 partnid.filter_none fuel (fun _ => 0) (100 : Nat)
        ⟨fun _ => 0, fun _ => 0, fun _ => 0, 0, .ACTION_NONE, [], [], []⟩) (0, g') ∧
      g'.sum_side 100 = r 100 ∧ r 100 = (Fintype.card (Nat.Partition 100) : Int) :=
  none_pairing (fun _ => 0) (fun _ => 0) (fun _ => 0) (fun _ => 0) (fun _ => 0) (fun _ => 0) 100
    ⟨fun _ => 0, fun _ => 0, fun _ => 0, 0, .ACTION_NONE, [], [], []⟩ (by decide) rfl

/-- C27, as amended: the first discrepancy of the New-03 pairing is at n = 31.  With one
worker and sum_side all zero at entry, verify(31) with filter_new_03 and pside_new_03 returns;
for every n in [0, 31] it leaves in sum_side[n] the number of the partitions of n that
filter_new_03 accepts and in prod_side[n] the coefficient of q^n of the product side of
pside_new_03; the two are equal for every n in [0, 30], and for n = 31 they are 1397 and
1396. -/
theorem new_03_first_discrepancy (tmp nxt s0 tmp0 : qseries_t) (mem : Int → Buf)
    (g : partnid.Glob) (h0 : ∀ n, g.sum_side n = 0) :
    ∃ g', Returns (fun fuel => partnid.verify partnid.filter_new_03
          (fun s => partnid.pside_new_03 s tmp nxt s0 tmp0) fuel mem ((31 : Nat) : Int) g) g' ∧
      (∀ n, n ≤ 31 → g'.sum_side n = accepted partnid.filter_new_03 n ∧
        g'.prod_side n = qs_product 10 partnid.cong_new_03 n) ∧
      (∀ n, n ≤ 30 → g'.sum_side n = g'.prod_side n) ∧
      g'.sum_side 31 = 1397 ∧ g'.prod_side 31 = 1396 := by
  obtain ⟨g', hr, hv, _⟩ := verify_run partnid.filter_new_03 10 partnid.cong_new_03 tmp nxt s0
    tmp0 mem 31 g (by decide) cong_new_03_entries (by omega) h0
  refine ⟨g', hr, fun n hn => ⟨(hv n hn).1, (hv n hn).2.1⟩, fun n hn => ?_, ?_, ?_⟩
  · obtain ⟨e1, e2, _⟩ := hv n (by omega)
    rw [e1, e2, qs_product_rdesc 10 _ (by decide) cong_new_03_entries n (by omega),
      accepted_new_03 n hn]
  · rw [(hv 31 (le_refl _)).1, accepted_new_03_31.1]
    rfl
  · rw [(hv 31 (le_refl _)).2.1, qs_product_rdesc 10 _ (by decide) cong_new_03_entries 31
      (by omega), accepted_new_03_31.2]
    rfl

theorem new_03_first_discrepancy_witness :
    ∃ g', Returns (fun fuel => partnid.verify partnid.filter_new_03
          (fun s => partnid.pside_new_03 s (fun _ => 0) (fun _ => 0) (fun _ => 0) (fun _ => 0))
          fuel (fun _ _ => 0) ((31 : Nat) : Int)
          ⟨fun _ => 0, fun _ => 0, fun _ => 0, 0, .ACTION_NONE, [], [], []⟩) g' ∧
      (∀ n, n ≤ 31 → g'.sum_side n = accepted partnid.filter_new_03 n ∧
        g'.prod_side n = qs_product 10 partnid.cong_new_03 n) ∧
      (∀ n, n ≤ 30 → g'.sum_side n = g'.prod_side n) ∧
      g'.sum_side 31 = 1397 ∧ g'.prod_side 31 = 1396 :=
  new_03_first_discrepancy (fun _ => 0) (fun _ => 0) (fun _ => 0) (fun _ => 0) (fun _ _ => 0)
    ⟨fun _ => 0, fun _ => 0, fun _ => 0, 0, .ACTION_NONE, [], [], []⟩ (fun _ => rfl)

/-- C27, the counterexample: at n = 13 the two sides of the New-03 pairing are equal.
merca3 of partnid.c with filter_new_03, run for n = 13 from zeroed globals, leaves 41 in
sum_side[13], the number of the partitions of 13 that filter_new_03 accepts, and
pside_new_03 leaves the coefficient 41 at q^13. -/
theorem new_03_agrees_at_13 :
    accepted partnid.filter_new_03 13 = 41 ∧
    (∃ g', Returns (fun fuel => partnid.merca3 partnid.filter_new_03 fuel (fun _ => 0)
        ((13 : Nat) : Int) ⟨fun _ => 0, fun _ => 0, fun _ => 0, 0, .ACTION_NONE, [], [], []⟩)
        (0, g') ∧ g'.sum_side 13 = 41) ∧
    ∃ r, partnid.pside_new_03 (fun _ => 0) (fun _ => 0) (fun _ => 0) (fun _ => 0) (fun _ => 0)
        = some r ∧ r 13 = 41 := by
  refine ⟨accepted_new_03_13.1, ?_, ?_⟩
  · obtain ⟨g', hg, e1, _⟩ := pmerca3_call partnid.filter_new_03 (fun _ => 0) 13
      ⟨fun _ => 0, fun _ => 0, fun _ => 0, 0, .ACTION_NONE, [], [], []⟩ (by omega) rfl
    refine ⟨g', hg, ?_⟩
    rw [e1, accepted_new_03_13.1]
    rfl
  · obtain ⟨r, hr, hd⟩ := product_side_count 10 partnid.cong_new_03 (by decide)
      cong_new_03_entries (fun _ => 0) (fun _ => 0) (fun _ => 0) (fun _ => 0) (fun _ => 0)
    refine ⟨r, hr, ?_⟩
    rw [(hd 13 (by unfold MAXORD; omega)).2, accepted_new_03_13.2]
    rfl

/-! ## The command lines -/

/-- When genpartn's parse_args is called with the outcome (ret, val) of sscanf, it returns
E_SUCCESS exactly when the algorithm and the action are known names, ret is not 0 and val
is not negative: there is no test of an upper bound. -/
theorem parse_args_success_iff (argv : List String) (ret val : Int) (alg : algo_t)
    (axn : action_t) (n : Int) :
    (parse_args argv ret val alg axn n).1 = .E_SUCCESS ↔
      (parse_args_algo (argv.getD 1 "")).isSome ∧ (parse_args_action (argv.getD 2 "")).isSome ∧
        ret ≠ 0 ∧ 0 ≤ val := by
  unfold parse_args
  cases parse_args_algo (argv.getD 1 "") with
  | none => simp
  | some alg1 =>
    cases parse_args_action (argv.getD 2 "") with
    | none => simp
    | some axn1 =>
      by_cases h0 : ret = 0
      · simp [h0]
      · by_cases h1 : val < 0
        · simp [h0, h1]
        · simp only [if_neg h0, if_neg h1, Option.isSome_some, true_and, ne_eq, h0,
            not_false_eq_true]
          constructor
          · intro _; omega
          · intro _; trivial

/-- C31: genpartn's parse_args returns E_SUCCESS for `rule_asc none 200` and for
`rule_asc none 1000`, where sscanf converts the number (it returns 1 and stores 200, or
1000): N above the bound 199 of the usage text is not rejected. -/
theorem genpartn_parse_args_accepts_200 (alg : algo_t) (axn : action_t) (n : Int) :
    parse_args ["genpartn", "rule_asc", "none", "200"] 1 200 alg axn n
      = (.E_SUCCESS, .ALGO_RULE_ASC, .ACTION_NONE, 200) ∧
    parse_args ["genpartn", "rule_asc", "none", "1000"] 1 1000 alg axn n
      = (.E_SUCCESS, .ALGO_RULE_ASC, .ACTION_NONE, 1000) := by
  constructor <;> rfl

/-- The code that partnid's parse_args returns, by cases on argc, on the command and on
the outcome (ret, val) of sscanf; E_SCAN_FAILURE is returned only when ret is 0. -/
theorem partnid_parse_args_spec (argc : Int) (argv : List String) (ret val : Int)
    (com : partnid.command_t) (n : Int) :
    (partnid.parse_args argc argv ret val com n).1 =
      if argc < 2 then .E_WRONG_NUM_ARGS
      else if argv.getD 1 "" = "help" then .E_SUCCESS
      else if argv.getD 1 "" = "show" ∨ argv.getD 1 "" = "verify" then
        if argc < 3 then .E_WRONG_NUM_ARGS
        else if ret = 0 then .E_SCAN_FAILURE
        else if val < 0 ∨ val > 199 then .E_OUT_OF_RANGE
        else .E_SUCCESS
      else .E_UNKNOWN_COMMAND := by
  unfold partnid.parse_args partnid.parse_args_n
  simp only [partnid.MAXN, Nat.cast_ofNat]
  split_ifs <;> simp_all

/-- C32: for `partnid show ""` (argc = 3), where sscanf finds the end of the text before a
number and returns EOF = -1 without storing anything, parse_args never returns
E_SCAN_FAILURE: the answer depends on what main's uninitialised n holds, E_SUCCESS when
that is 7 and E_OUT_OF_RANGE when that is 500. -/
theorem partnid_parse_args_eof (com : partnid.command_t) (n0 : Int) :
    (partnid.parse_args 3 ["partnid", "show", ""] (-1) n0 com n0).1 ≠ .E_SCAN_FAILURE ∧
    partnid.parse_args 3 ["partnid", "show", ""] (-1) 7 com 7
      = (.E_SUCCESS, .COMMAND_SHOW, 7) ∧
    partnid.parse_args 3 ["partnid", "show", ""] (-1) 500 com 500
      = (.E_OUT_OF_RANGE, .COMMAND_SHOW, 500) := by
  refine ⟨?_, rfl, rfl⟩
  have e : partnid.parse_args 3 ["partnid", "show", ""] (-1) n0 com n0
      = ((partnid.parse_args_n 3 (-1) n0 n0).1, .COMMAND_SHOW,
          (partnid.parse_args_n 3 (-1) n0 n0).2) := rfl
  rw [e]
  unfold partnid.parse_args_n
  split_ifs <;> simp_all

/-! ## The generators: equal sequences, termination -/

/-- C34: for every n in [0, 200] accel_desc and zs1 return, and they hand the visitor the
same sequence of partitions (the same n, len and parts at every visit, in the same order);
the parts of every visited partition are in non-increasing order, every visited partition
is strictly smaller in lexicographic order than the one visited just before it, the first
one is [n] (the empty partition when n is 0) and the last one is n ones. -/
theorem accel_desc_same_as_zs1 (mem1 memx1 mem2 memx2 : Buf) (n : Nat) (h : n ≤ 200) :
    ∃ count out,
      Returns (fun fuel => generators .ALGO_ACCEL_DESC fuel mem1 memx1 (n : Int) true)
        (count, out) ∧
      Returns (fun fuel => generators .ALGO_ZS1 fuel mem2 memx2 (n : Int) true) (count, out) ∧
      (∀ l ∈ visited_parts out, List.Sorted (fun a b => a ≥ b) l) ∧
      List.Chain' (fun prev next => LexLt next prev) (visited_parts out) ∧
      (visited_parts out).head? = some (if n = 0 then [] else [(n : Int)]) ∧
      (visited_parts out).getLast? = some (List.replicate n 1) := by
  refine ⟨_, _, generators_run .ALGO_ACCEL_DESC mem1 memx1 n true h,
    generators_run .ALGO_ZS1 mem2 memx2 n true h, ?_⟩
  rw [vlog_true, visited_parts_map]
  have e : visits .ALGO_ACCEL_DESC n = desc n n := rfl
  rw [e]
  refine ⟨fun l hl => ((desc_mem n l).mp hl).1,
    (desc_pairwise (n + n + 1) n n (by omega)).chain', ?_, ?_⟩
  · by_cases h0 : n = 0
    · subst h0
      rw [desc_zero]
      rfl
    · rw [desc_self n (by omega), if_neg h0]
      rfl
  · by_cases h0 : n = 0
    · subst h0
      rw [desc_zero]
      rfl
    · obtain ⟨L, hL⟩ := desc_last n (by omega) n (by omega)
      rw [hL, List.getLast?_append]
      rfl

theorem accel_desc_same_as_zs1_witness :
    ∃ count out,
      Returns (fun fuel => generators .ALGO_ACCEL_DESC fuel (fun _ => 0) (fun _ => 0)
        ((6 : Nat) : Int) true) (count, out) ∧
      Returns (fun fuel => generators .ALGO_ZS1 fuel (fun _ => 7) (fun _ => 0)
        ((6 : Nat) : Int) true) (count, out) ∧
      (∀ l ∈ visited_parts out, List.Sorted (fun a b => a ≥ b) l) ∧
      List.Chain' (fun prev next => LexLt next prev) (visited_parts out) ∧
      (visited_parts out).head? = some (if 6 = 0 then [] else [((6 : Nat) : Int)]) ∧
      (visited_parts out).getLast? = some (List.replicate 6 1) :=
  accel_desc_same_as_zs1 (fun _ => 0) (fun _ => 0) (fun _ => 7) (fun _ => 0) 6 (by decide)

/-- C37: for every n with 1 ≤ n ≤ 200 each of the nine generators terminates: there is a
number of loop tests after which the generator has left every loop and returned, and with
any larger budget of loop tests it returns the same count and the same visits. -/
theorem generators_terminate (algo : algo_t) (mem memx : Buf) (n : Nat) (v : Bool)
    (h1 : 1 ≤ n) (h2 : n ≤ 200) :
    ∃ t0 r, ∀ fuel, t0 ≤ fuel → generators algo fuel mem memx (n : Int) v = some r := by
  have _ := h1
  obtain ⟨t0, ht0⟩ := generators_run algo mem memx n v h2
  exact ⟨t0, _, ht0⟩

theorem generators_terminate_witness :
    ∃ t0 r, ∀ fuel, t0 ≤ fuel →
      generators .ALGO_ZS2 fuel (fun _ => 0) (fun _ => 0) ((5 : Nat) : Int) true = some r :=
  generators_terminate .ALGO_ZS2 (fun _ => 0) (fun _ => 0) 5 true (by decide) (by decide)

/-! ## The two copies of merca3 -/

/-- C35: for every n in [0, 199] and every filter F, merca3 of partition.c returns with a
log `out` of the partitions handed to its visitor, which are the partitions of n, each
once; merca3 of partnid.c returns as well, it has called F with exactly the partitions of
`out`, in the same order, and it leaves sum_side[n] increased by the number of the
partitions of `out` that F accepts (sum_side[n] is not negative at entry and the sum fits
an int64_t). -/
theorem partnid_merca3_same_visits (F : partition_t → Bool) (mem1 mem2 : Buf) (n : Nat)
    (g : partnid.Glob) (h : n ≤ 199) (h0 : 0 ≤ g.sum_side n)
    (h1 : g.sum_side n + accepted F n < 2 ^ 63) :
    ∃ count out g', Returns (fun fuel => merca3 fuel mem1 (n : Int) true) (count, out) ∧
      Returns (fun fuel => partnid.merca3 F fuel mem2 (n : Int) g) (0, g') ∧
      g'.calls = g.calls ++ out ∧
      g'.sum_side n = g.sum_side n + (out.filter F).length ∧
      (out.filter F).length = accepted F n ∧
      (visited_multisets out).Nodup ∧
      ∀ μ : Multiset Int, μ ∈ visited_multisets out ↔ (∀ x ∈ μ, 0 < x) ∧ μ.sum = n := by
  refine ⟨_, _, _, generators_run .ALGO_MERCA3 mem1 mem1 n true (by omega),
    pmerca3_visits F mem2 n g h, ?_⟩
  obtain ⟨i1, _, _, _, _, _, _, _, i9⟩ :=
    visit_fold F n h ((visits .ALGO_MERCA3 n).map (psnap n [])) g
  rw [vlog_true, visited_multisets_map, accepted_eq]
  rw [accepted_eq] at i9
  exact ⟨i1, i9 h0 h1, rfl, visits_family .ALGO_MERCA3 n⟩

theorem partnid_merca3_same_visits_witness :
    ∃ count out g', Returns (fun fuel => merca3 fuel (fun _ => 0) ((4 : Nat) : Int) true)
        (count, out) ∧
      Returns (fun fuel => partnid.merca3 partnid.filter_none fuel (fun _ => 0) ((4 : Nat) : Int)
        ⟨fun _ => 0, fun _ => 0, fun _ => 0, 0, .ACTION_NONE, [], [], []⟩) (0, g') ∧
      g'.calls = [] ++ out ∧
      g'.sum_side 4 = 0 + (out.filter partnid.filter_none).length ∧
      (out.filter partnid.filter_none).length = accepted partnid.filter_none 4 ∧
      (visited_multisets out).Nodup ∧
      ∀ μ : Multiset Int, μ ∈ visited_multisets out ↔ (∀ x ∈ μ, 0 < x) ∧ μ.sum = (4 : Nat) :=
  partnid_merca3_same_visits partnid.filter_none (fun _ => 0) (fun _ => 0) 4
    ⟨fun _ => 0, fun _ => 0, fun _ => 0, 0, .ACTION_NONE, [], [], []⟩ (by decide) (by decide)
    (by
      have hlt := accepted_lt partnid.filter_none 4 (by decide)
      show (0 : Int) + (accepted partnid.filter_none 4 : Int) < 2 ^ 63
      omega)

/-! ## The read after the last `k--` of merca2 and merca3 -/

theorem memset_a_apply_neg (a : Buf) : partnid.memset_a a (-1) = a (-1) := by
  unfold partnid.memset_a
  rw [if_neg (by omega)]

/-- C36: for n = 1 the last turn of the outer loop of merca2 (the third loop test), of
merca3 (the fifth) and of merca3 of partnid.c (the fifth) ends with k = -1 and
x = p.a[-1] + 1: the statement `x = p.a[k] + 1` after the final `k--` reads the cell in
front of the part buffer, whose value is whatever memory holds there. -/
theorem merca_read_before_buffer (mem : Buf) (v : Bool) (F : partition_t → Bool)
    (g : partnid.Glob) :
    (((merca2_step 1 v)^[3] (merca2_init mem 1 v)).k = -1 ∧
      ((merca2_step 1 v)^[3] (merca2_init mem 1 v)).x = mem (-1) + 1) ∧
    (((merca3_step 1 v)^[4] (merca3_init mem 1 v)).k = -1 ∧
      ((merca3_step 1 v)^[4] (merca3_init mem 1 v)).x = mem (-1) + 1) ∧
    (((partnid.merca3_step F 1)^[4] (partnid.merca3_init F mem 1 g)).k = -1 ∧
      ((partnid.merca3_step F 1)^[4] (partnid.merca3_init F mem 1 g)).x = mem (-1) + 1) := by
  have e0 : init_partition mem 0 (-1) = mem (-1) := by
    rw [init_partition_apply, if_neg (by omega)]
  have e1 := memset_a_apply_neg mem
  refine ⟨⟨?_, ?_⟩, ⟨?_, ?_⟩, ⟨?_, ?_⟩⟩
  all_goals simp [Function.iterate_succ, merca2_step, merca2_init, merca3_step, merca3_init,
    partnid.merca3_step, partnid.merca3_init, wr, partnid.wr, e0, e1]

/-! ## Inversion of a series whose constant term is not a unit -/

theorem invert_sum_zero (s : qseries_t) (deg : Nat) : invert_sum s (fun _ => 0) deg = 0 := by
  unfold invert_sum
  generalize List.range' 1 deg = l
  induction l with
  | nil => rfl
  | cons i l ih =>
    rw [List.foldl_cons]
    have e : wrap64 (0 + wrap64 (s i * 0)) = 0 := by
      rw [mul_zero]
      rfl
    rw [e]
    exact ih

theorem tdiv_one_eq_zero (z : Int) (h : 2 ≤ |z|) : Int.tdiv 1 z = 0 := by
  rcases le_or_lt 0 z with hz | hz
  · rw [abs_of_nonneg hz] at h
    exact Int.tdiv_eq_zero_of_lt (by omega) (by omega)
  · rw [abs_of_neg hz] at h
    have e : Int.tdiv 1 (-z) = 0 := Int.tdiv_eq_zero_of_lt (by omega) (by omega)
    rw [Int.tdiv_neg] at e
    omega

/-- C33: for every series s with |s[0]| ≥ 2 invert_qseries returns a result (no error is
signalled), every coefficient of the result of degree below MAXORD is 0, and so is every
coefficient of the product that multiply_qseries computes from s and the result: the
product is the zero series and differs from the identity series at degree 0. -/
theorem invert_qseries_truncates (s ans ans2 : qseries_t) (h : 2 ≤ |s 0|) :
    ∃ r, invert_qseries s ans = some r ∧ (∀ d, d < MAXORD → r d = 0) ∧
      (∀ d, d < MAXORD → multiply_qseries s r ans2 d = 0) ∧
      multiply_qseries s r ans2 0 ≠ qs_one 0 := by
  have hne : s 0 ≠ 0 := by
    intro h0
    rw [h0] at h
    simp at h
  have hne1 : s 0 ≠ -1 := by
    intro h1
    rw [h1] at h
    simp at h
  obtain ⟨r, hr⟩ := invert_qseries_total s ans hne hne1
  obtain ⟨_, hr0, hrd, _, _⟩ := invert_qseries_spec s ans r hr
  have hz : ∀ d, d < MAXORD → r d = 0 := by
    intro d
    induction d using Nat.strong_induction_on with
    | _ d ih =>
      intro hd
      by_cases hd0 : d = 0
      · subst hd0
        rw [hr0]
        exact tdiv_one_eq_zero _ h
      · have hq := hrd d (by omega) hd
        have e : invert_sum s r d = invert_sum s (fun _ => 0) d :=
          invert_sum_congr s r (fun _ => 0) d (fun j hj => ih j hj (by omega))
        rw [e, invert_sum_zero] at hq
        have e2 : wrap64 (-0) = 0 := rfl
        rw [e2] at hq
        obtain ⟨_, _, e3⟩ := div64_some 0 (s 0) (r d) hq
        rw [e3, Int.zero_tdiv]
  have hm : ∀ d, d < MAXORD → multiply_qseries s r ans2 d = 0 := by
    intro d hd
    rw [multiply_qseries_apply s r ans2 d hd]
    have e : conv s r d = 0 := by
      unfold conv
      apply List.sum_eq_zero
      intro x hx
      obtain ⟨i, _, rfl⟩ := List.mem_map.mp hx
      rw [hz (d - i) (by omega), mul_zero]
    rw [e]
    rfl
  refine ⟨r, hr, hz, hm, ?_⟩
  rw [hm 0 (by decide)]
  decide

theorem invert_qseries_truncates_witness :
    ∃ r, invert_qseries (fun _ => 2) (fun _ => 0) = some r ∧ (∀ d, d < MAXORD → r d = 0) ∧
      (∀ d, d < MAXORD → multiply_qseries (fun _ => 2) r (fun _ => 0) d = 0) ∧
      multiply_qseries (fun _ => 2) r (fun _ => 0) 0 ≠ qs_one 0 :=
  invert_qseries_truncates (fun _ => 2) (fun _ => 0) (fun _ => 0) (by decide)

/-! ## The frontier invariant of zs1 and accel_desc -/

theorem front_sum_ge (a : Buf) (H : Nat) (h : ∀ i : Nat, i < H → 2 ≤ a i) :
    2 * (H : Int) ≤ (rd a H).sum := by
  induction H with
  | zero => simp [rd]
  | succ H ih =>
    rw [rd_succ, List.sum_append, List.sum_singleton]
    have h1 := ih (fun i hi => h i (by omega))
    have h2 := h H (by omega)
    push_cast
    omega

theorem front_init (mem : Buf) (n : Int) (h2 : 2 ≤ n) :
    FrontAt n (wr (init_partition mem 1) 0 n) 1 1 := by
  have e0 : wr (init_partition mem 1) 0 n ((0 : Nat) : Int) = n :=
    wr_same _ _ _ (by omega) (by omega)
  refine ⟨by simp, fun i hi => ?_, fun i hi => by omega, ones_init mem n, ?_⟩
  · have hi0 : i = 0 := by omega
    subst hi0
    rw [e0]
    exact h2
  · rw [rd_succ, rd_zero, List.nil_append, List.sum_singleton, e0]
    simp

theorem FrontAt.pos {n : Int} {a : Buf} {H : Nat} {m : Int} (hf : FrontAt n a H m)
    (h0 : a 0 ≠ 1) : 1 ≤ H := by
  by_contra hH
  have hH0 : H = 0 := by omega
  subst hH0
  exact h0 (hf.2.2.2.1 0 (le_refl _) (by omega))

theorem FrontAt.split_two {n : Int} {a : Buf} {H : Nat} {m : Int} (hf : FrontAt n a H m)
    (hH : 1 ≤ H) (h2 : a ((H : Int) - 1) = 2) (hn : n ≤ 200) :
    FrontAt n (wr a ((H : Int) - 1) 1) (H - 1) (m + 1) := by
  obtain ⟨h1, hge, hadj, hones, hsum⟩ := hf
  obtain ⟨K, rfl⟩ : ∃ K, H = K + 1 := ⟨H - 1, by omega⟩
  have hs := front_sum_ge a (K + 1) hge
  rw [rd_succ, List.sum_append, List.sum_singleton] at hsum hs
  have e : ((K + 1 : Nat) : Int) - 1 = K := by push_cast; ring
  rw [e] at h2 ⊢
  simp only [Nat.add_sub_cancel]
  push_cast at h1 hsum hs
  refine ⟨by omega, fun i hi => ?_, fun i hi => ?_, hones.wr_one (by omega), ?_⟩
  · rw [wr_other _ _ _ _ (by omega)]
    exact hge i (by omega)
  · rw [wr_other _ _ _ _ (by omega), wr_other _ _ _ _ (by omega)]
    exact hadj i (by omega)
  · rw [rd_wr_of_le a K K 1 (le_refl _)]
    omega

theorem FrontAt.enter_fill {n : Int} {a : Buf} {H : Nat} {m : Int} (hf : FrontAt n a H m)
    (hH : 1 ≤ H) (h2 : a ((H : Int) - 1) ≠ 2) (hn : n ≤ 200) :
    FillAt n (wr a ((H : Int) - 1) (a ((H : Int) - 1) - 1)) H (a ((H : Int) - 1) - 1)
      (m - ((H : Int) - 1)) := by
  obtain ⟨h1, hge, hadj, hones, hsum⟩ := hf
  obtain ⟨K, rfl⟩ : ∃ K, H = K + 1 := ⟨H - 1, by omega⟩
  have hs := front_sum_ge a (K + 1) hge
  have hK := hge K (by omega)
  have e : ((K + 1 : Nat) : Int) - 1 = K := by push_cast; ring
  rw [e] at h2 ⊢
  rw [rd_succ, List.sum_append, List.sum_singleton] at hsum hs
  push_cast at h1 hsum hs
  have hsame : wr a (K : Int) (a K - 1) K = a K - 1 := wr_same _ _ _ (by omega) (by omega)
  refine ⟨by omega, by omega, by omega, by rw [e]; exact hsame, fun i hi => ?_, fun i hi => ?_,
    hones.wr_lt _ _ (by push_cast; omega), ?_⟩
  · by_cases hi2 : i = K
    · subst hi2
      rw [hsame]
      omega
    · rw [wr_other _ _ _ _ (by omega)]
      exact hge i hi
  · have ha := hadj i hi
    by_cases hi2 : i + 1 = K
    · have e2 : (i : Int) + 1 = K := by omega
      rw [e2] at ha ⊢
      rw [hsame, wr_other _ _ _ _ (by omega)]
      omega
    · rw [wr_other _ _ _ _ (by omega), wr_other _ _ _ _ (by omega)]
      exact ha
  · rw [rd_succ, List.sum_append, List.sum_singleton, rd_wr_of_le a K K _ (le_refl _), hsame]
    omega

theorem FillAt.more {n : Int} {a : Buf} {H : Nat} {r t : Int} (hf : FillAt n a H r t)
    (hrt : r ≤ t) (hn : n ≤ 200) : FillAt n (wr a H r) (H + 1) r (t - r) := by
  obtain ⟨hH, hr, ht, hlast, hge, hadj, hones, hsum⟩ := hf
  have hs := front_sum_ge a H hge
  have hsame : wr a (H : Int) r H = r := wr_same _ _ _ (by omega) (by omega)
  have e : ((H + 1 : Nat) : Int) - 1 = H := by push_cast; ring
  refine ⟨by omega, hr, by omega, by rw [e]; exact hsame, fun i hi => ?_, fun i hi => ?_,
    hones.wr_succ _ _ rfl, ?_⟩
  · by_cases hi2 : i = H
    · subst hi2
      rw [hsame]
      exact hr
    · rw [wr_other _ _ _ _ (by omega)]
      exact hge i (by omega)
  · by_cases hi2 : i + 1 = H
    · have e2 : (i : Int) + 1 = H := by omega
      have e3 : (i : Int) = (H : Int) - 1 := by omega
      rw [e2, hsame, wr_other _ _ _ _ (by omega), e3, hlast]
    · rw [wr_other _ _ _ _ (by omega), wr_other _ _ _ _ (by omega)]
      exact hadj i (by omega)
  · rw [rd_succ, List.sum_append, List.sum_singleton, rd_wr_of_le a H H _ (le_refl _), hsame]
    omega

theorem FillAt.done_zero {n : Int} {a : Buf} {H : Nat} {r : Int} (hf : FillAt n a H r 0) :
    FrontAt n a H (H : Int) := by
  obtain ⟨_, _, _, _, hge, hadj, hones, hsum⟩ := hf
  exact ⟨le_refl _, hge, hadj, hones, by omega⟩

theorem FillAt.done_one {n : Int} {a : Buf} {H : Nat} {r : Int} (hf : FillAt n a H r 1) :
    FrontAt n a H ((H : Int) + 1) := by
  obtain ⟨_, _, _, _, hge, hadj, hones, hsum⟩ := hf
  exact ⟨by omega, hge, hadj, hones, by omega⟩

theorem FillAt.done_big {n : Int} {a : Buf} {H : Nat} {r t : Int} (hf : FillAt n a H r t)
    (h1 : t < r) (h2 : 1 < t) (hn : n ≤ 200) :
    FrontAt n (wr a H t) (H + 1) ((H : Int) + 1) := by
  obtain ⟨hH, hr, ht, hlast, hge, hadj, hones, hsum⟩ := hf
  have hs := front_sum_ge a H hge
  have hsame : wr a (H : Int) t H = t := wr_same _ _ _ (by omega) (by omega)
  refine ⟨by push_cast; omega, fun i hi => ?_, fun i hi => ?_, hones.wr_succ _ _ rfl, ?_⟩
  · by_cases hi2 : i = H
    · subst hi2
      rw [hsame]
      omega
    · rw [wr_other _ _ _ _ (by omega)]
      exact hge i (by omega)
  · by_cases hi2 : i + 1 = H
    · have e2 : (i : Int) + 1 = H := by omega
      have e3 : (i : Int) = (H : Int) - 1 := by omega
      rw [e2, hsame, wr_other _ _ _ _ (by omega), e3, hlast]
      omega
    · rw [wr_other _ _ _ _ (by omega), wr_other _ _ _ _ (by omega)]
      exact hadj i (by omega)
  · rw [rd_succ, List.sum_append, List.sum_singleton, rd_wr_of_le a H H _ (le_refl _), hsame]
    push_cast
    omega

theorem front_mono (a : Buf) (H : Nat) (hadj : ∀ i : Nat, i + 1 < H → a ((i : Int) + 1) ≤ a i)
    (i : Nat) : ∀ d : Nat, i + d < H → a ((i + d : Nat) : Int) ≤ a i := by
  intro d
  induction d with
  | zero => intro _; exact le_refl _
  | succ d ih =>
    intro hd
    have h1 := ih (by omega)
    have h2 := hadj (i + d) (by omega)
    have e : (((i + d : Nat) : Int) + 1) = ((i + (d + 1) : Nat) : Int) := by push_cast; ring
    rw [e] at h2
    omega

/-- The frontier as the proofs keep it gives the frontier invariant of the spec. -/
theorem FrontAt.frontier {n : Int} {a : Buf} {H : Nat} {m : Int} (hf : FrontAt n a H m)
    (hn : n ≤ 200) :
    -1 ≤ (H : Int) - 1 ∧ (H : Int) - 1 < m ∧ ((snap n m a).len : Int) = m ∧
      (snap n m a).a.sum = n ∧ Frontier n a ((H : Int) - 1) m := by
  obtain ⟨h1, hge, hadj, hones, hsum⟩ := hf
  have hs := front_sum_ge a H hge
  obtain ⟨M, hM⟩ : ∃ M : Nat, m = (M : Int) := ⟨m.toNat, by omega⟩
  subst hM
  have hMH : H ≤ M := by omega
  obtain ⟨j, rfl⟩ : ∃ j, M = H + j := ⟨M - H, by omega⟩
  have hrd : rd a (H + j) = rd a H ++ List.replicate j 1 :=
    hones.rd j _ rfl (by push_cast at hsum; omega)
  have hsumM : (rd a (H + j)).sum = n := by
    rw [hrd, List.sum_append, List.sum_replicate, nsmul_eq_mul, mul_one]
    push_cast at hsum
    omega
  have hto : ((H + j : Nat) : Int).toNat = H + j := Int.toNat_natCast _
  refine ⟨by omega, by omega, ?_, ?_, fun i hi1 hi2 => ?_, fun i k hi hik hk => ?_,
    fun i hi1 hi2 => ?_, ?_, ?_⟩
  · show ((((H + j : Nat) : Int).toNat : Nat) : Int) = _
    rw [hto]
  · show (rd a ((H + j : Nat) : Int).toNat).sum = n
    rw [hto]
    exact hsumM
  · obtain ⟨i, rfl⟩ : ∃ i' : Nat, i = (i' : Int) := ⟨i.toNat, by omega⟩
    exact hge i (by omega)
  · obtain ⟨i, rfl⟩ : ∃ i' : Nat, i = (i' : Int) := ⟨i.toNat, by omega⟩
    obtain ⟨d, rfl⟩ : ∃ d : Nat, k = ((i + d : Nat) : Int) := ⟨(k - i).toNat, by omega⟩
    exact front_mono a H hadj i d (by omega)
  · obtain ⟨i, rfl⟩ : ∃ i' : Nat, i = (i' : Int) := ⟨i.toNat, by omega⟩
    exact hones i (by omega) (by unfold MAXNUMP at hi2; omega)
  · rw [hto]
    exact hsumM
  · rw [hto]
    constructor
    · intro h0
      have hH0 : H = 0 := by omega
      subst hH0
      rw [hrd, rd_zero, List.nil_append]
      rw [rd_zero] at hsum
      simp only [List.sum_nil, zero_add] at hsum
      congr 1
      push_cast at hsum
      omega
    · intro hall
      by_contra hne
      have hH1 : 1 ≤ H := by omega
      have hmem : a 0 ∈ rd a (H + j) := rd_zero_mem a _ (by omega)
      rw [hall] at hmem
      have h01 := List.eq_of_mem_replicate hmem
      have h02 := hge 0 (by omega)
      simp only [Nat.cast_zero] at h02
      omega

/-! ### The invariant of zs1 -/

theorem zs1_inv_init (mem : Buf) (n : Int) (h2 : 2 ≤ n) : Zs1Inv n (zs1_init mem n true) := by
  have e : zs1_init mem n true
      = ⟨.outer, wr (init_partition mem 1) 0 n, 0, 1, 0, 0, incr 0,
          [snap n 1 (wr (init_partition mem 1) 0 n)]⟩ := by
    unfold zs1_init
    rw [if_neg (by omega), if_neg (by omega)]
    rfl
  rw [e]
  exact ⟨1, rfl, front_init mem n h2, rfl⟩

theorem zs1_inv_step (n : Int) (hn : n ≤ 200) (s : Zs1St) (h : Zs1Inv n s) :
    Zs1Inv n (zs1_step n true s) := by
  obtain ⟨pc, a, hh, m, r, t, count, out⟩ := s
  cases pc with
  | outer =>
    obtain ⟨H, e1, hf0, _⟩ := h
    have hf : FrontAt n a H m := hf0
    have e1' : hh = (H : Int) - 1 := e1
    subst e1'
    by_cases h0 : a 0 = 1
    · have e : zs1_step n true ⟨.outer, a, (H : Int) - 1, m, r, t, count, out⟩
          = ⟨.ret, a, (H : Int) - 1, m, r, t, count, out⟩ := by
        simp [zs1_step, h0]
      rw [e]
      trivial
    · have hH := hf.pos h0
      by_cases h2 : a ((H : Int) - 1) = 2
      · have e : zs1_step n true ⟨.outer, a, (H : Int) - 1, m, r, t, count, out⟩
            = ⟨.outer, wr a ((H : Int) - 1) 1, (H : Int) - 1 - 1, m + 1, r, t, incr count,
                out ++ [snap n (m + 1) (wr a ((H : Int) - 1) 1)]⟩ := by
          simp [zs1_step, zs1_visit, call_visit, h0, h2]
        rw [e]
        exact ⟨H - 1, by show (H : Int) - 1 - 1 = ((H - 1 : Nat) : Int) - 1; omega,
          hf.split_two hH h2 hn, by simp⟩
      · have e : zs1_step n true ⟨.outer, a, (H : Int) - 1, m, r, t, count, out⟩
            = ⟨.fill, wr a ((H : Int) - 1) (a ((H : Int) - 1) - 1), (H : Int) - 1, m,
                a ((H : Int) - 1) - 1, m - ((H : Int) - 1), count, out⟩ := by
          simp [zs1_step, h0, h2]
        rw [e]
        exact ⟨H, rfl, hf.enter_fill hH h2 hn⟩
  | fill =>
    obtain ⟨H, e1, hf0⟩ := h
    have hf : FillAt n a H r t := hf0
    have e1' : hh = (H : Int) - 1 := e1
    subst e1'
    have eH : (H : Int) - 1 + 1 = H := by ring
    by_cases hrt : r ≤ t
    · have e : zs1_step n true ⟨.fill, a, (H : Int) - 1, m, r, t, count, out⟩
          = ⟨.fill, wr a H r, H, m, r, t - r, count, out⟩ := by
        simp [zs1_step, hrt]
      rw [e]
      exact ⟨H + 1, by show (H : Int) = ((H + 1 : Nat) : Int) - 1; push_cast; ring,
        hf.more hrt hn⟩
    · by_cases ht0 : t = 0
      · subst ht0
        have e : zs1_step n true ⟨.fill, a, (H : Int) - 1, m, r, 0, count, out⟩
            = ⟨.outer, a, (H : Int) - 1, H, r, 0, incr count, out ++ [snap n H a]⟩ := by
          simp [zs1_step, zs1_visit, call_visit, hrt]
        rw [e]
        exact ⟨H, rfl, hf.done_zero, by simp⟩
      · by_cases ht1 : 1 < t
        · have e : zs1_step n true ⟨.fill, a, (H : Int) - 1, m, r, t, count, out⟩
              = ⟨.outer, wr a H t, H, (H : Int) + 1, r, t, incr count,
                  out ++ [snap n ((H : Int) + 1) (wr a H t)]⟩ := by
            have e2 : (H : Int) - 1 + 2 = H + 1 := by ring
            simp [zs1_step, zs1_visit, call_visit, hrt, ht0, ht1, e2]
          rw [e]
          exact ⟨H + 1, by show (H : Int) = ((H + 1 : Nat) : Int) - 1; push_cast; ring,
            hf.done_big (by omega) ht1 hn, by simp⟩
        · have ht : t = 1 := by
            have := hf.2.2.1
            omega
          subst ht
          have e : zs1_step n true ⟨.fill, a, (H : Int) - 1, m, r, 1, count, out⟩
              = ⟨.outer, a, (H : Int) - 1, (H : Int) + 1, r, 1, incr count,
                  out ++ [snap n ((H : Int) + 1) a]⟩ := by
            have e2 : (H : Int) - 1 + 2 = H + 1 := by ring
            simp [zs1_step, zs1_visit, call_visit, hrt, e2]
          rw [e]
          exact ⟨H, rfl, hf.done_one, by simp⟩
  | ret => exact h

theorem zs1_inv_iter (mem : Buf) (n : Int) (h2 : 2 ≤ n) (hn : n ≤ 200) (t : Nat) :
    Zs1Inv n ((zs1_step n true)^[t] (zs1_init mem n true)) := by
  induction t with
  | zero => exact zs1_inv_init mem n h2
  | succ t ih =>
    rw [Function.iterate_succ_apply']
    exact zs1_inv_step n hn _ ih

/-! ### The invariant of accel_desc -/

theorem accel_desc_init_eq (mem : Buf) (n : Int) (v : Bool) (h2 : 2 ≤ n) :
    accel_desc_init mem n v = accel_desc_first_visit mem n 0 0 v := by
  unfold accel_desc_init accel_desc_first_visit
  rw [if_neg (by omega), if_neg (by omega), if_neg (by omega)]

theorem accel_desc_inv_init (mem : Buf) (n : Int) (h2 : 2 ≤ n) :
    AccelDescInv n (accel_desc_init mem n true) := by
  rw [accel_desc_init_eq mem n true h2]
  exact ⟨1, rfl, front_init mem n h2, rfl⟩

theorem accel_desc_inv_step (n : Int) (hn : n ≤ 200) (s : AccelDescSt)
    (h : AccelDescInv n s) : AccelDescInv n (accel_desc_step n true s) := by
  obtain ⟨pc, a, k, mm, n1, q, count, out⟩ := s
  cases pc with
  | outer =>
    obtain ⟨H, e1, hf0, _⟩ := h
    have hf : FrontAt n a H (k + 1) := hf0
    have e1' : q = (H : Int) - 1 := e1
    subst e1'
    by_cases h0 : (H : Int) - 1 = -1
    · have e : accel_desc_step n true ⟨.outer, a, k, mm, n1, (H : Int) - 1, count, out⟩
          = ⟨.ret, a, k, mm, n1, (H : Int) - 1, count, out⟩ := by
        simp [accel_desc_step, h0]
      rw [e]
      trivial
    · have hH : 1 ≤ H := by omega
      by_cases h2 : a ((H : Int) - 1) = 2
      · have e : accel_desc_step n true ⟨.outer, a, k, mm, n1, (H : Int) - 1, count, out⟩
            = ⟨.outer, wr a ((H : Int) - 1) 1, k + 1, mm, n1, (H : Int) - 1 - 1, incr count,
                out ++ [snap n (k + 1 + 1) (wr a ((H : Int) - 1) 1)]⟩ := by
          simp [accel_desc_step, accel_desc_visit, call_visit, h0, h2]
        rw [e]
        exact ⟨H - 1, by show (H : Int) - 1 - 1 = ((H - 1 : Nat) : Int) - 1; omega,
          hf.split_two hH h2 hn, by simp⟩
      · have e : accel_desc_step n true ⟨.outer, a, k, mm, n1, (H : Int) - 1, count, out⟩
            = ⟨.fill, wr a ((H : Int) - 1) (a ((H : Int) - 1) - 1), k,
                a ((H : Int) - 1) - 1, k - ((H : Int) - 1) + 1, (H : Int) - 1, count, out⟩ := by
          simp [accel_desc_step, h0, h2]
        rw [e]
        have e3 : k - ((H : Int) - 1) + 1 = k + 1 - ((H : Int) - 1) := by ring
        refine ⟨H, rfl, ?_⟩
        show FillAt n _ H _ (k - ((H : Int) - 1) + 1)
        rw [e3]
        exact hf.enter_fill hH h2 hn
  | fill =>
    obtain ⟨H, e1, hf0⟩ := h
    have hf : FillAt n a H mm n1 := hf0
    have e1' : q = (H : Int) - 1 := e1
    subst e1'
    have eH : (H : Int) - 1 + 1 = H := by ring
    by_cases hrt : mm ≤ n1
    · have e : accel_desc_step n true ⟨.fill, a, k, mm, n1, (H : Int) - 1, count, out⟩
          = ⟨.fill, wr a H mm, k, mm, n1 - mm, H, count, out⟩ := by
        simp [accel_desc_step, hrt]
      rw [e]
      exact ⟨H + 1, by show (H : Int) = ((H + 1 : Nat) : Int) - 1; push_cast; ring,
        hf.more hrt hn⟩
    · by_cases ht0 : n1 = 0
      · subst ht0
        have e : accel_desc_step n true ⟨.fill, a, k, mm, 0, (H : Int) - 1, count, out⟩
            = ⟨.outer, a, (H : Int) - 1, mm, 0, (H : Int) - 1, incr count,
                out ++ [snap n ((H : Int) - 1 + 1) a]⟩ := by
          simp [accel_desc_step, accel_desc_visit, call_visit, hrt]
        rw [e]
        refine ⟨H, rfl, ?_, by simp⟩
        show FrontAt n a H ((H : Int) - 1 + 1)
        rw [eH]
        exact hf.done_zero
      · by_cases ht1 : 1 < n1
        · have e : accel_desc_step n true ⟨.fill, a, k, mm, n1, (H : Int) - 1, count, out⟩
              = ⟨.outer, wr a H n1, H, mm, n1, H, incr count,
                  out ++ [snap n ((H : Int) + 1) (wr a H n1)]⟩ := by
            simp [accel_desc_step, accel_desc_visit, call_visit, hrt, ht0, ht1]
          rw [e]
          exact ⟨H + 1, by show (H : Int) = ((H + 1 : Nat) : Int) - 1; push_cast; ring,
            hf.done_big (by omega) ht1 hn, by simp⟩
        · have ht : n1 = 1 := by
            have := hf.2.2.1
            omega
          subst ht
          have e : accel_desc_step n true ⟨.fill, a, k, mm, 1, (H : Int) - 1, count, out⟩
              = ⟨.outer, a, H, mm, 1, (H : Int) - 1, incr count,
                  out ++ [snap n ((H : Int) + 1) a]⟩ := by
            simp [accel_desc_step, accel_desc_visit, call_visit, hrt]
          rw [e]
          exact ⟨H, rfl, hf.done_one, by simp⟩
  | ret => exact h

theorem accel_desc_inv_iter (mem : Buf) (n : Int) (h2 : 2 ≤ n) (hn : n ≤ 200) (t : Nat) :
    AccelDescInv n ((accel_desc_step n true)^[t] (accel_desc_init mem n true)) := by
  induction t with
  | zero => exact accel_desc_inv_init mem n h2
  | succ t ih =>
    rw [Function.iterate_succ_apply']
    exact accel_desc_inv_step n hn _ ih

/-! ### The frontier invariant at the visits -/

theorem accel_desc_first_visit_out (mem : Buf) (n k q : Int) :
    (accel_desc_first_visit mem n k q true).out = [⟨n, 1, [n]⟩] ∧
    (accel_desc_first_visit mem n k q true).a 1 = 1 ∧
    (accel_desc_first_visit mem n k q true).k = k ∧
    (accel_desc_first_visit mem n k q true).q = q := by
  have e : wr (init_partition mem 1) 0 n ((0 : Nat) : Int) = n :=
    wr_same _ _ _ (by omega) (by omega)
  have hrd : rd (wr (init_partition mem 1) 0 n) 1 = [n] := by
    rw [rd_succ, rd_zero, e]
    rfl
  refine ⟨?_, ?_, rfl, rfl⟩
  · show [(⟨n, (1 : Int).toNat, rd (wr (init_partition mem 1) 0 n) (1 : Int).toNat⟩ :
        partition_t)] = _
    have e1 : (1 : Int).toNat = 1 := rfl
    rw [e1, hrd]
  · have ea : (accel_desc_first_visit mem n k q true).a = wr (init_partition mem 1) 0 n := rfl
    rw [ea, wr_other _ _ _ _ (by decide), init_partition_apply, if_pos (by decide)]

/-- C39 as stated fails at the first visit of accel_desc, which is made before
`k = q = 0`: for n = 2, when the uninitialised k and q hold 5 and 3, the partition handed
to the visitor is [2] with len = 1, which is not k + 1 = 6, and the cells a[1..q] hold 1,
not a part that is at least 2. -/
theorem accel_desc_first_visit_cursors :
    (accel_desc_first_visit (fun _ => 0) 2 5 3 true).out = [⟨2, 1, [2]⟩] ∧
    (1 : Int) ≠ (accel_desc_first_visit (fun _ => 0) 2 5 3 true).k + 1 ∧
    ¬ Frontier 2 (accel_desc_first_visit (fun _ => 0) 2 5 3 true).a
        (accel_desc_first_visit (fun _ => 0) 2 5 3 true).q
        ((accel_desc_first_visit (fun _ => 0) 2 5 3 true).k + 1) := by
  obtain ⟨e1, e2, e3, e4⟩ :=
    accel_desc_first_visit_out (fun _ => 0) 2 5 3
  rw [e3, e4]
  refine ⟨e1, by decide, ?_⟩
  intro hF
  have h1 := hF.1 1 (by decide) (by decide)
  rw [e2] at h1
  exact absurd h1 (by decide)

/-- C39, as amended: for every n with 2 ≤ n ≤ 200, at every test of the outer loop of zs1,
which is where zs1 stands right after each of its visits, the partition handed to the
visitor last is a[0..m) with len = m, the parts a[0..h] are all at least 2 and
non-increasing, every cell of the buffer at an index greater than h is 1, a[0..m) sums to
n, and h = -1 exactly when the partition is n ones; accel_desc keeps the same invariant,
with q in the role of h and k + 1 in the role of m, at every test of its outer loop: from
`k = q = 0` on, so after its first visit and at every later visit. -/
theorem frontier_invariant (mem : Buf) (n : Int) (h2 : 2 ≤ n) (hn : n ≤ 200) (t : Nat) :
    (∀ s, s = (zs1_step n true)^[t] (zs1_init mem n true) → s.pc = .outer →
      s.out.getLast? = some (snap n s.m s.a) ∧ ((snap n s.m s.a).len : Int) = s.m ∧
      (snap n s.m s.a).a.sum = n ∧ -1 ≤ s.h ∧ s.h < s.m ∧ Frontier n s.a s.h s.m) ∧
    (∀ s, s = (accel_desc_step n true)^[t] (accel_desc_init mem n true) → s.pc = .outer →
      s.out.getLast? = some (snap n (s.k + 1) s.a) ∧
      ((snap n (s.k + 1) s.a).len : Int) = s.k + 1 ∧
      (snap n (s.k + 1) s.a).a.sum = n ∧ -1 ≤ s.q ∧ s.q < s.k + 1 ∧
      Frontier n s.a s.q (s.k + 1)) := by
  constructor
  · intro s hs hpc
    have hinv := zs1_inv_iter mem n h2 hn t
    rw [← hs] at hinv
    obtain ⟨pc, a, hh, m, r, t, count, out⟩ := s
    have hpc' : pc = .outer := hpc
    subst hpc'
    obtain ⟨H, e1, hf0, hout⟩ := hinv
    have hf : FrontAt n a H m := hf0
    have e1' : hh = (H : Int) - 1 := e1
    subst e1'
    obtain ⟨i1, i2, i3, i4, i5⟩ := hf.frontier hn
    exact ⟨hout, i3, i4, i1, i2, i5⟩
  · intro s hs hpc
    have hinv := accel_desc_inv_iter mem n h2 hn t
    rw [← hs] at hinv
    obtain ⟨pc, a, k, mm, n1, q, count, out⟩ := s
    have hpc' : pc = .outer := hpc
    subst hpc'
    obtain ⟨H, e1, hf0, hout⟩ := hinv
    have hf : FrontAt n a H (k + 1) := hf0
    have e1' : q = (H : Int) - 1 := e1
    subst e1'
    obtain ⟨i1, i2, i3, i4, i5⟩ := hf.frontier hn
    exact ⟨hout, i3, i4, i1, i2, i5⟩

theorem frontier_invariant_witness :
    Frontier 4 ((zs1_step 4 true)^[2] (zs1_init (fun _ => 0) 4 true)).a
      ((zs1_step 4 true)^[2] (zs1_init (fun _ => 0) 4 true)).h
      ((zs1_step 4 true)^[2] (zs1_init (fun _ => 0) 4 true)).m ∧
    Frontier 4 ((accel_desc_step 4 true)^[2] (accel_desc_init (fun _ => 0) 4 true)).a
      ((accel_desc_step 4 true)^[2] (accel_desc_init (fun _ => 0) 4 true)).q
      (((accel_desc_step 4 true)^[2] (accel_desc_init (fun _ => 0) 4 true)).k + 1) :=
  ⟨((frontier_invariant (fun _ => 0) 4 (by decide) (by decide) 2).1 _ rfl
      (by decide)).2.2.2.2.2,
    ((frontier_invariant (fun _ => 0) 4 (by decide) (by decide) 2).2 _ rfl
      (by decide)).2.2.2.2.2⟩

/-! ## No overflow in product_side for exponents -1 and 0 -/

theorem desc_length_succ_left (M d : Nat) : (desc M d).length ≤ (desc (M + 1) d).length := by
  rw [desc_count_rec]
  exact Nat.le_add_right _ _

theorem desc_length_mono_left (d : Nat) {M M' : Nat} (h : M ≤ M') :
    (desc M d).length ≤ (desc M' d).length := by
  induction M' with
  | zero =>
    have e : M = 0 := by omega
    rw [e]
  | succ K ih =>
    by_cases hK : M = K + 1
    · rw [hK]
    · exact le_trans (ih (by omega)) (desc_length_succ_left K d)

theorem desc_length_succ_right (M : Nat) (hM : 1 ≤ M) :
    ∀ d, (desc M d).length ≤ (desc M (d + 1)).length := by
  induction M with
  | zero => omega
  | succ M ih =>
    by_cases hM0 : M = 0
    · subst hM0
      intro d
      rw [desc_one (d + 1) (by omega)]
      by_cases hd : d = 0
      · subst hd
        rw [desc_zero]
        exact le_refl _
      · rw [desc_one d (by omega)]
        exact le_refl _
    · intro d
      induction d using Nat.strong_induction_on with
      | _ d ihd =>
        have h1 := ih (by omega) d
        rw [desc_count_rec M d, desc_count_rec M (d + 1)]
        by_cases h : M + 1 ≤ d
        · rw [if_pos h, if_pos (by omega)]
          have h2 := ihd (d - (M + 1)) (by omega)
          have e : d + 1 - (M + 1) = d - (M + 1) + 1 := by omega
          rw [e]
          omega
        · rw [if_neg h]
          omega

theorem desc_length_mono_right (M : Nat) (hM : 1 ≤ M) {d d' : Nat} (h : d ≤ d') :
    (desc M d).length ≤ (desc M d').length := by
  induction d' with
  | zero =>
    have e : d = 0 := by omega
    rw [e]
  | succ K ih =>
    by_cases hK : d = K + 1
    · rw [hK]
    · exact le_trans (ih (by omega)) (desc_length_succ_right M hM K)

/-- The number of descending compositions of d ≤ 255 with parts at most M is at most the
number p(255) of the partitions of 255. -/
theorem desc_length_le_255 (M d : Nat) (hd : d ≤ 255) :
    (desc M d).length ≤ (desc 255 255).length := by
  have h1 : (desc M d).length ≤ (desc (max M 255) d).length :=
    desc_length_mono_left d (le_max_left _ _)
  rw [desc_ge (max M 255) d (by omega), ← desc_ge 255 d hd] at h1
  exact le_trans h1 (desc_length_mono_right 255 (by omega) hd)

theorem p255_pos : 1 ≤ ((desc 255 255).length : Int) := by
  have h := desc_length_le_255 0 0 (by omega)
  rw [desc_zero] at h
  exact_mod_cast h

theorem chk_ok (B z : Int) (h : |z| ≤ B) : chk B z = some z := if_pos h

theorem chk_fold_nonneg (B : Int) (g : Nat → Int) (l : List Nat) :
    ∀ z : Int, 0 ≤ z → (∀ i ∈ l, 0 ≤ g i) → z + (l.map g).sum ≤ B →
      l.foldlM (fun sum i => (chk B (g i)).bind (fun p => chk B (sum + p))) z
        = some (z + (l.map g).sum) := by
  induction l with
  | nil =>
    intro z _ _ _
    simp
  | cons i l ih =>
    intro z hz hg hB
    have h1 : 0 ≤ g i := hg i (List.mem_cons_self _ _)
    have hrest : 0 ≤ (l.map g).sum := by
      apply List.sum_nonneg
      intro x hx
      obtain ⟨j, hj, rfl⟩ := List.mem_map.mp hx
      exact hg j (List.mem_cons_of_mem _ hj)
    rw [List.map_cons, List.sum_cons] at hB
    have c1 : chk B (g i) = some (g i) := chk_ok B _ (by rw [abs_of_nonneg h1]; omega)
    have c2 : chk B (z + g i) = some (z + g i) :=
      chk_ok B _ (by rw [abs_of_nonneg (by omega)]; omega)
    simp only [List.foldlM_cons, Option.bind_eq_bind, Option.some_bind, c1, c2, List.map_cons,
      List.sum_cons]
    rw [ih (z + g i) (by omega) (fun j hj => hg j (List.mem_cons_of_mem _ hj)) (by omega)]
    congr 1
    ring

theorem list_sum_nonpos (l : List Int) (h : ∀ x ∈ l, x ≤ 0) : l.sum ≤ 0 := by
  induction l with
  | nil => simp
  | cons x l ih =>
    rw [List.sum_cons]
    have h1 := h x (List.mem_cons_self _ _)
    have h2 := ih (fun y hy => h y (List.mem_cons_of_mem _ hy))
    omega

theorem chk_fold_nonpos (B : Int) (g : Nat → Int) (l : List Nat) :
    ∀ z : Int, z ≤ 0 → (∀ i ∈ l, g i ≤ 0) → -B ≤ z + (l.map g).sum →
      l.foldlM (fun sum i => (chk B (g i)).bind (fun p => chk B (sum + p))) z
        = some (z + (l.map g).sum) := by
  induction l with
  | nil =>
    intro z _ _ _
    simp
  | cons i l ih =>
    intro z hz hg hB
    have h1 : g i ≤ 0 := hg i (List.mem_cons_self _ _)
    have hrest : (l.map g).sum ≤ 0 := by
      apply list_sum_nonpos
      intro x hx
      obtain ⟨j, hj, rfl⟩ := List.mem_map.mp hx
      exact hg j (List.mem_cons_of_mem _ hj)
    rw [List.map_cons, List.sum_cons] at hB
    have c1 : chk B (g i) = some (g i) := chk_ok B _ (by rw [abs_of_nonpos h1]; omega)
    have c2 : chk B (z + g i) = some (z + g i) :=
      chk_ok B _ (by rw [abs_of_nonpos (by omega)]; omega)
    simp only [List.foldlM_cons, Option.bind_eq_bind, Option.some_bind, c1, c2, List.map_cons,
      List.sum_cons]
    rw [ih (z + g i) (by omega) (fun j hj => hg j (List.mem_cons_of_mem _ hj)) (by omega)]
    congr 1
    ring

/-- The checked inner loop of multiply_qseries on products that are not negative, with a
sum of at most B: no check fails, the result is the exact sum. -/
theorem multiply_sum_chk_nonneg (B : Int) (s t : qseries_t) (deg : Nat)
    (h0 : ∀ i, i ≤ deg → 0 ≤ s i * t (deg - i)) (hB : conv s t deg ≤ B) :
    multiply_sum_chk B s t deg = some (conv s t deg) := by
  have h := chk_fold_nonneg B (fun i => s i * t (deg - i)) (List.range (deg + 1)) 0 (le_refl _)
    (fun i hi => h0 i (by have := List.mem_range.mp hi; omega))
    (by rw [zero_add]; exact hB)
  rw [zero_add] at h
  exact h

theorem foldlM_update_some (v : Nat → Option Int) (w : Nat → Int) (K : Nat)
    (hv : ∀ d, d < K → v d = some (w d)) (ans : qseries_t) :
    (List.range K).foldlM (fun ans deg => (v deg).map (Function.update ans deg)) ans
      = some ((List.range K).foldl (fun ans deg => Function.update ans deg (w deg)) ans) := by
  induction K with
  | zero => rfl
  | succ K ih =>
    rw [List.range_succ, List.foldlM_append, ih (fun d hd => hv d (by omega)),
      List.foldl_append]
    simp only [Option.bind_eq_bind, Option.some_bind, List.foldlM_cons, List.foldlM_nil,
      List.foldl_cons, List.foldl_nil]
    rw [hv K (by omega)]
    rfl

/-- The checked multiply_qseries on series whose products are not negative and whose
product series stays within B: no check fails and the coefficients are exact. -/
theorem multiply_qseries_chk_nonneg (B : Int) (s t ans : qseries_t)
    (h0 : ∀ deg, deg < MAXORD → ∀ i, i ≤ deg → 0 ≤ s i * t (deg - i))
    (hB : ∀ deg, deg < MAXORD → conv s t deg ≤ B) :
    ∃ r, multiply_qseries_chk B s t ans = some r ∧ ∀ d, d < MAXORD → r d = conv s t d := by
  refine ⟨_, foldlM_update_some (multiply_sum_chk B s t) (conv s t) MAXORD
    (fun d hd => multiply_sum_chk_nonneg B s t d (h0 d hd) (hB d hd)) ans, fun d hd => ?_⟩
  rw [foldl_update_apply, if_pos hd]

theorem qs_one_minus_nonpos (n i : Nat) (hi : 1 ≤ i) : qs_one_minus n i ≤ 0 := by
  unfold qs_one_minus
  rw [if_neg (by omega)]
  by_cases h : i = n
  · rw [if_pos h]
    decide
  · rw [if_neg h]

theorem qs_geom_range (n d : Nat) : 0 ≤ qs_geom n d ∧ qs_geom n d ≤ 1 := by
  unfold qs_geom
  by_cases h : n ∣ d
  · rw [if_pos h]
    decide
  · rw [if_neg h]
    decide

theorem qs_one_range (d : Nat) : 0 ≤ qs_one d ∧ qs_one d ≤ 1 := by
  unfold qs_one
  by_cases h : d = 0
  · rw [if_pos h]
    decide
  · rw [if_neg h]
    decide

/-- The sum of the inner loop of invert_qseries for 1 - q^n and its inverse. -/
theorem invert_sum_geom (n : Nat) (hn : 1 ≤ n) (deg : Nat) (hdeg : 1 ≤ deg) :
    ((List.range' 1 deg).map (fun i => qs_one_minus n i * qs_geom n (deg - i))).sum
      = -qs_geom n deg := by
  have h := conv_split (qs_one_minus n) (qs_geom n) deg
  rw [conv_one_minus_geom n hn] at h
  have e1 : qs_one deg = 0 := by
    unfold qs_one
    rw [if_neg (by omega)]
  have e2 : qs_one_minus n 0 = 1 := by
    unfold qs_one_minus
    rw [if_pos rfl]
  rw [e1, e2, one_mul] at h
  omega

/-- The checked outer loop of invert_qseries on 1 - q^n up to the degree K: no check fails
and the cells 0..K hold the coefficients of 1 + q^n + q^(2n) + ... -/
theorem invert_chk_loop (B : Int) (hB : 1 ≤ B) (s : qseries_t) (n : Nat) (hn : 1 ≤ n)
    (hs : ∀ d, d < MAXORD → s d = qs_one_minus n d) (K : Nat) (hK : K ≤ MAXORD - 1)
    (a0 : qseries_t) (h0 : a0 0 = 1) :
    ∃ r, (List.range' 1 K).foldlM (fun ans deg => (invert_sum_chk B s ans deg).bind (fun sum =>
        (chk B (-sum)).bind (fun neg =>
          (chk B (Int.tdiv neg (s 0))).map (Function.update ans deg)))) a0 = some r ∧
      ∀ d, d ≤ K → r d = qs_geom n d := by
  induction K with
  | zero =>
    refine ⟨a0, rfl, fun d hd => ?_⟩
    have e : d = 0 := by omega
    subst e
    rw [h0]
    unfold qs_geom
    rw [if_pos (dvd_zero n)]
  | succ K ih =>
    obtain ⟨r, hr, hrd⟩ := ih (by omega)
    have hK1 : K + 1 < MAXORD := by unfold MAXORD at hK ⊢; omega
    have hs0 : s 0 = 1 := by
      rw [hs 0 (by decide)]
      unfold qs_one_minus
      rw [if_pos rfl]
    have hg := qs_geom_range n (K + 1)
    have hsum : invert_sum_chk B s r (K + 1) = some (-qs_geom n (K + 1)) := by
      have h := chk_fold_nonpos B (fun i => s i * r (K + 1 - i)) (List.range' 1 (K + 1)) 0
        (le_refl _)
        (fun i hi => by
          have hi1 := List.mem_range'_1.mp hi
          have e1 := qs_one_minus_nonpos n i hi1.1
          have e2 := (qs_geom_range n (K + 1 - i)).1
          show s i * r (K + 1 - i) ≤ 0
          rw [hs i (by omega), hrd (K + 1 - i) (by omega)]
          exact mul_nonpos_iff.mpr (Or.inr ⟨e1, e2⟩))
      have e : (List.range' 1 (K + 1)).map (fun i => s i * r (K + 1 - i))
          = (List.range' 1 (K + 1)).map (fun i => qs_one_minus n i * qs_geom n (K + 1 - i)) := by
        apply List.map_congr_left
        intro i hi
        have hi1 := List.mem_range'_1.mp hi
        rw [hs i (by omega), hrd (K + 1 - i) (by omega)]
      rw [e, invert_sum_geom n hn (K + 1) (by omega), zero_add] at h
      exact h (by omega)
    have c1 : chk B (- -qs_geom n (K + 1)) = some (qs_geom n (K + 1)) := by
      rw [neg_neg]
      exact chk_ok B _ (by rw [abs_of_nonneg hg.1]; omega)
    have c2 : chk B (Int.tdiv (qs_geom n (K + 1)) (s 0)) = some (qs_geom n (K + 1)) := by
      rw [hs0, Int.tdiv_one]
      exact chk_ok B _ (by rw [abs_of_nonneg hg.1]; omega)
    have hdeg : 1 + 1 * K = K + 1 := by omega
    refine ⟨Function.update r (K + 1) (qs_geom n (K + 1)), ?_, fun d hd => ?_⟩
    · rw [List.range'_concat, List.foldlM_append, hr, hdeg]
      simp only [Option.bind_eq_bind, Option.some_bind, List.foldlM_cons, List.foldlM_nil, hsum,
        c1, c2, Option.map_some']
      rfl
    · by_cases hd1 : d = K + 1
      · subst hd1
        rw [Function.update_same]
      · rw [Function.update_noteq hd1]
        exact hrd d (by omega)

/-- The checked invert_qseries on 1 - q^n: no check fails and the result is the series
1 + q^n + q^(2n) + ... -/
theorem invert_qseries_chk_geom (B : Int) (hB : 1 ≤ B) (s : qseries_t) (n : Nat) (hn : 1 ≤ n)
    (hs : ∀ d, d < MAXORD → s d = qs_one_minus n d) (ans : qseries_t) :
    ∃ r, invert_qseries_chk B s ans = some r ∧ ∀ d, d < MAXORD → r d = qs_geom n d := by
  have hs0 : s 0 = 1 := by
    rw [hs 0 (by decide)]
    unfold qs_one_minus
    rw [if_pos rfl]
  obtain ⟨r, hr, hrd⟩ := invert_chk_loop B hB s n hn hs (MAXORD - 1) (le_refl _)
    (Function.update ans 0 1) (Function.update_same _ _ _)
  refine ⟨r, ?_, fun d hd => hrd d (by unfold MAXORD at hd ⊢; omega)⟩
  unfold invert_qseries_chk
  have c0 : chk B (Int.tdiv 1 (s 0)) = some 1 := by
    rw [hs0, Int.tdiv_one]
    exact chk_ok B _ (by rw [abs_of_nonneg (by decide)]; omega)
  rw [if_neg (by rw [hs0]; decide), c0]
  exact hr

theorem pow_loop_chk_one (B : Int) (s0 ans tmp : qseries_t) :
    pow_loop_chk B s0 1 ans tmp
      = (multiply_qseries_chk B (cp_qseries ans tmp) s0 ans).map
          (fun ans1 => (ans1, cp_qseries ans tmp)) := by
  unfold pow_loop_chk
  simp only [List.range_succ, List.range_zero, List.nil_append, List.foldlM_cons,
    List.foldlM_nil, Option.bind_eq_bind]
  cases multiply_qseries_chk B (cp_qseries ans tmp) s0 ans <;> rfl

/-- The checked call of pow_qseries in product_side for an exponent -1 or 0: no check
fails; the result is the inverse of 1 - q^n or the identity series. -/
theorem product_pow_chk (B : Int) (hB : 1 ≤ B) (tmp : qseries_t) (n : Nat) (hn : 1 ≤ n)
    (e : Int) (he : e = -1 ∨ e = 0) (nxt s0 tmp0 : qseries_t) :
    ∃ r, pow_qseries_chk B (product_factor tmp n) e nxt s0 tmp0 = some r ∧
      ∀ d, d < MAXORD → r d = (if e = -1 then qs_geom n d else qs_one d) := by
  rcases he with he | he
  · subst he
    obtain ⟨s1, hs1, hs1d⟩ := invert_qseries_chk_geom B hB (product_factor tmp n) n hn
      (product_factor_apply tmp n hn) s0
    have hone : ∀ d, d < MAXORD →
        cp_qseries (Function.update (init_qseries nxt 0) 0 1) tmp0 d = qs_one d := by
      intro d hd
      rw [cp_qseries_apply, if_pos hd, pow_init_apply nxt d hd]
    have hconv : ∀ d, d < MAXORD →
        conv (cp_qseries (Function.update (init_qseries nxt 0) 0 1) tmp0) s1 d
          = qs_geom n d := by
      intro d hd
      rw [conv_congr _ qs_one _ (qs_geom n) d (fun i hi => hone i (by omega))
        (fun i hi => hs1d i (by omega)), conv_one_left]
    obtain ⟨r, hr, hrd⟩ := multiply_qseries_chk_nonneg B
      (cp_qseries (Function.update (init_qseries nxt 0) 0 1) tmp0) s1
      (Function.update (init_qseries nxt 0) 0 1)
      (fun deg hdeg i hi => by
        rw [hone i (by omega), hs1d (deg - i) (by omega)]
        exact mul_nonneg (qs_one_range i).1 (qs_geom_range n (deg - i)).1)
      (fun deg hdeg => by
        rw [hconv deg hdeg]
        have := (qs_geom_range n deg).2
        omega)
    refine ⟨r, ?_, fun d hd => ?_⟩
    · unfold pow_qseries_chk
      have c1 : chk (2 ^ 31 - 1) (- (-1 : Int)) = some 1 := by decide
      rw [if_neg (by decide), if_pos (by decide), hs1, c1]
      show (pow_loop_chk B s1 1 _ tmp0).map (fun st => st.1) = some r
      rw [pow_loop_chk_one, hr]
      rfl
    · rw [hrd d hd, hconv d hd, if_pos rfl]
  · subst he
    refine ⟨Function.update (init_qseries nxt 0) 0 1, ?_, fun d hd => ?_⟩
    · unfold pow_qseries_chk
      rw [if_neg (by decide), if_neg (by decide)]
      rfl
    · rw [pow_init_apply nxt d hd, if_neg (by decide)]

/-- One checked pass of the loop of product_side for an exponent -1 or 0, from an array
that holds the series F with no negative coefficient: no check fails when the new product
stays within B, and the pass leaves the new product. -/
theorem product_step_chk_spec (B : Int) (hB : 1 ≤ B) (m : Nat) (c : Nat → Int) (hm : 1 ≤ m)
    (hc : ∀ k, k < m → c k = -1 ∨ c k = 0) (s0 tmp0 : qseries_t)
    (st : qseries_t × qseries_t × qseries_t) (n : Nat) (hn : 1 ≤ n) (F : qseries_t)
    (hF : ∀ d, d < MAXORD → st.1 d = F d) (hF0 : ∀ d, 0 ≤ F d)
    (hFB : ∀ d, d < MAXORD → (if c (n % m) = -1 then conv F (qs_geom n) else F) d ≤ B) :
    ∃ st1, product_step_chk B (m : Int) c s0 tmp0 st n = some st1 ∧
      ∀ d, d < MAXORD →
        st1.1 d = (if c (n % m) = -1 then conv F (qs_geom n) else F) d := by
  unfold product_step_chk
  have hi : (Int.tmod (n : Int) (m : Int)).toNat = n % m := by
    rw [← Int.ofNat_tmod, Int.toNat_ofNat]
  rw [hi]
  have he := hc (n % m) (Nat.mod_lt _ (by omega))
  obtain ⟨nxt1, hnxt, hnd⟩ := product_pow_chk B hB st.2.1 n hn (c (n % m)) he st.2.2 s0 tmp0
  have hs : ∀ d, d < MAXORD → cp_qseries st.1 (product_factor st.2.1 n) d = F d := by
    intro d hd
    rw [cp_qseries_apply, if_pos hd, hF d hd]
  have hconv : ∀ d, d < MAXORD →
      conv (cp_qseries st.1 (product_factor st.2.1 n)) nxt1 d
        = (if c (n % m) = -1 then conv F (qs_geom n) else F) d := by
    intro d hd
    rcases he with h | h
    · rw [h] at hnd
      rw [h, if_pos rfl, conv_congr _ F _ (qs_geom n) d (fun i hi => hs i (by omega))
        (fun i hi => by rw [hnd i (by omega), if_pos rfl])]
    · rw [h] at hnd
      rw [h, if_neg (by decide), conv_congr _ F _ qs_one d (fun i hi => hs i (by omega))
        (fun i hi => by rw [hnd i (by omega), if_neg (by decide)]), conv_one_right]
  obtain ⟨r, hr, hrd⟩ := multiply_qseries_chk_nonneg B
    (cp_qseries st.1 (product_factor st.2.1 n)) nxt1 st.1
    (fun deg hdeg i hi => by
      rw [hs i (by omega), hnd (deg - i) (by omega)]
      apply mul_nonneg (hF0 i)
      by_cases h : c (n % m) = -1
      · rw [if_pos h]
        exact (qs_geom_range n (deg - i)).1
      · rw [if_neg h]
        exact (qs_one_range (deg - i)).1)
    (fun deg hdeg => by
      rw [hconv deg hdeg]
      exact hFB deg hdeg)
  refine ⟨(r, cp_qseries st.1 (product_factor st.2.1 n), nxt1), ?_, fun d hd => ?_⟩
  · rw [hnxt]
    simp only [Option.bind_eq_bind, Option.some_bind, hr, Option.map_some']
  · show r d = _
    rw [hrd d hd, hconv d hd]

/-- The checked loop of product_side for exponents -1 and 0, up to the factor K: no check
fails, and the array holds the product of the inverses of 1 - q^k over the allowed k up to
K. -/
theorem product_chk_loop (B : Int) (hB : 1 ≤ B) (m : Nat) (c : Nat → Int) (hm : 1 ≤ m)
    (hc : ∀ k, k < m → c k = -1 ∨ c k = 0) (s0 tmp0 : qseries_t)
    (st0 : qseries_t × qseries_t × qseries_t) (h0 : ∀ d, d < MAXORD → st0.1 d = qs_one d)
    (hbound : ∀ K d, d < MAXORD → ((rdesc (allowed m c) K d).length : Int) ≤ B) (K : Nat) :
    ∃ st, (List.range' 1 K).foldlM (product_step_chk B (m : Int) c s0 tmp0) st0 = some st ∧
      ∀ d, d < MAXORD → st.1 d = (List.range' 1 K).foldl
        (fun acc k => if c (k % m) = -1 then conv acc (qs_geom k) else acc) qs_one d := by
  induction K with
  | zero => exact ⟨st0, rfl, h0⟩
  | succ K ih =>
    obtain ⟨st, hst, hd⟩ := ih
    have hnext : ∀ d, (if c ((1 + 1 * K) % m) = -1
          then conv ((List.range' 1 K).foldl
            (fun acc k => if c (k % m) = -1 then conv acc (qs_geom k) else acc) qs_one)
            (qs_geom (1 + 1 * K))
          else (List.range' 1 K).foldl
            (fun acc k => if c (k % m) = -1 then conv acc (qs_geom k) else acc) qs_one) d
        = ((rdesc (allowed m c) (K + 1) d).length : Int) := by
      intro d
      rw [← allowed_product_count m c (K + 1) d, List.range'_concat, List.foldl_append]
      rfl
    obtain ⟨st1, hst1, hd1⟩ := product_step_chk_spec B hB m c hm hc s0 tmp0 st (1 + 1 * K)
      (by omega) _ hd
      (fun d => by
        rw [allowed_product_count m c K d]
        exact Int.natCast_nonneg _)
      (fun d hd => by
        rw [hnext d]
        exact hbound (K + 1) d hd)
    refine ⟨st1, ?_, ?_⟩
    · rw [List.range'_concat, List.foldlM_append, hst]
      simp only [Option.bind_eq_bind, Option.some_bind, List.foldlM_cons, List.foldlM_nil]
      rw [hst1]
      rfl
    · intro d hd
      rw [hd1 d hd, List.range'_concat, List.foldl_append]
      rfl

theorem desc_length_card (n : Nat) : (desc n n).length = Fintype.card (Nat.Partition n) :=
  visits_length .ALGO_ZS1 n

theorem rdesc_le_p255 (A : Nat → Bool) (K d : Nat) (hd : d < MAXORD) :
    ((rdesc A K d).length : Int) ≤ ((desc 255 255).length : Int) := by
  have h1 := rdesc_length_le A K d
  have h2 := desc_length_le_255 K d (by unfold MAXORD at hd; omega)
  exact_mod_cast le_trans h1 h2

/-- C38: for every modulus m ≥ 1 and every exponent array with entries in {-1, 0}, the run
of product_side in which every product, every partial sum, every quotient and every
negation is computed over the integers and checked against p(255), the number of
partitions of 255, has a result: no such value exceeds p(255) in absolute value, and
p(255) < 2^63, so no signed 64-bit operation overflows.  The result is, at every degree
below MAXORD, the coefficient of the product over the integers, it is what the 64-bit
product_side leaves, and its absolute value is at most p(255). -/
theorem product_side_no_overflow (m : Nat) (c : Nat → Int) (ans tmp nxt s0 tmp0 : qseries_t)
    (hm : 1 ≤ m) (hc : ∀ k, k < m → c k = -1 ∨ c k = 0) :
    ((desc 255 255).length : Int) < 2 ^ 63 ∧
    (desc 255 255).length = Fintype.card (Nat.Partition 255) ∧
    ∃ r r', product_side_chk ((desc 255 255).length : Int) (m : Int) c ans tmp nxt s0 tmp0
        = some r ∧
      product_side (m : Int) c ans tmp nxt s0 tmp0 = some r' ∧
      ∀ d, d < MAXORD → r d = qs_product m c d ∧ r' d = r d ∧
        |r d| ≤ ((desc 255 255).length : Int) := by
  have hlt : (desc 255 255).length < 2 ^ 63 := desc_255_lt 255 (le_refl _)
  refine ⟨by exact_mod_cast hlt, desc_length_card 255, ?_⟩
  obtain ⟨st, hst, hd⟩ := product_chk_loop _ p255_pos m c hm hc s0 tmp0
    (Function.update (init_qseries ans 0) 0 1, tmp, nxt) (fun d hd => pow_init_apply ans d hd)
    (fun K d hd => rdesc_le_p255 (allowed m c) K d hd) (MAXORD - 1)
  obtain ⟨r', hr', hd'⟩ := product_side_count m c hm hc ans tmp nxt s0 tmp0
  refine ⟨st.1, r', ?_, hr', fun d hd0 => ?_⟩
  · unfold product_side_chk
    rw [if_neg (by omega), hst]
    rfl
  · have e1 : st.1 d = qs_product m c d := by
      rw [hd d hd0, qs_product_eq_allowed m c hm hc]
      rfl
    have e2 := qs_product_count m c hm hc d
    refine ⟨e1, by rw [e1]; exact (hd' d hd0).1, ?_⟩
    rw [e1, e2, abs_of_nonneg (Int.natCast_nonneg _)]
    exact rdesc_le_p255 (allowed m c) (MAXORD - 1) d hd0

theorem product_side_no_overflow_witness :
    ((desc 255 255).length : Int) < 2 ^ 63 ∧
    (desc 255 255).length = Fintype.card (Nat.Partition 255) ∧
    ∃ r r', product_side_chk ((desc 255 255).length : Int) ((5 : Nat) : Int) cong_new_06
        (fun _ => 0) (fun _ => 0) (fun _ => 0) (fun _ => 0) (fun _ => 0) = some r ∧
      product_side ((5 : Nat) : Int) cong_new_06 (fun _ => 0) (fun _ => 0) (fun _ => 0)
        (fun _ => 0) (fun _ => 0) = some r' ∧
      ∀ d, d < MAXORD → r d = qs_product 5 cong_new_06 d ∧ r' d = r d ∧
        |r d| ≤ ((desc 255 255).length : Int) :=
  product_side_no_overflow 5 cong_new_06 (fun _ => 0) (fun _ => 0) (fun _ => 0) (fun _ => 0)
    (fun _ => 0) (by decide) cong_new_06_entries

/-! ## The claims on invert, pow and divide

The division of INT64_MIN by -1 has no result, like the division by zero: invert_qseries,
and with it divide_qseries and pow_qseries with a negative exponent, have no result for a
series with s[0] = -1 whose inversion comes to that division. -/

theorem qs_trap_isQseries : IsQseries qs_trap := by
  intro d _
  match d with
  | 0 => unfold Int64; decide
  | 1 => unfold Int64; decide
  | 2 => unfold Int64; decide
  | d + 3 =>
    show Int64 0
    unfold Int64
    decide

theorem invert_qseries_trap_zero : (invert_qseries qs_trap (fun _ => 0)).isNone = true := by
  decide

/-- The inversion of -1 + 2^31 q + 2^62 q^2 has no result, whatever the array holds. -/
theorem invert_qseries_trap (ans : qseries_t) : invert_qseries qs_trap ans = none :=
  invert_qseries_none qs_trap (fun _ => 0) ans
    (Option.isNone_iff_eq_none.mp invert_qseries_trap_zero)

theorem pow_qseries_none (s : qseries_t) (n : Int) (ans s0 tmp : qseries_t) (hn : n < 0)
    (h : invert_qseries s s0 = none) : pow_qseries s n ans s0 tmp = none := by
  unfold pow_qseries
  rw [if_neg (show ¬ n > 0 by omega), if_pos hn, h]
  rfl

/-- For the least int the loop of pow_qseries runs zero times: `abs_n = -n` is the least
int again, and pow_qseries leaves the identity series when the inversion has a result. -/
theorem pow_qseries_int_min (s ans s0 tmp inv : qseries_t)
    (h : invert_qseries s s0 = some inv) :
    pow_qseries s (-2 ^ 31) ans s0 tmp = some (Function.update (init_qseries ans 0) 0 1) := by
  unfold pow_qseries
  have e : wrap32 (- (-2 ^ 31 : Int)) = -2 ^ 31 := by decide
  rw [if_neg (by decide), if_pos (by decide), h, e]
  rfl

/-- The coefficients of degree 0 and 1 of a power of a series with constant term 1. -/
theorem qs_pow_low (f : qseries_t) (hf : f 0 = 1) (N : Nat) :
    qs_pow f N 0 = 1 ∧ qs_pow f N 1 = N * f 1 := by
  induction N with
  | zero =>
    constructor
    · rfl
    · show qs_one 1 = ((0 : Nat) : Int) * f 1
      rw [Nat.cast_zero, zero_mul]
      rfl
  | succ N ih =>
    obtain ⟨ih0, ih1⟩ := ih
    have e0 : qs_pow f (N + 1) 0 = qs_pow f N 0 * f 0 := by
      show conv (qs_pow f N) f 0 = _
      simp [conv, List.range_succ]
    have e1 : qs_pow f (N + 1) 1 = qs_pow f N 0 * f 1 + qs_pow f N 1 * f 0 := by
      show conv (qs_pow f N) f 1 = _
      simp [conv, List.range_succ]
    rw [e0, e1, ih0, ih1, hf]
    constructor
    · ring
    · push_cast
      ring

/-- The inversion of 1 - q has a result: the series 1 + q + q^2 + ... -/
theorem invert_one_minus_q (ans : qseries_t) :
    ∃ inv, invert_qseries (qs_one_minus 1) ans = some inv ∧
      ∀ d, d < MAXORD → inv d = qs_geom 1 d := by
  apply invert_exact (qs_one_minus 1) (qs_geom 1) ans (Or.inl rfl)
  · intro d _
    rw [conv_one_minus_geom 1 (le_refl _)]
  · intro d _
    have h := qs_geom_range 1 d
    omega

/-- C11 as stated fails for s = -1 + 2^31 q + 2^62 q^2, a series of int64_t with
s[0] = -1: with ans[0] = -1 and ans[1] = -2^31 the sum of the degree 2 is INT64_MIN, the
division `-sum / s[0]` is INT64_MIN / -1, and invert_qseries has no result. -/
theorem invert_qseries_int64_min :
    IsQseries qs_trap ∧ qs_trap 0 = -1 ∧
    invert_sum qs_trap (fun d => [-1, -2 ^ 31].getD d 0) 2 = -2 ^ 63 ∧
    div64 (wrap64 (- (-2 ^ 63))) (qs_trap 0) = none ∧
    invert_qseries qs_trap (fun _ => 0) = none :=
  ⟨qs_trap_isQseries, rfl, by decide, by decide, invert_qseries_trap _⟩

/-- C11, as amended: for every series s with s[0] = 1 or s[0] = -1 for which
invert_qseries has a result, multiply_qseries of s and the inverse leaves the
multiplicative-identity series: the coefficient 1 at degree 0 and 0 at every degree
1..MAXORD-1, as integers.  invert_qseries has a result for every s with s[0] = 1, and for
s[0] = -1 whenever s has an inverse over the integers whose coefficients below MAXORD are
less than 2^63 in absolute value. -/
theorem multiply_invert_identity (s ans ans2 : qseries_t) (h0 : s 0 = 1 ∨ s 0 = -1) :
    (s 0 = 1 → ∃ inv, invert_qseries s ans = some inv) ∧
    (∀ t : qseries_t, (∀ d, d < MAXORD → conv s t d = qs_one d) →
      (∀ d, d < MAXORD → -2 ^ 63 < t d ∧ t d < 2 ^ 63) →
      ∃ inv, invert_qseries s ans = some inv) ∧
    ∀ inv, invert_qseries s ans = some inv →
      ∀ d, d < MAXORD → multiply_qseries s inv ans2 d = if d = 0 then 1 else 0 := by
  refine ⟨fun h1 => ?_, fun t ht hb => ?_, fun inv hinv d hd => ?_⟩
  · obtain ⟨r, hr, _⟩ := invert_one s ans h1
    exact ⟨r, hr⟩
  · obtain ⟨r, hr, _⟩ := invert_exact s t ans h0 ht hb
    exact ⟨r, hr⟩
  · obtain ⟨_, he, _⟩ := invert_unit s ans inv h0 hinv
    exact QEq.eq ((multiply_qseries_qeq s inv ans2).qtrans he) (multiply_qseries_isQseries _ _ _)
      qs_one_isQseries d hd

theorem multiply_invert_identity_witness :
    ∃ inv, invert_qseries (qs_one_minus 1) (fun _ => 0) = some inv ∧
      ∀ d, d < MAXORD →
        multiply_qseries (qs_one_minus 1) inv (fun _ => 0) d = if d = 0 then 1 else 0 :=
  ((multiply_invert_identity (qs_one_minus 1) (fun _ => 0) (fun _ => 0) (Or.inl rfl)).1
    rfl).elim (fun inv hinv => ⟨inv, hinv,
      (multiply_invert_identity (qs_one_minus 1) (fun _ => 0) (fun _ => 0) (Or.inl rfl)).2.2
        inv hinv⟩)

/-- C12 as stated fails in two ways.  For s = -1 + 2^31 q + 2^62 q^2, with s[0] = -1,
pow(s, -1) has no result (the inversion comes to INT64_MIN / -1).  For s = 1 - q, a the
least int and b = 1: pow(s, a) is the identity series (the loop runs zero times),
pow(s, b) is s, so their product has the coefficient -1 at degree 1, and pow(s, a + b) has
the coefficient 2^31 - 1 there. -/
theorem pow_qseries_add_fails :
    (qs_trap 0 = -1 ∧
      pow_qseries qs_trap (-1) (fun _ => 0) (fun _ => 0) (fun _ => 0) = none) ∧
    ∃ ra rb rab,
      pow_qseries (qs_one_minus 1) (-2 ^ 31) (fun _ => 0) (fun _ => 0) (fun _ => 0) = some ra ∧
      pow_qseries (qs_one_minus 1) 1 (fun _ => 0) (fun _ => 0) (fun _ => 0) = some rb ∧
      pow_qseries (qs_one_minus 1) (-2 ^ 31 + 1) (fun _ => 0) (fun _ => 0) (fun _ => 0)
        = some rab ∧
      rab 1 = 2 ^ 31 - 1 ∧ multiply_qseries ra rb (fun _ => 0) 1 = -1 := by
  refine ⟨⟨rfl, pow_qseries_none _ _ _ _ _ (by decide) (invert_qseries_trap _)⟩, ?_⟩
  obtain ⟨inv, hinv, hgeom⟩ := invert_one_minus_q (fun _ => 0)
  have hra := pow_qseries_int_min (qs_one_minus 1) (fun _ => 0) (fun _ => 0) (fun _ => 0) inv hinv
  obtain ⟨rb, hrb, hzb, hqb⟩ := pow_qseries_nonneg (qs_one_minus 1) 1 (fun _ => 0) (fun _ => 0)
    (fun _ => 0) (by decide)
  obtain ⟨rab, hrab, hzab, hqab⟩ := pow_qseries_zpow (qs_one_minus 1) (-2 ^ 31 + 1) (fun _ => 0)
    (fun _ => 0) (fun _ => 0) (fun _ => 0) inv (by decide) hinv
  refine ⟨_, rb, rab, hra, hrb, hrab, ?_, ?_⟩
  · have h0 : inv 0 = 1 := by rw [hgeom 0 (by decide)]; rfl
    have h1 : inv 1 = 1 := by rw [hgeom 1 (by decide)]; rfl
    unfold qs_zpow at hqab
    rw [if_neg (by decide)] at hqab
    have e := hqab 1 (by decide)
    rw [(qs_pow_low inv h0 _).2, h1, mul_one] at e
    have eN : (((-(-2 ^ 31 + 1 : Int)).toNat : Nat) : Int) = 2 ^ 31 - 1 := by decide
    rw [eN] at e
    exact eq_of_modEq _ _ (hzab 1 (by decide)) (by unfold Int64; decide) e
  · have hs : IsQseries (qs_one_minus 1) := by
      intro d _
      unfold qs_one_minus Int64
      split_ifs <;> decide
    have e1 : qs_pow (qs_one_minus 1) (1 : Int).toNat = qs_one_minus 1 := qs_pow_one _
    rw [e1] at hqb
    have hb0 : rb 0 = 1 := QEq.eq hqb hzb hs 0 (by decide)
    have hb1 : rb 1 = -1 := QEq.eq hqb hzb hs 1 (by decide)
    rw [multiply_qseries_apply _ _ _ 1 (by decide)]
    have ec : conv (Function.update (init_qseries (fun _ => 0) 0) 0 1) rb 1 = -1 := by
      have a0 := pow_init_apply (fun _ => 0) 0 (by decide)
      have a1 := pow_init_apply (fun _ => 0) 1 (by decide)
      have q0 : qs_one 0 = 1 := rfl
      have q1 : qs_one 1 = 0 := rfl
      rw [q0] at a0
      rw [q1] at a1
      simp only [conv, List.range_succ, List.range_zero, List.nil_append, List.map_append,
        List.map_cons, List.map_nil, List.sum_append, List.sum_cons, List.sum_nil]
      simp only [Nat.sub_zero, Nat.sub_self, a0, a1, hb0, hb1]
      decide
    rw [ec]
    decide

/-- C12, as amended: pow(s, a+b) equals multiply(pow(s, a), pow(s, b)) on every degree
below MAXORD, for every series s when a and b are at least 0, and, when a, b and a+b are
ints other than the least int (positive, zero or negative), for every series s with
s[0] = 1 and for every series s with s[0] = -1 for which invert_qseries has a result. -/
theorem pow_qseries_add (s : qseries_t) (a b : Int)
    (ans1 s01 tmp1 ans2 s02 tmp2 ans3 s03 tmp3 ans4 mem : qseries_t)
    (h : (0 ≤ a ∧ 0 ≤ b) ∨ (IntExp a ∧ IntExp b ∧ IntExp (a + b) ∧
      (s 0 = 1 ∨ (s 0 = -1 ∧ ∃ inv, invert_qseries s mem = some inv)))) :
    ∃ ra rb rab, pow_qseries s a ans1 s01 tmp1 = some ra ∧
      pow_qseries s b ans2 s02 tmp2 = some rb ∧
      pow_qseries s (a + b) ans3 s03 tmp3 = some rab ∧
      ∀ d, d < MAXORD → rab d = multiply_qseries ra rb ans4 d := by
  rcases h with ⟨ha, hb⟩ | ⟨ha, hb, hab, h0⟩
  · obtain ⟨ra, hra, _, qa⟩ := pow_qseries_nonneg s a ans1 s01 tmp1 ha
    obtain ⟨rb, hrb, _, qb⟩ := pow_qseries_nonneg s b ans2 s02 tmp2 hb
    obtain ⟨rab, hrab, zab, qab⟩ := pow_qseries_nonneg s (a + b) ans3 s03 tmp3 (by omega)
    refine ⟨ra, rb, rab, hra, hrb, hrab, ?_⟩
    have e : (a + b).toNat = a.toNat + b.toNat := by omega
    rw [e, qs_pow_add] at qab
    exact QEq.eq (qab.qtrans ((QEq.conv qa qb).symm.qtrans (multiply_qseries_qeq ra rb ans4).symm))
      zab (multiply_qseries_isQseries _ _ _)
  · have hex : ∃ inv, invert_qseries s mem = some inv ∧ QEq (conv s inv) qs_one := by
      rcases h0 with h1 | ⟨h1, inv, hinv⟩
      · obtain ⟨inv, hinv, _, hu, _⟩ := invert_one s mem h1
        exact ⟨inv, hinv, hu⟩
      · exact ⟨inv, hinv, (invert_unit s mem inv (Or.inr h1) hinv).2.1⟩
    obtain ⟨inv, hinv, hu⟩ := hex
    obtain ⟨ra, hra, _, qa⟩ := pow_qseries_zpow s a ans1 s01 tmp1 mem inv ha.1 hinv
    obtain ⟨rb, hrb, _, qb⟩ := pow_qseries_zpow s b ans2 s02 tmp2 mem inv hb.1 hinv
    obtain ⟨rab, hrab, zab, qab⟩ := pow_qseries_zpow s (a + b) ans3 s03 tmp3 mem inv hab.1 hinv
    refine ⟨ra, rb, rab, hra, hrb, hrab, ?_⟩
    exact QEq.eq (qab.qtrans ((qs_zpow_add s inv hu a b).qtrans
      ((QEq.conv qa qb).symm.qtrans (multiply_qseries_qeq ra rb ans4).symm)))
      zab (multiply_qseries_isQseries _ _ _)

theorem pow_qseries_add_witness :
    ∃ ra rb rab, pow_qseries (qs_one_minus 1) 2 (fun _ => 0) (fun _ => 0) (fun _ => 0) = some ra ∧
      pow_qseries (qs_one_minus 1) (-3) (fun _ => 0) (fun _ => 0) (fun _ => 0) = some rb ∧
      pow_qseries (qs_one_minus 1) (2 + -3) (fun _ => 0) (fun _ => 0) (fun _ => 0) = some rab ∧
      ∀ d, d < MAXORD → rab d = multiply_qseries ra rb (fun _ => 0) d :=
  pow_qseries_add (qs_one_minus 1) 2 (-3) (fun _ => 0) (fun _ => 0) (fun _ => 0) (fun _ => 0)
    (fun _ => 0) (fun _ => 0) (fun _ => 0) (fun _ => 0) (fun _ => 0) (fun _ => 0) (fun _ => 0)
    (Or.inr ⟨by unfold IntExp; decide, by unfold IntExp; decide, by unfold IntExp; decide,
      Or.inl rfl⟩)

/-- C13 as stated fails for the least int n, and for a series whose inversion has no
result.  For s = 1 - q and n the least int, pow(s, n) is the identity series, with the
coefficient 0 at degree 1 (`abs_n = -n` is the least int again and the loop runs zero
times), while the 2^31-th power of invert(s) has the coefficient 2^31 there.  For the
constant series s = 2 and n the least int, pow(s, n) is the identity series as well, while
pow(invert(s), -n), with the int -n that is the least int again, has no result (invert(s)
has the constant term 0).  For s = -1 + 2^31 q + 2^62 q^2, with s[0] = -1 other than 0,
pow(s, -1) has no result (the inversion comes to INT64_MIN / -1). -/
theorem pow_qseries_least_int :
    (∃ inv r, invert_qseries (qs_one_minus 1) (fun _ => 0) = some inv ∧
      pow_qseries (qs_one_minus 1) (-2 ^ 31) (fun _ => 0) (fun _ => 0) (fun _ => 0) = some r ∧
      r 1 = 0 ∧ qs_pow inv (2 ^ 31) 1 = 2 ^ 31) ∧
    (∃ inv r, invert_qseries (fun _ => 2) (fun _ => 0) = some inv ∧
      pow_qseries (fun _ => 2) (-2 ^ 31) (fun _ => 0) (fun _ => 0) (fun _ => 0) = some r ∧
      r 0 = 1 ∧ wrap32 (- (-2 ^ 31)) = -2 ^ 31 ∧
      pow_qseries inv (-2 ^ 31) (fun _ => 0) (fun _ => 0) (fun _ => 0) = none) ∧
    qs_trap 0 ≠ 0 ∧ pow_qseries qs_trap (-1) (fun _ => 0) (fun _ => 0) (fun _ => 0) = none := by
  refine ⟨?_, ?_, by decide, pow_qseries_none _ _ _ _ _ (by decide) (invert_qseries_trap _)⟩
  · obtain ⟨inv, hinv, hgeom⟩ := invert_one_minus_q (fun _ => 0)
    refine ⟨inv, _, hinv, pow_qseries_int_min _ _ _ _ inv hinv, ?_, ?_⟩
    · rw [pow_init_apply (fun _ => 0) 1 (by decide)]
      rfl
    · have h0 : inv 0 = 1 := by rw [hgeom 0 (by decide)]; rfl
      have h1 : inv 1 = 1 := by rw [hgeom 1 (by decide)]; rfl
      rw [(qs_pow_low inv h0 _).2, h1, mul_one]
      norm_num
  · obtain ⟨inv, hinv⟩ := invert_qseries_total (fun _ => 2) (fun _ => 0) (by decide) (by decide)
    have h0 : inv 0 = 0 := (invert_qseries_spec _ _ inv hinv).2.1
    refine ⟨inv, _, hinv, pow_qseries_int_min _ _ _ _ inv hinv, ?_, by decide, ?_⟩
    · rw [pow_init_apply (fun _ => 0) 0 (by decide)]
      rfl
    · exact pow_qseries_none _ _ _ _ _ (by decide) (invert_qseries_zero inv _ h0)

/-- C13, as amended: pow_qseries follows its definition.  For every series s (s[0] = 0
included) pow(s, 0) is the identity series; for every n > 0 pow(s, n) =
multiply(pow(s, n-1), s), and pow(s, 1) = s for a series of int64_t; for every negative
int n other than the least int, pow(s, n) = pow(invert(s), -n) when invert_qseries has a
result, and pow(s, n) has no result when invert_qseries has none; invert_qseries has a
result for every s[0] other than 0 and -1.  All on the degrees below MAXORD. -/
theorem pow_qseries_definition (s ans s0 tmp : qseries_t) :
    (∃ r, pow_qseries s 0 ans s0 tmp = some r ∧
      ∀ d, d < MAXORD → r d = if d = 0 then 1 else 0) ∧
    (∀ (n : Int) (ans1 s01 tmp1 ans2 : qseries_t), 0 < n →
      ∃ r r1, pow_qseries s n ans s0 tmp = some r ∧
        pow_qseries s (n - 1) ans1 s01 tmp1 = some r1 ∧
        ∀ d, d < MAXORD → r d = multiply_qseries r1 s ans2 d) ∧
    (IsQseries s → ∃ r, pow_qseries s 1 ans s0 tmp = some r ∧ ∀ d, d < MAXORD → r d = s d) ∧
    (∀ (n : Int) (mem ans1 s01 tmp1 : qseries_t), n < 0 → -2 ^ 31 < n →
      (∀ inv, invert_qseries s mem = some inv →
        ∃ r r1, pow_qseries s n ans s0 tmp = some r ∧
          pow_qseries inv (-n) ans1 s01 tmp1 = some r1 ∧ ∀ d, d < MAXORD → r d = r1 d) ∧
      (invert_qseries s mem = none → pow_qseries s n ans s0 tmp = none)) ∧
    (s 0 ≠ 0 → s 0 ≠ -1 → ∀ mem : qseries_t, ∃ inv, invert_qseries s mem = some inv) := by
  refine ⟨?_, ?_, ?_, ?_, ?_⟩
  · obtain ⟨r, hr, hz, hq⟩ := pow_qseries_nonneg s 0 ans s0 tmp (le_refl _)
    exact ⟨r, hr, fun d hd => QEq.eq hq hz qs_one_isQseries d hd⟩
  · intro n ans1 s01 tmp1 ans2 hn
    obtain ⟨r, hr, hz, hq⟩ := pow_qseries_nonneg s n ans s0 tmp (by omega)
    obtain ⟨r1, hr1, _, hq1⟩ := pow_qseries_nonneg s (n - 1) ans1 s01 tmp1 (by omega)
    refine ⟨r, r1, hr, hr1, ?_⟩
    have e : n.toNat = (n - 1).toNat + 1 := by omega
    rw [e] at hq
    have h2 : QEq (qs_pow s ((n - 1).toNat + 1)) (conv r1 s) := QEq.conv hq1.symm (QEq.qrefl s)
    exact QEq.eq (hq.qtrans (h2.qtrans (multiply_qseries_qeq r1 s ans2).symm)) hz
      (multiply_qseries_isQseries _ _ _)
  · intro hs
    obtain ⟨r, hr, hz, hq⟩ := pow_qseries_nonneg s 1 ans s0 tmp (by decide)
    refine ⟨r, hr, ?_⟩
    have e : qs_pow s (1 : Int).toNat = s := qs_pow_one s
    rw [e] at hq
    exact QEq.eq hq hz hs
  · intro n mem ans1 s01 tmp1 hn hn1
    constructor
    · intro inv hinv
      obtain ⟨r, hr, hz, hq⟩ := pow_qseries_zpow s n ans s0 tmp mem inv hn1 hinv
      obtain ⟨r1, hr1, hz1, hq1⟩ := pow_qseries_nonneg inv (-n) ans1 s01 tmp1 (by omega)
      refine ⟨r, r1, hr, hr1, ?_⟩
      unfold qs_zpow at hq
      rw [if_neg (show ¬ 0 ≤ n by omega)] at hq
      exact QEq.eq (hq.qtrans hq1.symm) hz hz1
    · intro hnone
      exact pow_qseries_none s n ans s0 tmp hn (invert_qseries_none s mem s0 hnone)
  · intro h0 h1 mem
    exact invert_qseries_total s mem h0 h1

theorem pow_qseries_definition_witness :
    (∃ r, pow_qseries (qs_one_minus 2) 0 (fun _ => 0) (fun _ => 0) (fun _ => 0) = some r ∧
      ∀ d, d < MAXORD → r d = if d = 0 then 1 else 0) ∧
    (∃ r r1, pow_qseries (qs_one_minus 2) 3 (fun _ => 0) (fun _ => 0) (fun _ => 0) = some r ∧
        pow_qseries (qs_one_minus 2) (3 - 1) (fun _ => 0) (fun _ => 0) (fun _ => 0) = some r1 ∧
        ∀ d, d < MAXORD → r d = multiply_qseries r1 (qs_one_minus 2) (fun _ => 0) d) ∧
    (∃ inv, invert_qseries (qs_one_minus 2) (fun _ => 0) = some inv ∧
      ∃ r r1, pow_qseries (qs_one_minus 2) (-2) (fun _ => 0) (fun _ => 0) (fun _ => 0) = some r ∧
        pow_qseries inv (- -2) (fun _ => 0) (fun _ => 0) (fun _ => 0) = some r1 ∧
        ∀ d, d < MAXORD → r d = r1 d) ∧
    (pow_qseries qs_trap (-2) (fun _ => 0) (fun _ => 0) (fun _ => 0) = none) :=
  ⟨(pow_qseries_definition (qs_one_minus 2) (fun _ => 0) (fun _ => 0) (fun _ => 0)).1,
   (pow_qseries_definition (qs_one_minus 2) (fun _ => 0) (fun _ => 0) (fun _ => 0)).2.1 3
      (fun _ => 0) (fun _ => 0) (fun _ => 0) (fun _ => 0) (by decide),
   ((pow_qseries_definition (qs_one_minus 2) (fun _ => 0) (fun _ => 0) (fun _ => 0)).2.2.2.2
      (by decide) (by decide) (fun _ => 0)).elim (fun inv hinv => ⟨inv, hinv,
        ((pow_qseries_definition (qs_one_minus 2) (fun _ => 0) (fun _ => 0)
          (fun _ => 0)).2.2.2.1 (-2) (fun _ => 0) (fun _ => 0) (fun _ => 0) (fun _ => 0)
          (by decide) (by decide)).1 inv hinv⟩),
   ((pow_qseries_definition qs_trap (fun _ => 0) (fun _ => 0) (fun _ => 0)).2.2.2.1 (-2)
      (fun _ => 0) (fun _ => 0) (fun _ => 0) (fun _ => 0) (by decide) (by decide)).2
      (invert_qseries_trap _)⟩

/-- C17 as stated fails for t = -1 + 2^31 q + 2^62 q^2, a series of int64_t with
t[0] = -1: the inversion comes to INT64_MIN / -1, and divide_qseries(s, t) has no result
for any s, so it is no division. -/
theorem divide_qseries_int64_min :
    IsQseries qs_trap ∧ qs_trap 0 = -1 ∧
    divide_qseries qs_one qs_trap (fun _ => 0) (fun _ => 0) = none := by
  refine ⟨qs_trap_isQseries, rfl, ?_⟩
  unfold divide_qseries
  rw [invert_qseries_trap]
  rfl

/-- C17, as amended: for all series s and t for which invert_qseries(t) has a result,
divide_qseries(s, t) returns multiply(s, invert(t)), and for a series s of int64_t and
t[0] = 1 or -1 it is then a true division: multiply(divide(s, t), t) = s on every degree
below MAXORD.  When invert_qseries(t) has no result, divide_qseries(s, t) has none.
invert_qseries(t) has a result for every t[0] other than 0 and -1. -/
theorem divide_qseries_spec (s t ans tmp mem ans2 ans3 : qseries_t) :
    (∀ inv, invert_qseries t mem = some inv →
      ∃ q, divide_qseries s t ans tmp = some q ∧
        (∀ d, d < MAXORD → q d = multiply_qseries s inv ans2 d) ∧
        (IsQseries s → (t 0 = 1 ∨ t 0 = -1) →
          ∀ d, d < MAXORD → multiply_qseries q t ans3 d = s d)) ∧
    (invert_qseries t mem = none → divide_qseries s t ans tmp = none) ∧
    (t 0 ≠ 0 → t 0 ≠ -1 → ∃ inv, invert_qseries t mem = some inv) := by
  refine ⟨fun inv hinv => ?_, fun hnone => ?_, fun h0 h1 => invert_qseries_total t mem h0 h1⟩
  · obtain ⟨inv1, hinv1, hag⟩ := invert_qseries_indep t mem tmp inv hinv
    have hagree : ∀ d, d < MAXORD → inv1 d = inv d := fun d hd => (hag d hd).symm
    have hq : QEq (multiply_qseries s inv1 ans) (conv s inv) :=
      (multiply_qseries_qeq s inv1 ans).qtrans (QEq.conv (QEq.qrefl s) (QEq.of_agree hagree))
    refine ⟨multiply_qseries s inv1 ans, ?_, ?_, ?_⟩
    · unfold divide_qseries
      rw [hinv1]
      rfl
    · intro d hd
      exact QEq.eq (hq.qtrans (multiply_qseries_qeq s inv ans2).symm)
        (multiply_qseries_isQseries _ _ _) (multiply_qseries_isQseries _ _ _) d hd
    · intro hs hu
      have he := (invert_unit t mem inv hu hinv).2.1
      have h1 : QEq (conv (conv s inv) t) s := by
        rw [conv_assoc, conv_comm inv t]
        have := QEq.conv (QEq.qrefl s) he
        rwa [conv_one_right] at this
      exact QEq.eq ((multiply_qseries_qeq _ t ans3).qtrans ((QEq.conv hq (QEq.qrefl t)).qtrans h1))
        (multiply_qseries_isQseries _ _ _) hs
  · unfold divide_qseries
    rw [invert_qseries_none t mem tmp hnone]
    rfl

theorem divide_qseries_spec_witness :
    (∃ inv q, invert_qseries (qs_one_minus 1) (fun _ => 0) = some inv ∧
      divide_qseries qs_two32 (qs_one_minus 1) (fun _ => 0) (fun _ => 0) = some q ∧
      ∀ d, d < MAXORD → q d = multiply_qseries qs_two32 inv (fun _ => 0) d) ∧
    (divide_qseries qs_two32 qs_trap (fun _ => 0) (fun _ => 0) = none) :=
  ⟨((divide_qseries_spec qs_two32 (qs_one_minus 1) (fun _ => 0) (fun _ => 0) (fun _ => 0)
      (fun _ => 0) (fun _ => 0)).2.2 (by decide) (by decide)).elim (fun inv hinv =>
        ((divide_qseries_spec qs_two32 (qs_one_minus 1) (fun _ => 0) (fun _ => 0) (fun _ => 0)
          (fun _ => 0) (fun _ => 0)).1 inv hinv).elim (fun q hq => ⟨inv, q, hinv, hq.1, hq.2.1⟩)),
   (divide_qseries_spec qs_two32 qs_trap (fun _ => 0) (fun _ => 0) (fun _ => 0)
      (fun _ => 0) (fun _ => 0)).2.1 (invert_qseries_trap _)⟩
